import Mathlib

/-!
# SimpleFS: a shallow embedding of `src/fs.cpp` / `src/fs.h`

The file system keeps its whole state in one `SimpleFs` object: the block
device, the mounted flag, the free-block bitmap and the cached superblock.
Every member function of the C++ class becomes a function on that state.

Conventions of the embedding

* A C++ `int` is a Lean `Int`.  A value is truncated to 32 bits (two's
  complement, little endian) exactly when it is stored into a disk block, and
  sign-extended when it is read back (`byte_of_int`, `int_of_bytes`).
* A disk block is a raw array of bytes (`Block`).  The four members of the
  union `fs_block` are four views of the same bytes: `Block` itself is
  `data`, `get_int`/`set_int` are `pointers`, `get_inode`/`set_inode` are
  `inode`, `get_super` is `super`.
* An operation whose C++ behaviour is undefined (a block number handed to the
  device out of range, an index outside a vector or outside a local array)
  returns `none`.  A defined run returns `some`.
* `tmp_block` is scratch space: every use in the source is preceded by a
  `disk->read` into it, so it is a local value here, not a state component.
-/

/-- One byte of a block or of a caller's buffer. -/
abbrev Byte := Fin 256

/-- The raw content of one disk block, `char data[DISK_BLOCK_SIZE]`; only the
indices `0 .. DISK_BLOCK_SIZE - 1` are ever used. -/
abbrev Block := Int → Byte

/-- A caller's `char*` buffer, indexed from the pointer. -/
abbrev Buf := Int → Byte

/-- Modelled from the spec: `Disk::DISK_BLOCK_SIZE` of the absent `disk.h`.  The
union `fs_block` overlays it with 128 inodes of 32 bytes and 1024 pointers of
4 bytes, and the specification's scenarios use 4096. -/
def DISK_BLOCK_SIZE : Int := 4096

/-- The constant `FS_MAGIC` of `fs.h`. -/
def FS_MAGIC : Int := 0xf0f03410

/-- The constant `INODES_PER_BLOCK` of `fs.h`. -/
def INODES_PER_BLOCK : Int := 128

/-- The constant `POINTERS_PER_INODE` of `fs.h`. -/
def POINTERS_PER_INODE : Nat := 5

/-- The constant `POINTERS_PER_BLOCK` of `fs.h`. -/
def POINTERS_PER_BLOCK : Nat := 1024

/-- The value of `EMPTY_BLOCK`: a value-initialised block, all bytes zero. -/
def EMPTY_BLOCK : Block := fun _ => 0

/-- The low byte of an integer. -/
def to_byte (x : Int) : Byte := ⟨(x % 256).toNat, by omega⟩

/-- Byte `k` (0 is the lowest) of the 32-bit two's complement image of `v`. -/
def byte_of_int (v : Int) (k : Int) : Byte :=
  if k = 0 then to_byte v
  else if k = 1 then to_byte (v / 256)
  else if k = 2 then to_byte (v / 65536)
  else to_byte (v / 16777216)

/-- The unsigned 32-bit value held in four bytes, lowest first. -/
def uint_of_bytes (b0 b1 b2 b3 : Byte) : Int :=
  (b0.val : Int) + 256 * (b1.val : Int) + 65536 * (b2.val : Int) + 16777216 * (b3.val : Int)

/-- The signed 32-bit value held in four bytes, lowest first. -/
def int_of_bytes (b0 b1 b2 b3 : Byte) : Int :=
  if 2147483648 ≤ uint_of_bytes b0 b1 b2 b3 then uint_of_bytes b0 b1 b2 b3 - 4294967296
  else uint_of_bytes b0 b1 b2 b3

/-- The value an `int` variable holds after `v` is stored in it: `v` reduced
to the range of a 32-bit signed integer. -/
def wrap32 (v : Int) : Int := (v + 2147483648) % 4294967296 - 2147483648

/-- View `pointers[k]` of a block: the `int` at bytes `4k .. 4k+3`. -/
def get_int (blk : Block) (k : Int) : Int :=
  int_of_bytes (blk (4 * k)) (blk (4 * k + 1)) (blk (4 * k + 2)) (blk (4 * k + 3))

/-- Assignment `pointers[k] = v` on a block. -/
def set_int (blk : Block) (k : Int) (v : Int) : Block :=
  fun p => if 4 * k ≤ p ∧ p < 4 * k + 4 then byte_of_int v (p - 4 * k) else blk p

/-- The class `fs_superblock` of `fs.h`. -/
structure fs_superblock where
  magic : Int
  nblocks : Int
  ninodeblocks : Int
  ninodes : Int

/-- The class `fs_inode` of `fs.h`; `direct` has `POINTERS_PER_INODE` entries. -/
structure fs_inode where
  isvalid : Int
  size : Int
  direct : List Int
  indirect : Int

/-- The struct `fs_datablock_vec_t` of `fs.h`. -/
structure fs_datablock_vec where
  indirect : Int
  blocks : List Int

/-- A value-initialised inode, `fs_inode{}`. -/
def fs_inode.zero : fs_inode :=
  { isvalid := 0, size := 0, direct := [0, 0, 0, 0, 0], indirect := 0 }

/-- View `inode[j]` of a block: eight consecutive `int`s starting at `8j`. -/
def get_inode (blk : Block) (j : Int) : fs_inode :=
  { isvalid := get_int blk (8 * j)
    size := get_int blk (8 * j + 1)
    direct := [get_int blk (8 * j + 2), get_int blk (8 * j + 3), get_int blk (8 * j + 4),
      get_int blk (8 * j + 5), get_int blk (8 * j + 6)]
    indirect := get_int blk (8 * j + 7) }

/-- Assignment `inode[j] = ino` on a block. -/
def set_inode (blk : Block) (j : Int) (ino : fs_inode) : Block :=
  set_int (set_int (set_int (set_int (set_int (set_int (set_int (set_int blk
    (8 * j) ino.isvalid)
    (8 * j + 1) ino.size)
    (8 * j + 2) (ino.direct.getD 0 0))
    (8 * j + 3) (ino.direct.getD 1 0))
    (8 * j + 4) (ino.direct.getD 2 0))
    (8 * j + 5) (ino.direct.getD 3 0))
    (8 * j + 6) (ino.direct.getD 4 0))
    (8 * j + 7) ino.indirect

/-- View `super` of a block: the magic number is unsigned, the rest are `int`s. -/
def get_super (blk : Block) : fs_superblock :=
  { magic := uint_of_bytes (blk 0) (blk 1) (blk 2) (blk 3)
    nblocks := get_int blk 1
    ninodeblocks := get_int blk 2
    ninodes := get_int blk 3 }

/-- Modelled from the spec: the block device of the absent `disk.h`, a fixed
number of blocks with random access (specification section 6). -/
structure Disk where
  nblocks : Int
  data : Int → Block

/-- Modelled from the spec: `Disk::size`, the number of blocks of the device. -/
def Disk.size (d : Disk) : Int := d.nblocks

/-- Modelled from the spec: `Disk::read`; undefined for a block number out of range. -/
def Disk.read (d : Disk) (blocknum : Int) : Option Block :=
  if 0 ≤ blocknum ∧ blocknum < d.nblocks then some (d.data blocknum) else none

/-- Modelled from the spec: `Disk::write`; undefined for a block number out of range. -/
def Disk.write (d : Disk) (blocknum : Int) (blk : Block) : Option Disk :=
  if 0 ≤ blocknum ∧ blocknum < d.nblocks then
    some { d with data := fun b => if b = blocknum then blk else d.data b }
  else none

/-- The data members of the class `SimpleFs`. -/
structure SimpleFs where
  disk : Disk
  is_disk_mounted : Bool
  bitmap : List Bool
  superblock : fs_superblock

namespace SimpleFs

/-- `SimpleFs::is_valid_inode_num`. -/
def is_valid_inode_num (s : SimpleFs) (inumber : Int) : Bool :=
  decide (inumber > 0) && decide (inumber ≤ s.superblock.ninodes)

/-- `SimpleFs::inode_load`.  The result is the returned flag and the content of
`*inode` afterwards.  The division is only reached with `inumber - 1 ≥ 0`,
where C++ and Lean division agree. -/
def inode_load (s : SimpleFs) (inumber : Int) (inode : fs_inode) : Option (Bool × fs_inode) :=
  if is_valid_inode_num s inumber = false then some (false, inode)
  else
    let blocknum := (inumber - 1) / INODES_PER_BLOCK + 1
    let inodenum := (inumber - 1) - (blocknum - 1) * INODES_PER_BLOCK
    match s.disk.read blocknum with
    | none => none
    | some tmp_block => some (true, get_inode tmp_block inodenum)

/-- `SimpleFs::inode_save`. -/
def inode_save (s : SimpleFs) (inumber : Int) (inode : fs_inode) : Option (SimpleFs × Bool) :=
  if is_valid_inode_num s inumber = false then some (s, false)
  else
    let blocknum := (inumber - 1) / INODES_PER_BLOCK + 1
    let inodenum := (inumber - 1) - (blocknum - 1) * INODES_PER_BLOCK
    match s.disk.read blocknum with
    | none => none
    | some tmp_block =>
      match s.disk.write blocknum (set_inode tmp_block inodenum inode) with
      | none => none
      | some d => some ({ s with disk := d }, true)

/-- `SimpleFs::is_valid_datablock`. -/
def is_valid_datablock (s : SimpleFs) (idatablock : Int) : Bool :=
  decide (idatablock > s.superblock.ninodeblocks) && decide (idatablock < s.superblock.nblocks)

/-- `SimpleFs::is_valid_block`. -/
def is_valid_block (s : SimpleFs) (iblock : Int) : Bool :=
  decide (iblock ≥ 1) && decide (iblock < s.superblock.nblocks)

/-- `SimpleFs::clear_block_data`. -/
def clear_block_data (s : SimpleFs) (iblock : Int) : Option SimpleFs :=
  match s.disk.write iblock EMPTY_BLOCK with
  | none => none
  | some d => some { s with disk := d }

/-- Assignment `bitmap[iblock] = v`; undefined outside the vector. -/
def bitmap_assign (s : SimpleFs) (iblock : Int) (v : Bool) : Option SimpleFs :=
  if 0 ≤ iblock ∧ iblock < (s.bitmap.length : Int) then
    some { s with bitmap := s.bitmap.set iblock.toNat v }
  else none

/-- `SimpleFs::mark_block_free`. -/
def mark_block_free (s : SimpleFs) (iblock : Int) : Option SimpleFs :=
  if is_valid_block s iblock then bitmap_assign s iblock false else some s

/-- `SimpleFs::mark_block_busy`. -/
def mark_block_busy (s : SimpleFs) (iblock : Int) : Option SimpleFs :=
  if is_valid_block s iblock then bitmap_assign s iblock true else some s

/-- The scan of `alloc_datablock`: the first index whose entry is `false`. -/
def first_free : List Bool → Option Nat
  | [] => none
  | b :: bs => if b = false then some 0 else (first_free bs).map (fun i => i + 1)

/-- `SimpleFs::alloc_datablock`: the new state and the returned block number. -/
def alloc_datablock (s : SimpleFs) : SimpleFs × Int :=
  match first_free s.bitmap with
  | some i => ({ s with bitmap := s.bitmap.set i true }, (i : Int))
  | none => (s, -1)

/-- `SimpleFs::is_disk_full`. -/
def is_disk_full (s : SimpleFs) : Bool :=
  s.bitmap.all (fun b => b)

/-- `SimpleFs::fill_datablocks`: the value of `vec` afterwards.  The first loop
keeps the direct pointers that are valid data blocks; the second loop returns
at the first entry of the indirect block that is not one. -/
def fill_datablocks (s : SimpleFs) (inumber : Int) : Option fs_datablock_vec :=
  match inode_load s inumber fs_inode.zero with
  | none => none
  | some (false, _) => some { indirect := 0, blocks := [] }
  | some (true, inode) =>
    let direct := inode.direct.filter (is_valid_datablock s)
    if is_valid_datablock s inode.indirect then
      match s.disk.read inode.indirect with
      | none => none
      | some tmp_block =>
        some { indirect := inode.indirect
               blocks := direct ++
                 ((List.range POINTERS_PER_BLOCK).map (fun (n : Nat) => get_int tmp_block (n : Int))).takeWhile
                   (is_valid_datablock s) }
    else some { indirect := 0, blocks := direct }

/-- The inner loop of `fs_create` from slot `j` on, with `count` slots left:
the first slot of the inode block with `isvalid == 0`. -/
def first_invalid_slot (tmp_block : Block) : Nat → Int → Option Int
  | 0, _ => none
  | count + 1, j =>
    if (get_inode tmp_block j).isvalid = 0 then some j
    else first_invalid_slot tmp_block count (j + 1)

/-- The inner loop of `fs_create` over the `INODES_PER_BLOCK` slots of one block. -/
def scan_inode_block (tmp_block : Block) : Option Int :=
  first_invalid_slot tmp_block INODES_PER_BLOCK.toNat 0

/-- The outer loop of `fs_create` over the inode blocks `i, i+1, ...`, with
`count` blocks left to visit. -/
def fs_create_loop (s : SimpleFs) : Nat → Int → Option (SimpleFs × Int)
  | 0, _ => some (s, 0)
  | count + 1, i =>
    match s.disk.read i with
    | none => none
    | some tmp_block =>
      match scan_inode_block tmp_block with
      | some j =>
        let inodenum := 1 + (j + (i - 1) * INODES_PER_BLOCK)
        match inode_save s inodenum { fs_inode.zero with isvalid := 1 } with
        | none => none
        | some (s1, _) => some (s1, inodenum)
      | none => fs_create_loop s count (i + 1)

/-- `SimpleFs::fs_create`: the new state and the returned inumber. -/
def fs_create (s : SimpleFs) : Option (SimpleFs × Int) :=
  if s.is_disk_mounted = false then some (s, 0)
  else fs_create_loop s s.superblock.ninodeblocks.toNat 1

/-- One step of the loops of `fs_delete`: `mark_block_free` followed by the
write of `EMPTY_BLOCK`. -/
def free_and_clear (s : SimpleFs) (datablock : Int) : Option SimpleFs :=
  match mark_block_free s datablock with
  | none => none
  | some s1 => clear_block_data s1 datablock

/-- The loop of `fs_delete` over `vec.blocks`. -/
def free_datablocks (s : SimpleFs) : List Int → Option SimpleFs
  | [] => some s
  | datablock :: rest =>
    match free_and_clear s datablock with
    | none => none
    | some s1 => free_datablocks s1 rest

/-- `SimpleFs::fs_delete`: the new state and the returned flag. -/
def fs_delete (s : SimpleFs) (inumber : Int) : Option (SimpleFs × Int) :=
  if s.is_disk_mounted = false then some (s, 0)
  else
    match inode_load s inumber fs_inode.zero with
    | none => none
    | some (false, _) => some (s, 0)
    | some (true, _) =>
      match fill_datablocks s inumber with
      | none => none
      | some vec =>
        match (if is_valid_datablock s vec.indirect then free_and_clear s vec.indirect else some s) with
        | none => none
        | some s1 =>
          match free_datablocks s1 vec.blocks with
          | none => none
          | some s2 =>
            match inode_save s2 inumber fs_inode.zero with
            | none => none
            | some (s3, _) => some (s3, 1)

/-- `SimpleFs::fs_getsize`.  It changes no data member, so only the returned
value is modelled. -/
def fs_getsize (s : SimpleFs) (inumber : Int) : Option Int :=
  if s.is_disk_mounted = false then some (-1)
  else
    match inode_load s inumber fs_inode.zero with
    | none => none
    | some (false, _) => some (-1)
    | some (true, inode) => some inode.size

/-- The `while` loop of `read_datablock`.  `fuel` bounds the number of
iterations; the loop makes at most `DISK_BLOCK_SIZE` of them. -/
def read_datablock_loop (src : Block) (end_ : Int) (fuel : Nat) (i start : Int) (dest : Buf)
    (bytes : Int) : Option (Buf × Int) :=
  if i < DISK_BLOCK_SIZE ∧ start < end_ then
    if i < 0 then none
    else if src i = 0 then some (dest, bytes)
    else if start < 0 then none
    else
      match fuel with
      | 0 => none
      | f + 1 =>
        read_datablock_loop src end_ f (i + 1) (start + 1) (Function.update dest start (src i)) (bytes + 1)
  else some (dest, bytes)

/-- `SimpleFs::read_datablock`: the destination buffer afterwards and the
number of bytes read. -/
def read_datablock (s : SimpleFs) (idatablock : Int) (dest : Buf) (start end_ : Int) :
    Option (Buf × Int) :=
  if is_valid_datablock s idatablock = false then some (dest, 0)
  else
    match s.disk.read idatablock with
    | none => none
    | some src =>
      read_datablock_loop src end_ DISK_BLOCK_SIZE.toNat (Int.tmod start DISK_BLOCK_SIZE) start dest 0

/-- The `for` loop of `fs_read` over the blocks from index `block_offset` on. -/
def fs_read_loop (s : SimpleFs) (length byte_offset : Int) : List Int → Buf → Int → Option (Buf × Int)
  | [], data, bytes => some (data, bytes)
  | b :: rest, data, bytes =>
    if bytes < length then
      match read_datablock s b data (bytes + byte_offset) length with
      | none => none
      | some (data1, n) =>
        if n = 0 then some (data1, bytes + n)
        else fs_read_loop s length byte_offset rest data1 (bytes + n)
    else some (data, bytes)

/-- `SimpleFs::fs_read`: the caller's buffer afterwards and the returned count.
It changes no data member but the scratch block.  A negative `block_offset`
converts to a `size_t` above every vector size, so the loop does not run. -/
def fs_read (s : SimpleFs) (inumber : Int) (data : Buf) (length offset : Int) : Option (Buf × Int) :=
  if s.is_disk_mounted = false then some (data, 0)
  else
    match inode_load s inumber fs_inode.zero with
    | none => none
    | some (false, _) => some (data, 0)
    | some (true, _) =>
      let block_offset := Int.tdiv offset DISK_BLOCK_SIZE
      let byte_offset := Int.tmod offset DISK_BLOCK_SIZE
      match fill_datablocks s inumber with
      | none => none
      | some vec =>
        fs_read_loop s length byte_offset
          (if block_offset < 0 then [] else vec.blocks.drop block_offset.toNat) data 0

/-- The `while` loop of `write_datablock`, with `fuel` as in `read_datablock_loop`. -/
def write_datablock_loop (src : Buf) (end_ : Int) (fuel : Nat) (i start : Int) (dest : Block)
    (bytes : Int) : Option (Block × Int) :=
  if i < DISK_BLOCK_SIZE ∧ start < end_ then
    if start < 0 then none
    else if src start = 0 then some (dest, bytes)
    else if i < 0 then none
    else
      match fuel with
      | 0 => none
      | f + 1 =>
        write_datablock_loop src end_ f (i + 1) (start + 1) (Function.update dest i (src start)) (bytes + 1)
  else some (dest, bytes)

/-- `SimpleFs::write_datablock`: the new state and the number of bytes written. -/
def write_datablock (s : SimpleFs) (idatablock : Int) (src : Buf) (start end_ : Int) :
    Option (SimpleFs × Int) :=
  if idatablock = 0 then some (s, 0)
  else
    match s.disk.read idatablock with
    | none => none
    | some dest =>
      match write_datablock_loop src end_ DISK_BLOCK_SIZE.toNat (Int.tmod start DISK_BLOCK_SIZE) start dest 0 with
      | none => none
      | some (dest1, bytes) =>
        match s.disk.write idatablock dest1 with
        | none => none
        | some d => some ({ s with disk := d }, bytes)

/-- The first statement of the loop body of `fs_write`: when `vec` has no
indirect block and already holds `POINTERS_PER_INODE` blocks, an indirect block
is allocated (the result of `alloc_datablock` is stored unchecked). -/
def alloc_indirect (s : SimpleFs) (vec : fs_datablock_vec) : SimpleFs × fs_datablock_vec :=
  if vec.indirect = 0 ∧ vec.blocks.length ≥ POINTERS_PER_INODE then
    ((alloc_datablock s).1, { vec with indirect := (alloc_datablock s).2 })
  else (s, vec)

/-- The `while (bytes < length)` loop of `fs_write`: the state, `vec` and
`bytes` when the loop is left.  Every iteration that continues adds at least
one byte, so `length` iterations of `fuel` are enough. -/
def fs_write_loop (data : Buf) (length block_offset byte_offset : Int) (fuel : Nat) (s : SimpleFs)
    (vec : fs_datablock_vec) (i bytes : Int) : Option (SimpleFs × fs_datablock_vec × Int) :=
  if bytes < length then
    match fuel with
    | 0 => none
    | f + 1 =>
      let r1 := alloc_indirect s vec
      if is_disk_full r1.1 then some (r1.1, r1.2, bytes)
      else
        let r2 := alloc_datablock r1.1
        let vec2 : fs_datablock_vec := { r1.2 with blocks := r1.2.blocks ++ [r2.2] }
        let idx := block_offset + i
        if idx < 0 ∨ (vec2.blocks.length : Int) ≤ idx then none
        else
          match write_datablock r2.1 (vec2.blocks.getD idx.toNat 0) data (bytes + byte_offset) length with
          | none => none
          | some (s3, n) =>
            if n = 0 then some (s3, vec2, bytes)
            else fs_write_loop data length block_offset byte_offset f s3 vec2 (i + 1) (bytes + n)
  else some (s, vec, bytes)

/-- The first `for` loop after the `while` of `fs_write`:
`inode.direct[i] = vec.blocks[i]` for `i < POINTERS_PER_INODE` and `i < vec.blocks.size()`. -/
def update_direct (direct blocks : List Int) : List Int :=
  (List.range POINTERS_PER_INODE).map
    (fun i => if i < blocks.length then blocks.getD i 0 else direct.getD i 0)

/-- The second `for` loop after the `while` of `fs_write`:
`tmp_block.pointers[k] = v` for the block numbers from index `POINTERS_PER_INODE`
on; an index outside `pointers` is undefined. -/
def set_pointers (tmp_block : Block) : List Int → Int → Option Block
  | [], _ => some tmp_block
  | v :: rest, k =>
    if k < (POINTERS_PER_BLOCK : Int) then set_pointers (set_int tmp_block k v) rest (k + 1)
    else none

/-- The update of the indirect block in `fs_write`. -/
def save_pointers (s : SimpleFs) (vec : fs_datablock_vec) : Option SimpleFs :=
  if is_valid_datablock s vec.indirect then
    match s.disk.read vec.indirect with
    | none => none
    | some tmp_block =>
      match set_pointers tmp_block (vec.blocks.drop POINTERS_PER_INODE) 0 with
      | none => none
      | some tmp1 =>
        match s.disk.write vec.indirect tmp1 with
        | none => none
        | some d => some { s with disk := d }
  else some s

/-- `SimpleFs::fs_write`: the new state and the returned count. -/
def fs_write (s : SimpleFs) (inumber : Int) (data : Buf) (length offset : Int) :
    Option (SimpleFs × Int) :=
  if s.is_disk_mounted = false then some (s, 0)
  else if length ≤ 0 then some (s, 0)
  else if is_disk_full s then some (s, 0)
  else
    match inode_load s inumber fs_inode.zero with
    | none => none
    | some (false, _) => some (s, 0)
    | some (true, inode) =>
      let block_offset := Int.tdiv offset DISK_BLOCK_SIZE
      let byte_offset := Int.tmod offset DISK_BLOCK_SIZE
      match fill_datablocks s inumber with
      | none => none
      | some vec =>
        match fs_write_loop data length block_offset byte_offset length.toNat s vec 0 0 with
        | none => none
        | some (s1, vec1, bytes) =>
          match save_pointers s1 vec1 with
          | none => none
          | some s2 =>
            match inode_save s2 inumber
                { isvalid := inode.isvalid
                  size := inode.size + bytes
                  direct := update_direct inode.direct vec1.blocks
                  indirect := vec1.indirect } with
            | none => none
            | some (s3, _) => some (s3, bytes)

end SimpleFs

namespace SimpleFs

/-- The inode record stored in slot `inumber` of the inode table, with the
addressing of `inode_load`. -/
def inode_at (s : SimpleFs) (inumber : Int) : fs_inode :=
  get_inode (s.disk.data ((inumber - 1) / INODES_PER_BLOCK + 1))
    ((inumber - 1) - ((inumber - 1) / INODES_PER_BLOCK + 1 - 1) * INODES_PER_BLOCK)

/-- A mounted volume in the sense of the data model (specification section 3):
the session is mounted, the cached superblock describes the attached device
(`nblocks` is the device size, as `fs_format` writes it, and the inode table
lies inside the device with `ninodes = ninodeblocks * INODES_PER_BLOCK`), the
bitmap has one entry per block, as the constructor builds it, and the
superblock and the inode-table blocks are marked busy, as `reset_bitmap`
leaves them.  Block numbers are C++ `int`s, hence below `2^31`. -/
structure mounted_volume (s : SimpleFs) : Prop where
  mounted : s.is_disk_mounted = true
  device : s.superblock.nblocks = s.disk.nblocks
  bitmap_size : (s.bitmap.length : Int) = s.disk.nblocks
  inode_blocks_nonneg : 0 ≤ s.superblock.ninodeblocks
  inode_blocks_lt : s.superblock.ninodeblocks < s.superblock.nblocks
  inodes : s.superblock.ninodes = s.superblock.ninodeblocks * INODES_PER_BLOCK
  int_range : s.superblock.nblocks < 2147483648
  reserved : ∀ b : Nat, (b : Int) ≤ s.superblock.ninodeblocks → s.bitmap.getD b true = true

/-- A freshly formatted and mounted volume of 8 blocks: block 0 is the
superblock, block 1 the inode table, blocks 2 to 7 are free data blocks. -/
def vol8 : SimpleFs :=
  { disk := { nblocks := 8, data := fun _ => EMPTY_BLOCK }
    is_disk_mounted := true
    bitmap := [true, true, false, false, false, false, false, false]
    superblock := { magic := FS_MAGIC, nblocks := 8, ninodeblocks := 1, ninodes := 128 } }

/-- A buffer holding the 26 lower-case letters, followed by zero bytes. -/
def letters : Buf := fun i => if 0 ≤ i ∧ i < 26 then to_byte (97 + i) else 0

/-- A buffer of zero bytes. -/
def zeros : Buf := fun _ => 0

/-- The state after `inode_save` stored `ino` in slot `n`. -/
def with_inode (s : SimpleFs) (n : Int) (ino : fs_inode) : SimpleFs :=
  let blocknum := (n - 1) / INODES_PER_BLOCK + 1
  let inodenum := (n - 1) - (blocknum - 1) * INODES_PER_BLOCK
  let tmp_block := set_inode (s.disk.data blocknum) inodenum ino
  { s with disk := { s.disk with data := fun x => if x = blocknum then tmp_block else s.disk.data x } }

/-- The blocks that `fs_delete` frees for a resolved block list: the indirect
block when it is a valid data block, then the blocks of the list in order. -/
def freed_blocks (s : SimpleFs) (vec : fs_datablock_vec) : List Int :=
  if is_valid_datablock s vec.indirect then vec.indirect :: vec.blocks else vec.blocks

/-- A mounted 8-block volume holding one file: inode 1 has the direct blocks
2, 3, 4 and the indirect block 5, whose first two entries are 6 and 7 and whose
third entry is 0.  All eight blocks are busy. -/
def vol8_file : SimpleFs :=
  { disk :=
      { nblocks := 8
        data := fun b =>
          if b = 1 then
            set_inode EMPTY_BLOCK 0 { isvalid := 1, size := 20000, direct := [2, 3, 4, 0, 0], indirect := 5 }
          else if b = 5 then set_int (set_int EMPTY_BLOCK 0 6) 1 7
          else EMPTY_BLOCK }
    is_disk_mounted := true
    bitmap := [true, true, true, true, true, true, true, true]
    superblock := { magic := FS_MAGIC, nblocks := 8, ninodeblocks := 1, ninodes := 128 } }

/-- The state in which block `b` of the device holds `blk`: the effect of a
`disk->write(b, blk)` in range. -/
def with_block (s : SimpleFs) (b : Int) (blk : Block) : SimpleFs :=
  { s with disk := { s.disk with data := fun x => if x = b then blk else s.disk.data x } }

/-- The blocks an inode holds are consistent with the bitmap: the blocks of
its resolved list are valid data blocks, pairwise distinct and marked busy;
its indirect block, when it has one, is a valid data block, marked busy and
not one of them; a list longer than `POINTERS_PER_INODE` has an indirect block. -/
structure blocks_consistent (s : SimpleFs) (vec : fs_datablock_vec) : Prop where
  valid : ∀ b ∈ vec.blocks, is_valid_datablock s b = true
  busy : ∀ b ∈ vec.blocks, s.bitmap.getD b.toNat false = true
  nodup : vec.blocks.Nodup
  indirect : vec.indirect = 0 ∨ (is_valid_datablock s vec.indirect = true ∧
    s.bitmap.getD vec.indirect.toNat false = true ∧ vec.indirect ∉ vec.blocks)
  indirect_present : POINTERS_PER_INODE < vec.blocks.length → vec.indirect ≠ 0

/-- A mounted 8-block volume in which slot 1 is not a valid inode
(`isvalid = 0`) but still holds the direct pointer 2 and the size 1, as a
write to the never-created inode 1 in an earlier session leaves it.
`fs_mount` marks only the blocks of valid inodes, so block 2 is free. -/
def vol8_stale : SimpleFs :=
  { disk :=
      { nblocks := 8
        data := fun b =>
          if b = 1 then
            set_inode EMPTY_BLOCK 0 { isvalid := 0, size := 1, direct := [2, 0, 0, 0, 0], indirect := 0 }
          else if b = 2 then (fun p => if p = 0 then 120 else 0)
          else EMPTY_BLOCK }
    is_disk_mounted := true
    bitmap := [true, true, false, false, false, false, false, false]
    superblock := { magic := FS_MAGIC, nblocks := 8, ninodeblocks := 1, ninodes := 128 } }

/-- A buffer without zero byte: byte 4096 is 2, every other byte is 1. -/
def ones_then_two : Buf := fun q => if q = 4096 then 2 else 1

/-- The volume `vol8` after `fs_create` has made inode 1. -/
def vol8_created : SimpleFs :=
  with_inode vol8 1 { fs_inode.zero with isvalid := 1 }

/-- A mounted volume of 1147 blocks (115 of them inode blocks) holding one
file at the capacity of an inode: inode 1 has the direct blocks 116 to 120 and
the indirect block 121, whose 1024 entries are the blocks 122 to 1145.  Block
1146 is the only free block. -/
def vol1147 : SimpleFs :=
  { disk :=
      { nblocks := 1147
        data := fun b =>
          if b = 1 then
            set_inode EMPTY_BLOCK 0
              { isvalid := 1, size := 4214784, direct := [116, 117, 118, 119, 120], indirect := 121 }
          else if b = 121 then (fun p => byte_of_int (122 + p / 4) (p % 4))
          else EMPTY_BLOCK }
    is_disk_mounted := true
    bitmap := List.replicate 1146 true ++ [false]
    superblock := { magic := FS_MAGIC, nblocks := 1147, ninodeblocks := 115, ninodes := 14720 } }

/-- The number of low bits that a `float` drops from the numerator `p`: the
least `shift` with `p / 2^shift < 2^24` (`fuel` bounds the search; `p` itself
is always enough). -/
def float_shift : Nat → Nat → Nat
  | 0, _ => 0
  | fuel + 1, p => if p < 16777216 then 0 else float_shift fuel (p / 2) + 1

/-- The nearest `float` of a non-negative number given as a numerator `p` over
a power of two, as a numerator over the same power: `p` rounded to the 24
significant bits of IEEE-754 binary32, to nearest with ties to even. -/
def round_to_float (p : Nat) : Nat :=
  let shift := float_shift p p
  let q := p / 2 ^ shift
  let r := p % 2 ^ shift
  if 2 * r < 2 ^ shift then q * 2 ^ shift
  else if 2 * r = 2 ^ shift ∧ q % 2 = 0 then q * 2 ^ shift
  else (q + 1) * 2 ^ shift

/-- The `float` literal `0.10f` as a numerator over `2^27`. -/
def float_tenth : Nat := 13421773

/-- The expression `std::round((this->disk->size() * 0.10f) + 0.5f)` of
`fs_format`, for a device size `size ≥ 0`, evaluated in `float` arithmetic:
the size is converted to `float`, the product and the sum are rounded to
`float` (numerators over `2^27`), and `std::round` rounds halfway cases away
from zero. -/
def format_inode_blocks (size : Int) : Int :=
  let product := round_to_float (round_to_float size.toNat * float_tenth)
  let sum := round_to_float (product + 67108864)
  (((sum + 67108864) / 134217728 : Nat) : Int)

/-- Assignment of the four fields of `block.super`. -/
def set_super (blk : Block) (sb : fs_superblock) : Block :=
  set_int (set_int (set_int (set_int blk 0 sb.magic) 1 sb.nblocks) 2 sb.ninodeblocks) 3 sb.ninodes

/-- The loop `for (int i = 1; i < size; i++) clear_block_data(i)` of `fs_format`
from block `i` on, with `count` blocks left. -/
def format_clear_loop (s : SimpleFs) : Nat → Int → Option SimpleFs
  | 0, _ => some s
  | count + 1, i =>
    match clear_block_data s i with
    | none => none
    | some s1 => format_clear_loop s1 count (i + 1)

/-- `SimpleFs::fs_format`: the new state and the returned flag. -/
def fs_format (s : SimpleFs) : Option (SimpleFs × Int) :=
  if s.is_disk_mounted = true then some (s, 0)
  else
    let ninodeblocks := format_inode_blocks s.disk.size
    let block := set_super EMPTY_BLOCK
      { magic := FS_MAGIC
        nblocks := s.disk.size
        ninodeblocks := ninodeblocks
        ninodes := ninodeblocks * INODES_PER_BLOCK }
    match s.disk.write 0 block with
    | none => none
    | some d =>
      match format_clear_loop { s with disk := d } (s.disk.size - 1).toNat 1 with
      | none => none
      | some s1 => some (s1, 1)

/-- `SimpleFs::read_superblock`. -/
def read_superblock (s : SimpleFs) : Option SimpleFs :=
  match s.disk.read 0 with
  | none => none
  | some tmp_block => some { s with superblock := get_super tmp_block }

/-- The loop of `reset_bitmap` from block `i` on, with `count` blocks left. -/
def reset_bitmap_loop (s : SimpleFs) : Nat → Int → Option SimpleFs
  | 0, _ => some s
  | count + 1, i =>
    match (if i ≤ s.superblock.ninodeblocks then mark_block_busy s i else mark_block_free s i) with
    | none => none
    | some s1 => reset_bitmap_loop s1 count (i + 1)

/-- `SimpleFs::reset_bitmap`. -/
def reset_bitmap (s : SimpleFs) : Option SimpleFs :=
  match bitmap_assign s 0 true with
  | none => none
  | some s1 => reset_bitmap_loop s1 (s.superblock.nblocks - 1).toNat 1

/-- A loop of `fs_mount` that calls `mark_block_busy` on each number of a
pointer array in order (`inode->direct` or `tmp_block.pointers`). -/
def mark_blocks_busy (s : SimpleFs) : List Int → Option SimpleFs
  | [] => some s
  | b :: rest =>
    match mark_block_busy s b with
    | none => none
    | some s1 => mark_blocks_busy s1 rest

/-- The loop of `fs_mount` over the slots `j, j+1, ...` of one inode block,
with `count` slots left: the state and `indirect_blocks` afterwards. -/
def mount_scan_slots (tmp_block : Block) : Nat → Int → SimpleFs → List Int → Option (SimpleFs × List Int)
  | 0, _, s, indirect_blocks => some (s, indirect_blocks)
  | count + 1, j, s, indirect_blocks =>
    let inode := get_inode tmp_block j
    if inode.isvalid = 0 then mount_scan_slots tmp_block count (j + 1) s indirect_blocks
    else
      match mark_blocks_busy s inode.direct with
      | none => none
      | some s1 =>
        mount_scan_slots tmp_block count (j + 1) s1
          (if is_valid_datablock s1 inode.indirect then indirect_blocks ++ [inode.indirect]
           else indirect_blocks)

/-- The first loop of `fs_mount` over the inode blocks `i, i+1, ...`, with
`count` blocks left. -/
def mount_scan_blocks : Nat → Int → SimpleFs → List Int → Option (SimpleFs × List Int)
  | 0, _, s, indirect_blocks => some (s, indirect_blocks)
  | count + 1, i, s, indirect_blocks =>
    match s.disk.read i with
    | none => none
    | some tmp_block =>
      match mount_scan_slots tmp_block INODES_PER_BLOCK.toNat 0 s indirect_blocks with
      | none => none
      | some (s1, indirect_blocks1) => mount_scan_blocks count (i + 1) s1 indirect_blocks1

/-- The second loop of `fs_mount`, over the recorded indirect blocks. -/
def mount_mark_indirect (s : SimpleFs) : List Int → Option SimpleFs
  | [] => some s
  | p :: rest =>
    match s.disk.read p with
    | none => none
    | some tmp_block =>
      match mark_block_busy s p with
      | none => none
      | some s1 =>
        match mark_blocks_busy s1
            ((List.range POINTERS_PER_BLOCK).map (fun (j : Nat) => get_int tmp_block (j : Int))) with
        | none => none
        | some s2 => mount_mark_indirect s2 rest

/-- `SimpleFs::fs_mount`: the new state and the returned flag. -/
def fs_mount (s : SimpleFs) : Option (SimpleFs × Int) :=
  if s.is_disk_mounted = true then some (s, 1)
  else
    match read_superblock s with
    | none => none
    | some s1 =>
      if s1.superblock.magic ≠ FS_MAGIC then some (s1, 0)
      else
        match reset_bitmap s1 with
        | none => none
        | some s2 =>
          match mount_scan_blocks s2.superblock.ninodeblocks.toNat 1 s2 [] with
          | none => none
          | some (s3, indirect_blocks) =>
            match mount_mark_indirect s3 indirect_blocks with
            | none => none
            | some s4 => some ({ s4 with is_disk_mounted := true }, 1)

/-- The constructor `SimpleFs(Disk *d)`: an unmounted session whose bitmap has
one `false` entry per block of the device.  The cached superblock is not
initialised by the constructor; it is taken as a parameter. -/
def new (d : Disk) (sb : fs_superblock) : SimpleFs :=
  { disk := d, is_disk_mounted := false, bitmap := List.replicate d.size.toNat false, superblock := sb }

end SimpleFs

namespace SimpleFs

/-- A mounted 8-block volume whose inode 1 has gaps in its pointers: the direct
pointers are 2, 0, 3, 9, 0 (9 is outside the volume) and the indirect block 4
holds the entries 5, 0, 6 followed by zeros. -/
def vol8_gap : SimpleFs :=
  { disk :=
      { nblocks := 8
        data := fun b =>
          if b = 1 then
            set_inode EMPTY_BLOCK 0 { isvalid := 1, size := 12288, direct := [2, 0, 3, 9, 0], indirect := 4 }
          else if b = 4 then set_int (set_int EMPTY_BLOCK 0 5) 2 6
          else EMPTY_BLOCK }
    is_disk_mounted := true
    bitmap := [true, true, true, true, true, true, true, false]
    superblock := { magic := FS_MAGIC, nblocks := 8, ninodeblocks := 1, ninodes := 128 } }

end SimpleFs

namespace SimpleFs

/-- A blank device of `size` blocks with an unmounted session attached. -/
def blank (size : Int) : SimpleFs :=
  new { nblocks := size, data := fun _ => EMPTY_BLOCK }
    { magic := 0, nblocks := 0, ninodeblocks := 0, ninodes := 0 }

end SimpleFs

namespace SimpleFs

/-- The state `s1` arises from `s` by marking bitmap entries busy: nothing but
the bitmap changes, its length stays, and an entry is busy afterwards exactly
when it was busy before or satisfies `P`. -/
def marked_busy (s s1 : SimpleFs) (P : Nat → Prop) : Prop :=
  s1.disk = s.disk ∧ s1.superblock = s.superblock ∧ s1.is_disk_mounted = s.is_disk_mounted ∧
  s1.bitmap.length = s.bitmap.length ∧
  ∀ x : Nat, s1.bitmap.getD x false = true ↔ (s.bitmap.getD x false = true ∨ P x)

end SimpleFs

namespace SimpleFs

/-- A device of 8 blocks holding a volume with one inode block.  Inode 1 is
valid with the direct blocks 2, 3, 4 and the indirect block 5, whose only
entry is 6; slot 2 is not valid but still holds the direct pointer 7. -/
def disk8 : Disk :=
  { nblocks := 8
    data := fun b =>
      if b = 0 then
        set_super EMPTY_BLOCK { magic := FS_MAGIC, nblocks := 8, ninodeblocks := 1, ninodes := 128 }
      else if b = 1 then
        set_inode
          (set_inode EMPTY_BLOCK 0 { isvalid := 1, size := 16384, direct := [2, 3, 4, 0, 0], indirect := 5 })
          1 { isvalid := 0, size := 4096, direct := [7, 0, 0, 0, 0], indirect := 0 }
      else if b = 5 then set_int EMPTY_BLOCK 0 6
      else EMPTY_BLOCK }

end SimpleFs

namespace SimpleFs

/-- One call of the public interface on a mounted session. -/
inductive fs_op where
  | create : fs_op
  | delete (inumber : Int) : fs_op
  | getsize (inumber : Int) : fs_op
  | read (inumber : Int) (data : Buf) (length offset : Int) : fs_op
  | write (inumber : Int) (data : Buf) (length offset : Int) : fs_op

/-- The state after one call; `none` when the call has no defined result. -/
def apply_op (s : SimpleFs) : fs_op → Option SimpleFs
  | fs_op.create => (fs_create s).map Prod.fst
  | fs_op.delete inumber => (fs_delete s inumber).map Prod.fst
  | fs_op.getsize inumber => (fs_getsize s inumber).map (fun _ => s)
  | fs_op.read inumber data length offset => (fs_read s inumber data length offset).map (fun _ => s)
  | fs_op.write inumber data length offset => (fs_write s inumber data length offset).map Prod.fst

/-- The state after a sequence of calls, made in order. -/
def run_ops (s : SimpleFs) : List fs_op → Option SimpleFs
  | [] => some s
  | op :: rest =>
    match apply_op s op with
    | none => none
    | some s1 => run_ops s1 rest

/-- The reserved blocks are busy: block 0, and every block `b` of the volume
with `1 ≤ b ≤ ninodeblocks`. -/
def reserved_busy (s : SimpleFs) : Prop :=
  s.bitmap.getD 0 false = true ∧
  ∀ b : Nat, 1 ≤ b → (b : Int) ≤ s.superblock.ninodeblocks → (b : Int) < s.superblock.nblocks →
    s.bitmap.getD b false = true

end SimpleFs

namespace SimpleFs

/-- The session on `disk8` after `fs_mount`. -/
def disk8_mounted : SimpleFs :=
  { disk := disk8
    is_disk_mounted := true
    bitmap := [true, true, true, true, true, true, true, false]
    superblock := { magic := FS_MAGIC, nblocks := 8, ninodeblocks := 1, ninodes := 128 } }

end SimpleFs

namespace SimpleFs

/-- Progress of the allocation loop of `fs_write` from the state and block list
`(s, vec)` to `(s1, vec1)`: the blocks `new` were appended to the list; they
were free valid data blocks, pairwise distinct; the indirect number changed
only from 0, to a block that was free or to -1; the bitmap gained exactly these
blocks; only blocks of the list were written. -/
structure write_progress (s : SimpleFs) (vec : fs_datablock_vec) (s1 : SimpleFs)
    (vec1 : fs_datablock_vec) (new : List Int) : Prop where
  wf : mounted_volume s1
  superblock : s1.superblock = s.superblock
  blocks : vec1.blocks = vec.blocks ++ new
  new_valid : ∀ b ∈ new, is_valid_datablock s b = true
  new_free : ∀ b ∈ new, s.bitmap.getD b.toNat false = false
  new_nodup : new.Nodup
  indirect : vec1.indirect = vec.indirect ∨
    (vec.indirect = 0 ∧ (vec1.indirect = -1 ∨
      (is_valid_datablock s vec1.indirect = true ∧
        s.bitmap.getD vec1.indirect.toNat false = false ∧ vec1.indirect ∉ new)))
  bitmap : ∀ x : Nat, s1.bitmap.getD x false = true ↔
    (s.bitmap.getD x false = true ∨ (x : Int) ∈ new ∨
      ((x : Int) = vec1.indirect ∧ vec1.indirect ≠ vec.indirect))
  count : s1.bitmap.count false + new.length +
      (if vec1.indirect ≠ vec.indirect ∧ vec1.indirect ≠ -1 then 1 else 0) = s.bitmap.count false
  disk : ∀ x, x ∉ vec1.blocks → s1.disk.data x = s.disk.data x

/-- The pointers stored in slot `n` are the resolved block list `vec`, padded
with entries that are not valid data blocks, and the list is consistent with
the bitmap. -/
structure slot_ok (s : SimpleFs) (n : Int) (vec : fs_datablock_vec) : Prop where
  resolved : fill_datablocks s n = some vec
  consistent : blocks_consistent s vec
  direct : ∀ k : Nat, k < POINTERS_PER_INODE → vec.blocks.length ≤ k →
    is_valid_datablock s ((inode_at s n).direct.getD k 0) = false
  entries : is_valid_datablock s vec.indirect = true → ∀ k : Nat, k < POINTERS_PER_BLOCK →
    vec.blocks.length ≤ k + POINTERS_PER_INODE →
    is_valid_datablock s (get_int (s.disk.data vec.indirect) (k : Int)) = false

/-- The invariant of a volume that was formatted, mounted and then used
through `fs_create`, `fs_delete` and `fs_write` at offset 0: every slot of the
inode table is `slot_ok`, no block belongs to two slots, and every free data
block is all zeros. -/
structure volume_ok (s : SimpleFs) : Prop where
  wf : mounted_volume s
  free_zero : ∀ b : Int, is_valid_datablock s b = true → s.bitmap.getD b.toNat false = false →
    s.disk.data b = EMPTY_BLOCK
  slots : ∀ n, 1 ≤ n → n ≤ s.superblock.ninodes → ∃ vec, slot_ok s n vec
  disjoint : ∀ (n m : Int) (vn vm : fs_datablock_vec), 1 ≤ n → n ≤ s.superblock.ninodes →
    1 ≤ m → m ≤ s.superblock.ninodes → n ≠ m →
    fill_datablocks s n = some vn → fill_datablocks s m = some vm →
    ∀ b, b ≠ 0 → b ∈ vn.indirect :: vn.blocks → b ∉ vm.indirect :: vm.blocks

end SimpleFs

namespace SimpleFs

/-- A call that is not an `fs_write` at an offset other than 0. -/
def writes_from_start : fs_op → Prop
  | fs_op.write _ _ _ offset => offset = 0
  | _ => True

end SimpleFs

namespace SimpleFs

/-- A device of 9 blocks holding the image of a full 8-block volume: the
superblock records 8 blocks and one inode block, inode 1 is valid with the
direct blocks 2 to 6 and the indirect block 7, which has no entry.  Block 8 of
the device lies outside the volume. -/
def disk9 : Disk :=
  { nblocks := 9
    data := fun b =>
      if b = 0 then
        set_super EMPTY_BLOCK { magic := FS_MAGIC, nblocks := 8, ninodeblocks := 1, ninodes := 128 }
      else if b = 1 then
        set_inode EMPTY_BLOCK 0 { isvalid := 1, size := 20480, direct := [2, 3, 4, 5, 6], indirect := 7 }
      else EMPTY_BLOCK }

end SimpleFs

theorem to_byte_val (x : Int) : ((to_byte x).val : Int) = x % 256 := by
  simp only [to_byte]
  omega

theorem wrap32_of_range (v : Int) (h1 : -2147483648 ≤ v) (h2 : v < 2147483648) : wrap32 v = v := by
  unfold wrap32
  omega

theorem wrap32_range (v : Int) : -2147483648 ≤ wrap32 v ∧ wrap32 v < 2147483648 := by
  unfold wrap32
  omega

theorem int_of_bytes_byte_of_int (v : Int) :
    int_of_bytes (byte_of_int v 0) (byte_of_int v 1) (byte_of_int v 2) (byte_of_int v 3) = wrap32 v := by
  have h0 := to_byte_val v
  have h1 := to_byte_val (v / 256)
  have h2 := to_byte_val (v / 65536)
  have h3 := to_byte_val (v / 16777216)
  have e0 : byte_of_int v 0 = to_byte v := by simp [byte_of_int]
  have e1 : byte_of_int v 1 = to_byte (v / 256) := by simp [byte_of_int]
  have e2 : byte_of_int v 2 = to_byte (v / 65536) := by simp [byte_of_int]
  have e3 : byte_of_int v 3 = to_byte (v / 16777216) := by simp [byte_of_int]
  rw [e0, e1, e2, e3]
  simp only [int_of_bytes, uint_of_bytes, wrap32]
  rw [h0, h1, h2, h3]
  split <;> omega

theorem int_of_bytes_range (b0 b1 b2 b3 : Byte) :
    -2147483648 ≤ int_of_bytes b0 b1 b2 b3 ∧ int_of_bytes b0 b1 b2 b3 < 2147483648 := by
  have h0 := b0.isLt
  have h1 := b1.isLt
  have h2 := b2.isLt
  have h3 := b3.isLt
  simp only [int_of_bytes, uint_of_bytes]
  split <;> omega

theorem get_int_set_int_same (blk : Block) (k v : Int) : get_int (set_int blk k v) k = wrap32 v := by
  have h := int_of_bytes_byte_of_int v
  simp only [get_int, set_int]
  have e0 : (4 * k ≤ 4 * k ∧ 4 * k < 4 * k + 4) := by omega
  have e1 : (4 * k ≤ 4 * k + 1 ∧ 4 * k + 1 < 4 * k + 4) := by omega
  have e2 : (4 * k ≤ 4 * k + 2 ∧ 4 * k + 2 < 4 * k + 4) := by omega
  have e3 : (4 * k ≤ 4 * k + 3 ∧ 4 * k + 3 < 4 * k + 4) := by omega
  simp only [e0, e1, e2, e3, and_self, if_true]
  have a0 : 4 * k - 4 * k = 0 := by omega
  have a1 : 4 * k + 1 - 4 * k = 1 := by omega
  have a2 : 4 * k + 2 - 4 * k = 2 := by omega
  have a3 : 4 * k + 3 - 4 * k = 3 := by omega
  rw [a0, a1, a2, a3]
  exact h

theorem get_int_set_int_ne (blk : Block) (k k1 v : Int) (h : k1 ≠ k) :
    get_int (set_int blk k v) k1 = get_int blk k1 := by
  simp only [get_int, set_int]
  have e0 : ¬ (4 * k ≤ 4 * k1 ∧ 4 * k1 < 4 * k + 4) := by omega
  have e1 : ¬ (4 * k ≤ 4 * k1 + 1 ∧ 4 * k1 + 1 < 4 * k + 4) := by omega
  have e2 : ¬ (4 * k ≤ 4 * k1 + 2 ∧ 4 * k1 + 2 < 4 * k + 4) := by omega
  have e3 : ¬ (4 * k ≤ 4 * k1 + 3 ∧ 4 * k1 + 3 < 4 * k + 4) := by omega
  simp only [e0, e1, e2, e3, if_false]

theorem get_int_range (blk : Block) (k : Int) :
    -2147483648 ≤ get_int blk k ∧ get_int blk k < 2147483648 :=
  int_of_bytes_range _ _ _ _

theorem get_int_EMPTY_BLOCK (k : Int) : get_int EMPTY_BLOCK k = 0 := by
  simp [get_int, EMPTY_BLOCK, int_of_bytes, uint_of_bytes]


theorem get_int_set_int (blk : Block) (k k1 v : Int) :
    get_int (set_int blk k v) k1 = if k1 = k then wrap32 v else get_int blk k1 := by
  by_cases h : k1 = k
  · subst h
    simp [get_int_set_int_same]
  · simp [h, get_int_set_int_ne]

theorem range_POINTERS_PER_INODE : List.range POINTERS_PER_INODE = [0, 1, 2, 3, 4] := rfl

theorem get_int_set_inode_other (blk : Block) (j : Int) (ino : fs_inode) (k : Int)
    (h : k < 8 * j ∨ 8 * j + 8 ≤ k) : get_int (set_inode blk j ino) k = get_int blk k := by
  unfold set_inode
  rw [get_int_set_int_ne _ _ _ _ (by omega), get_int_set_int_ne _ _ _ _ (by omega),
    get_int_set_int_ne _ _ _ _ (by omega), get_int_set_int_ne _ _ _ _ (by omega),
    get_int_set_int_ne _ _ _ _ (by omega), get_int_set_int_ne _ _ _ _ (by omega),
    get_int_set_int_ne _ _ _ _ (by omega), get_int_set_int_ne _ _ _ _ (by omega)]

theorem get_int_set_inode_0 (blk : Block) (j : Int) (ino : fs_inode) :
    get_int (set_inode blk j ino) (8 * j) = wrap32 (ino.isvalid) := by
  unfold set_inode
  rw [get_int_set_int_ne _ _ _ _ (by omega), get_int_set_int_ne _ _ _ _ (by omega), get_int_set_int_ne _ _ _ _ (by omega), get_int_set_int_ne _ _ _ _ (by omega), get_int_set_int_ne _ _ _ _ (by omega), get_int_set_int_ne _ _ _ _ (by omega), get_int_set_int_ne _ _ _ _ (by omega), get_int_set_int_same]

theorem get_int_set_inode_1 (blk : Block) (j : Int) (ino : fs_inode) :
    get_int (set_inode blk j ino) (8 * j + 1) = wrap32 (ino.size) := by
  unfold set_inode
  rw [get_int_set_int_ne _ _ _ _ (by omega), get_int_set_int_ne _ _ _ _ (by omega), get_int_set_int_ne _ _ _ _ (by omega), get_int_set_int_ne _ _ _ _ (by omega), get_int_set_int_ne _ _ _ _ (by omega), get_int_set_int_ne _ _ _ _ (by omega), get_int_set_int_same]

theorem get_int_set_inode_2 (blk : Block) (j : Int) (ino : fs_inode) :
    get_int (set_inode blk j ino) (8 * j + 2) = wrap32 (ino.direct.getD 0 0) := by
  unfold set_inode
  rw [get_int_set_int_ne _ _ _ _ (by omega), get_int_set_int_ne _ _ _ _ (by omega), get_int_set_int_ne _ _ _ _ (by omega), get_int_set_int_ne _ _ _ _ (by omega), get_int_set_int_ne _ _ _ _ (by omega), get_int_set_int_same]

theorem get_int_set_inode_3 (blk : Block) (j : Int) (ino : fs_inode) :
    get_int (set_inode blk j ino) (8 * j + 3) = wrap32 (ino.direct.getD 1 0) := by
  unfold set_inode
  rw [get_int_set_int_ne _ _ _ _ (by omega), get_int_set_int_ne _ _ _ _ (by omega), get_int_set_int_ne _ _ _ _ (by omega), get_int_set_int_ne _ _ _ _ (by omega), get_int_set_int_same]

theorem get_int_set_inode_4 (blk : Block) (j : Int) (ino : fs_inode) :
    get_int (set_inode blk j ino) (8 * j + 4) = wrap32 (ino.direct.getD 2 0) := by
  unfold set_inode
  rw [get_int_set_int_ne _ _ _ _ (by omega), get_int_set_int_ne _ _ _ _ (by omega), get_int_set_int_ne _ _ _ _ (by omega), get_int_set_int_same]

theorem get_int_set_inode_5 (blk : Block) (j : Int) (ino : fs_inode) :
    get_int (set_inode blk j ino) (8 * j + 5) = wrap32 (ino.direct.getD 3 0) := by
  unfold set_inode
  rw [get_int_set_int_ne _ _ _ _ (by omega), get_int_set_int_ne _ _ _ _ (by omega), get_int_set_int_same]

theorem get_int_set_inode_6 (blk : Block) (j : Int) (ino : fs_inode) :
    get_int (set_inode blk j ino) (8 * j + 6) = wrap32 (ino.direct.getD 4 0) := by
  unfold set_inode
  rw [get_int_set_int_ne _ _ _ _ (by omega), get_int_set_int_same]

theorem get_int_set_inode_7 (blk : Block) (j : Int) (ino : fs_inode) :
    get_int (set_inode blk j ino) (8 * j + 7) = wrap32 (ino.indirect) := by
  unfold set_inode
  rw [get_int_set_int_same]

theorem get_inode_set_inode_same (blk : Block) (j : Int) (ino : fs_inode) :
    get_inode (set_inode blk j ino) j =
      { isvalid := wrap32 ino.isvalid
        size := wrap32 ino.size
        direct := [wrap32 (ino.direct.getD 0 0), wrap32 (ino.direct.getD 1 0),
          wrap32 (ino.direct.getD 2 0), wrap32 (ino.direct.getD 3 0), wrap32 (ino.direct.getD 4 0)]
        indirect := wrap32 ino.indirect } := by
  simp only [get_inode, get_int_set_inode_0, get_int_set_inode_1, get_int_set_inode_2,
    get_int_set_inode_3, get_int_set_inode_4, get_int_set_inode_5, get_int_set_inode_6,
    get_int_set_inode_7]

theorem get_inode_set_inode_ne (blk : Block) (j j1 : Int) (ino : fs_inode) (h : j1 ≠ j) :
    get_inode (set_inode blk j ino) j1 = get_inode blk j1 := by
  simp only [get_inode]
  rw [get_int_set_inode_other _ _ _ _ (by omega), get_int_set_inode_other _ _ _ _ (by omega),
    get_int_set_inode_other _ _ _ _ (by omega), get_int_set_inode_other _ _ _ _ (by omega),
    get_int_set_inode_other _ _ _ _ (by omega), get_int_set_inode_other _ _ _ _ (by omega),
    get_int_set_inode_other _ _ _ _ (by omega), get_int_set_inode_other _ _ _ _ (by omega)]

theorem get_inode_EMPTY_BLOCK (j : Int) : get_inode EMPTY_BLOCK j = fs_inode.zero := by
  simp only [get_inode, get_int_EMPTY_BLOCK, fs_inode.zero]

theorem wrap32_zero : wrap32 0 = 0 := by decide

theorem set_int_zero_of_zero (blk : Block) (k : Int)
    (h : ∀ p, 4 * k ≤ p → p < 4 * k + 4 → blk p = 0) : set_int blk k 0 = blk := by
  funext p
  simp only [set_int]
  split
  · rename_i hp
    rw [h p hp.1 hp.2]
    simp only [byte_of_int, to_byte]
    split_ifs <;> rfl
  · rfl


namespace SimpleFs

theorem is_valid_inode_num_false (s : SimpleFs) (n : Int) (h : n < 1 ∨ n > s.superblock.ninodes) :
    is_valid_inode_num s n = false := by
  simp only [is_valid_inode_num, Bool.and_eq_false_iff, decide_eq_false_iff_not]
  omega

theorem is_valid_inode_num_true (s : SimpleFs) (n : Int) (h1 : 1 ≤ n) (h2 : n ≤ s.superblock.ninodes) :
    is_valid_inode_num s n = true := by
  simp only [is_valid_inode_num, Bool.and_eq_true, decide_eq_true_eq]
  omega

theorem inode_load_invalid (s : SimpleFs) (n : Int) (ino : fs_inode)
    (h : n < 1 ∨ n > s.superblock.ninodes) : inode_load s n ino = some (false, ino) := by
  simp [inode_load, is_valid_inode_num_false s n h]

theorem inode_save_invalid (s : SimpleFs) (n : Int) (ino : fs_inode)
    (h : n < 1 ∨ n > s.superblock.ninodes) : inode_save s n ino = some (s, false) := by
  simp [inode_save, is_valid_inode_num_false s n h]

/-- C9. For an inumber outside `[1, ninodes]` on a mounted volume, `inode_load`
and `inode_save` return false, `fs_read`, `fs_write` and `fs_delete` return 0,
`fs_getsize` returns -1, and the state (every disk block, the bitmap) and the
caller's buffers are handed back unchanged. -/
theorem invalid_inumber_rejected (s : SimpleFs) (n : Int) (ino : fs_inode) (data : Buf)
    (length offset : Int) (hm : s.is_disk_mounted = true)
    (h : n < 1 ∨ n > s.superblock.ninodes) :
    inode_load s n ino = some (false, ino) ∧
    inode_save s n ino = some (s, false) ∧
    fs_read s n data length offset = some (data, 0) ∧
    fs_write s n data length offset = some (s, 0) ∧
    fs_delete s n = some (s, 0) ∧
    fs_getsize s n = some (-1) := by
  refine ⟨inode_load_invalid s n ino h, inode_save_invalid s n ino h, ?_, ?_, ?_, ?_⟩
  · simp [fs_read, hm, inode_load_invalid s n _ h]
  · simp only [fs_write, hm, inode_load_invalid s n _ h]
    split_ifs <;> simp
  · simp [fs_delete, hm, inode_load_invalid s n _ h]
  · simp [fs_getsize, hm, inode_load_invalid s n _ h]

theorem invalid_inumber_rejected_witness :
    (vol8.is_disk_mounted = true ∧ ((129 : Int) < 1 ∨ (129 : Int) > vol8.superblock.ninodes)) ∧
    (inode_load vol8 129 fs_inode.zero = some (false, fs_inode.zero) ∧
    inode_save vol8 129 fs_inode.zero = some (vol8, false) ∧
    fs_read vol8 129 zeros 8 0 = some (zeros, 0) ∧
    fs_write vol8 129 zeros 8 0 = some (vol8, 0) ∧
    fs_delete vol8 129 = some (vol8, 0) ∧
    fs_getsize vol8 129 = some (-1)) :=
  ⟨⟨rfl, by decide⟩, invalid_inumber_rejected vol8 129 fs_inode.zero zeros 8 0 rfl (by decide)⟩

end SimpleFs

namespace SimpleFs

theorem inode_block_range (s : SimpleFs) (hwf : mounted_volume s) (n : Int) (h1 : 1 ≤ n)
    (h2 : n ≤ s.superblock.ninodes) :
    1 ≤ (n - 1) / INODES_PER_BLOCK + 1 ∧ (n - 1) / INODES_PER_BLOCK + 1 ≤ s.superblock.ninodeblocks ∧
      (n - 1) / INODES_PER_BLOCK + 1 < s.disk.nblocks := by
  have h3 := hwf.inodes
  have h4 := hwf.inode_blocks_lt
  have h5 := hwf.device
  simp only [INODES_PER_BLOCK] at *
  omega

theorem disk_read_some (d : Disk) (b : Int) (h1 : 0 ≤ b) (h2 : b < d.nblocks) :
    d.read b = some (d.data b) := by
  simp [Disk.read, h1, h2]

theorem disk_write_some (d : Disk) (b : Int) (blk : Block) (h1 : 0 ≤ b) (h2 : b < d.nblocks) :
    d.write b blk = some { d with data := fun x => if x = b then blk else d.data x } := by
  simp [Disk.write, h1, h2]

theorem inode_load_valid (s : SimpleFs) (hwf : mounted_volume s) (n : Int) (ino : fs_inode)
    (h1 : 1 ≤ n) (h2 : n ≤ s.superblock.ninodes) :
    inode_load s n ino = some (true, inode_at s n) := by
  have hb := inode_block_range s hwf n h1 h2
  simp only [inode_load, is_valid_inode_num_true s n h1 h2, Bool.true_eq_false, if_false]
  rw [disk_read_some _ _ (by omega) hb.2.2]
  rfl

theorem inode_save_valid (s : SimpleFs) (hwf : mounted_volume s) (n : Int) (ino : fs_inode)
    (h1 : 1 ≤ n) (h2 : n ≤ s.superblock.ninodes) :
    inode_save s n ino = some (with_inode s n ino, true) := by
  have hb := inode_block_range s hwf n h1 h2
  simp only [inode_save, is_valid_inode_num_true s n h1 h2, Bool.true_eq_false, if_false]
  rw [disk_read_some _ _ (by omega) hb.2.2]
  simp only []
  rw [disk_write_some _ _ _ (by omega) hb.2.2]
  simp only [with_inode]

theorem with_inode_mounted_volume (s : SimpleFs) (hwf : mounted_volume s) (n : Int) (ino : fs_inode) :
    mounted_volume (with_inode s n ino) :=
  { mounted := hwf.mounted
    device := hwf.device
    bitmap_size := hwf.bitmap_size
    inode_blocks_nonneg := hwf.inode_blocks_nonneg
    inode_blocks_lt := hwf.inode_blocks_lt
    inodes := hwf.inodes
    int_range := hwf.int_range
    reserved := hwf.reserved }

theorem inode_at_with_inode_same (s : SimpleFs) (n : Int) (ino : fs_inode) :
    inode_at (with_inode s n ino) n =
      { isvalid := wrap32 ino.isvalid
        size := wrap32 ino.size
        direct := [wrap32 (ino.direct.getD 0 0), wrap32 (ino.direct.getD 1 0),
          wrap32 (ino.direct.getD 2 0), wrap32 (ino.direct.getD 3 0), wrap32 (ino.direct.getD 4 0)]
        indirect := wrap32 ino.indirect } := by
  simp only [inode_at, with_inode, eq_self_iff_true, if_true]
  rw [get_inode_set_inode_same]

theorem inode_at_with_inode_ne (s : SimpleFs) (n m : Int) (ino : fs_inode) (h : m ≠ n) :
    inode_at (with_inode s n ino) m = inode_at s m := by
  simp only [inode_at, with_inode]
  split
  · rename_i hb
    rw [hb, get_inode_set_inode_ne]
    simp only [INODES_PER_BLOCK] at *
    omega
  · rfl

theorem vol8_mounted_volume : mounted_volume vol8 :=
  { mounted := rfl
    device := rfl
    bitmap_size := rfl
    inode_blocks_nonneg := by decide
    inode_blocks_lt := by decide
    inodes := by decide
    int_range := by decide
    reserved := by
      intro b hb
      have h : b = 0 ∨ b = 1 := by
        simp only [vol8] at hb
        omega
      rcases h with h | h <;> subst h <;> rfl }

end SimpleFs

namespace SimpleFs

theorem first_invalid_slot_none (blk : Block) (count : Nat) (j : Int)
    (h : ∀ k, j ≤ k → k < j + count → (get_inode blk k).isvalid ≠ 0) :
    first_invalid_slot blk count j = none := by
  induction count generalizing j with
  | zero => rfl
  | succ c ih =>
    simp only [first_invalid_slot]
    rw [if_neg (h j (le_refl j) (by push_cast; omega))]
    apply ih
    intro k hk1 hk2
    exact h k (by omega) (by push_cast; omega)

theorem first_invalid_slot_some (blk : Block) (count : Nat) (j r : Int) (hr1 : j ≤ r)
    (hr2 : r < j + count) (hr : (get_inode blk r).isvalid = 0)
    (h : ∀ k, j ≤ k → k < r → (get_inode blk k).isvalid ≠ 0) :
    first_invalid_slot blk count j = some r := by
  induction count generalizing j with
  | zero => simp at hr2; omega
  | succ c ih =>
    simp only [first_invalid_slot]
    by_cases hj : j = r
    · subst hj
      rw [if_pos hr]
    · rw [if_neg (h j (le_refl j) (by omega))]
      apply ih
      · omega
      · push_cast at hr2; omega
      · intro k hk1 hk2
        exact h k (by omega) hk2

theorem inode_at_slot (s : SimpleFs) (b j : Int) (hj1 : 0 ≤ j) (hj2 : j < 128) :
    inode_at s (1 + (j + (b - 1) * INODES_PER_BLOCK)) = get_inode (s.disk.data b) j := by
  simp only [inode_at, INODES_PER_BLOCK]
  have h1 : (1 + (j + (b - 1) * 128) - 1) / 128 + 1 = b := by omega
  have h2 : 1 + (j + (b - 1) * 128) - 1 - ((1 + (j + (b - 1) * 128) - 1) / 128 + 1 - 1) * 128 = j := by
    omega
  rw [h1]
  congr 1
  omega

theorem fs_create_loop_none (s : SimpleFs) (count : Nat) (i : Int) (hi : 1 ≤ i)
    (hd : i + count ≤ s.disk.nblocks)
    (h : ∀ n, (i - 1) * INODES_PER_BLOCK < n → n ≤ (i - 1 + count) * INODES_PER_BLOCK →
      (inode_at s n).isvalid ≠ 0) :
    fs_create_loop s count i = some (s, 0) := by
  have h128 : (INODES_PER_BLOCK.toNat : Int) = 128 := by decide
  induction count generalizing i with
  | zero => rfl
  | succ c ih =>
    rw [fs_create_loop, disk_read_some _ _ (by omega) (by push_cast at hd; omega)]
    simp only []
    rw [scan_inode_block, first_invalid_slot_none]
    · simp only []
      apply ih _ (by omega) (by push_cast at hd; omega)
      intro n hn1 hn2
      apply h n
      · simp only [INODES_PER_BLOCK] at *; omega
      · simp only [INODES_PER_BLOCK] at *; push_cast; omega
    · intro k hk1 hk2
      rw [← inode_at_slot s i k (by omega) (by omega)]
      apply h
      · simp only [INODES_PER_BLOCK] at *; omega
      · simp only [INODES_PER_BLOCK] at *; push_cast; omega

theorem fs_create_loop_some (s : SimpleFs) (hwf : mounted_volume s) (count : Nat) (i m : Int)
    (hi : 1 ≤ i) (hd : i + count = s.superblock.ninodeblocks + 1)
    (hm1 : (i - 1) * INODES_PER_BLOCK < m) (hm2 : m ≤ s.superblock.ninodes)
    (hm : (inode_at s m).isvalid = 0)
    (h : ∀ n, (i - 1) * INODES_PER_BLOCK < n → n < m → (inode_at s n).isvalid ≠ 0) :
    fs_create_loop s count i = some (with_inode s m { fs_inode.zero with isvalid := 1 }, m) := by
  have hin := hwf.inodes
  have hlt := hwf.inode_blocks_lt
  have hdev := hwf.device
  have h128 : (INODES_PER_BLOCK.toNat : Int) = 128 := by decide
  induction count generalizing i with
  | zero => simp only [INODES_PER_BLOCK] at *; omega
  | succ c ih =>
    rw [fs_create_loop, disk_read_some _ _ (by omega) (by push_cast at hd; omega)]
    simp only []
    by_cases hb : m ≤ i * INODES_PER_BLOCK
    · -- the slot lies in block i
      have hslot : m = 1 + ((m - 1 - (i - 1) * INODES_PER_BLOCK) + (i - 1) * INODES_PER_BLOCK) := by
        omega
      rw [scan_inode_block, first_invalid_slot_some _ _ _ (m - 1 - (i - 1) * INODES_PER_BLOCK)]
      · simp only []
        rw [← hslot, inode_save_valid s hwf m _ (by simp only [INODES_PER_BLOCK] at *; omega) hm2]
      · simp only [INODES_PER_BLOCK] at *; omega
      · simp only [INODES_PER_BLOCK] at *; omega
      · rw [← inode_at_slot s i _ (by simp only [INODES_PER_BLOCK] at *; omega)
          (by simp only [INODES_PER_BLOCK] at *; omega), ← hslot]
        exact hm
      · intro k hk1 hk2
        rw [← inode_at_slot s i k hk1 (by simp only [INODES_PER_BLOCK] at *; omega)]
        apply h
        · simp only [INODES_PER_BLOCK] at *; omega
        · simp only [INODES_PER_BLOCK] at *; omega
    · rw [scan_inode_block, first_invalid_slot_none]
      · simp only []
        apply ih _ (by omega) (by push_cast at hd; omega)
        · simp only [INODES_PER_BLOCK] at *; omega
        · intro n hn1 hn2
          apply h n _ hn2
          simp only [INODES_PER_BLOCK] at *; omega
      · intro k hk1 hk2
        rw [← inode_at_slot s i k (by omega) (by omega)]
        apply h
        · simp only [INODES_PER_BLOCK] at *; omega
        · simp only [INODES_PER_BLOCK] at *; omega

end SimpleFs

namespace SimpleFs

/-- C8. On a mounted volume `fs_create` returns the smallest inumber `m` in
`[1, ninodes]` whose slot has `isvalid = 0`, stores there the inode with
`isvalid = 1`, size 0 and all pointers 0, changes no other inode slot, no other
disk block and no bitmap entry, and `fs_getsize m` is 0 afterwards; when every
slot is valid (in particular when there is no inode block) it returns 0 and
leaves the state unchanged. -/
theorem create_first_free (s : SimpleFs) (hwf : mounted_volume s) :
    (∀ m, 1 ≤ m → m ≤ s.superblock.ninodes → (inode_at s m).isvalid = 0 →
      (∀ n, 1 ≤ n → n < m → (inode_at s n).isvalid ≠ 0) →
      ∃ s1, fs_create s = some (s1, m) ∧
        inode_at s1 m = { isvalid := 1, size := 0, direct := [0, 0, 0, 0, 0], indirect := 0 } ∧
        (∀ n, n ≠ m → inode_at s1 n = inode_at s n) ∧
        (∀ b, b ≠ (m - 1) / INODES_PER_BLOCK + 1 → s1.disk.data b = s.disk.data b) ∧
        s1.bitmap = s.bitmap ∧ s1.superblock = s.superblock ∧
        s1.is_disk_mounted = true ∧ s1.disk.nblocks = s.disk.nblocks ∧
        fs_getsize s1 m = some 0) ∧
    ((∀ n, 1 ≤ n → n ≤ s.superblock.ninodes → (inode_at s n).isvalid ≠ 0) →
      fs_create s = some (s, 0)) := by
  have hin := hwf.inodes
  have hlt := hwf.inode_blocks_lt
  have hdev := hwf.device
  have hnn := hwf.inode_blocks_nonneg
  have hmt := hwf.mounted
  have hcount : (1 : Int) + (s.superblock.ninodeblocks.toNat : Nat) = s.superblock.ninodeblocks + 1 := by
    omega
  constructor
  · intro m hm1 hm2 hm hmin
    refine ⟨with_inode s m { fs_inode.zero with isvalid := 1 }, ?_, ?_, ?_, ?_, rfl, rfl, hmt, rfl, ?_⟩
    · simp only [fs_create, hmt, Bool.true_eq_false, if_false]
      apply fs_create_loop_some s hwf _ 1 m (le_refl 1) hcount (by omega) hm2 hm
      intro n hn1 hn2
      exact hmin n (by omega) hn2
    · rw [inode_at_with_inode_same]
      simp [fs_inode.zero, wrap32]
    · intro n hn
      exact inode_at_with_inode_ne s m n _ hn
    · intro b hb
      simp only [with_inode, hb, if_false]
    · have hwf1 := with_inode_mounted_volume s hwf m { fs_inode.zero with isvalid := 1 }
      simp only [fs_getsize, hwf1.mounted, Bool.true_eq_false, if_false]
      rw [inode_load_valid _ hwf1 m _ hm1 hm2]
      simp only [inode_at_with_inode_same]
      simp [fs_inode.zero, wrap32]
  · intro hall
    simp only [fs_create, hmt, Bool.true_eq_false, if_false]
    apply fs_create_loop_none s _ 1 (le_refl 1) (by omega)
    intro n hn1 hn2
    apply hall n (by omega)
    simp only [INODES_PER_BLOCK] at *
    omega

theorem create_first_free_witness :
    mounted_volume vol8 ∧ ∃ s1, fs_create vol8 = some (s1, 1) ∧
      inode_at s1 1 = { isvalid := 1, size := 0, direct := [0, 0, 0, 0, 0], indirect := 0 } ∧
      (∀ n, n ≠ 1 → inode_at s1 n = inode_at vol8 n) ∧
      (∀ b, b ≠ (1 - 1) / INODES_PER_BLOCK + 1 → s1.disk.data b = vol8.disk.data b) ∧
      s1.bitmap = vol8.bitmap ∧ s1.superblock = vol8.superblock ∧
      s1.is_disk_mounted = true ∧ s1.disk.nblocks = vol8.disk.nblocks ∧
      fs_getsize s1 1 = some 0 :=
  ⟨vol8_mounted_volume,
    (create_first_free vol8 vol8_mounted_volume).1 1 (by decide) (by decide) (by decide)
      (fun n h1 h2 => absurd h2 (by omega))⟩

end SimpleFs

namespace SimpleFs

theorem is_valid_datablock_iff (s : SimpleFs) (b : Int) :
    is_valid_datablock s b = true ↔ s.superblock.ninodeblocks < b ∧ b < s.superblock.nblocks := by
  simp [is_valid_datablock]

theorem is_valid_block_of_datablock (s : SimpleFs) (hwf : mounted_volume s) (b : Int)
    (hb : is_valid_datablock s b = true) : is_valid_block s b = true := by
  have h := (is_valid_datablock_iff s b).1 hb
  have h0 := hwf.inode_blocks_nonneg
  simp only [is_valid_block, Bool.and_eq_true, decide_eq_true_eq]
  omega

/-- The state after `free_and_clear` on a valid data block. -/
theorem free_and_clear_valid (s : SimpleFs) (hwf : mounted_volume s) (b : Int)
    (hb : is_valid_datablock s b = true) :
    free_and_clear s b = some
      { s with
        bitmap := s.bitmap.set b.toNat false
        disk := { s.disk with data := fun x => if x = b then EMPTY_BLOCK else s.disk.data x } } := by
  have h := (is_valid_datablock_iff s b).1 hb
  have h0 := hwf.inode_blocks_nonneg
  have h1 := hwf.device
  have h2 := hwf.bitmap_size
  simp only [free_and_clear, mark_block_free, is_valid_block_of_datablock s hwf b hb, if_true,
    bitmap_assign]
  rw [if_pos (by omega)]
  simp only [clear_block_data]
  rw [disk_write_some _ _ _ (by omega) (by omega)]

theorem free_and_clear_mounted_volume (s : SimpleFs) (hwf : mounted_volume s) (b : Int)
    (hb : is_valid_datablock s b = true) (bm : List Bool) (d : Int → Block)
    (hbm : bm = s.bitmap.set b.toNat false) :
    mounted_volume { s with bitmap := bm, disk := { s.disk with data := d } } := by
  have h := (is_valid_datablock_iff s b).1 hb
  subst hbm
  exact
    { mounted := hwf.mounted
      device := hwf.device
      bitmap_size := by simpa using hwf.bitmap_size
      inode_blocks_nonneg := hwf.inode_blocks_nonneg
      inode_blocks_lt := hwf.inode_blocks_lt
      inodes := hwf.inodes
      int_range := hwf.int_range
      reserved := by
        intro x hx
        have hne : b.toNat ≠ x := by
          simp only at hx
          omega
        have := hwf.reserved x hx
        simp only [List.getD_eq_getElem?_getD] at this ⊢
        rw [List.getElem?_set_ne hne]
        exact this }

theorem free_datablocks_valid (s : SimpleFs) (hwf : mounted_volume s) (l : List Int)
    (hl : ∀ b ∈ l, is_valid_datablock s b = true) :
    ∃ s1, free_datablocks s l = some s1 ∧ mounted_volume s1 ∧
      s1.superblock = s.superblock ∧ s1.disk.nblocks = s.disk.nblocks ∧
      s1.bitmap = l.foldl (fun bm b => bm.set b.toNat false) s.bitmap ∧
      (∀ x, s1.disk.data x = if x ∈ l then EMPTY_BLOCK else s.disk.data x) := by
  induction l generalizing s with
  | nil => exact ⟨s, rfl, hwf, rfl, rfl, rfl, fun x => by simp⟩
  | cons b rest ih =>
    have hb := hl b (List.mem_cons_self _ _)
    have hwf1 := free_and_clear_mounted_volume s hwf b hb _
      (fun x => if x = b then EMPTY_BLOCK else s.disk.data x) rfl
    obtain ⟨s1, h1, h2, h3, h4, h5, h6⟩ := ih _ hwf1 (by
      intro x hx
      have := hl x (List.mem_cons_of_mem _ hx)
      simpa [is_valid_datablock] using this)
    refine ⟨s1, ?_, h2, h3, h4, ?_, ?_⟩
    · simp only [free_datablocks]
      rw [free_and_clear_valid s hwf b hb]
      exact h1
    · rw [h5]
      rfl
    · intro x
      rw [h6 x]
      simp only [List.mem_cons]
      by_cases hx : x = b
      · simp [hx]
      · simp [hx]

end SimpleFs

namespace SimpleFs

theorem clear_bits_length (l : List Int) (bm : List Bool) :
    (l.foldl (fun bm b => bm.set b.toNat false) bm).length = bm.length := by
  induction l generalizing bm with
  | nil => rfl
  | cons b rest ih => simp only [List.foldl_cons]; rw [ih]; simp

theorem clear_bits_getElem? (l : List Int) (bm : List Bool) (x : Nat)
    (hl : ∀ b ∈ l, 0 ≤ b ∧ b < (bm.length : Int)) :
    (l.foldl (fun bm b => bm.set b.toNat false) bm)[x]? =
      if (x : Int) ∈ l then some false else bm[x]? := by
  induction l generalizing bm with
  | nil => simp
  | cons b rest ih =>
    simp only [List.foldl_cons]
    rw [ih]
    · have hb := hl b (List.mem_cons_self _ _)
      simp only [List.mem_cons]
      by_cases hx : (x : Int) ∈ rest
      · simp [hx]
      · simp only [hx, if_false, or_false]
        by_cases hxb : (x : Int) = b
        · have : b.toNat = x := by omega
          subst this
          simp only [hxb, if_true]
          rw [List.getElem?_set_self (by omega)]
        · have : b.toNat ≠ x := by omega
          simp only [hxb, if_false]
          rw [List.getElem?_set_ne this]
    · intro c hc
      have := hl c (List.mem_cons_of_mem _ hc)
      simpa using this

theorem clear_bits_count (l : List Int) (bm : List Bool)
    (hl : ∀ b ∈ l, 0 ≤ b ∧ b < (bm.length : Int)) (hnd : l.Nodup)
    (hbusy : ∀ b ∈ l, bm.getD b.toNat false = true) :
    (l.foldl (fun bm b => bm.set b.toNat false) bm).count true + l.length = bm.count true := by
  induction l generalizing bm with
  | nil => simp
  | cons b rest ih =>
    have hb := hl b (List.mem_cons_self _ _)
    have hbb := hbusy b (List.mem_cons_self _ _)
    have hlt : b.toNat < bm.length := by omega
    simp only [List.foldl_cons, List.length_cons]
    have hnd2 := List.nodup_cons.1 hnd
    have key := ih (bm.set b.toNat false)
      (by
        intro c hc
        have := hl c (List.mem_cons_of_mem _ hc)
        simpa using this)
      hnd2.2
      (by
        intro c hc
        have hcb : b.toNat ≠ c.toNat := by
          have h1 := hl c (List.mem_cons_of_mem _ hc)
          intro h
          have : b = c := by omega
          subst this
          exact hnd2.1 hc
        have := hbusy c (List.mem_cons_of_mem _ hc)
        simp only [List.getD_eq_getElem?_getD] at this ⊢
        rw [List.getElem?_set_ne hcb]
        exact this)
    have hc := List.count_set false true bm b.toNat hlt
    have hget : bm[b.toNat] = true := by
      simp only [List.getD_eq_getElem?_getD, List.getElem?_eq_getElem hlt, Option.getD_some] at hbb
      exact hbb
    have hpos : 0 < bm.count true := by
      apply List.count_pos_iff.2
      rw [← hget]
      exact List.getElem_mem _
    simp only [hget, beq_self_eq_true, if_true] at hc
    simp at hc
    omega

theorem inode_direct_valid_range (s : SimpleFs) (b : Int) (l : List Int)
    (h : b ∈ l.filter (is_valid_datablock s)) : is_valid_datablock s b = true :=
  (List.mem_filter.1 h).2

theorem takeWhile_all {α : Type} (p : α → Bool) (l : List α) : ∀ x ∈ l.takeWhile p, p x = true := by
  induction l with
  | nil => simp
  | cons a rest ih =>
    intro x hx
    simp only [List.takeWhile] at hx
    split at hx
    · rcases List.mem_cons.1 hx with h | h
      · subst h; assumption
      · exact ih x h
    · simp at hx

/-- The result of `fill_datablocks` for an inumber in range on a mounted volume. -/
theorem fill_datablocks_valid (s : SimpleFs) (hwf : mounted_volume s) (n : Int) (h1 : 1 ≤ n)
    (h2 : n ≤ s.superblock.ninodes) :
    ∃ vec, fill_datablocks s n = some vec ∧
      (∀ b ∈ vec.blocks, is_valid_datablock s b = true) ∧
      (vec.indirect = 0 ∨ is_valid_datablock s vec.indirect = true) ∧
      vec.indirect = (if is_valid_datablock s (inode_at s n).indirect then (inode_at s n).indirect else 0) ∧
      vec.blocks = (inode_at s n).direct.filter (is_valid_datablock s) ++
        (if is_valid_datablock s (inode_at s n).indirect then
          ((List.range POINTERS_PER_BLOCK).map
            (fun (k : Nat) => get_int (s.disk.data (inode_at s n).indirect) (k : Int))).takeWhile
              (is_valid_datablock s)
        else []) := by
  simp only [fill_datablocks, inode_load_valid s hwf n _ h1 h2]
  by_cases hv : is_valid_datablock s (inode_at s n).indirect = true
  · have hr := (is_valid_datablock_iff s _).1 hv
    have h0 := hwf.inode_blocks_nonneg
    have hd := hwf.device
    simp only [hv, if_true]
    rw [disk_read_some _ _ (by omega) (by omega)]
    refine ⟨_, rfl, ?_, Or.inr hv, rfl, rfl⟩
    intro b hb
    rcases List.mem_append.1 hb with h | h
    · exact inode_direct_valid_range s b _ h
    · exact takeWhile_all _ _ b h
  · simp only [hv, if_false, Bool.false_eq_true]
    refine ⟨_, rfl, ?_, Or.inl rfl, rfl, by simp⟩
    intro b hb
    exact inode_direct_valid_range s b _ hb

end SimpleFs

namespace SimpleFs

theorem freed_blocks_valid (s : SimpleFs) (vec : fs_datablock_vec)
    (hb : ∀ b ∈ vec.blocks, is_valid_datablock s b = true) :
    ∀ b ∈ freed_blocks s vec, is_valid_datablock s b = true := by
  intro b hmem
  simp only [freed_blocks] at hmem
  split at hmem
  · rcases List.mem_cons.1 hmem with h | h
    · subst h; assumption
    · exact hb b h
  · exact hb b hmem

theorem fs_delete_eq (s : SimpleFs) (hwf : mounted_volume s) (n : Int) (h1 : 1 ≤ n)
    (h2 : n ≤ s.superblock.ninodes) (vec : fs_datablock_vec) (hv : fill_datablocks s n = some vec)
    (hb : ∀ b ∈ vec.blocks, is_valid_datablock s b = true) :
    ∃ s2, free_datablocks s (freed_blocks s vec) = some s2 ∧ mounted_volume s2 ∧
      s2.superblock = s.superblock ∧ s2.disk.nblocks = s.disk.nblocks ∧
      s2.bitmap = (freed_blocks s vec).foldl (fun bm b => bm.set b.toNat false) s.bitmap ∧
      (∀ x, s2.disk.data x = if x ∈ freed_blocks s vec then EMPTY_BLOCK else s.disk.data x) ∧
      fs_delete s n = some (with_inode s2 n fs_inode.zero, 1) := by
  obtain ⟨s2, e1, e2, e3, e4, e5, e6⟩ :=
    free_datablocks_valid s hwf (freed_blocks s vec) (freed_blocks_valid s vec hb)
  refine ⟨s2, e1, e2, e3, e4, e5, e6, ?_⟩
  simp only [fs_delete, hwf.mounted, Bool.true_eq_false, if_false, inode_load_valid s hwf n _ h1 h2, hv]
  by_cases hi : is_valid_datablock s vec.indirect = true
  · simp only [freed_blocks, hi, if_true, free_datablocks] at e1
    simp only [hi, if_true]
    cases hf : free_and_clear s vec.indirect with
    | none => simp [hf] at e1
    | some s1 =>
      simp only [hf] at e1
      simp only [e1]
      rw [inode_save_valid s2 e2 n _ h1 (by rw [e3]; exact h2)]
  · simp only [freed_blocks, hi, if_false, Bool.false_eq_true] at e1
    simp only [hi, if_false, Bool.false_eq_true, e1]
    rw [inode_save_valid s2 e2 n _ h1 (by rw [e3]; exact h2)]

theorem inode_at_zero (s : SimpleFs) (n : Int) : inode_at (with_inode s n fs_inode.zero) n = fs_inode.zero := by
  rw [inode_at_with_inode_same]
  simp [fs_inode.zero, wrap32]

/-- C6. On a mounted volume, for an inumber `n` in range, `fs_delete n` returns 1;
it marks free exactly the blocks of the resolved block list of `n` and its
indirect block (when that is a valid data block) and leaves every other bitmap
entry as it was; each freed block is all zeros afterwards; slot `n` holds the
all-zero inode; no other disk block but the inode-table block of `n` changes.
When the freed blocks are distinct and busy, the number of busy bitmap entries
decreases by exactly their number (6 for 3 direct blocks, an indirect block
and its 2 entries). -/
theorem delete_frees_blocks (s : SimpleFs) (hwf : mounted_volume s) (n : Int) (h1 : 1 ≤ n)
    (h2 : n ≤ s.superblock.ninodes) :
    ∃ vec s1, fill_datablocks s n = some vec ∧ fs_delete s n = some (s1, 1) ∧
      s1.bitmap.length = s.bitmap.length ∧
      (∀ x : Nat, s1.bitmap[x]? = if (x : Int) ∈ freed_blocks s vec then some false else s.bitmap[x]?) ∧
      (∀ b ∈ freed_blocks s vec, s1.disk.data b = EMPTY_BLOCK) ∧
      inode_at s1 n = fs_inode.zero ∧
      (∀ b, b ∉ freed_blocks s vec → b ≠ (n - 1) / INODES_PER_BLOCK + 1 → s1.disk.data b = s.disk.data b) ∧
      ((freed_blocks s vec).Nodup → (∀ b ∈ freed_blocks s vec, s.bitmap.getD b.toNat false = true) →
        s1.bitmap.count true + (freed_blocks s vec).length = s.bitmap.count true) := by
  obtain ⟨vec, hv, hb, -, -, -⟩ := fill_datablocks_valid s hwf n h1 h2
  obtain ⟨s2, -, e2, e3, e4, e5, e6, e7⟩ := fs_delete_eq s hwf n h1 h2 vec hv hb
  have hrange : ∀ b ∈ freed_blocks s vec, 0 ≤ b ∧ b < (s.bitmap.length : Int) := by
    intro b hmem
    have := (is_valid_datablock_iff s b).1 (freed_blocks_valid s vec hb b hmem)
    have h0 := hwf.inode_blocks_nonneg
    have hd := hwf.device
    have hs := hwf.bitmap_size
    omega
  have hblk := inode_block_range s hwf n h1 h2
  refine ⟨vec, with_inode s2 n fs_inode.zero, hv, e7, ?_, ?_, ?_, inode_at_zero s2 n, ?_, ?_⟩
  · show s2.bitmap.length = _
    rw [e5, clear_bits_length]
  · intro x
    show s2.bitmap[x]? = _
    rw [e5, clear_bits_getElem? _ _ _ hrange]
  · intro b hmem
    have := (is_valid_datablock_iff s b).1 (freed_blocks_valid s vec hb b hmem)
    have hne : b ≠ (n - 1) / INODES_PER_BLOCK + 1 := by omega
    simp only [with_inode, hne, if_false]
    rw [e6 b, if_pos hmem]
  · intro b hmem hne
    simp only [with_inode, hne, if_false]
    rw [e6 b, if_neg hmem]
  · intro hnd hbusy
    show s2.bitmap.count true + _ = _
    rw [e5]
    exact clear_bits_count _ _ hrange hnd hbusy

end SimpleFs

namespace SimpleFs

theorem vol8_file_mounted_volume : mounted_volume vol8_file :=
  { mounted := rfl
    device := rfl
    bitmap_size := rfl
    inode_blocks_nonneg := by decide
    inode_blocks_lt := by decide
    inodes := by decide
    int_range := by decide
    reserved := by
      intro b hb
      have h : b = 0 ∨ b = 1 := by
        simp only [vol8_file] at hb
        omega
      rcases h with h | h <;> subst h <;> rfl }

set_option maxRecDepth 100000 in
theorem vol8_file_blocks : fill_datablocks vol8_file 1 = some { indirect := 5, blocks := [2, 3, 4, 6, 7] } := by
  rfl

theorem delete_frees_blocks_witness :
    mounted_volume vol8_file ∧ (1 : Int) ≤ 1 ∧ (1 : Int) ≤ vol8_file.superblock.ninodes ∧
      ∃ s1, fs_delete vol8_file 1 = some (s1, 1) ∧
        s1.bitmap.count true + 6 = vol8_file.bitmap.count true := by
  refine ⟨vol8_file_mounted_volume, by decide, by decide, ?_⟩
  obtain ⟨vec, s1, hv, hd, -, -, -, -, -, hcount⟩ :=
    delete_frees_blocks vol8_file vol8_file_mounted_volume 1 (by decide) (by decide)
  rw [vol8_file_blocks] at hv
  cases hv
  exact ⟨s1, hd, hcount (by decide) (by decide)⟩

end SimpleFs

namespace SimpleFs

theorem set_inode_apply_outside (blk : Block) (j : Int) (ino : fs_inode) (p : Int)
    (h : p < 32 * j ∨ 32 * j + 32 ≤ p) : set_inode blk j ino p = blk p := by
  simp only [set_inode, set_int]
  split_ifs <;> first | rfl | omega

theorem set_inode_apply_inside (blk blk2 : Block) (j : Int) (ino : fs_inode) (p : Int)
    (h : 32 * j ≤ p ∧ p < 32 * j + 32) : set_inode blk j ino p = set_inode blk2 j ino p := by
  simp only [set_inode, set_int]
  split_ifs <;> first | rfl | omega

theorem set_inode_idem (blk : Block) (j : Int) (ino : fs_inode) :
    set_inode (set_inode blk j ino) j ino = set_inode blk j ino := by
  funext p
  by_cases h : 32 * j ≤ p ∧ p < 32 * j + 32
  · exact set_inode_apply_inside _ _ j ino p h
  · rw [set_inode_apply_outside _ j ino p (by omega)]

theorem with_inode_idem (s : SimpleFs) (n : Int) (ino : fs_inode) :
    with_inode (with_inode s n ino) n ino = with_inode s n ino := by
  simp only [with_inode, eq_self_iff_true, if_true, set_inode_idem]
  congr 2
  funext x
  split <;> rfl

theorem is_valid_datablock_zero (s : SimpleFs) (hwf : mounted_volume s) :
    is_valid_datablock s 0 = false := by
  have h := hwf.inode_blocks_nonneg
  simp only [is_valid_datablock, Bool.and_eq_false_iff, decide_eq_false_iff_not]
  omega

/-- C7. On a mounted volume, once `fs_delete n` has returned 1, a second
`fs_delete n` is a no-op: it returns 1 again and leaves the whole state (the
bitmap and every disk block) exactly as the first delete left it. -/
theorem second_delete_noop (s : SimpleFs) (hwf : mounted_volume s) (n : Int) (s1 : SimpleFs)
    (h : fs_delete s n = some (s1, 1)) : fs_delete s1 n = some (s1, 1) := by
  have hmt := hwf.mounted
  by_cases hval : 1 ≤ n ∧ n ≤ s.superblock.ninodes
  · obtain ⟨h1, h2⟩ := hval
    obtain ⟨vec, hv, hb, -, -, -⟩ := fill_datablocks_valid s hwf n h1 h2
    obtain ⟨s2, -, e2, e3, -, -, -, e7⟩ := fs_delete_eq s hwf n h1 h2 vec hv hb
    rw [e7] at h
    cases h
    have hwf1 := with_inode_mounted_volume s2 e2 n fs_inode.zero
    have h2' : n ≤ (with_inode s2 n fs_inode.zero).superblock.ninodes := by
      show n ≤ s2.superblock.ninodes
      rw [e3]; exact h2
    obtain ⟨vec1, hv1, hb1, -, hi1, hbl1⟩ := fill_datablocks_valid _ hwf1 n h1 h2'
    have hz := is_valid_datablock_zero _ hwf1
    rw [inode_at_zero] at hi1 hbl1
    have hzi : fs_inode.zero.indirect = 0 := rfl
    have hzd : fs_inode.zero.direct = [0, 0, 0, 0, 0] := rfl
    rw [hzi, hz] at hi1 hbl1
    rw [hzd] at hbl1
    simp only [Bool.false_eq_true, if_false, List.filter, hz, List.append_nil] at hi1 hbl1
    obtain ⟨s3, f1, -, -, -, -, -, f7⟩ := fs_delete_eq _ hwf1 n h1 h2' vec1 hv1 hb1
    rw [freed_blocks, hi1, hz, hbl1] at f1
    simp only [Bool.false_eq_true, if_false, free_datablocks] at f1
    cases f1
    rw [f7, with_inode_idem]
  · have hinv : n < 1 ∨ n > s.superblock.ninodes := by omega
    simp [fs_delete, hmt, inode_load_invalid s n _ hinv] at h

theorem second_delete_noop_witness :
    mounted_volume vol8_file ∧ ∃ s1, fs_delete vol8_file 1 = some (s1, 1) ∧
      fs_delete s1 1 = some (s1, 1) := by
  refine ⟨vol8_file_mounted_volume, ?_⟩
  obtain ⟨vec, hv, hb, -⟩ :=
    fill_datablocks_valid vol8_file vol8_file_mounted_volume 1 (by decide) (by decide)
  obtain ⟨s2, -, -, -, -, -, -, hd⟩ :=
    fs_delete_eq vol8_file vol8_file_mounted_volume 1 (by decide) (by decide) vec hv hb
  exact ⟨_, hd, second_delete_noop vol8_file vol8_file_mounted_volume 1 _ hd⟩

end SimpleFs
namespace SimpleFs

theorem first_free_none_iff (bm : List Bool) : first_free bm = none ↔ bm.count false = 0 := by
  induction bm with
  | nil => simp [first_free]
  | cons b rest ih =>
    cases b
    · simp [first_free]
    · simp [first_free, ih]

theorem first_free_some (bm : List Bool) (i : Nat) (h : first_free bm = some i) :
    i < bm.length ∧ bm.getD i true = false ∧ (bm.set i true).count false + 1 = bm.count false := by
  induction bm generalizing i with
  | nil => simp [first_free] at h
  | cons b rest ih =>
    cases b
    · simp only [first_free, if_true] at h
      cases h
      simp
    · simp only [first_free, Bool.true_eq_false, if_false, Option.map_eq_some'] at h
      obtain ⟨j, hj, rfl⟩ := h
      obtain ⟨h1, h2, h3⟩ := ih j hj
      refine ⟨by simp; omega, ?_, ?_⟩
      · simpa using h2
      · simp only [List.set_cons_succ, List.count_cons]
        simp
        exact h3

theorem is_disk_full_iff (s : SimpleFs) : is_disk_full s = true ↔ s.bitmap.count false = 0 := by
  simp only [is_disk_full, List.all_eq_true, List.count_eq_zero]
  constructor
  · intro h hm
    have := h false hm
    simp at this
  · intro h b hb
    cases b
    · exact absurd hb h
    · rfl

theorem set_true_mounted_volume (s : SimpleFs) (hwf : mounted_volume s) (b : Nat) :
    mounted_volume { s with bitmap := s.bitmap.set b true } :=
  { mounted := hwf.mounted
    device := hwf.device
    bitmap_size := by simpa using hwf.bitmap_size
    inode_blocks_nonneg := hwf.inode_blocks_nonneg
    inode_blocks_lt := hwf.inode_blocks_lt
    inodes := hwf.inodes
    int_range := hwf.int_range
    reserved := by
      intro x hx
      have := hwf.reserved x hx
      simp only [List.getD_eq_getElem?_getD] at this ⊢
      by_cases hxb : b = x
      · subst hxb
        by_cases hlt : b < s.bitmap.length
        · rw [List.getElem?_set_self hlt]; rfl
        · rw [List.getElem?_eq_none (by simp; omega)]; rfl
      · rw [List.getElem?_set_ne hxb]
        exact this }

/-- The effect of `alloc_datablock` on a mounted volume with a free block. -/
theorem alloc_datablock_spec (s : SimpleFs) (hwf : mounted_volume s) (hfree : 0 < s.bitmap.count false) :
    ∃ b : Nat, alloc_datablock s = ({ s with bitmap := s.bitmap.set b true }, (b : Int)) ∧
      b < s.bitmap.length ∧ s.bitmap.getD b true = false ∧ is_valid_datablock s b = true ∧
      (s.bitmap.set b true).count false + 1 = s.bitmap.count false ∧ first_free s.bitmap = some b := by
  cases hf : first_free s.bitmap with
  | none =>
    have := (first_free_none_iff _).1 hf
    omega
  | some b =>
    obtain ⟨h1, h2, h3⟩ := first_free_some _ _ hf
    refine ⟨b, ?_, h1, h2, ?_, h3, rfl⟩
    · simp only [alloc_datablock, hf]
    · rw [is_valid_datablock_iff]
      have hs := hwf.bitmap_size
      have hd := hwf.device
      constructor
      · by_contra hle
        have := hwf.reserved b (by omega)
        rw [h2] at this
        exact absurd this (by decide)
      · omega

end SimpleFs
namespace SimpleFs

/-- The `while` loop of `write_datablock` on a source without a zero byte in
`[start, end_)`: it copies `min (DISK_BLOCK_SIZE - i) (end_ - start)` bytes. -/
theorem write_datablock_loop_spec (src : Buf) (end_ : Int) (fuel : Nat) (i start : Int) (dest : Block)
    (bytes : Int) (hi0 : 0 ≤ i) (hi1 : i ≤ DISK_BLOCK_SIZE) (hs : 0 ≤ start)
    (hfuel : DISK_BLOCK_SIZE - i ≤ fuel) (hnz : ∀ q, start ≤ q → q < end_ → src q ≠ 0) :
    write_datablock_loop src end_ fuel i start dest bytes =
      some (fun p =>
          if i ≤ p ∧ p < i + min (DISK_BLOCK_SIZE - i) (max 0 (end_ - start)) then src (start + (p - i))
          else dest p,
        bytes + min (DISK_BLOCK_SIZE - i) (max 0 (end_ - start))) := by
  induction fuel generalizing i start dest bytes with
  | zero =>
    rw [write_datablock_loop]
    have : i = DISK_BLOCK_SIZE := by simp at hfuel; omega
    subst this
    simp only [lt_self_iff_false, false_and, if_false, Option.some.injEq, Prod.mk.injEq]
    constructor
    · funext p
      rw [if_neg (by omega)]
    · omega
  | succ f ih =>
    rw [write_datablock_loop]
    by_cases hc : i < DISK_BLOCK_SIZE ∧ start < end_
    · rw [if_pos hc, if_neg (by omega), if_neg (hnz start (le_refl _) hc.2), if_neg (by omega)]
      rw [ih (i + 1) (start + 1) _ (bytes + 1) (by omega) (by omega) (by omega)
        (by push_cast at hfuel; omega) (fun q h1 h2 => hnz q (by omega) h2)]
      simp only [Option.some.injEq, Prod.mk.injEq]
      constructor
      · funext p
        by_cases hp : p = i
        · subst hp
          rw [if_neg (by omega), if_pos (by omega)]
          simp
        · simp only [Function.update, hp, dite_false]
          by_cases hin : i ≤ p ∧ p < i + min (DISK_BLOCK_SIZE - i) (max 0 (end_ - start))
          · rw [if_pos hin, if_pos (by omega)]
            congr 1
            omega
          · rw [if_neg hin, if_neg (by omega)]
      · omega
    · rw [if_neg hc]
      simp only [Option.some.injEq, Prod.mk.injEq]
      constructor
      · funext p
        rw [if_neg (by omega)]
      · omega

/-- The `while` loop of `read_datablock` on a block without a zero byte in the
range it reads: it copies `min (DISK_BLOCK_SIZE - i) (end_ - start)` bytes. -/
theorem read_datablock_loop_spec (src : Block) (end_ : Int) (fuel : Nat) (i start : Int) (dest : Buf)
    (bytes : Int) (hi0 : 0 ≤ i) (hi1 : i ≤ DISK_BLOCK_SIZE) (hs : 0 ≤ start)
    (hfuel : DISK_BLOCK_SIZE - i ≤ fuel)
    (hnz : ∀ p, i ≤ p → p < i + min (DISK_BLOCK_SIZE - i) (max 0 (end_ - start)) → src p ≠ 0) :
    read_datablock_loop src end_ fuel i start dest bytes =
      some (fun q =>
          if start ≤ q ∧ q < start + min (DISK_BLOCK_SIZE - i) (max 0 (end_ - start)) then
            src (i + (q - start))
          else dest q,
        bytes + min (DISK_BLOCK_SIZE - i) (max 0 (end_ - start))) := by
  induction fuel generalizing i start dest bytes with
  | zero =>
    rw [read_datablock_loop]
    have : i = DISK_BLOCK_SIZE := by simp at hfuel; omega
    subst this
    simp only [lt_self_iff_false, false_and, if_false, Option.some.injEq, Prod.mk.injEq]
    constructor
    · funext p
      rw [if_neg (by omega)]
    · omega
  | succ f ih =>
    rw [read_datablock_loop]
    by_cases hc : i < DISK_BLOCK_SIZE ∧ start < end_
    · rw [if_pos hc, if_neg (by omega), if_neg (hnz i (le_refl _) (by omega)), if_neg (by omega)]
      rw [ih (i + 1) (start + 1) _ (bytes + 1) (by omega) (by omega) (by omega)
        (by push_cast at hfuel; omega) (fun q h1 h2 => hnz q (by omega) (by omega))]
      simp only [Option.some.injEq, Prod.mk.injEq]
      constructor
      · funext p
        by_cases hp : p = start
        · subst hp
          rw [if_neg (by omega), if_pos (by omega)]
          simp
        · simp only [Function.update, hp, dite_false]
          by_cases hin : start ≤ p ∧ p < start + min (DISK_BLOCK_SIZE - i) (max 0 (end_ - start))
          · rw [if_pos hin, if_pos (by omega)]
            congr 1
            omega
          · rw [if_neg hin, if_neg (by omega)]
      · omega
    · rw [if_neg hc]
      simp only [Option.some.injEq, Prod.mk.injEq]
      constructor
      · funext p
        rw [if_neg (by omega)]
      · omega

end SimpleFs
namespace SimpleFs

theorem DISK_BLOCK_SIZE_toNat : (DISK_BLOCK_SIZE.toNat : Int) = DISK_BLOCK_SIZE := by decide

/-- `write_datablock` on a block in range, at a block-aligned source position,
from a source without zero byte: it writes `min DISK_BLOCK_SIZE (end_ - start)`
bytes at the start of the block and changes no other block. -/
theorem write_datablock_aligned (s : SimpleFs) (b : Int) (src : Buf) (start end_ : Int)
    (hb0 : b ≠ 0) (hb1 : 0 ≤ b) (hb2 : b < s.disk.nblocks) (hs : 0 ≤ start)
    (hal : start % DISK_BLOCK_SIZE = 0) (hlt : start < end_)
    (hnz : ∀ q, start ≤ q → q < end_ → src q ≠ 0) :
    write_datablock s b src start end_ =
      some (with_block s b (fun p =>
          if 0 ≤ p ∧ p < min DISK_BLOCK_SIZE (end_ - start) then src (start + p)
          else s.disk.data b p),
        min DISK_BLOCK_SIZE (end_ - start)) := by
  have htm : Int.tmod start DISK_BLOCK_SIZE = 0 := by
    rw [Int.tmod_eq_emod hs (by decide)]
    exact hal
  simp only [write_datablock, hb0, if_false]
  rw [disk_read_some _ _ hb1 hb2]
  simp only [htm]
  rw [write_datablock_loop_spec src end_ _ 0 start _ 0 (le_refl 0) (by decide) hs
    (by rw [DISK_BLOCK_SIZE_toNat]; omega) hnz]
  simp only []
  rw [disk_write_some _ _ _ hb1 hb2]
  have e1 : min (DISK_BLOCK_SIZE - 0) (max 0 (end_ - start)) = min DISK_BLOCK_SIZE (end_ - start) := by
    omega
  have e2 : max 0 (end_ - start) = end_ - start := by omega
  simp only [e2, zero_add, sub_zero, with_block]

/-- `read_datablock` on a valid data block, at a block-aligned destination
position, when the bytes to read are non-zero: it copies
`min DISK_BLOCK_SIZE (end_ - start)` bytes from the start of the block. -/
theorem read_datablock_aligned (s : SimpleFs) (hwf : mounted_volume s) (b : Int) (dest : Buf)
    (start end_ : Int) (hb : is_valid_datablock s b = true) (hs : 0 ≤ start)
    (hal : start % DISK_BLOCK_SIZE = 0) (hlt : start < end_)
    (hnz : ∀ p, 0 ≤ p → p < min DISK_BLOCK_SIZE (end_ - start) → s.disk.data b p ≠ 0) :
    read_datablock s b dest start end_ =
      some (fun q =>
          if start ≤ q ∧ q < start + min DISK_BLOCK_SIZE (end_ - start) then s.disk.data b (q - start)
          else dest q,
        min DISK_BLOCK_SIZE (end_ - start)) := by
  have htm : Int.tmod start DISK_BLOCK_SIZE = 0 := by
    rw [Int.tmod_eq_emod hs (by decide)]
    exact hal
  have hr := (is_valid_datablock_iff s b).1 hb
  have h0 := hwf.inode_blocks_nonneg
  have hd := hwf.device
  simp only [read_datablock, hb, Bool.true_eq_false, if_false]
  rw [disk_read_some _ _ (by omega) (by omega)]
  simp only [htm]
  have e1 : min (DISK_BLOCK_SIZE - 0) (max 0 (end_ - start)) = min DISK_BLOCK_SIZE (end_ - start) := by
    omega
  rw [read_datablock_loop_spec (s.disk.data b) end_ _ 0 start dest 0 (le_refl 0) (by decide) hs
    (by rw [DISK_BLOCK_SIZE_toNat]; omega) (by
      intro p hp1 hp2
      rw [e1] at hp2
      exact hnz p hp1 (by omega))]
  have e2 : max 0 (end_ - start) = end_ - start := by omega
  simp only [e2, zero_add, sub_zero]

end SimpleFs
namespace SimpleFs

theorem getD_set_true_of_busy (bm : List Bool) (b x : Nat) (h : bm.getD x false = true) :
    (bm.set b true).getD x false = true := by
  simp only [List.getD_eq_getElem?_getD] at h ⊢
  by_cases hxb : b = x
  · subst hxb
    by_cases hlt : b < bm.length
    · rw [List.getElem?_set_self hlt]; rfl
    · rw [List.getElem?_eq_none (by omega)] at h
      simp at h
  · rw [List.getElem?_set_ne hxb]
    exact h

theorem getD_set_true_self (bm : List Bool) (b : Nat) (h : b < bm.length) :
    (bm.set b true).getD b false = true := by
  simp only [List.getD_eq_getElem?_getD]
  rw [List.getElem?_set_self h]; rfl

/-- The effect of the indirect-block allocation at the head of the loop body
of `fs_write`. -/
theorem alloc_indirect_spec (s : SimpleFs) (vec : fs_datablock_vec) (hwf : mounted_volume s)
    (hfree : vec.indirect = 0 ∧ vec.blocks.length ≥ POINTERS_PER_INODE → 0 < s.bitmap.count false) :
    ∃ s1 vec1, alloc_indirect s vec = (s1, vec1) ∧ mounted_volume s1 ∧
      s1.superblock = s.superblock ∧ s1.disk = s.disk ∧ vec1.blocks = vec.blocks ∧
      (∀ x, s.bitmap.getD x false = true → s1.bitmap.getD x false = true) ∧
      ((vec.indirect = 0 ∧ vec.blocks.length ≥ POINTERS_PER_INODE) →
        is_valid_datablock s vec1.indirect = true ∧ s.bitmap.getD vec1.indirect.toNat true = false ∧
        s1.bitmap.getD vec1.indirect.toNat false = true ∧
        s1.bitmap.count false + 1 = s.bitmap.count false) ∧
      (¬ (vec.indirect = 0 ∧ vec.blocks.length ≥ POINTERS_PER_INODE) → s1 = s ∧ vec1 = vec) := by
  by_cases hc : vec.indirect = 0 ∧ vec.blocks.length ≥ POINTERS_PER_INODE
  · obtain ⟨b, h1, h2, h3, h4, h5, -⟩ := alloc_datablock_spec s hwf (hfree hc)
    refine ⟨{ s with bitmap := s.bitmap.set b true }, { vec with indirect := (b : Int) },
      by rw [alloc_indirect, if_pos hc, h1], set_true_mounted_volume s hwf b, rfl, rfl, rfl,
      fun x hx => getD_set_true_of_busy _ _ _ hx, fun _ => ⟨h4, ?_, ?_, h5⟩, fun h => absurd hc h⟩
    · simpa using h3
    · simpa using getD_set_true_self _ _ h2
  · exact ⟨s, vec, by rw [alloc_indirect, if_neg hc], hwf, rfl, rfl, rfl, fun x hx => hx,
      fun h => absurd h hc, fun _ => ⟨rfl, rfl⟩⟩

end SimpleFs
namespace SimpleFs

theorem getD_false_of_getD_true (bm : List Bool) (x : Nat) (h : bm.getD x true = false) :
    bm.getD x false = false := by
  simp only [List.getD_eq_getElem?_getD] at h ⊢
  cases hx : bm[x]? with
  | none => simp [hx] at h
  | some v => simpa [hx] using h

theorem getD_default_irrelevant (bm : List Bool) (x : Nat) (d d1 : Bool) (h : x < bm.length) :
    bm.getD x d = bm.getD x d1 := by
  simp only [List.getD_eq_getElem?_getD, List.getElem?_eq_getElem h, Option.getD_some]

theorem with_block_mounted_volume (s : SimpleFs) (hwf : mounted_volume s) (b : Int) (blk : Block) :
    mounted_volume (with_block s b blk) :=
  { mounted := hwf.mounted
    device := hwf.device
    bitmap_size := hwf.bitmap_size
    inode_blocks_nonneg := hwf.inode_blocks_nonneg
    inode_blocks_lt := hwf.inode_blocks_lt
    inodes := hwf.inodes
    int_range := hwf.int_range
    reserved := hwf.reserved }

theorem getD_append_singleton_valid (s : SimpleFs) (l : List Int) (b : Int) (k : Nat)
    (hl : ∀ x ∈ l, is_valid_datablock s x = true) (hb : is_valid_datablock s b = true)
    (hk : k ≤ l.length) : is_valid_datablock s ((l ++ [b]).getD k 0) = true := by
  have hmem : (l ++ [b]).getD k 0 ∈ l ++ [b] := by
    rw [List.getD_eq_getElem _ _ (by simp; omega)]
    exact List.getElem_mem _
  rcases List.mem_append.1 hmem with h | h
  · exact hl _ h
  · simp only [List.mem_singleton] at h
    rw [h]; exact hb

/-- One iteration of the loop of `fs_write` at offset 0, on a source without
zero byte, when the blocks of `vec` are valid data blocks and enough blocks
are free: the iteration allocates the indirect block if it is needed, allocates
one data block `bD`, appends it, and writes the next
`min DISK_BLOCK_SIZE (L - DISK_BLOCK_SIZE * i)` bytes into block `i` of the list. -/
theorem fs_write_loop_iter (data : Buf) (L : Int) (hnz : ∀ q, 0 ≤ q → q < L → data q ≠ 0) (f : Nat)
    (s : SimpleFs) (vec : fs_datablock_vec) (i : Int) (hwf : mounted_volume s)
    (hvalid : ∀ b ∈ vec.blocks, is_valid_datablock s b = true) (hi0 : 0 ≤ i)
    (hiL : DISK_BLOCK_SIZE * i < L) (hil : i ≤ vec.blocks.length)
    (hfree : (if vec.indirect = 0 ∧ vec.blocks.length ≥ POINTERS_PER_INODE then 2 else 1) ≤
      s.bitmap.count false) :
    ∃ (s3 : SimpleFs) (vec2 : fs_datablock_vec) (bD : Nat),
      fs_write_loop data L 0 0 (f + 1) s vec i (DISK_BLOCK_SIZE * i) =
        fs_write_loop data L 0 0 f s3 vec2 (i + 1)
          (DISK_BLOCK_SIZE * i + min DISK_BLOCK_SIZE (L - DISK_BLOCK_SIZE * i)) ∧
      mounted_volume s3 ∧ s3.superblock = s.superblock ∧
      vec2.blocks = vec.blocks ++ [(bD : Int)] ∧
      is_valid_datablock s bD = true ∧ s.bitmap.getD bD true = false ∧
      (∀ x, s.bitmap.getD x false = true → s3.bitmap.getD x false = true) ∧
      s3.bitmap.getD bD false = true ∧
      ((vec.indirect = 0 ∧ vec.blocks.length ≥ POINTERS_PER_INODE) →
        is_valid_datablock s vec2.indirect = true ∧ s.bitmap.getD vec2.indirect.toNat true = false ∧
        s3.bitmap.getD vec2.indirect.toNat false = true ∧ vec2.indirect ≠ (bD : Int)) ∧
      (¬ (vec.indirect = 0 ∧ vec.blocks.length ≥ POINTERS_PER_INODE) →
        vec2.indirect = vec.indirect ∧ first_free s.bitmap = some bD) ∧
      s3.bitmap.count false +
          (if vec.indirect = 0 ∧ vec.blocks.length ≥ POINTERS_PER_INODE then 2 else 1) =
        s.bitmap.count false ∧
      (∀ x, s3.disk.data x =
        if x = vec2.blocks.getD i.toNat 0 then
          (fun p =>
            if 0 ≤ p ∧ p < min DISK_BLOCK_SIZE (L - DISK_BLOCK_SIZE * i) then data (DISK_BLOCK_SIZE * i + p)
            else s.disk.data x p)
        else s.disk.data x) := by
  obtain ⟨s1, vec1, e1, hwf1, hsb1, hd1, hb1, hmono1, hc1, hnc1⟩ :=
    alloc_indirect_spec s vec hwf (by intro hc; rw [if_pos hc] at hfree; omega)
  have hfree1 : 0 < s1.bitmap.count false := by
    by_cases hc : vec.indirect = 0 ∧ vec.blocks.length ≥ POINTERS_PER_INODE
    · rw [if_pos hc] at hfree
      have := (hc1 hc).2.2.2
      omega
    · rw [if_neg hc] at hfree
      rw [(hnc1 hc).1]
      omega
  obtain ⟨bD, a1, a2, a3, a4, a5, a6⟩ := alloc_datablock_spec s1 hwf1 hfree1
  have hnotfull : ¬ (is_disk_full s1 = true) := by
    rw [is_disk_full_iff]; omega
  have hv4 : is_valid_datablock s bD = true := by
    simpa [is_valid_datablock, hsb1] using a4
  have hblk : is_valid_datablock s ((vec.blocks ++ [(bD : Int)]).getD i.toNat 0) = true :=
    getD_append_singleton_valid s _ _ _ hvalid hv4 (by omega)
  have hr := (is_valid_datablock_iff s _).1 hblk
  have h0 := hwf.inode_blocks_nonneg
  have hdev := hwf.device
  rw [fs_write_loop, if_pos hiL]
  simp only [e1, hnotfull, if_false, a1, hb1, zero_add, add_zero]
  have hidx : ¬ (i < 0 ∨ ((vec.blocks ++ [(bD : Int)]).length : Int) ≤ i) := by
    simp only [List.length_append, List.length_singleton]; push_cast; omega
  rw [if_neg hidx]
  have hal : (DISK_BLOCK_SIZE * i) % DISK_BLOCK_SIZE = 0 := by
    simp only [DISK_BLOCK_SIZE]; omega
  have hs0 : 0 ≤ DISK_BLOCK_SIZE * i := by
    simp only [DISK_BLOCK_SIZE]; omega
  have hn0 : ¬ (min DISK_BLOCK_SIZE (L - DISK_BLOCK_SIZE * i) = 0) := by
    simp only [DISK_BLOCK_SIZE] at hiL ⊢; omega
  have hnb : (vec.blocks ++ [(bD : Int)]).getD i.toNat 0 < s1.disk.nblocks := by
    rw [hd1]; omega
  rw [write_datablock_aligned { s1 with bitmap := s1.bitmap.set bD true } _ data (DISK_BLOCK_SIZE * i) L
    (by omega) (by omega) hnb hs0 hal hiL
    (fun q h1 h2 => hnz q (by omega) h2)]
  simp only [hn0, if_false]
  refine ⟨_, ⟨vec1.indirect, vec.blocks ++ [(bD : Int)]⟩, bD, rfl,
    with_block_mounted_volume _ (set_true_mounted_volume s1 hwf1 bD) _ _, hsb1, rfl, hv4, ?_, ?_, ?_,
    ?_, ?_, ?_, ?_⟩
  · by_cases hc : vec.indirect = 0 ∧ vec.blocks.length ≥ POINTERS_PER_INODE
    · have hlen : bD < s.bitmap.length := by
        have e1 := hwf1.bitmap_size
        have e2 := hwf.bitmap_size
        rw [hd1] at e1
        omega
      have h1 := getD_false_of_getD_true _ _ a3
      have h2 : s.bitmap.getD bD false ≠ true := by
        intro h
        rw [hmono1 bD h] at h1
        exact absurd h1 (by decide)
      rw [getD_default_irrelevant _ _ true false hlen]
      simpa using h2
    · rw [(hnc1 hc).1] at a3; exact a3
  · intro x hx
    exact getD_set_true_of_busy _ _ _ (hmono1 x hx)
  · exact getD_set_true_self _ _ a2
  · intro hc
    obtain ⟨c1, c2, c3, c4⟩ := hc1 hc
    refine ⟨c1, c2, getD_set_true_of_busy _ _ _ c3, ?_⟩
    intro heq
    have := getD_false_of_getD_true _ _ a3
    rw [heq] at c3
    simp only [Int.toNat_ofNat] at c3
    rw [c3] at this
    exact absurd this (by decide)
  · intro hc
    rw [(hnc1 hc).2]
    rw [(hnc1 hc).1] at a6
    exact ⟨rfl, a6⟩
  · by_cases hc : vec.indirect = 0 ∧ vec.blocks.length ≥ POINTERS_PER_INODE
    · rw [if_pos hc]
      have := (hc1 hc).2.2.2
      show (s1.bitmap.set bD true).count false + 2 = _
      omega
    · rw [if_neg hc]
      show (s1.bitmap.set bD true).count false + 1 = _
      rw [← (hnc1 hc).1]
      omega
  · intro x
    simp only [with_block, hd1]
    split
    · rename_i hx
      subst hx
      rfl
    · rfl

end SimpleFs
namespace SimpleFs

theorem is_valid_datablock_congr (s s1 : SimpleFs) (h : s1.superblock = s.superblock) (b : Int) :
    is_valid_datablock s1 b = is_valid_datablock s b := by
  simp only [is_valid_datablock, h]

theorem valid_datablock_pos (s : SimpleFs) (hwf : mounted_volume s) (b : Int)
    (h : is_valid_datablock s b = true) : 0 < b := by
  have := (is_valid_datablock_iff s b).1 h
  have := hwf.inode_blocks_nonneg
  omega

theorem free_not_busy (bm : List Bool) (b : Int) (x : Nat) (hb : bm.getD b.toNat false = true)
    (hx : bm.getD x true = false) (h0 : 0 ≤ b) : b ≠ (x : Int) := by
  intro h
  subst h
  simp only [Int.toNat_ofNat] at hb
  rw [getD_false_of_getD_true _ _ hx] at hb
  exact absurd hb (by decide)

/-- The loop invariant of `fs_write` is re-established by one iteration. -/
theorem blocks_consistent_iter (s s3 : SimpleFs) (vec vec2 : fs_datablock_vec) (bD : Nat)
    (hwf : mounted_volume s) (hc : blocks_consistent s vec) (hsb : s3.superblock = s.superblock)
    (hbl : vec2.blocks = vec.blocks ++ [(bD : Int)])
    (hvD : is_valid_datablock s bD = true) (hfD : s.bitmap.getD bD true = false)
    (hmono : ∀ x, s.bitmap.getD x false = true → s3.bitmap.getD x false = true)
    (hbusyD : s3.bitmap.getD bD false = true)
    (hcI : (vec.indirect = 0 ∧ vec.blocks.length ≥ POINTERS_PER_INODE) →
      is_valid_datablock s vec2.indirect = true ∧ s.bitmap.getD vec2.indirect.toNat true = false ∧
      s3.bitmap.getD vec2.indirect.toNat false = true ∧ vec2.indirect ≠ (bD : Int))
    (hncI : ¬ (vec.indirect = 0 ∧ vec.blocks.length ≥ POINTERS_PER_INODE) → vec2.indirect = vec.indirect) :
    blocks_consistent s3 vec2 := by
  have hDnot : (bD : Int) ∉ vec.blocks := by
    intro hmem
    exact free_not_busy _ _ _ (hc.busy _ hmem) hfD (by omega) rfl
  refine ⟨?_, ?_, ?_, ?_, ?_⟩
  · intro b hb
    rw [is_valid_datablock_congr s s3 hsb]
    rw [hbl] at hb
    rcases List.mem_append.1 hb with h | h
    · exact hc.valid b h
    · simp only [List.mem_singleton] at h
      rw [h]; exact hvD
  · intro b hb
    rw [hbl] at hb
    rcases List.mem_append.1 hb with h | h
    · exact hmono _ (hc.busy b h)
    · simp only [List.mem_singleton] at h
      rw [h]; simpa using hbusyD
  · rw [hbl]
    apply List.Nodup.append hc.nodup (List.nodup_singleton _)
    intro x hx1 hx2
    simp only [List.mem_singleton] at hx2
    subst hx2
    exact hDnot hx1
  · by_cases hcond : vec.indirect = 0 ∧ vec.blocks.length ≥ POINTERS_PER_INODE
    · obtain ⟨c1, c2, c3, c4⟩ := hcI hcond
      right
      refine ⟨by rw [is_valid_datablock_congr s s3 hsb]; exact c1, c3, ?_⟩
      rw [hbl]
      intro hmem
      rcases List.mem_append.1 hmem with h | h
      · have hb := hc.busy _ h
        have hpos := valid_datablock_pos s hwf _ c1
        have := getD_false_of_getD_true _ _ c2
        rw [this] at hb
        exact absurd hb (by decide)
      · simp only [List.mem_singleton] at h
        exact c4 h
    · rw [hncI hcond]
      rcases hc.indirect with h | ⟨h1, h2, h3⟩
      · exact Or.inl h
      · right
        refine ⟨by rw [is_valid_datablock_congr s s3 hsb]; exact h1, hmono _ h2, ?_⟩
        rw [hbl]
        intro hmem
        rcases List.mem_append.1 hmem with h | h
        · exact h3 h
        · simp only [List.mem_singleton] at h
          exact free_not_busy _ _ _ h2 hfD (le_of_lt (valid_datablock_pos s hwf _ h1)) h
  · intro hlen
    rw [hbl] at hlen
    simp only [List.length_append, List.length_singleton] at hlen
    by_cases hcond : vec.indirect = 0 ∧ vec.blocks.length ≥ POINTERS_PER_INODE
    · have := valid_datablock_pos s hwf _ (hcI hcond).1
      omega
    · rw [hncI hcond]
      intro h0
      exact hcond ⟨h0, by omega⟩

end SimpleFs
namespace SimpleFs

theorem nodup_getD_ne (l : List Int) (hnd : l.Nodup) (j k : Nat) (hj : j < l.length) (hk : k < l.length)
    (hne : j ≠ k) : l.getD j 0 ≠ l.getD k 0 := by
  rw [List.getD_eq_getElem _ _ hj, List.getD_eq_getElem _ _ hk]
  intro h
  exact hne ((List.Nodup.getElem_inj_iff hnd).1 h)

theorem fs_write_loop_done (data : Buf) (length block_offset byte_offset : Int) (fuel : Nat)
    (s : SimpleFs) (vec : fs_datablock_vec) (i bytes : Int) (h : ¬ bytes < length) :
    fs_write_loop data length block_offset byte_offset fuel s vec i bytes = some (s, vec, bytes) := by
  cases fuel <;> rw [fs_write_loop, if_neg h]

/-- The loop of `fs_write` at offset 0 on a consistent block list with enough
free blocks: it runs to the end, returns `L`, keeps the list consistent,
appends one block per `DISK_BLOCK_SIZE` bytes, leaves chunk `j` of the source in
block `j` of the list, and changes no other disk block. -/
theorem fs_write_loop_fill (data : Buf) (L : Int) (hnz : ∀ q, 0 ≤ q → q < L → data q ≠ 0) (fuel : Nat) :
    ∀ (s : SimpleFs) (vec : fs_datablock_vec) (i : Int), mounted_volume s → blocks_consistent s vec →
      0 ≤ i → DISK_BLOCK_SIZE * i < L → i ≤ vec.blocks.length → L - DISK_BLOCK_SIZE * i ≤ fuel →
      (L - DISK_BLOCK_SIZE * i + 4095) / 4096 +
          (if vec.indirect = 0 ∧ (5 : Int) < vec.blocks.length + (L - DISK_BLOCK_SIZE * i + 4095) / 4096
            then 1 else 0) ≤ s.bitmap.count false →
      ∃ s1 vec1, fs_write_loop data L 0 0 fuel s vec i (DISK_BLOCK_SIZE * i) = some (s1, vec1, L) ∧
        mounted_volume s1 ∧ s1.superblock = s.superblock ∧ blocks_consistent s1 vec1 ∧
        (∃ new, vec1.blocks = vec.blocks ++ new ∧
          (new.length : Int) = (L - DISK_BLOCK_SIZE * i + 4095) / 4096) ∧
        (∀ j : Nat, i ≤ j → (j : Int) < i + (L - DISK_BLOCK_SIZE * i + 4095) / 4096 →
          ∀ p, 0 ≤ p → p < DISK_BLOCK_SIZE → DISK_BLOCK_SIZE * j + p < L →
            s1.disk.data (vec1.blocks.getD j 0) p = data (DISK_BLOCK_SIZE * j + p)) ∧
        (∀ x, (∀ j : Nat, i ≤ j → (j : Int) < i + (L - DISK_BLOCK_SIZE * i + 4095) / 4096 →
          vec1.blocks.getD j 0 ≠ x) → s1.disk.data x = s.disk.data x) := by
  induction fuel with
  | zero =>
    intro s vec i _ _ _ hiL _ hfuel _
    simp only [Nat.cast_zero] at hfuel
    omega
  | succ f ih =>
    intro s vec i hwf hc hi0 hiL hil hfuel hfree
    have hrem1 : 1 ≤ (L - DISK_BLOCK_SIZE * i + 4095) / 4096 := by omega
    have hfree0 : (if vec.indirect = 0 ∧ vec.blocks.length ≥ POINTERS_PER_INODE then 2 else 1) ≤
        s.bitmap.count false := by
      by_cases hcond : vec.indirect = 0 ∧ vec.blocks.length ≥ POINTERS_PER_INODE
      · rw [if_pos hcond]
        have h5 : (5 : Int) ≤ vec.blocks.length := by
          have := hcond.2
          simp only [POINTERS_PER_INODE] at this
          omega
        rw [if_pos ⟨hcond.1, by omega⟩] at hfree
        omega
      · rw [if_neg hcond]
        split at hfree <;> omega
    obtain ⟨s3, vec2, bD, E, hwf3, hsb3, hbl2, hvD, hfD, hmono, hbusyD, hcI, hncI, hcount, hdisk⟩ :=
      fs_write_loop_iter data L hnz f s vec i hwf hc.valid hi0 hiL hil hfree0
    have hc3 : blocks_consistent s3 vec2 :=
      blocks_consistent_iter s s3 vec vec2 bD hwf hc hsb3 hbl2 hvD hfD hmono hbusyD hcI
        (fun h => (hncI h).1)
    have hiN : ((i.toNat : Nat) : Int) = i := Int.toNat_of_nonneg hi0
    have hget2 : ∀ (l : List Int), (vec2.blocks ++ l).getD i.toNat 0 = vec2.blocks.getD i.toNat 0 := by
      intro l
      apply List.getD_append
      rw [hbl2]
      simp only [List.length_append, List.length_singleton]
      omega
    rw [E]
    by_cases hlast : L - DISK_BLOCK_SIZE * i ≤ DISK_BLOCK_SIZE
    · -- the last iteration
      have hmin : DISK_BLOCK_SIZE * i + min DISK_BLOCK_SIZE (L - DISK_BLOCK_SIZE * i) = L := by omega
      have hrem : (L - DISK_BLOCK_SIZE * i + 4095) / 4096 = 1 := by
        simp only [DISK_BLOCK_SIZE] at *; omega
      rw [hmin, fs_write_loop_done _ _ _ _ _ _ _ _ _ (lt_irrefl L)]
      refine ⟨s3, vec2, rfl, hwf3, hsb3, hc3, ⟨[(bD : Int)], hbl2, by rw [hrem]; rfl⟩, ?_, ?_⟩
      · intro j hj1 hj2 p hp1 hp2 hp3
        have hji : j = i.toNat := by omega
        subst hji
        rw [hdisk, if_pos rfl]
        rw [hiN] at hp3
        rw [if_pos ⟨hp1, by omega⟩, hiN]
      · intro x hx
        have := hx i.toNat (by omega) (by omega)
        rw [hdisk, if_neg (fun h => this h.symm)]
    · -- a full block was written and more remains
      have hmin : DISK_BLOCK_SIZE * i + min DISK_BLOCK_SIZE (L - DISK_BLOCK_SIZE * i) =
          DISK_BLOCK_SIZE * (i + 1) := by
        simp only [DISK_BLOCK_SIZE] at *; omega
      have hrem : (L - DISK_BLOCK_SIZE * (i + 1) + 4095) / 4096 =
          (L - DISK_BLOCK_SIZE * i + 4095) / 4096 - 1 := by
        simp only [DISK_BLOCK_SIZE] at *; omega
      have hlen2 : (vec2.blocks.length : Int) = vec.blocks.length + 1 := by
        rw [hbl2]; simp
      have hfree3 : (L - DISK_BLOCK_SIZE * (i + 1) + 4095) / 4096 +
          (if vec2.indirect = 0 ∧
              (5 : Int) < vec2.blocks.length + (L - DISK_BLOCK_SIZE * (i + 1) + 4095) / 4096
            then 1 else 0) ≤ s3.bitmap.count false := by
        rw [hrem, hlen2]
        by_cases hcond : vec.indirect = 0 ∧ vec.blocks.length ≥ POINTERS_PER_INODE
        · have hne : vec2.indirect ≠ 0 := by
            have := valid_datablock_pos s hwf _ (hcI hcond).1
            omega
          rw [if_pos hcond] at hcount
          have h5 : (5 : Int) ≤ vec.blocks.length := by
            have := hcond.2
            simp only [POINTERS_PER_INODE] at this
            omega
          rw [if_pos ⟨hcond.1, by omega⟩] at hfree
          rw [if_neg (fun h => hne h.1)]
          omega
        · rw [if_neg hcond] at hcount
          rw [(hncI hcond).1]
          have e : (vec.blocks.length : Int) + 1 + ((L - DISK_BLOCK_SIZE * i + 4095) / 4096 - 1) =
              vec.blocks.length + (L - DISK_BLOCK_SIZE * i + 4095) / 4096 := by omega
          rw [e]
          split at hfree <;> rename_i hh
          · rw [if_pos hh]; omega
          · rw [if_neg hh]; omega
      obtain ⟨s1, vec1, e1, hwf1, hsb1, hc1, ⟨new1, hn1, hn2⟩, hcont, hframe⟩ :=
        ih s3 vec2 (i + 1) hwf3 hc3 (by omega) (by simp only [DISK_BLOCK_SIZE] at *; omega)
          (by omega) (by simp only [DISK_BLOCK_SIZE] at *; push_cast at hfuel; omega) hfree3
      rw [hmin, e1]
      have hlen1 : (vec1.blocks.length : Int) =
          vec.blocks.length + (L - DISK_BLOCK_SIZE * i + 4095) / 4096 := by
        rw [hn1, List.length_append]
        push_cast
        rw [hn2, hlen2, hrem]
        omega
      have hgi : vec1.blocks.getD i.toNat 0 = vec2.blocks.getD i.toNat 0 := by
        rw [hn1]; exact hget2 _
      have hother : ∀ j : Nat, i + 1 ≤ j →
          (j : Int) < i + 1 + (L - DISK_BLOCK_SIZE * (i + 1) + 4095) / 4096 →
          vec1.blocks.getD j 0 ≠ vec1.blocks.getD i.toNat 0 := by
        intro j hj1 hj2
        apply nodup_getD_ne _ hc1.nodup
        · omega
        · omega
        · omega
      refine ⟨s1, vec1, rfl, hwf1, hsb1.trans hsb3, hc1,
        ⟨(bD : Int) :: new1, by rw [hn1, hbl2]; simp, by simp only [List.length_cons]; push_cast; omega⟩,
        ?_, ?_⟩
      · intro j hj1 hj2 p hp1 hp2 hp3
        by_cases hji : j = i.toNat
        · subst hji
          rw [hframe _ hother, hgi, hdisk, if_pos rfl]
          rw [hiN] at hp3
          rw [if_pos ⟨hp1, by simp only [DISK_BLOCK_SIZE] at *; omega⟩, hiN]
        · exact hcont j (by omega) (by omega) p hp1 hp2 hp3
      · intro x hx
        rw [hframe x (fun j hj1 hj2 => hx j (by omega) (by omega))]
        have := hx i.toNat (by omega) (by omega)
        rw [hgi] at this
        rw [hdisk, if_neg (fun h => this h.symm)]

end SimpleFs
namespace SimpleFs

theorem set_pointers_spec (l : List Int) : ∀ (blk : Block) (k : Int), 0 ≤ k →
    k + l.length ≤ (POINTERS_PER_BLOCK : Int) →
    ∃ blk1, set_pointers blk l k = some blk1 ∧
      (∀ j : Nat, j < l.length → get_int blk1 (k + j) = wrap32 (l.getD j 0)) ∧
      (∀ m, m < k → get_int blk1 m = get_int blk m) := by
  induction l with
  | nil =>
    intro blk k _ _
    exact ⟨blk, rfl, fun j hj => absurd hj (by simp), fun m _ => rfl⟩
  | cons v rest ih =>
    intro blk k hk0 hk
    simp only [List.length_cons] at hk
    push_cast at hk
    obtain ⟨blk1, e1, e2, e3⟩ := ih (set_int blk k v) (k + 1) (by omega) (by omega)
    refine ⟨blk1, ?_, ?_, ?_⟩
    · rw [set_pointers, if_pos (by omega)]
      exact e1
    · intro j hj
      cases j with
      | zero =>
        simp only [Nat.cast_zero, add_zero, List.getD_cons_zero]
        rw [e3 k (by omega), get_int_set_int_same]
      | succ j =>
        simp only [List.length_cons] at hj
        have := e2 j (by omega)
        simp only [List.getD_cons_succ]
        rw [← this]
        congr 1
        push_cast
        omega
    · intro m hm
      rw [e3 m (by omega), get_int_set_int_ne _ _ _ _ (by omega)]

theorem set_pointers_none (l : List Int) : ∀ (blk : Block) (k : Int), k ≤ (POINTERS_PER_BLOCK : Int) →
    (POINTERS_PER_BLOCK : Int) < k + l.length → set_pointers blk l k = none := by
  induction l with
  | nil =>
    intro blk k h1 h2
    simp at h2
    omega
  | cons v rest ih =>
    intro blk k h1 h2
    simp only [List.length_cons] at h2
    push_cast at h2
    rw [set_pointers]
    by_cases hk : k < (POINTERS_PER_BLOCK : Int)
    · rw [if_pos hk]
      exact ih _ _ (by omega) (by omega)
    · rw [if_neg hk]

/-- The update of the indirect block after the loop of `fs_write`, for a
consistent block list within the capacity of an inode. -/
theorem save_pointers_spec (s : SimpleFs) (vec : fs_datablock_vec) (hwf : mounted_volume s)
    (hc : blocks_consistent s vec)
    (hcap : vec.blocks.length ≤ POINTERS_PER_INODE + POINTERS_PER_BLOCK) :
    ∃ s1, save_pointers s vec = some s1 ∧ mounted_volume s1 ∧ s1.superblock = s.superblock ∧
      s1.bitmap = s.bitmap ∧
      (∀ x, x ≠ vec.indirect → s1.disk.data x = s.disk.data x) ∧
      (is_valid_datablock s vec.indirect = true →
        ∀ j : Nat, j + POINTERS_PER_INODE < vec.blocks.length →
          get_int (s1.disk.data vec.indirect) j = vec.blocks.getD (j + POINTERS_PER_INODE) 0) := by
  by_cases hv : is_valid_datablock s vec.indirect = true
  · have hr := (is_valid_datablock_iff s _).1 hv
    have h0 := hwf.inode_blocks_nonneg
    have hd := hwf.device
    obtain ⟨blk1, e1, e2, -⟩ := set_pointers_spec (vec.blocks.drop POINTERS_PER_INODE)
      (s.disk.data vec.indirect) 0 (le_refl 0) (by
        simp only [List.length_drop, POINTERS_PER_INODE, POINTERS_PER_BLOCK] at hcap ⊢
        omega)
    refine ⟨with_block s vec.indirect blk1, ?_, with_block_mounted_volume s hwf _ _, rfl, rfl, ?_, ?_⟩
    · simp only [save_pointers, hv, if_true]
      rw [disk_read_some _ _ (by omega) (by omega)]
      simp only [e1]
      rw [disk_write_some _ _ _ (by omega) (by omega)]
      rfl
    · intro x hx
      simp only [with_block, hx, if_false]
    · intro _ j hj
      simp only [with_block, if_true]
      have hdl : j < (List.drop POINTERS_PER_INODE vec.blocks).length := by
        simp only [List.length_drop]; omega
      have := e2 j hdl
      rw [zero_add] at this
      rw [this]
      have hmem : (List.drop POINTERS_PER_INODE vec.blocks).getD j 0 ∈ vec.blocks := by
        rw [List.getD_eq_getElem _ _ hdl]
        exact List.mem_of_mem_drop (List.getElem_mem _)
      have hval := (is_valid_datablock_iff s _).1 (hc.valid _ hmem)
      have hir := hwf.int_range
      rw [wrap32_of_range _ (by omega) (by omega)]
      rw [List.getD_eq_getElem _ _ hdl, List.getD_eq_getElem _ _ hj, List.getElem_drop]
      congr 1
      omega
  · refine ⟨s, ?_, hwf, rfl, rfl, fun x _ => rfl, fun h => absurd h hv⟩
    simp only [save_pointers, hv, Bool.false_eq_true, if_false]

end SimpleFs
namespace SimpleFs

theorem fs_read_loop_done (s : SimpleFs) (length byte_offset : Int) (l : List Int) (out : Buf)
    (bytes : Int) (h : ¬ bytes < length) :
    fs_read_loop s length byte_offset l out bytes = some (out, bytes) := by
  cases l with
  | nil => rfl
  | cons b rest => rw [fs_read_loop, if_neg h]

/-- The loop of `fs_read` at offset 0 over a block list whose block `j` holds
chunk `j` of `data`: it returns `L` and the destination holds `data[0..L)`. -/
theorem fs_read_loop_spec (s : SimpleFs) (hwf : mounted_volume s) (L : Int) (data : Buf)
    (hnz : ∀ q, 0 ≤ q → q < L → data q ≠ 0) :
    ∀ (l : List Int) (out : Buf) (i : Int), 0 ≤ i → DISK_BLOCK_SIZE * i ≤ L →
      (∀ j : Nat, j < l.length → DISK_BLOCK_SIZE * (i + j) < L →
        is_valid_datablock s (l.getD j 0) = true ∧
        ∀ p, 0 ≤ p → p < DISK_BLOCK_SIZE → DISK_BLOCK_SIZE * (i + j) + p < L →
          s.disk.data (l.getD j 0) p = data (DISK_BLOCK_SIZE * (i + j) + p)) →
      L ≤ DISK_BLOCK_SIZE * (i + l.length) →
      (∀ q, 0 ≤ q → q < DISK_BLOCK_SIZE * i → out q = data q) →
      ∃ out1, fs_read_loop s L 0 l out (DISK_BLOCK_SIZE * i) = some (out1, L) ∧
        ∀ q, 0 ≤ q → q < L → out1 q = data q := by
  intro l
  induction l with
  | nil =>
    intro out i hi0 hiL _ hlen hout
    simp only [List.length_nil, Nat.cast_zero, add_zero] at hlen
    have e : DISK_BLOCK_SIZE * i = L := by omega
    rw [e]
    rw [e] at hout
    exact ⟨out, rfl, hout⟩
  | cons b rest ih =>
    intro out i hi0 hiL hblocks hlen hout
    by_cases hlt : DISK_BLOCK_SIZE * i < L
    · obtain ⟨hbv, hbc⟩ := hblocks 0 (by simp) (by simpa using hlt)
      simp only [List.getD_cons_zero, Nat.cast_zero, add_zero] at hbv hbc
      have hs0 : 0 ≤ DISK_BLOCK_SIZE * i := by simp only [DISK_BLOCK_SIZE]; omega
      have hal : (DISK_BLOCK_SIZE * i) % DISK_BLOCK_SIZE = 0 := by simp only [DISK_BLOCK_SIZE]; omega
      have hn0 : ¬ (min DISK_BLOCK_SIZE (L - DISK_BLOCK_SIZE * i) = 0) := by
        simp only [DISK_BLOCK_SIZE] at hlt ⊢; omega
      rw [fs_read_loop, if_pos hlt, add_zero,
        read_datablock_aligned s hwf b out _ L hbv hs0 hal hlt (by
          intro p hp1 hp2
          rw [hbc p hp1 (by omega) (by omega)]
          exact hnz _ (by omega) (by omega))]
      simp only [hn0, if_false]
      by_cases hlast : L - DISK_BLOCK_SIZE * i ≤ DISK_BLOCK_SIZE
      · have hmin : DISK_BLOCK_SIZE * i + min DISK_BLOCK_SIZE (L - DISK_BLOCK_SIZE * i) = L := by omega
        rw [hmin, fs_read_loop_done _ _ _ _ _ _ (lt_irrefl L)]
        refine ⟨_, rfl, ?_⟩
        intro q hq0 hqL
        by_cases hq : DISK_BLOCK_SIZE * i ≤ q
        · rw [if_pos ⟨hq, by omega⟩, hbc _ (by omega) (by omega) (by omega)]
          congr 1
          omega
        · rw [if_neg (by omega)]
          exact hout q hq0 (by omega)
      · have hmin : DISK_BLOCK_SIZE * i + min DISK_BLOCK_SIZE (L - DISK_BLOCK_SIZE * i) =
            DISK_BLOCK_SIZE * (i + 1) := by
          simp only [DISK_BLOCK_SIZE] at *; omega
        rw [hmin]
        have hDB : DISK_BLOCK_SIZE = 4096 := rfl
        apply ih _ (i + 1) (by omega) (by omega)
        · intro j hj hjL
          have := hblocks (j + 1) (by simp only [List.length_cons]; omega)
            (by push_cast; rw [← add_assoc, add_right_comm]; rw [add_assoc] at hjL; convert hjL using 2; omega)
          simp only [List.getD_cons_succ] at this
          refine ⟨this.1, ?_⟩
          intro p hp1 hp2 hp3
          have e : DISK_BLOCK_SIZE * (i + ((j + 1 : Nat) : Int)) = DISK_BLOCK_SIZE * (i + 1 + (j : Int)) := by
            push_cast; ring
          rw [e] at this
          exact this.2 p hp1 hp2 hp3
        · simp only [List.length_cons] at hlen
          push_cast at hlen
          have e : i + 1 + (rest.length : Int) = i + ((rest.length : Int) + 1) := by ring
          rw [e]; exact hlen
        · intro q hq0 hq1
          by_cases hq : DISK_BLOCK_SIZE * i ≤ q
          · rw [if_pos ⟨hq, by omega⟩, hbc _ (by omega) (by omega) (by omega)]
            congr 1
            omega
          · rw [if_neg (by omega)]
            exact hout q hq0 (by omega)
    · have e : DISK_BLOCK_SIZE * i = L := by omega
      rw [e, fs_read_loop_done _ _ _ _ _ _ (lt_irrefl L)]
      rw [e] at hout
      exact ⟨out, rfl, hout⟩

end SimpleFs
namespace SimpleFs

theorem wrap32_valid (s : SimpleFs) (hwf : mounted_volume s) (b : Int)
    (hb : is_valid_datablock s b = true) : wrap32 b = b := by
  have h := (is_valid_datablock_iff s b).1 hb
  have h0 := hwf.inode_blocks_nonneg
  have h1 := hwf.int_range
  exact wrap32_of_range _ (by omega) (by omega)

/-- The direct pointers stored by `fs_write`, once resolved again, start with
the first `POINTERS_PER_INODE` blocks of the list. -/
theorem filter_saved_direct (s : SimpleFs) (hwf : mounted_volume s) (old B : List Int)
    (hB : ∀ b ∈ B, is_valid_datablock s b = true) :
    ∃ more, ([wrap32 ((update_direct old B).getD 0 0), wrap32 ((update_direct old B).getD 1 0),
        wrap32 ((update_direct old B).getD 2 0), wrap32 ((update_direct old B).getD 3 0),
        wrap32 ((update_direct old B).getD 4 0)]).filter (is_valid_datablock s) =
      B.take POINTERS_PER_INODE ++ more ∧ (POINTERS_PER_INODE ≤ B.length → more = []) := by
  have hw : ∀ b ∈ B, wrap32 b = b := fun b hb => wrap32_valid s hwf b (hB b hb)
  rcases B with _ | ⟨b0, _ | ⟨b1, _ | ⟨b2, _ | ⟨b3, _ | ⟨b4, rest⟩⟩⟩⟩⟩
  · exact ⟨_, (List.nil_append _).symm, fun h => by simp [POINTERS_PER_INODE] at h⟩
  · refine ⟨List.filter (is_valid_datablock s) [wrap32 (old.getD 1 0), wrap32 (old.getD 2 0),
      wrap32 (old.getD 3 0), wrap32 (old.getD 4 0)], ?_, fun h => by simp [POINTERS_PER_INODE] at h⟩
    have v0 := hB b0 (by simp)
    have w0 := hw b0 (by simp)
    simp [update_direct, range_POINTERS_PER_INODE, POINTERS_PER_INODE, w0, v0, List.filter_cons]
  · refine ⟨List.filter (is_valid_datablock s) [wrap32 (old.getD 2 0),
      wrap32 (old.getD 3 0), wrap32 (old.getD 4 0)], ?_, fun h => by simp [POINTERS_PER_INODE] at h⟩
    have v0 := hB b0 (by simp)
    have w0 := hw b0 (by simp)
    have v1 := hB b1 (by simp)
    have w1 := hw b1 (by simp)
    simp [update_direct, range_POINTERS_PER_INODE, POINTERS_PER_INODE, w0, v0, w1, v1, List.filter_cons]
  · refine ⟨List.filter (is_valid_datablock s) [wrap32 (old.getD 3 0), wrap32 (old.getD 4 0)], ?_,
      fun h => by simp [POINTERS_PER_INODE] at h⟩
    have v0 := hB b0 (by simp)
    have w0 := hw b0 (by simp)
    have v1 := hB b1 (by simp)
    have w1 := hw b1 (by simp)
    have v2 := hB b2 (by simp)
    have w2 := hw b2 (by simp)
    simp [update_direct, range_POINTERS_PER_INODE, POINTERS_PER_INODE, w0, v0, w1, v1, w2, v2,
      List.filter_cons]
  · refine ⟨List.filter (is_valid_datablock s) [wrap32 (old.getD 4 0)], ?_,
      fun h => by simp [POINTERS_PER_INODE] at h⟩
    have v0 := hB b0 (by simp)
    have w0 := hw b0 (by simp)
    have v1 := hB b1 (by simp)
    have w1 := hw b1 (by simp)
    have v2 := hB b2 (by simp)
    have w2 := hw b2 (by simp)
    have v3 := hB b3 (by simp)
    have w3 := hw b3 (by simp)
    simp [update_direct, range_POINTERS_PER_INODE, POINTERS_PER_INODE, w0, v0, w1, v1, w2, v2, w3, v3,
      List.filter_cons]
  · refine ⟨[], ?_, fun _ => rfl⟩
    have v0 := hB b0 (by simp)
    have w0 := hw b0 (by simp)
    have v1 := hB b1 (by simp)
    have w1 := hw b1 (by simp)
    have v2 := hB b2 (by simp)
    have w2 := hw b2 (by simp)
    have v3 := hB b3 (by simp)
    have w3 := hw b3 (by simp)
    have v4 := hB b4 (by simp)
    have w4 := hw b4 (by simp)
    simp [update_direct, range_POINTERS_PER_INODE, POINTERS_PER_INODE, w0, v0, w1, v1, w2, v2, w3, v3,
      w4, v4, List.filter_cons]

theorem takeWhile_append_of_all {α : Type} (p : α → Bool) (l1 l2 : List α) (h : ∀ x ∈ l1, p x = true) :
    (l1 ++ l2).takeWhile p = l1 ++ l2.takeWhile p := by
  induction l1 with
  | nil => rfl
  | cons a rest ih =>
    simp only [List.cons_append, List.takeWhile_cons, h a (List.mem_cons_self _ _), if_true]
    rw [ih (fun x hx => h x (List.mem_cons_of_mem _ hx))]

/-- The entries of the indirect block written by `fs_write`, once resolved
again, start with the blocks of the list from index `POINTERS_PER_INODE` on. -/
theorem takeWhile_saved_pointers (s : SimpleFs) (blk : Block) (B : List Int)
    (hB : ∀ b ∈ B, is_valid_datablock s b = true)
    (hcap : B.length ≤ POINTERS_PER_INODE + POINTERS_PER_BLOCK)
    (hptr : ∀ j : Nat, j + POINTERS_PER_INODE < B.length →
      get_int blk j = B.getD (j + POINTERS_PER_INODE) 0) :
    ∃ more, ((List.range POINTERS_PER_BLOCK).map (fun (k : Nat) => get_int blk (k : Int))).takeWhile
      (is_valid_datablock s) = B.drop POINTERS_PER_INODE ++ more := by
  have hsplit : POINTERS_PER_BLOCK =
      (B.length - POINTERS_PER_INODE) + (POINTERS_PER_BLOCK - (B.length - POINTERS_PER_INODE)) := by
    omega
  have hfirst : (List.range (B.length - POINTERS_PER_INODE)).map (fun (k : Nat) => get_int blk (k : Int)) =
      B.drop POINTERS_PER_INODE := by
    apply List.ext_getElem
    · simp
    · intro k h1 h2
      simp only [List.getElem_map, List.getElem_range, List.getElem_drop]
      simp only [List.length_map, List.length_range] at h1
      rw [hptr k (by omega), List.getD_eq_getElem _ _ (by omega)]
      congr 1
      omega
  rw [hsplit, List.range_add, List.map_append, hfirst,
    takeWhile_append_of_all _ _ _ (fun x hx => hB x (List.mem_of_mem_drop hx))]
  exact ⟨_, rfl⟩

end SimpleFs
namespace SimpleFs

/-- After `fs_write` has stored the block list `vec1` in slot `n`, resolving
slot `n` again yields a list that starts with the blocks of `vec1`. -/
theorem resolved_after_write (s2 : SimpleFs) (hwf2 : mounted_volume s2) (n : Int) (h1 : 1 ≤ n)
    (h2 : n ≤ s2.superblock.ninodes) (ino : fs_inode) (old : List Int) (vec1 : fs_datablock_vec)
    (hvalid : ∀ b ∈ vec1.blocks, is_valid_datablock s2 b = true)
    (hind : vec1.indirect = 0 ∨ is_valid_datablock s2 vec1.indirect = true)
    (hpres : POINTERS_PER_INODE < vec1.blocks.length → vec1.indirect ≠ 0)
    (hcap : vec1.blocks.length ≤ POINTERS_PER_INODE + POINTERS_PER_BLOCK)
    (hd : ino.direct = update_direct old vec1.blocks) (hi : ino.indirect = vec1.indirect)
    (hptr : is_valid_datablock s2 vec1.indirect = true →
      ∀ j : Nat, j + POINTERS_PER_INODE < vec1.blocks.length →
        get_int (s2.disk.data vec1.indirect) j = vec1.blocks.getD (j + POINTERS_PER_INODE) 0) :
    ∃ vec2 more, fill_datablocks (with_inode s2 n ino) n = some vec2 ∧
      vec2.blocks = vec1.blocks ++ more := by
  have hwfF := with_inode_mounted_volume s2 hwf2 n ino
  obtain ⟨vec2, hv, -, -, -, hbl⟩ := fill_datablocks_valid (with_inode s2 n ino) hwfF n h1 h2
  suffices hsuf : ∃ more, vec2.blocks = vec1.blocks ++ more by
    obtain ⟨more, hm⟩ := hsuf
    exact ⟨vec2, more, hv, hm⟩
  rw [inode_at_with_inode_same] at hbl
  simp only [] at hbl
  have hvalF : ∀ b, is_valid_datablock (with_inode s2 n ino) b = is_valid_datablock s2 b := fun _ => rfl
  have hfun : is_valid_datablock (with_inode s2 n ino) = is_valid_datablock s2 := funext hvalF
  rw [hfun, hd, hi] at hbl
  obtain ⟨moreD, hD1, hD2⟩ := filter_saved_direct s2 hwf2 old vec1.blocks hvalid
  rw [hD1] at hbl
  have hwI : wrap32 vec1.indirect = vec1.indirect := by
    rcases hind with h | h
    · rw [h]; rfl
    · exact wrap32_valid s2 hwf2 _ h
  rw [hwI] at hbl
  by_cases hvI : is_valid_datablock s2 vec1.indirect = true
  · have hblk : (with_inode s2 n ino).disk.data vec1.indirect = s2.disk.data vec1.indirect := by
      have hr := (is_valid_datablock_iff s2 _).1 hvI
      have hb := inode_block_range s2 hwf2 n h1 h2
      simp only [with_inode]
      rw [if_neg (by omega)]
    obtain ⟨moreI, hI⟩ := takeWhile_saved_pointers s2 (s2.disk.data vec1.indirect) vec1.blocks
      hvalid hcap (hptr hvI)
    rw [if_pos hvI, hblk, hI] at hbl
    rw [hbl]
    by_cases h5 : POINTERS_PER_INODE ≤ vec1.blocks.length
    · rw [hD2 h5, List.append_nil, ← List.append_assoc, List.take_append_drop]
      exact ⟨_, rfl⟩
    · have e1 : vec1.blocks.take POINTERS_PER_INODE = vec1.blocks := List.take_of_length_le (by omega)
      have e2 : vec1.blocks.drop POINTERS_PER_INODE = [] := List.drop_of_length_le (by omega)
      rw [e1, e2, List.append_assoc]
      exact ⟨_, rfl⟩
  · rw [if_neg hvI, List.append_nil] at hbl
    have h5 : vec1.blocks.length ≤ POINTERS_PER_INODE := by
      by_contra hgt
      have hne := hpres (by omega)
      rcases hind with h | h
      · exact hne h
      · exact hvI h
    have e1 : vec1.blocks.take POINTERS_PER_INODE = vec1.blocks := List.take_of_length_le h5
    rw [hbl, e1]
    exact ⟨_, rfl⟩

end SimpleFs
namespace SimpleFs

theorem blocks_consistent_of_resolved (s : SimpleFs) (hwf : mounted_volume s) (n : Int) (h1 : 1 ≤ n)
    (h2 : n ≤ s.superblock.ninodes) (vec : fs_datablock_vec) (hvec : fill_datablocks s n = some vec)
    (hnd : (vec.indirect :: vec.blocks).Nodup)
    (hbusy : ∀ b ∈ vec.indirect :: vec.blocks, b ≠ 0 → s.bitmap.getD b.toNat false = true) :
    blocks_consistent s vec := by
  obtain ⟨vec0, hv0, hval, hind, hieq, hbl⟩ := fill_datablocks_valid s hwf n h1 h2
  rw [hvec] at hv0
  cases hv0
  have hnd2 := List.nodup_cons.1 hnd
  refine ⟨hval, ?_, hnd2.2, ?_, ?_⟩
  · intro b hb
    exact hbusy b (List.mem_cons_of_mem _ hb) (ne_of_gt (valid_datablock_pos s hwf b (hval b hb)))
  · rcases hind with h | h
    · exact Or.inl h
    · exact Or.inr ⟨h, hbusy _ (List.mem_cons_self _ _) (ne_of_gt (valid_datablock_pos s hwf _ h)), hnd2.1⟩
  · intro hlen h0
    by_cases hv : is_valid_datablock s (inode_at s n).indirect = true
    · rw [if_pos hv] at hieq
      rw [hieq] at h0
      have := valid_datablock_pos s hwf _ hv
      omega
    · rw [if_neg hv, List.append_nil] at hbl
      have hle := List.length_filter_le (is_valid_datablock s) (inode_at s n).direct
      rw [← hbl] at hle
      have h5 : (inode_at s n).direct.length = 5 := rfl
      simp only [POINTERS_PER_INODE] at hlen
      omega

theorem blocks_consistent_congr (s s1 : SimpleFs) (vec : fs_datablock_vec)
    (hsb : s1.superblock = s.superblock) (hbm : s1.bitmap = s.bitmap) (hc : blocks_consistent s vec) :
    blocks_consistent s1 vec := by
  refine ⟨?_, ?_, hc.nodup, ?_, hc.indirect_present⟩
  · intro b hb
    rw [is_valid_datablock_congr s s1 hsb]; exact hc.valid b hb
  · intro b hb
    rw [hbm]; exact hc.busy b hb
  · rcases hc.indirect with h | ⟨h1, h2, h3⟩
    · exact Or.inl h
    · exact Or.inr ⟨by rw [is_valid_datablock_congr s s1 hsb]; exact h1, by rw [hbm]; exact h2, h3⟩

/-- Write at offset 0 followed by read at offset 0, for an inode whose own
blocks are pairwise distinct and marked busy: both return `L` and the bytes read
are the bytes written. -/
theorem fs_write_read_at_zero (s : SimpleFs) (n : Int) (buf out : Buf) (L : Int)
    (vec : fs_datablock_vec) (hwf : mounted_volume s) (h1 : 1 ≤ n) (h2 : n ≤ s.superblock.ninodes)
    (hL : 0 < L) (hnz : ∀ q, 0 ≤ q → q < L → buf q ≠ 0)
    (hvec : fill_datablocks s n = some vec)
    (hnd : (vec.indirect :: vec.blocks).Nodup)
    (hbusy : ∀ b ∈ vec.indirect :: vec.blocks, b ≠ 0 → s.bitmap.getD b.toNat false = true)
    (hfree : (L + 4095) / 4096 +
        (if vec.indirect = 0 ∧ (5 : Int) < vec.blocks.length + (L + 4095) / 4096 then 1 else 0) ≤
      s.bitmap.count false)
    (hcap : (vec.blocks.length : Int) + (L + 4095) / 4096 ≤ 5 + 1024) :
    ∃ s1 out1, fs_write s n buf L 0 = some (s1, L) ∧ fs_read s1 n out L 0 = some (out1, L) ∧
      ∀ q, 0 ≤ q → q < L → out1 q = buf q := by
  have hc := blocks_consistent_of_resolved s hwf n h1 h2 vec hvec hnd hbusy
  have hDB : DISK_BLOCK_SIZE = 4096 := rfl
  have hz : DISK_BLOCK_SIZE * 0 = 0 := by decide
  have hrem : (L - DISK_BLOCK_SIZE * 0 + 4095) / 4096 = (L + 4095) / 4096 := by
    rw [hz, sub_zero]
  obtain ⟨s1, vec1, e1, hwf1, hsb1, hc1, ⟨new, hn1, hn2⟩, hcont, hframe⟩ :=
    fs_write_loop_fill buf L hnz L.toNat s vec 0 hwf hc (le_refl 0) (by rw [hz]; exact hL)
      (by omega) (by rw [hz]; omega) (by rw [hrem]; exact hfree)
  rw [hrem] at hn2 hcont hframe
  rw [hz] at e1
  have hlen1 : (vec1.blocks.length : Int) = vec.blocks.length + (L + 4095) / 4096 := by
    rw [hn1, List.length_append]; push_cast; rw [hn2]
  have hcap1 : vec1.blocks.length ≤ POINTERS_PER_INODE + POINTERS_PER_BLOCK := by
    simp only [POINTERS_PER_INODE, POINTERS_PER_BLOCK]; omega
  obtain ⟨s2, e2, hwf2, hsb2, hbm2, hd2, hp2⟩ := save_pointers_spec s1 vec1 hwf1 hc1 hcap1
  have hc2 : blocks_consistent s2 vec1 := blocks_consistent_congr s1 s2 vec1 hsb2 hbm2 hc1
  have hn2' : n ≤ s2.superblock.ninodes := by rw [hsb2, hsb1]; exact h2
  have hnotfull : ¬ (is_disk_full s = true) := by
    rw [is_disk_full_iff]
    have : 1 ≤ (L + 4095) / 4096 := by omega
    split at hfree <;> omega
  have hp2' : is_valid_datablock s2 vec1.indirect = true →
      ∀ j : Nat, j + POINTERS_PER_INODE < vec1.blocks.length →
        get_int (s2.disk.data vec1.indirect) j = vec1.blocks.getD (j + POINTERS_PER_INODE) 0 := by
    intro hv
    rw [is_valid_datablock_congr s1 s2 hsb2] at hv
    exact hp2 hv
  obtain ⟨vec2, more, hfill, hbl⟩ := resolved_after_write s2 hwf2 n h1 hn2'
    { isvalid := (inode_at s n).isvalid
      size := (inode_at s n).size + L
      direct := update_direct (inode_at s n).direct vec1.blocks
      indirect := vec1.indirect } (inode_at s n).direct vec1 hc2.valid
    (hc2.indirect.imp id (fun h => h.1)) hc2.indirect_present hcap1 rfl rfl hp2'
  have hwfF := with_inode_mounted_volume s2 hwf2 n
    { isvalid := (inode_at s n).isvalid
      size := (inode_at s n).size + L
      direct := update_direct (inode_at s n).direct vec1.blocks
      indirect := vec1.indirect }
  have hblk := inode_block_range s2 hwf2 n h1 hn2'
  obtain ⟨out1, r1, r2⟩ := fs_read_loop_spec _ hwfF L buf hnz vec2.blocks out 0 (le_refl 0)
    (by rw [hz]; omega)
    (by
      intro j hj hjL
      have hjr : (j : Int) < (L + 4095) / 4096 := by
        simp only [hDB, zero_add] at hjL; omega
      have hj1 : j < vec1.blocks.length := by omega
      have hg : vec2.blocks.getD j 0 = vec1.blocks.getD j 0 := by
        rw [hbl]; exact List.getD_append _ _ _ _ hj1
      have hmem : vec1.blocks.getD j 0 ∈ vec1.blocks := by
        rw [List.getD_eq_getElem _ _ hj1]; exact List.getElem_mem _
      have hv := hc2.valid _ hmem
      have hr := (is_valid_datablock_iff s2 _).1 hv
      rw [hg]
      refine ⟨hv, ?_⟩
      intro p hp1 hp2 hp3
      have hneI : vec1.blocks.getD j 0 ≠ vec1.indirect := by
        intro h
        rcases hc2.indirect with h0 | ⟨-, -, h3⟩
        · rw [h0] at h
          have := valid_datablock_pos s2 hwf2 _ hv
          omega
        · rw [← h] at h3
          exact h3 hmem
      have e : ((0 : Int) + (j : Int)) = (j : Int) := zero_add _
      rw [e] at hp3 ⊢
      simp only [with_inode]
      rw [if_neg (by omega), hd2 _ hneI]
      exact hcont j (by omega) (by omega) p hp1 hp2 hp3)
    (by
      have : (vec1.blocks.length : Int) ≤ vec2.blocks.length := by
        rw [hbl, List.length_append]; push_cast; omega
      simp only [hDB]
      omega)
    (by
      intro q hq0 hq1
      rw [hz] at hq1
      omega)
  rw [hz] at r1
  refine ⟨with_inode s2 n
    { isvalid := (inode_at s n).isvalid
      size := (inode_at s n).size + L
      direct := update_direct (inode_at s n).direct vec1.blocks
      indirect := vec1.indirect }, out1, ?_, ?_, r2⟩
  · simp only [fs_write, hwf.mounted, Bool.true_eq_false, if_false, not_le.2 hL, hnotfull,
      inode_load_valid s hwf n _ h1 h2, hvec, Int.zero_tdiv, Int.zero_tmod, e1, e2]
    rw [inode_save_valid s2 hwf2 n _ h1 hn2']
    simp
  · simp only [fs_read, hwfF.mounted, Bool.true_eq_false, if_false,
      inode_load_valid _ hwfF n _ h1 hn2', hfill, Int.zero_tdiv, Int.zero_tmod, lt_self_iff_false,
      Int.toNat_zero, List.drop_zero]
    exact r1

end SimpleFs
namespace SimpleFs

theorem ones_then_two_ne_zero (q : Int) : ones_then_two q ≠ 0 := by
  simp only [ones_then_two]
  split <;> decide

theorem vol8_stale_direct : (inode_at vol8_stale 1).direct = [2, 0, 0, 0, 0] := by
  rfl

end SimpleFs
namespace SimpleFs

end SimpleFs
namespace SimpleFs

theorem letters_ne_zero (q : Int) (h0 : 0 ≤ q) (h1 : q < 8) : letters q ≠ 0 := by
  have h : q = 0 ∨ q = 1 ∨ q = 2 ∨ q = 3 ∨ q = 4 ∨ q = 5 ∨ q = 6 ∨ q = 7 := by omega
  rcases h with h | h | h | h | h | h | h | h <;> subst h <;> decide

end SimpleFs
namespace SimpleFs

theorem alloc_datablock_frame (s : SimpleFs) :
    (alloc_datablock s).1.superblock = s.superblock ∧
    (alloc_datablock s).1.is_disk_mounted = s.is_disk_mounted ∧
    (alloc_datablock s).1.disk = s.disk := by
  simp only [alloc_datablock]
  split <;> exact ⟨rfl, rfl, rfl⟩

theorem alloc_indirect_frame (s : SimpleFs) (vec : fs_datablock_vec) :
    (alloc_indirect s vec).1.superblock = s.superblock ∧
    (alloc_indirect s vec).1.is_disk_mounted = s.is_disk_mounted ∧
    (alloc_indirect s vec).1.disk = s.disk := by
  simp only [alloc_indirect]
  split
  · exact alloc_datablock_frame s
  · exact ⟨rfl, rfl, rfl⟩

theorem disk_write_nblocks (d d1 : Disk) (b : Int) (blk : Block) (h : d.write b blk = some d1) :
    d1.nblocks = d.nblocks := by
  simp only [Disk.write] at h
  split at h
  · cases h; rfl
  · cases h

theorem write_datablock_frame (s s1 : SimpleFs) (b : Int) (src : Buf) (start end_ n : Int)
    (h : write_datablock s b src start end_ = some (s1, n)) :
    s1.superblock = s.superblock ∧ s1.is_disk_mounted = s.is_disk_mounted ∧
    s1.disk.nblocks = s.disk.nblocks := by
  simp only [write_datablock] at h
  split at h
  · cases h; exact ⟨rfl, rfl, rfl⟩
  · split at h
    · cases h
    · split at h
      · cases h
      · split at h
        · cases h
        · rename_i d hd
          cases h
          exact ⟨rfl, rfl, disk_write_nblocks _ _ _ _ hd⟩

theorem fs_write_loop_frame (data : Buf) (length block_offset byte_offset : Int) (fuel : Nat) :
    ∀ (s : SimpleFs) (vec : fs_datablock_vec) (i bytes : Int) (r : SimpleFs × fs_datablock_vec × Int),
      fs_write_loop data length block_offset byte_offset fuel s vec i bytes = some r →
      r.1.superblock = s.superblock ∧ r.1.is_disk_mounted = s.is_disk_mounted ∧
      r.1.disk.nblocks = s.disk.nblocks := by
  induction fuel with
  | zero =>
    intro s vec i bytes r h
    rw [fs_write_loop] at h
    split at h
    · cases h
    · cases h; exact ⟨rfl, rfl, rfl⟩
  | succ f ih =>
    intro s vec i bytes r h
    rw [fs_write_loop] at h
    split at h
    · simp only [] at h
      have hA := alloc_indirect_frame s vec
      have hB := alloc_datablock_frame (alloc_indirect s vec).1
      split at h
      · cases h
        exact ⟨hA.1, hA.2.1, by rw [hA.2.2]⟩
      · split at h
        · cases h
        · split at h
          · cases h
          · rename_i s3 n hw
            have hC := write_datablock_frame _ _ _ _ _ _ _ hw
            have hall : s3.superblock = s.superblock ∧ s3.is_disk_mounted = s.is_disk_mounted ∧
                s3.disk.nblocks = s.disk.nblocks :=
              ⟨hC.1.trans (hB.1.trans hA.1), hC.2.1.trans (hB.2.1.trans hA.2.1),
                hC.2.2.trans (by rw [hB.2.2, hA.2.2])⟩
            split at h
            · cases h
              exact hall
            · obtain ⟨h1, h2, h3⟩ := ih _ _ _ _ _ h
              exact ⟨h1.trans hall.1, h2.trans hall.2.1, h3.trans hall.2.2⟩
    · cases h; exact ⟨rfl, rfl, rfl⟩

theorem save_pointers_frame (s s1 : SimpleFs) (vec : fs_datablock_vec)
    (h : save_pointers s vec = some s1) :
    s1.superblock = s.superblock ∧ s1.is_disk_mounted = s.is_disk_mounted ∧
    s1.disk.nblocks = s.disk.nblocks := by
  simp only [save_pointers] at h
  split at h
  · split at h
    · cases h
    · split at h
      · cases h
      · split at h
        · cases h
        · rename_i d hd
          cases h
          exact ⟨rfl, rfl, disk_write_nblocks _ _ _ _ hd⟩
  · cases h; exact ⟨rfl, rfl, rfl⟩

/-- After `inode_save` of an inumber in range has succeeded, `inode_load`
returns the stored record, each field reduced to 32 bits. -/
theorem inode_load_after_save (s s1 : SimpleFs) (n : Int) (ino ino0 : fs_inode) (ok : Bool)
    (hn : is_valid_inode_num s n = true) (h : inode_save s n ino = some (s1, ok)) :
    inode_load s1 n ino0 = some (true,
      { isvalid := wrap32 ino.isvalid
        size := wrap32 ino.size
        direct := [wrap32 (ino.direct.getD 0 0), wrap32 (ino.direct.getD 1 0),
          wrap32 (ino.direct.getD 2 0), wrap32 (ino.direct.getD 3 0), wrap32 (ino.direct.getD 4 0)]
        indirect := wrap32 ino.indirect }) ∧
    s1.is_disk_mounted = s.is_disk_mounted ∧ s1.superblock = s.superblock := by
  simp only [inode_save, hn, Bool.true_eq_false, if_false] at h
  split at h
  · cases h
  · rename_i tmp hr
    split at h
    · cases h
    · rename_i d hd
      cases h
      refine ⟨?_, rfl, rfl⟩
      have hn1 : is_valid_inode_num { s with disk := d } n = true := hn
      simp only [inode_load, hn1, Bool.true_eq_false, if_false]
      simp only [Disk.write] at hd
      split at hd
      · rename_i hrange
        cases hd
        simp only [Disk.read, hrange, and_self, if_true, eq_self_iff_true]
        rw [get_inode_set_inode_same]
      · cases hd

end SimpleFs
namespace SimpleFs

/-- C4. Size accounting: when a call `fs_write n buf length offset` on a mounted
volume gets past its guards (inumber in range, `length > 0`, volume not full)
and returns `k`, `fs_getsize n` afterwards is the size before plus `k`, stored
as a 32-bit `int` (so it is exactly size + k whenever that fits in an `int`);
the offset plays no part. -/
theorem size_accounting (s s1 : SimpleFs) (n : Int) (buf : Buf) (length offset k : Int)
    (hm : s.is_disk_mounted = true) (hn : is_valid_inode_num s n = true) (hlen : 0 < length)
    (hnf : is_disk_full s = false) (hw : fs_write s n buf length offset = some (s1, k)) :
    ∃ size0, fs_getsize s n = some size0 ∧ fs_getsize s1 n = some (wrap32 (size0 + k)) ∧
      (-2147483648 ≤ size0 + k → size0 + k < 2147483648 → fs_getsize s1 n = some (size0 + k)) := by
  simp only [fs_write, hm, Bool.true_eq_false, if_false, not_le.2 hlen, hnf, Bool.false_eq_true] at hw
  cases hload : inode_load s n fs_inode.zero with
  | none => simp only [hload] at hw; cases hw
  | some r =>
    obtain ⟨okl, ino⟩ := r
    have hokl : okl = true := by
      simp only [inode_load, hn, Bool.true_eq_false, if_false] at hload
      split at hload
      · cases hload
      · cases hload; rfl
    subst hokl
    simp only [hload] at hw
    split at hw
    · cases hw
    · rename_i vec hv
      split at hw
      · cases hw
      · rename_i sL vecL bytes hloop
        split at hw
        · cases hw
        · rename_i s2 hsp
          split at hw
          · cases hw
          · rename_i s3 ok hsave
            cases hw
            have hL : sL.superblock = s.superblock ∧ sL.is_disk_mounted = s.is_disk_mounted ∧
                sL.disk.nblocks = s.disk.nblocks := fs_write_loop_frame _ _ _ _ _ _ _ _ _ _ hloop
            have hP := save_pointers_frame _ _ _ hsp
            have hn2 : is_valid_inode_num s2 n = true := by
              simp only [is_valid_inode_num, hP.1, hL.1]
              simpa only [is_valid_inode_num] using hn
            obtain ⟨hld, hm3, -⟩ := inode_load_after_save s2 s1 n _ fs_inode.zero ok hn2 hsave
            have hm1 : s1.is_disk_mounted = true := by
              rw [hm3, hP.2.1, hL.2.1]; exact hm
            have hg1 : fs_getsize s1 n = some (wrap32 (ino.size + k)) := by
              simp only [fs_getsize, hm1, Bool.true_eq_false, if_false, hld]
            refine ⟨ino.size, ?_, hg1, ?_⟩
            · simp only [fs_getsize, hm, Bool.true_eq_false, if_false, hload]
            · intro h1 h2
              rw [hg1, wrap32_of_range _ h1 h2]

end SimpleFs
namespace SimpleFs

theorem vol8_create : fs_create vol8 = some (vol8_created, 1) := by
  simp only [fs_create, vol8_mounted_volume.mounted, Bool.true_eq_false, if_false]
  exact fs_create_loop_some vol8 vol8_mounted_volume _ 1 1 (le_refl 1) (by decide) (by decide)
    (by decide) (by decide) (fun n h1 h2 => absurd h2 (by simp only [INODES_PER_BLOCK] at h1; omega))

theorem vol8_created_mounted_volume : mounted_volume vol8_created :=
  with_inode_mounted_volume vol8 vol8_mounted_volume 1 _

set_option maxRecDepth 100000 in
theorem vol8_created_blocks : fill_datablocks vol8_created 1 = some { indirect := 0, blocks := [] } := by
  rfl

set_option maxRecDepth 100000 in
theorem vol8_created_twice :
    ((fs_write vol8_created 1 letters 8 0).bind (fun r =>
      (fs_write r.1 1 letters 8 0).bind (fun r2 =>
        (fs_getsize r2.1 1).map (fun size => (r.2, r2.2, size))))) = some (8, 8, 16) := by
  decide

theorem size_accounting_witness :
    vol8_created.is_disk_mounted = true ∧ is_valid_inode_num vol8_created 1 = true ∧
    (0 : Int) < 4096 ∧ is_disk_full vol8_created = false ∧
    fs_create vol8 = some (vol8_created, 1) ∧
    (∃ s1, fs_write vol8_created 1 ones_then_two 4096 0 = some (s1, 4096) ∧
      fs_getsize vol8_created 1 = some 0 ∧ fs_getsize s1 1 = some 4096) ∧
    ((fs_write vol8_created 1 letters 8 0).bind (fun r =>
      (fs_write r.1 1 letters 8 0).bind (fun r2 =>
        (fs_getsize r2.1 1).map (fun size => (r.2, r2.2, size))))) = some (8, 8, 16) := by
  obtain ⟨s1, out1, hw, -, -⟩ := fs_write_read_at_zero vol8_created 1 ones_then_two zeros 4096
    { indirect := 0, blocks := [] } vol8_created_mounted_volume (by decide) (by decide) (by decide)
    (fun q _ _ => ones_then_two_ne_zero q) vol8_created_blocks (by decide)
    (by intro b hb hne; simp at hb; exact absurd hb hne) (by decide) (by decide)
  obtain ⟨size0, h0, -, h2⟩ := size_accounting vol8_created s1 1 ones_then_two 4096 0 4096 rfl rfl
    (by decide) rfl hw
  have hs : fs_getsize vol8_created 1 = some 0 := by decide
  rw [hs] at h0
  cases h0
  exact ⟨rfl, rfl, by decide, rfl, vol8_create, ⟨s1, hw, hs, h2 (by decide) (by decide)⟩,
    vol8_created_twice⟩

end SimpleFs
namespace SimpleFs

theorem alloc_datablock_full (s : SimpleFs) (h : s.bitmap.count false = 0) :
    alloc_datablock s = (s, -1) := by
  simp only [alloc_datablock, (first_free_none_iff _).2 h]

/-- The indirect-block allocation of `fs_write` in general: it keeps the
volume well formed and takes one free block when one is needed and free. -/
theorem alloc_indirect_general (s : SimpleFs) (vec : fs_datablock_vec) (hwf : mounted_volume s) :
    mounted_volume (alloc_indirect s vec).1 ∧ (alloc_indirect s vec).1.superblock = s.superblock ∧
    (alloc_indirect s vec).2.blocks = vec.blocks ∧
    (alloc_indirect s vec).1.bitmap.count false ≤ s.bitmap.count false ∧
    ((vec.indirect = 0 ∧ vec.blocks.length ≥ POINTERS_PER_INODE) → 0 < s.bitmap.count false →
      (alloc_indirect s vec).1.bitmap.count false + 1 = s.bitmap.count false) := by
  by_cases h0 : 0 < s.bitmap.count false
  · obtain ⟨s1, vec1, e1, hwf1, hsb1, -, hb1, -, hc1, hnc1⟩ := alloc_indirect_spec s vec hwf (fun _ => h0)
    rw [e1]
    refine ⟨hwf1, hsb1, hb1, ?_, fun hc _ => (hc1 hc).2.2.2⟩
    by_cases hc : vec.indirect = 0 ∧ vec.blocks.length ≥ POINTERS_PER_INODE
    · have := (hc1 hc).2.2.2
      show s1.bitmap.count false ≤ _
      omega
    · rw [(hnc1 hc).1]
  · have hz : s.bitmap.count false = 0 := by omega
    have e : (alloc_indirect s vec).1 = s := by
      simp only [alloc_indirect, alloc_datablock_full s hz]
      split <;> rfl
    rw [e]
    refine ⟨hwf, rfl, ?_, le_refl _, fun _ h => absurd h h0⟩
    simp only [alloc_indirect]
    split <;> rfl

/-- The loop of `fs_write` at offset 0 when the free blocks cannot hold the
rest of the source: it stops on a full volume with fewer than `L` bytes written. -/
theorem fs_write_loop_exhaust (data : Buf) (L : Int) (hnz : ∀ q, 0 ≤ q → q < L → data q ≠ 0) (fuel : Nat) :
    ∀ (s : SimpleFs) (vec : fs_datablock_vec) (i : Int), mounted_volume s →
      (∀ b ∈ vec.blocks, is_valid_datablock s b = true) → 0 ≤ i → i ≤ vec.blocks.length →
      DISK_BLOCK_SIZE * i + DISK_BLOCK_SIZE * s.bitmap.count false < L →
      L - DISK_BLOCK_SIZE * i ≤ fuel →
      ∃ s1 vec1 r, fs_write_loop data L 0 0 fuel s vec i (DISK_BLOCK_SIZE * i) = some (s1, vec1, r) ∧
        mounted_volume s1 ∧ s1.superblock = s.superblock ∧
        0 ≤ r ∧ r < L ∧ s1.bitmap.count false = 0 ∧
        vec1.blocks.length ≤ vec.blocks.length + s.bitmap.count false := by
  have hDB : DISK_BLOCK_SIZE = 4096 := rfl
  induction fuel with
  | zero =>
    intro s vec i _ _ _ _ hL hfuel
    simp only [Nat.cast_zero] at hfuel
    rw [hDB] at hL hfuel
    omega
  | succ f ih =>
    intro s vec i hwf hvalid hi0 hil hL hfuel
    have hiL : DISK_BLOCK_SIZE * i < L := by rw [hDB] at hL ⊢; omega
    obtain ⟨gwf, gsb, gbl, gle, gdec⟩ := alloc_indirect_general s vec hwf
    by_cases hfull : is_disk_full (alloc_indirect s vec).1 = true
    · -- the volume is full once the indirect block has been allocated
      refine ⟨(alloc_indirect s vec).1, (alloc_indirect s vec).2, DISK_BLOCK_SIZE * i, ?_, gwf, gsb,
        by rw [hDB]; omega, hiL, (is_disk_full_iff _).1 hfull, by rw [gbl]; omega⟩
      rw [fs_write_loop, if_pos hiL]
      simp only [hfull, if_true]
    · have hpos : 0 < (alloc_indirect s vec).1.bitmap.count false := by
        rw [is_disk_full_iff] at hfull; omega
      have hfree0 : (if vec.indirect = 0 ∧ vec.blocks.length ≥ POINTERS_PER_INODE then 2 else 1) ≤
          s.bitmap.count false := by
        by_cases hcond : vec.indirect = 0 ∧ vec.blocks.length ≥ POINTERS_PER_INODE
        · rw [if_pos hcond]
          have := gdec hcond (by omega)
          omega
        · rw [if_neg hcond]; omega
      obtain ⟨s3, vec2, bD, E, hwf3, hsb3, hbl2, hvD, -, -, -, -, -, hcount, -⟩ :=
        fs_write_loop_iter data L hnz f s vec i hwf hvalid hi0 hiL hil hfree0
      have hc3 : s3.bitmap.count false + 1 ≤ s.bitmap.count false := by
        split at hcount <;> omega
      have hmin : DISK_BLOCK_SIZE * i + min DISK_BLOCK_SIZE (L - DISK_BLOCK_SIZE * i) =
          DISK_BLOCK_SIZE * (i + 1) := by
        rw [hDB] at hL ⊢; omega
      have hvalid3 : ∀ b ∈ vec2.blocks, is_valid_datablock s3 b = true := by
        intro b hb
        rw [is_valid_datablock_congr s s3 hsb3]
        rw [hbl2] at hb
        rcases List.mem_append.1 hb with h | h
        · exact hvalid b h
        · simp only [List.mem_singleton] at h
          rw [h]; exact hvD
      have hlen2 : vec2.blocks.length = vec.blocks.length + 1 := by
        rw [hbl2]; simp
      obtain ⟨s1, vec1, r, e1, hwf1, hsb1, hr0, hrL, hz, hlen1⟩ :=
        ih s3 vec2 (i + 1) hwf3 hvalid3 (by omega) (by rw [hlen2]; push_cast; omega)
          (by rw [hDB] at hL ⊢; omega)
          (by rw [hDB] at hfuel ⊢; push_cast at hfuel; omega)
      refine ⟨s1, vec1, r, ?_, hwf1, hsb1.trans hsb3, hr0, hrL, hz, by omega⟩
      rw [E, hmin, e1]

end SimpleFs
namespace SimpleFs

/-- The update of the indirect block after the loop of `fs_write` is defined
whenever the block list is within the capacity of an inode. -/
theorem save_pointers_some (s : SimpleFs) (vec : fs_datablock_vec) (hwf : mounted_volume s)
    (hcap : vec.blocks.length ≤ POINTERS_PER_INODE + POINTERS_PER_BLOCK) :
    ∃ s1, save_pointers s vec = some s1 ∧ mounted_volume s1 ∧ s1.superblock = s.superblock ∧
      s1.bitmap = s.bitmap := by
  by_cases hv : is_valid_datablock s vec.indirect = true
  · have hr := (is_valid_datablock_iff s _).1 hv
    have h0 := hwf.inode_blocks_nonneg
    have hd := hwf.device
    obtain ⟨blk1, e1, -, -⟩ := set_pointers_spec (vec.blocks.drop POINTERS_PER_INODE)
      (s.disk.data vec.indirect) 0 (le_refl 0) (by
        simp only [List.length_drop, POINTERS_PER_INODE, POINTERS_PER_BLOCK] at hcap ⊢
        omega)
    refine ⟨with_block s vec.indirect blk1, ?_, with_block_mounted_volume s hwf _ _, rfl, rfl⟩
    simp only [save_pointers, hv, if_true]
    rw [disk_read_some _ _ (by omega) (by omega)]
    simp only [e1]
    rw [disk_write_some _ _ _ (by omega) (by omega)]
    rfl
  · refine ⟨s, ?_, hwf, rfl, rfl⟩
    simp only [save_pointers, hv, Bool.false_eq_true, if_false]

/-- C5 (amended). Short write on exhaustion: on a mounted volume with `F ≥ 1`
free blocks, for an inumber `n` in range whose block list stays within
`5 + 1024` entries (its length plus `F` is at most 1029) and a buffer of `L`
non-zero bytes with `L > F * 4096`, `fs_write n buf L 0` returns a count `r`
with `0 ≤ r < L`, and afterwards the volume is full: `is_disk_full` is true and
`alloc_datablock` returns -1. -/
theorem short_write_on_exhaustion (s : SimpleFs) (n : Int) (buf : Buf) (L : Int)
    (vec : fs_datablock_vec) (hwf : mounted_volume s) (h1 : 1 ≤ n) (h2 : n ≤ s.superblock.ninodes)
    (hnz : ∀ q, 0 ≤ q → q < L → buf q ≠ 0) (hvec : fill_datablocks s n = some vec)
    (hF : 1 ≤ s.bitmap.count false) (hL : (s.bitmap.count false : Int) * 4096 < L)
    (hcap : vec.blocks.length + s.bitmap.count false ≤ 5 + 1024) :
    ∃ s1 r, fs_write s n buf L 0 = some (s1, r) ∧ 0 ≤ r ∧ r < L ∧ is_disk_full s1 = true ∧
      (alloc_datablock s1).2 = -1 := by
  have hDB : DISK_BLOCK_SIZE = 4096 := rfl
  have hz : DISK_BLOCK_SIZE * 0 = 0 := by decide
  obtain ⟨vec0, hv0, hvalid, -, -, -⟩ := fill_datablocks_valid s hwf n h1 h2
  rw [hvec] at hv0
  cases hv0
  obtain ⟨sL, vecL, r, e1, hwfL, hsbL, hr0, hrL, hzL, hlenL⟩ :=
    fs_write_loop_exhaust buf L hnz L.toNat s vec 0 hwf hvalid (le_refl 0) (by omega)
      (by rw [hz, hDB]; omega) (by rw [hz]; omega)
  rw [hz] at e1
  obtain ⟨s2, e2, hwf2, hsb2, hbm2⟩ := save_pointers_some sL vecL hwfL (by
    simp only [POINTERS_PER_INODE, POINTERS_PER_BLOCK]; omega)
  have hn2 : n ≤ s2.superblock.ninodes := by rw [hsb2, hsbL]; exact h2
  have hnotfull : ¬ (is_disk_full s = true) := by
    rw [is_disk_full_iff]; omega
  have hcount : (with_inode s2 n
      { isvalid := (inode_at s n).isvalid
        size := (inode_at s n).size + r
        direct := update_direct (inode_at s n).direct vecL.blocks
        indirect := vecL.indirect }).bitmap.count false = 0 := by
    show s2.bitmap.count false = 0
    rw [hbm2]; exact hzL
  refine ⟨with_inode s2 n
      { isvalid := (inode_at s n).isvalid
        size := (inode_at s n).size + r
        direct := update_direct (inode_at s n).direct vecL.blocks
        indirect := vecL.indirect }, r, ?_, hr0, hrL, (is_disk_full_iff _).2 hcount, ?_⟩
  · have hLpos : ¬ (L ≤ 0) := by omega
    simp only [fs_write, hwf.mounted, Bool.true_eq_false, if_false, hLpos, hnotfull,
      inode_load_valid s hwf n _ h1 h2, hvec, Int.zero_tdiv, Int.zero_tmod, e1, e2]
    rw [inode_save_valid s2 hwf2 n _ h1 hn2]
    simp
  · rw [alloc_datablock_full _ hcount]

end SimpleFs
namespace SimpleFs

theorem short_write_on_exhaustion_witness :
    mounted_volume vol8_created ∧ (∀ q, 0 ≤ q → q < (24577 : Int) → ones_then_two q ≠ 0) ∧
    fill_datablocks vol8_created 1 = some { indirect := 0, blocks := [] } ∧
    vol8_created.bitmap.count false = 6 ∧
    ∃ s1 r, fs_write vol8_created 1 ones_then_two 24577 0 = some (s1, r) ∧ 0 ≤ r ∧ r < 24577 ∧
      is_disk_full s1 = true ∧ (alloc_datablock s1).2 = -1 :=
  ⟨vol8_created_mounted_volume, fun q _ _ => ones_then_two_ne_zero q, vol8_created_blocks, rfl,
    short_write_on_exhaustion vol8_created 1 ones_then_two 24577 { indirect := 0, blocks := [] }
      vol8_created_mounted_volume (by decide) (by decide) (fun q _ _ => ones_then_two_ne_zero q)
      vol8_created_blocks (by decide) (by decide) (by decide)⟩

theorem replicate_true_length (n : Nat) : (List.replicate n true ++ [false]).length = n + 1 := by
  simp

theorem replicate_true_getD (n b : Nat) (h : b < n) :
    (List.replicate n true ++ [false]).getD b true = true := by
  rw [List.getD_eq_getElem?_getD, List.getElem?_append_left (by simpa using h)]
  simp [List.getElem?_replicate, h]

theorem replicate_true_count (n : Nat) : (List.replicate n true ++ [false]).count false = 1 := by
  simp [List.count_replicate]

theorem vol1147_bitmap : vol1147.bitmap = List.replicate 1146 true ++ [false] := rfl

theorem vol1147_mounted_volume : mounted_volume vol1147 :=
  { mounted := rfl
    device := rfl
    bitmap_size := by
      rw [vol1147_bitmap, replicate_true_length]
      rfl
    inode_blocks_nonneg := by decide
    inode_blocks_lt := by decide
    inodes := by decide
    int_range := by decide
    reserved := by
      intro b hb
      have hb1 : (b : Int) ≤ 115 := hb
      rw [vol1147_bitmap]
      exact replicate_true_getD 1146 b (by omega) }

theorem vol1147_count : vol1147.bitmap.count false = 1 := by
  rw [vol1147_bitmap]
  exact replicate_true_count 1146

theorem vol1147_pointer (k : Int) (h0 : 0 ≤ k) (h1 : k < 1024) :
    get_int (vol1147.disk.data 121) k = 122 + k := by
  have e : vol1147.disk.data 121 = (fun p => byte_of_int (122 + p / 4) (p % 4)) := rfl
  rw [e]
  simp only [get_int]
  have a0 : 4 * k / 4 = k := by omega
  have a1 : (4 * k + 1) / 4 = k := by omega
  have a2 : (4 * k + 2) / 4 = k := by omega
  have a3 : (4 * k + 3) / 4 = k := by omega
  have b0 : 4 * k % 4 = 0 := by omega
  have b1 : (4 * k + 1) % 4 = 1 := by omega
  have b2 : (4 * k + 2) % 4 = 2 := by omega
  have b3 : (4 * k + 3) % 4 = 3 := by omega
  rw [a0, a1, a2, a3, b0, b1, b2, b3, int_of_bytes_byte_of_int, wrap32_of_range _ (by omega) (by omega)]

set_option maxRecDepth 100000 in
theorem vol1147_inode : inode_at vol1147 1 =
    { isvalid := 1, size := 4214784, direct := [116, 117, 118, 119, 120], indirect := 121 } := by
  rfl

/-- The block list of inode 1 of `vol1147` has `5 + 1024` entries. -/
theorem vol1147_blocks :
    ∃ vec, fill_datablocks vol1147 1 = some vec ∧ vec.indirect = 121 ∧ vec.blocks.length = 1029 ∧
      ∀ b ∈ vec.blocks, is_valid_datablock vol1147 b = true := by
  obtain ⟨vec, hv, hvalid, -, hi, hbl⟩ :=
    fill_datablocks_valid vol1147 vol1147_mounted_volume 1 (by decide) (by decide)
  have hv121 : is_valid_datablock vol1147 121 = true := by decide
  rw [vol1147_inode] at hi hbl
  simp only [hv121, if_true] at hi hbl
  refine ⟨vec, hv, hi, ?_, hvalid⟩
  have hall : ((List.range POINTERS_PER_BLOCK).map
      (fun (k : Nat) => get_int (vol1147.disk.data 121) (k : Int))).takeWhile (is_valid_datablock vol1147) =
      (List.range POINTERS_PER_BLOCK).map (fun (k : Nat) => get_int (vol1147.disk.data 121) (k : Int)) := by
    rw [List.takeWhile_eq_self_iff]
    intro x hx
    simp only [List.mem_map, List.mem_range, POINTERS_PER_BLOCK] at hx
    obtain ⟨k, hk, rfl⟩ := hx
    rw [vol1147_pointer k (by omega) (by omega), is_valid_datablock_iff]
    simp only [vol1147]
    omega
  rw [hall] at hbl
  rw [hbl]
  simp only [List.length_append, List.length_map, List.length_range, POINTERS_PER_BLOCK]
  decide

theorem fs_write_loop_full (data : Buf) (L bo byo : Int) (f : Nat) (s : SimpleFs)
    (vec : fs_datablock_vec) (i bytes : Int) (h : bytes < L)
    (hfull : is_disk_full (alloc_indirect s vec).1 = true) :
    fs_write_loop data L bo byo (f + 1) s vec i bytes =
      some ((alloc_indirect s vec).1, (alloc_indirect s vec).2, bytes) := by
  rw [fs_write_loop, if_pos h]
  simp only [hfull, if_true]

theorem save_pointers_overflow (s : SimpleFs) (vec : fs_datablock_vec) (hwf : mounted_volume s)
    (hv : is_valid_datablock s vec.indirect = true)
    (hlen : POINTERS_PER_INODE + POINTERS_PER_BLOCK < vec.blocks.length) :
    save_pointers s vec = none := by
  have hr := (is_valid_datablock_iff s _).1 hv
  have h0 := hwf.inode_blocks_nonneg
  have hd := hwf.device
  simp only [save_pointers, hv, if_true]
  rw [disk_read_some _ _ (by omega) (by omega)]
  have e := set_pointers_none (vec.blocks.drop POINTERS_PER_INODE) (s.disk.data vec.indirect) 0
    (by decide) (by
      simp only [List.length_drop, POINTERS_PER_INODE, POINTERS_PER_BLOCK] at hlen ⊢
      omega)
  simp only [e]

/-- C5 (counterexample). On `vol1147`, a mounted volume with one free block
whose inode 1 already lists `5 + 1024` blocks, `fs_write` of 4097 non-zero bytes
at offset 0 appends a block to the list and then stores 1025 entries in the
1024-entry pointer array of the indirect block: the call has no defined
result. -/
theorem short_write_counterexample :
    mounted_volume vol1147 ∧ vol1147.bitmap.count false = 1 ∧
    is_valid_inode_num vol1147 1 = true ∧ (inode_at vol1147 1).isvalid = 1 ∧
    (∀ q, 0 ≤ q → q < (4097 : Int) → ones_then_two q ≠ 0) ∧
    ((vol1147.bitmap.count false : Int) * 4096 < 4097) ∧
    fs_write vol1147 1 ones_then_two 4097 0 = none := by
  have hDB : DISK_BLOCK_SIZE = 4096 := rfl
  have hwf := vol1147_mounted_volume
  have hnz : ∀ q, 0 ≤ q → q < (4097 : Int) → ones_then_two q ≠ 0 :=
    fun q _ _ => ones_then_two_ne_zero q
  refine ⟨hwf, vol1147_count, by decide, by rw [vol1147_inode], hnz, by rw [vol1147_count]; decide, ?_⟩
  obtain ⟨vec, hv, hind, hlen, hvalid⟩ := vol1147_blocks
  have hnc : ¬ (vec.indirect = 0 ∧ vec.blocks.length ≥ POINTERS_PER_INODE) := by
    rw [hind]
    intro h
    exact absurd h.1 (by decide)
  obtain ⟨s3, vec2, bD, E, hwf3, hsb3, hbl2, -, -, -, -, -, hnc2, hcount, -⟩ :=
    fs_write_loop_iter ones_then_two 4097 hnz (4095 + 1) vol1147 vec 0 hwf hvalid (le_refl 0)
      (by decide) (by omega) (by rw [if_neg hnc, vol1147_count])
  have hind2 : vec2.indirect = 121 := by rw [(hnc2 hnc).1, hind]
  rw [if_neg hnc, vol1147_count] at hcount
  have hai : alloc_indirect s3 vec2 = (s3, vec2) := by
    simp only [alloc_indirect, hind2]
    rw [if_neg (fun h => absurd h.1 (by decide))]
  have hfull : is_disk_full (alloc_indirect s3 vec2).1 = true := by
    rw [hai]
    exact (is_disk_full_iff s3).2 (by omega)
  have hb : DISK_BLOCK_SIZE * 0 + min DISK_BLOCK_SIZE (4097 - DISK_BLOCK_SIZE * 0) = 4096 := by
    rw [hDB]
    omega
  have hz : DISK_BLOCK_SIZE * 0 = 0 := by decide
  rw [hb, hz, fs_write_loop_full _ _ _ _ _ _ _ _ _ (by decide) hfull, hai] at E
  have hsp : save_pointers s3 vec2 = none := by
    apply save_pointers_overflow s3 vec2 hwf3
    · rw [hind2, is_valid_datablock_iff, hsb3]
      decide
    · rw [hbl2, List.length_append, hlen, List.length_singleton]
      decide
  have hnotfull : ¬ (is_disk_full vol1147 = true) := by
    rw [is_disk_full_iff, vol1147_count]
    decide
  have hfuel : (4097 : Int).toNat = 4095 + 1 + 1 := rfl
  have hLpos : ¬ ((4097 : Int) ≤ 0) := by decide
  simp only [fs_write, hwf.mounted, Bool.true_eq_false, if_false, hLpos, hnotfull,
    inode_load_valid vol1147 hwf 1 _ (le_refl 1) (by decide), hv, Int.zero_tdiv, Int.zero_tmod,
    hfuel, E, hsp]
  simp

end SimpleFs
namespace SimpleFs

/-- The block list of an all-zero inode slot is empty. -/
theorem fill_datablocks_zero (s : SimpleFs) (hwf : mounted_volume s) (n : Int) (h1 : 1 ≤ n)
    (h2 : n ≤ s.superblock.ninodes) (hz : inode_at s n = fs_inode.zero) :
    fill_datablocks s n = some { indirect := 0, blocks := [] } := by
  obtain ⟨vec, hv, -, -, hi, hbl⟩ := fill_datablocks_valid s hwf n h1 h2
  have h0 := is_valid_datablock_zero s hwf
  rw [hz] at hi hbl
  have hzi : fs_inode.zero.indirect = 0 := rfl
  have hzd : fs_inode.zero.direct = [0, 0, 0, 0, 0] := rfl
  rw [hzi, h0] at hi hbl
  rw [hzd] at hbl
  simp only [Bool.false_eq_true, if_false, List.filter, h0, List.append_nil] at hi hbl
  rw [hv]
  cases vec
  simp only at hi hbl
  rw [hi, hbl]

/-- C10 (failing input). On the mounted volume `vol8`, slot 1 was never created
(`isvalid = 0`), yet `fs_getsize 1` returns 0 and not -1, `fs_delete 1` returns
1 and not 0, and `fs_write 1 buf 8 0` returns 8 and allocates block 2: no
operation tests `isvalid`, although the doc comments of `fs_read` and
`fs_write` speak of a valid inode and `fs_mount` and `fs_create` take
`isvalid = 0` to mean that the slot holds no inode. -/
theorem unallocated_inode_divergence :
    mounted_volume vol8 ∧ is_valid_inode_num vol8 1 = true ∧ (inode_at vol8 1).isvalid = 0 ∧
    fs_getsize vol8 1 = some 0 ∧
    (fs_delete vol8 1).map Prod.snd = some 1 ∧
    (fs_write vol8 1 letters 8 0).map (fun r => (r.2, r.1.bitmap)) =
      some (8, [true, true, true, false, false, false, false, false]) ∧
    vol8.bitmap = [true, true, false, false, false, false, false, false] :=
  ⟨vol8_mounted_volume, by decide, by decide, by decide, by decide, by decide, rfl⟩

/-- The behaviour on a slot that holds no inode, for every mounted volume and
every inumber `n` in range whose slot is all zero (as `fs_format` and
`fs_delete` leave it): `fs_getsize n` returns the stored size 0; `fs_read`
returns 0 and leaves the destination as it was; `fs_delete n` returns 1,
changes no bitmap entry and no data block; and `fs_write n buf L 0` of `L > 0`
non-zero bytes, when there are enough free blocks and at most `5 + 1024` blocks
are needed, returns `L`. -/
theorem unallocated_inode_accepted (s : SimpleFs) (n : Int) (out buf : Buf) (length offset L : Int)
    (hwf : mounted_volume s) (h1 : 1 ≤ n) (h2 : n ≤ s.superblock.ninodes)
    (hz : inode_at s n = fs_inode.zero) :
    fs_getsize s n = some 0 ∧
    fs_read s n out length offset = some (out, 0) ∧
    (∃ s1, fs_delete s n = some (s1, 1) ∧ s1.bitmap = s.bitmap ∧
      ∀ b, is_valid_datablock s b = true → s1.disk.data b = s.disk.data b) ∧
    (0 < L → (∀ q, 0 ≤ q → q < L → buf q ≠ 0) →
      (L + 4095) / 4096 + (if (5 : Int) < (L + 4095) / 4096 then 1 else 0) ≤ s.bitmap.count false →
      (L + 4095) / 4096 ≤ 5 + 1024 →
      ∃ s2, fs_write s n buf L 0 = some (s2, L)) := by
  have hv := fill_datablocks_zero s hwf n h1 h2 hz
  have h0 := is_valid_datablock_zero s hwf
  refine ⟨?_, ?_, ?_, ?_⟩
  · simp only [fs_getsize, hwf.mounted, Bool.true_eq_false, if_false, inode_load_valid s hwf n _ h1 h2, hz]
    rfl
  · simp only [fs_read, hwf.mounted, Bool.true_eq_false, if_false, inode_load_valid s hwf n _ h1 h2, hv]
    split <;> simp [fs_read_loop]
  · obtain ⟨s2, f1, -, -, -, -, -, f7⟩ := fs_delete_eq s hwf n h1 h2 _ hv (by intro b hb; cases hb)
    simp only [freed_blocks, h0, Bool.false_eq_true, if_false, free_datablocks] at f1
    cases f1
    refine ⟨_, f7, rfl, ?_⟩
    intro b hb
    have hr := (is_valid_datablock_iff s b).1 hb
    have hblk := inode_block_range s hwf n h1 h2
    show (if b = (n - 1) / INODES_PER_BLOCK + 1 then _ else s.disk.data b) = s.disk.data b
    rw [if_neg (by omega)]
  · intro hL hnz hfree hcap
    obtain ⟨s2, -, e, -, -⟩ := fs_write_read_at_zero s n buf zeros L { indirect := 0, blocks := [] }
      hwf h1 h2 hL hnz hv (by simp)
      (by intro b hb hne; simp at hb; exact absurd hb hne)
      (by simpa using hfree) (by simpa using hcap)
    exact ⟨s2, e⟩

theorem vol8_slot_zero : inode_at vol8 1 = fs_inode.zero :=
  get_inode_EMPTY_BLOCK _

theorem unallocated_inode_accepted_witness :
    mounted_volume vol8 ∧ inode_at vol8 1 = fs_inode.zero ∧
    (∀ q, 0 ≤ q → q < 8 → letters q ≠ 0) ∧
    fs_getsize vol8 1 = some 0 ∧
    fs_read vol8 1 zeros 8 0 = some (zeros, 0) ∧
    (∃ s1, fs_delete vol8 1 = some (s1, 1) ∧ s1.bitmap = vol8.bitmap ∧
      ∀ b, is_valid_datablock vol8 b = true → s1.disk.data b = vol8.disk.data b) ∧
    ∃ s2, fs_write vol8 1 letters 8 0 = some (s2, 8) :=
  have h := unallocated_inode_accepted vol8 1 zeros letters 8 0 8 vol8_mounted_volume (by decide)
    (by decide) vol8_slot_zero
  ⟨vol8_mounted_volume, vol8_slot_zero, letters_ne_zero, h.1, h.2.1, h.2.2.1,
    h.2.2.2 (by decide) letters_ne_zero (by decide) (by decide)⟩

end SimpleFs
namespace SimpleFs

set_option maxRecDepth 100000 in
theorem vol8_read_at_3 :
    ((fs_write vol8_created 1 letters 10 0).bind (fun r => fs_read r.1 1 zeros 5 3)).map
      (fun r => (r.2, r.1 0, r.1 1, r.1 2, r.1 3, r.1 4)) = some (2, 0, 0, 0, letters 3, letters 4) := by
  decide

set_option maxRecDepth 100000 in
theorem vol8_write_at_3 :
    (fs_write vol8_created 1 letters 8 3).map (fun r => (r.2, is_disk_full r.1, r.1.bitmap)) =
      some (5, false, [true, true, true, true, false, false, false, false]) := by
  decide

set_option maxRecDepth 100000 in
theorem vol8_write_10 :
    (fs_write vol8_created 1 letters 10 0).map Prod.snd = some 10 := by
  decide

/-- C2 (failing input). On the 8-block volume with inode 1 created and the 10
bytes `a..j` written at offset 0, `fs_read 1 out 5 3` returns 2, not 5: it
copies bytes 3 and 4 of the file to `out[3]` and `out[4]` and leaves
`out[0..3)` as it was. -/
theorem read_offset_divergence :
    mounted_volume vol8_created ∧ (inode_at vol8_created 1).isvalid = 1 ∧
    (fs_write vol8_created 1 letters 10 0).map Prod.snd = some 10 ∧
    ((fs_write vol8_created 1 letters 10 0).bind (fun r => fs_read r.1 1 zeros 5 3)).map
      (fun r => (r.2, r.1 0, r.1 1, r.1 2, r.1 3, r.1 4)) = some (2, 0, 0, 0, letters 3, letters 4) ∧
    letters 3 ≠ 0 :=
  ⟨vol8_created_mounted_volume, by decide, vol8_write_10, vol8_read_at_3, by decide⟩

/-- C3 (failing input). On the 8-block volume with the fresh inode 1,
`fs_write 1 buf 8 3` with a source of non-zero bytes returns 5, not 8, although
the volume is not full afterwards (two of its six data blocks were
allocated). -/
theorem write_offset_divergence :
    mounted_volume vol8_created ∧ (inode_at vol8_created 1).isvalid = 1 ∧
    (∀ q, 0 ≤ q → q < 8 → letters q ≠ 0) ∧
    (fs_write vol8_created 1 letters 8 3).map (fun r => (r.2, is_disk_full r.1, r.1.bitmap)) =
      some (5, false, [true, true, true, true, false, false, false, false]) :=
  ⟨vol8_created_mounted_volume, by decide, letters_ne_zero, vol8_write_at_3⟩

end SimpleFs

namespace SimpleFs

/-- C13. When the session is mounted, `fs_format` returns 0 and hands back the
state as it was: every disk block, the bitmap, the cached superblock and the
mounted flag are unchanged. -/
theorem format_refused_when_mounted (s : SimpleFs) (h : s.is_disk_mounted = true) :
    fs_format s = some (s, 0) := by
  simp only [fs_format, h, if_true]

theorem format_refused_when_mounted_witness :
    vol8_file.is_disk_mounted = true ∧ fs_format vol8_file = some (vol8_file, 0) :=
  ⟨rfl, format_refused_when_mounted vol8_file rfl⟩

theorem first_free_least (bm : List Bool) (i : Nat) (h : first_free bm = some i) :
    ∀ j : Nat, j < i → bm.getD j false = true := by
  induction bm generalizing i with
  | nil => simp [first_free] at h
  | cons b rest ih =>
    cases b
    · simp only [first_free, if_true] at h
      cases h
      intro j hj
      omega
    · simp only [first_free, Bool.true_eq_false, if_false, Option.map_eq_some'] at h
      obtain ⟨k, hk, rfl⟩ := h
      intro j hj
      cases j with
      | zero => rfl
      | succ j =>
        have := ih k hk j (by omega)
        simpa using this

theorem count_false_pos_of_free (bm : List Bool) (i : Nat) (h1 : i < bm.length)
    (h2 : bm.getD i true = false) : 0 < bm.count false := by
  rw [List.count_pos_iff]
  rw [List.getD_eq_getElem?_getD, List.getElem?_eq_getElem h1] at h2
  simp only [Option.getD_some] at h2
  rw [← h2]
  exact List.getElem_mem h1

theorem count_false_zero_of_busy (bm : List Bool)
    (h : ∀ i : Nat, i < bm.length → bm.getD i false = true) : bm.count false = 0 := by
  rw [List.count_eq_zero]
  intro hm
  obtain ⟨i, hi, e⟩ := List.getElem_of_mem hm
  have := h i hi
  rw [List.getD_eq_getElem?_getD, List.getElem?_eq_getElem hi] at this
  simp only [Option.getD_some] at this
  rw [e] at this
  exact absurd this (by decide)

/-- C16. First-fit allocation, for every state: when some bitmap entry is free,
`alloc_datablock` returns the smallest index `i` whose entry is `false`, sets
that entry and changes no other; when none is free it returns -1 and changes
nothing; it returns -1 exactly when `is_disk_full` is true. -/
theorem alloc_first_fit (s : SimpleFs) :
    ((∃ i : Nat, i < s.bitmap.length ∧ s.bitmap.getD i true = false) →
      ∃ i : Nat, i < s.bitmap.length ∧ s.bitmap.getD i true = false ∧
        (∀ j : Nat, j < i → s.bitmap.getD j false = true) ∧
        alloc_datablock s = ({ s with bitmap := s.bitmap.set i true }, (i : Int)) ∧
        (s.bitmap.set i true).getD i false = true ∧
        ∀ j : Nat, j ≠ i → (s.bitmap.set i true)[j]? = s.bitmap[j]?) ∧
    ((∀ i : Nat, i < s.bitmap.length → s.bitmap.getD i false = true) → alloc_datablock s = (s, -1)) ∧
    ((alloc_datablock s).2 = -1 ↔ is_disk_full s = true) := by
  refine ⟨?_, ?_, ?_⟩
  · rintro ⟨i0, h1, h2⟩
    have hpos := count_false_pos_of_free _ i0 h1 h2
    cases hf : first_free s.bitmap with
    | none =>
      have := (first_free_none_iff _).1 hf
      omega
    | some i =>
      obtain ⟨g1, g2, -⟩ := first_free_some _ _ hf
      refine ⟨i, g1, g2, first_free_least _ _ hf, ?_, ?_, ?_⟩
      · simp only [alloc_datablock, hf]
      · simp [List.getD_eq_getElem?_getD, g1]
      · intro j hj
        rw [List.getElem?_set_ne (Ne.symm hj)]
  · intro h
    exact alloc_datablock_full s (count_false_zero_of_busy _ h)
  · rw [is_disk_full_iff]
    constructor
    · intro h
      cases hf : first_free s.bitmap with
      | none => exact (first_free_none_iff _).1 hf
      | some i =>
        simp only [alloc_datablock, hf] at h
        omega
    · intro h
      rw [alloc_datablock_full s h]

end SimpleFs
namespace SimpleFs

/-- The result of `takeWhile` is the longest leading run of elements that
satisfy the test. -/
theorem takeWhile_longest {α : Type} (p : α → Bool) (d : α) (l : List α) :
    (l.takeWhile p).length ≤ l.length ∧
    (∀ k : Nat, k < (l.takeWhile p).length →
      (l.takeWhile p).getD k d = l.getD k d ∧ p (l.getD k d) = true) ∧
    ((l.takeWhile p).length < l.length → p (l.getD (l.takeWhile p).length d) = false) := by
  induction l with
  | nil => simp
  | cons a rest ih =>
    by_cases ha : p a = true
    · simp only [List.takeWhile_cons, ha, if_true, List.length_cons]
      obtain ⟨i1, i2, i3⟩ := ih
      refine ⟨by omega, ?_, ?_⟩
      · intro k hk
        cases k with
        | zero => exact ⟨rfl, ha⟩
        | succ k => simpa using i2 k (by omega)
      · intro h
        simpa using i3 (by omega)
    · simp only [List.takeWhile_cons, ha, Bool.false_eq_true, if_false, List.length_nil, List.length_cons]
      refine ⟨by omega, fun k hk => absurd hk (by omega), ?_⟩
      intro _
      simpa using ha

theorem getD_map_range (f : Nat → Int) (m k : Nat) (h : k < m) :
    ((List.range m).map f).getD k 0 = f k := by
  rw [List.getD_eq_getElem?_getD, List.getElem?_map, List.getElem?_range h]
  rfl

theorem vol8_gap_mounted_volume : mounted_volume vol8_gap :=
  { mounted := rfl
    device := rfl
    bitmap_size := rfl
    inode_blocks_nonneg := by decide
    inode_blocks_lt := by decide
    inodes := by decide
    int_range := by decide
    reserved := by
      intro b hb
      have hb1 : (b : Int) ≤ 1 := hb
      have h : b = 0 ∨ b = 1 := by omega
      rcases h with h | h <;> subst h <;> rfl }

set_option maxRecDepth 100000 in
theorem vol8_gap_blocks : fill_datablocks vol8_gap 1 = some { indirect := 4, blocks := [2, 3, 5] } := by
  rfl

/-- C15. Block-list resolution on a mounted volume.  For an inumber `n` in
range, `fill_datablocks n` returns the direct pointers that are valid data
blocks (`ninodeblocks < b < nblocks`), in array order, followed by a list
`ptrs`: it is empty when the indirect pointer is not a valid data block, and
otherwise it consists of the leading entries of the indirect block, all of them
valid data blocks, and it stops at the first entry that is not one (or after
all `POINTERS_PER_BLOCK` entries).  The returned indirect number is the
indirect pointer when that is a valid data block and 0 otherwise.  For an
inumber out of range the result is the empty list with indirect 0. -/
theorem block_list_resolution (s : SimpleFs) (hwf : mounted_volume s) (n : Int) :
    (∀ b, is_valid_datablock s b = true ↔ s.superblock.ninodeblocks < b ∧ b < s.superblock.nblocks) ∧
    (1 ≤ n ∧ n ≤ s.superblock.ninodes →
      ∃ ptrs : List Int,
        fill_datablocks s n = some
          { indirect := if is_valid_datablock s (inode_at s n).indirect then (inode_at s n).indirect else 0
            blocks := (inode_at s n).direct.filter (is_valid_datablock s) ++ ptrs } ∧
        (is_valid_datablock s (inode_at s n).indirect = false → ptrs = []) ∧
        (is_valid_datablock s (inode_at s n).indirect = true →
          ptrs.length ≤ POINTERS_PER_BLOCK ∧
          (∀ k : Nat, k < ptrs.length →
            ptrs.getD k 0 = get_int (s.disk.data (inode_at s n).indirect) (k : Int) ∧
            is_valid_datablock s (get_int (s.disk.data (inode_at s n).indirect) (k : Int)) = true) ∧
          (ptrs.length < POINTERS_PER_BLOCK →
            is_valid_datablock s
              (get_int (s.disk.data (inode_at s n).indirect) (ptrs.length : Int)) = false))) ∧
    (¬ (1 ≤ n ∧ n ≤ s.superblock.ninodes) → fill_datablocks s n = some { indirect := 0, blocks := [] }) := by
  refine ⟨is_valid_datablock_iff s, ?_, ?_⟩
  · rintro ⟨h1, h2⟩
    obtain ⟨vec, hv, -, -, hi, hbl⟩ := fill_datablocks_valid s hwf n h1 h2
    by_cases hval : is_valid_datablock s (inode_at s n).indirect = true
    · simp only [hval, if_true] at hi hbl
      obtain ⟨t1, t2, t3⟩ := takeWhile_longest (is_valid_datablock s) 0
        ((List.range POINTERS_PER_BLOCK).map
          (fun (k : Nat) => get_int (s.disk.data (inode_at s n).indirect) (k : Int)))
      simp only [List.length_map, List.length_range] at t1 t2 t3
      refine ⟨_, ?_, fun h => absurd hval (by rw [h]; decide), fun _ => ⟨t1, ?_, ?_⟩⟩
      · rw [hv]
        cases vec
        simp only at hi hbl
        simp only [hval, if_true, hi, hbl]
      · intro k hk
        have := t2 k hk
        rw [getD_map_range _ _ _ (by omega)] at this
        exact this
      · intro hlt
        have := t3 hlt
        rw [getD_map_range _ _ _ hlt] at this
        exact this
    · have hval2 : is_valid_datablock s (inode_at s n).indirect = false := by
        simpa using hval
      simp only [hval2, Bool.false_eq_true, if_false, List.append_nil] at hi hbl
      refine ⟨[], ?_, fun _ => rfl, fun h => absurd h (by rw [hval2]; decide)⟩
      rw [hv]
      cases vec
      simp only at hi hbl
      simp only [hval2, Bool.false_eq_true, if_false, List.append_nil, hi, hbl]
  · intro hn
    have hinv : n < 1 ∨ n > s.superblock.ninodes := by omega
    simp only [fill_datablocks, inode_load_invalid s n _ hinv]

theorem block_list_resolution_witness :
    mounted_volume vol8_gap ∧ (inode_at vol8_gap 1).direct = [2, 0, 3, 9, 0] ∧
    (inode_at vol8_gap 1).indirect = 4 ∧
    (List.range 4).map (fun (k : Nat) => get_int (vol8_gap.disk.data 4) (k : Int)) = [5, 0, 6, 0] ∧
    fill_datablocks vol8_gap 1 = some { indirect := 4, blocks := [2, 3, 5] } ∧
    fill_datablocks vol8_gap 129 = some { indirect := 0, blocks := [] } :=
  ⟨vol8_gap_mounted_volume, by decide, by decide, by decide, vol8_gap_blocks,
    (block_list_resolution vol8_gap vol8_gap_mounted_volume 129).2.2 (by decide)⟩

set_option maxRecDepth 100000 in
theorem vol8_write_at_4096 : fs_write vol8_created 1 letters 8 4096 = none := by
  rfl

/-- C20 (failing input). On the 8-block volume with the fresh inode 1, whose
block list is empty, `fs_write 1 buf 8 4096` has `block_offset = 1`: the first
iteration appends one block and then reads `vec.blocks[1]` of a list of length
1, outside its bounds; the call has no defined result. -/
theorem write_index_out_of_bounds :
    mounted_volume vol8_created ∧ is_valid_inode_num vol8_created 1 = true ∧
    fill_datablocks vol8_created 1 = some { indirect := 0, blocks := [] } ∧
    Int.tdiv 4096 DISK_BLOCK_SIZE = 1 ∧
    fs_write vol8_created 1 letters 8 4096 = none :=
  ⟨vol8_created_mounted_volume, by decide, vol8_created_blocks, by decide, vol8_write_at_4096⟩

end SimpleFs
namespace SimpleFs

theorem float_shift_spec (fuel : Nat) : ∀ p : Nat, p < 16777216 * 2 ^ fuel →
    p / 2 ^ float_shift fuel p < 16777216 ∧
    (float_shift fuel p = 0 ∨ 8388608 * 2 ^ float_shift fuel p ≤ p) := by
  induction fuel with
  | zero =>
    intro p hp
    simp only [float_shift, pow_zero, Nat.div_one, Nat.mul_one] at hp ⊢
    simp [hp]
  | succ f ih =>
    intro p hp
    by_cases h : p < 16777216
    · simp [float_shift, h]
    · simp only [float_shift, h, if_false]
      have hp2 : p / 2 < 16777216 * 2 ^ f := by
        rw [pow_succ] at hp
        omega
      obtain ⟨i1, i2⟩ := ih (p / 2) hp2
      constructor
      · rw [pow_succ, Nat.mul_comm, ← Nat.div_div_eq_div_mul]
        exact i1
      · right
        rw [pow_succ]
        rcases i2 with i2 | i2
        · rw [i2]
          simp only [pow_zero]
          omega
        · omega

theorem lt_two_pow_self_mul (p : Nat) : p < 16777216 * 2 ^ p := by
  have := Nat.lt_two_pow p
  omega

/-- Rounding to `float` raises a number by less than one part in `2^23`. -/
theorem round_to_float_le (p : Nat) : round_to_float p * 8388608 ≤ p * 8388609 := by
  obtain ⟨-, h2⟩ := float_shift_spec p p (lt_two_pow_self_mul p)
  have hdm := Nat.div_add_mod p (2 ^ float_shift p p)
  have hle : round_to_float p ≤ p + 2 ^ float_shift p p ∨ round_to_float p ≤ p := by
    simp only [round_to_float]
    have hq : p / 2 ^ float_shift p p * 2 ^ float_shift p p ≤ p := Nat.div_mul_le_self _ _
    split
    · exact Or.inr hq
    · split
      · exact Or.inr hq
      · left
        rw [Nat.add_mul, Nat.one_mul]
        omega
  rcases h2 with h2 | h2
  · have e : round_to_float p = p := by
      simp only [round_to_float, h2, pow_zero, Nat.div_one, Nat.mod_one, Nat.mul_one]
      simp
    rw [e]
    omega
  · rcases hle with hle | hle <;> omega

theorem format_inode_blocks_nonneg (size : Int) : 0 ≤ format_inode_blocks size := by
  simp only [format_inode_blocks]
  exact Int.natCast_nonneg _

/-- On a device of at least two blocks the inode table computed by `fs_format`
is smaller than the device. -/
theorem format_inode_blocks_lt (size : Int) (h : 2 ≤ size) : format_inode_blocks size < size := by
  have h1 := round_to_float_le size.toNat
  have h2 := round_to_float_le (round_to_float size.toNat * float_tenth)
  have h3 := round_to_float_le (round_to_float (round_to_float size.toNat * float_tenth) + 67108864)
  simp only [format_inode_blocks]
  simp only [float_tenth] at h2 h3 ⊢
  generalize round_to_float (round_to_float (round_to_float size.toNat * 13421773) + 67108864) = r4 at h3 ⊢
  generalize round_to_float (round_to_float size.toNat * 13421773) = r2 at h2 h3
  generalize round_to_float size.toNat = r1 at h1 h2
  omega

end SimpleFs
namespace SimpleFs

set_option maxRecDepth 100000 in
theorem blank20_format :
    (fs_format (blank 20)).map (fun r => (r.2, (get_super (r.1.disk.data 0)).magic,
      (get_super (r.1.disk.data 0)).nblocks, (get_super (r.1.disk.data 0)).ninodeblocks,
      (get_super (r.1.disk.data 0)).ninodes)) = some (1, FS_MAGIC, 20, 3, 384) := by
  decide

/-- C11 (failing input). On a device of 20 blocks, `fs_format` returns 1 and
writes a superblock with 20 blocks, 3 inode blocks and 384 inodes: in `float`
arithmetic `20 * 0.10f` is 2, and `std::round(2 + 0.5f)` is 3, not
`ceil(20 * 0.10) = 2`. -/
theorem format_geometry_divergence :
    (blank 20).is_disk_mounted = false ∧ (blank 20).disk.size = 20 ∧
    format_inode_blocks 20 = 3 ∧
    (fs_format (blank 20)).map (fun r => (r.2, (get_super (r.1.disk.data 0)).magic,
      (get_super (r.1.disk.data 0)).nblocks, (get_super (r.1.disk.data 0)).ninodeblocks,
      (get_super (r.1.disk.data 0)).ninodes)) = some (1, FS_MAGIC, 20, 3, 384) :=
  ⟨rfl, rfl, by decide, blank20_format⟩

set_option maxRecDepth 100000 in
theorem blank1_format : (fs_format (blank 1)).map Prod.snd = some 1 := by
  decide

set_option maxRecDepth 100000 in
theorem blank1_mount : (fs_format (blank 1)).bind (fun r => fs_mount r.1) = none := by
  rfl

end SimpleFs
namespace SimpleFs

theorem marked_busy_refl (s : SimpleFs) : marked_busy s s (fun _ => False) :=
  ⟨rfl, rfl, rfl, rfl, fun x => by simp⟩

theorem marked_busy_trans (s s1 s2 : SimpleFs) (P Q : Nat → Prop) (h1 : marked_busy s s1 P)
    (h2 : marked_busy s1 s2 Q) : marked_busy s s2 (fun x => P x ∨ Q x) := by
  obtain ⟨a1, a2, a3, a4, a5⟩ := h1
  obtain ⟨b1, b2, b3, b4, b5⟩ := h2
  refine ⟨b1.trans a1, b2.trans a2, b3.trans a3, b4.trans a4, fun x => ?_⟩
  rw [b5, a5, or_assoc]

theorem marked_busy_congr (s s1 : SimpleFs) (P Q : Nat → Prop) (h : marked_busy s s1 P)
    (hpq : ∀ x, P x ↔ Q x) : marked_busy s s1 Q := by
  obtain ⟨a1, a2, a3, a4, a5⟩ := h
  exact ⟨a1, a2, a3, a4, fun x => by rw [a5, hpq]⟩

theorem is_valid_block_congr (s s1 : SimpleFs) (h : s1.superblock = s.superblock) (b : Int) :
    is_valid_block s1 b = is_valid_block s b := by
  simp only [is_valid_block, h]

theorem is_valid_block_iff (s : SimpleFs) (b : Int) :
    is_valid_block s b = true ↔ 1 ≤ b ∧ b < s.superblock.nblocks := by
  simp [is_valid_block]

theorem getD_set_iff (bm : List Bool) (b x : Nat) (v : Bool) (h : b < bm.length) :
    (bm.set b v).getD x false = if x = b then v else bm.getD x false := by
  simp only [List.getD_eq_getElem?_getD]
  by_cases hx : x = b
  · subst hx
    rw [List.getElem?_set_self h]
    simp
  · rw [List.getElem?_set_ne (Ne.symm hx)]
    simp [hx]

theorem bitmap_assign_some (s s1 : SimpleFs) (b : Int) (v : Bool) (h : bitmap_assign s b v = some s1) :
    0 ≤ b ∧ b < (s.bitmap.length : Int) ∧ s1 = { s with bitmap := s.bitmap.set b.toNat v } := by
  simp only [bitmap_assign] at h
  split at h
  · rename_i hr
    cases h
    exact ⟨hr.1, hr.2, rfl⟩
  · cases h

theorem mark_block_busy_some (s s1 : SimpleFs) (b : Int) (h : mark_block_busy s b = some s1) :
    marked_busy s s1 (fun x => (x : Int) = b ∧ is_valid_block s b = true) := by
  simp only [mark_block_busy] at h
  split at h
  · rename_i hv
    obtain ⟨h0, h1, rfl⟩ := bitmap_assign_some _ _ _ _ h
    refine ⟨rfl, rfl, rfl, by simp, fun x => ?_⟩
    show (s.bitmap.set b.toNat true).getD x false = true ↔ _
    rw [getD_set_iff _ _ _ _ (by omega)]
    have e : ((x : Int) = b) ↔ x = b.toNat := by omega
    simp only [hv, and_true, e]
    by_cases hx : x = b.toNat
    · simp [hx]
    · simp [hx]
  · rename_i hv
    cases h
    refine ⟨rfl, rfl, rfl, rfl, fun x => ?_⟩
    simp [hv]

theorem mark_blocks_busy_some (l : List Int) : ∀ (s s1 : SimpleFs), mark_blocks_busy s l = some s1 →
    marked_busy s s1 (fun x => (x : Int) ∈ l ∧ is_valid_block s x = true) := by
  induction l with
  | nil =>
    intro s s1 h
    simp only [mark_blocks_busy] at h
    cases h
    exact marked_busy_congr _ _ _ _ (marked_busy_refl s) (fun x => by simp)
  | cons b rest ih =>
    intro s s1 h
    simp only [mark_blocks_busy] at h
    cases h1 : mark_block_busy s b with
    | none => simp [h1] at h
    | some s2 =>
      simp only [h1] at h
      have m1 := mark_block_busy_some _ _ _ h1
      have m2 := ih _ _ h
      refine marked_busy_congr _ _ _ _ (marked_busy_trans _ _ _ _ _ m1 m2) (fun x => ?_)
      simp only [is_valid_block_congr s s2 m1.2.1, List.mem_cons]
      constructor
      · rintro (⟨e, hv⟩ | ⟨hm, hv⟩)
        · exact ⟨Or.inl e, by rw [e]; exact hv⟩
        · exact ⟨Or.inr hm, hv⟩
      · rintro ⟨e | hm, hv⟩
        · exact Or.inl ⟨e, by rw [← e]; exact hv⟩
        · exact Or.inr ⟨hm, hv⟩

end SimpleFs
namespace SimpleFs

theorem is_valid_datablock_congr2 (s s1 : SimpleFs) (h : s1.superblock = s.superblock) (b : Int) :
    is_valid_datablock s1 b = is_valid_datablock s b := by
  simp only [is_valid_datablock, h]

theorem disk_read_eq_some (d : Disk) (b : Int) (blk : Block) (h : d.read b = some blk) :
    0 ≤ b ∧ b < d.nblocks ∧ blk = d.data b := by
  simp only [Disk.read] at h
  split at h
  · rename_i hr
    cases h
    exact ⟨hr.1, hr.2, rfl⟩
  · cases h

/-- The scan of one inode block by `fs_mount`: the direct pointers of the
slots with `isvalid ≠ 0` are marked busy when they are valid block numbers, and
their indirect pointers are recorded when they are valid data blocks. -/
theorem mount_scan_slots_some (blk : Block) (count : Nat) :
    ∀ (j : Int) (s s1 : SimpleFs) (ind ind1 : List Int),
      mount_scan_slots blk count j s ind = some (s1, ind1) →
      marked_busy s s1 (fun x => ∃ k : Nat, k < count ∧ (get_inode blk (j + k)).isvalid ≠ 0 ∧
        (x : Int) ∈ (get_inode blk (j + k)).direct ∧ is_valid_block s x = true) ∧
      (∀ p, p ∈ ind1 ↔ p ∈ ind ∨ ∃ k : Nat, k < count ∧ (get_inode blk (j + k)).isvalid ≠ 0 ∧
        p = (get_inode blk (j + k)).indirect ∧ is_valid_datablock s p = true) := by
  induction count with
  | zero =>
    intro j s s1 ind ind1 h
    simp only [mount_scan_slots] at h
    cases h
    exact ⟨marked_busy_congr _ _ _ _ (marked_busy_refl s) (fun x => by simp), fun p => by simp⟩
  | succ c ih =>
    intro j s s1 ind ind1 h
    simp only [mount_scan_slots] at h
    have shift : ∀ k : Nat, j + 1 + (k : Int) = j + ((k + 1 : Nat) : Int) := by
      intro k
      push_cast
      omega
    by_cases hv : (get_inode blk j).isvalid = 0
    · simp only [hv, if_true] at h
      obtain ⟨m, hi⟩ := ih _ _ _ _ _ h
      constructor
      · refine marked_busy_congr _ _ _ _ m (fun x => ?_)
        constructor
        · rintro ⟨k, hk, h1, h2, h3⟩
          rw [shift] at h1 h2
          exact ⟨k + 1, by omega, h1, h2, h3⟩
        · rintro ⟨k, hk, h1, h2, h3⟩
          cases k with
          | zero =>
            simp only [Nat.cast_zero, add_zero] at h1
            exact absurd hv h1
          | succ k =>
            rw [← shift] at h1 h2
            exact ⟨k, by omega, h1, h2, h3⟩
      · intro p
        rw [hi]
        constructor
        · rintro (hp | ⟨k, hk, h1, h2, h3⟩)
          · exact Or.inl hp
          · rw [shift] at h1 h2
            exact Or.inr ⟨k + 1, by omega, h1, h2, h3⟩
        · rintro (hp | ⟨k, hk, h1, h2, h3⟩)
          · exact Or.inl hp
          · cases k with
            | zero =>
              simp only [Nat.cast_zero, add_zero] at h1
              exact absurd hv h1
            | succ k =>
              rw [← shift] at h1 h2
              exact Or.inr ⟨k, by omega, h1, h2, h3⟩
    · simp only [hv, if_false] at h
      cases hm : mark_blocks_busy s (get_inode blk j).direct with
      | none => simp [hm] at h
      | some s2 =>
        simp only [hm] at h
        have m1 := mark_blocks_busy_some _ _ _ hm
        have hsb := m1.2.1
        obtain ⟨m2, hi⟩ := ih _ _ _ _ _ h
        constructor
        · refine marked_busy_congr _ _ _ _ (marked_busy_trans _ _ _ _ _ m1 m2) (fun x => ?_)
          simp only [is_valid_block_congr s s2 hsb]
          constructor
          · rintro (⟨h2, h3⟩ | ⟨k, hk, h1, h2, h3⟩)
            · exact ⟨0, by omega, by simpa using hv, by simpa using h2, h3⟩
            · rw [shift] at h1 h2
              exact ⟨k + 1, by omega, h1, h2, h3⟩
          · rintro ⟨k, hk, h1, h2, h3⟩
            cases k with
            | zero =>
              simp only [Nat.cast_zero, add_zero] at h2
              exact Or.inl ⟨h2, h3⟩
            | succ k =>
              rw [← shift] at h1 h2
              exact Or.inr ⟨k, by omega, h1, h2, h3⟩
        · intro p
          rw [hi]
          simp only [is_valid_datablock_congr2 s s2 hsb]
          constructor
          · rintro (hp | ⟨k, hk, h1, h2, h3⟩)
            · split at hp
              · rename_i hvd
                rcases List.mem_append.1 hp with hp | hp
                · exact Or.inl hp
                · simp only [List.mem_singleton] at hp
                  exact Or.inr ⟨0, by omega, by simpa using hv, by simpa using hp, by rw [hp]; exact hvd⟩
              · exact Or.inl hp
            · rw [shift] at h1 h2
              exact Or.inr ⟨k + 1, by omega, h1, h2, h3⟩
          · rintro (hp | ⟨k, hk, h1, h2, h3⟩)
            · left
              split
              · exact List.mem_append_left _ hp
              · exact hp
            · cases k with
              | zero =>
                simp only [Nat.cast_zero, add_zero] at h2
                left
                rw [← h2, h3]
                simp
              | succ k =>
                rw [← shift] at h1 h2
                exact Or.inr ⟨k, by omega, h1, h2, h3⟩

end SimpleFs
namespace SimpleFs

theorem INODES_PER_BLOCK_toNat : INODES_PER_BLOCK.toNat = 128 := rfl

/-- The first loop of `fs_mount` over `count` inode blocks from block `i` on. -/
theorem mount_scan_blocks_some (count : Nat) :
    ∀ (i : Int) (s s1 : SimpleFs) (ind ind1 : List Int),
      mount_scan_blocks count i s ind = some (s1, ind1) →
      marked_busy s s1 (fun x => ∃ c k : Nat, c < count ∧ k < 128 ∧
        (get_inode (s.disk.data (i + c)) k).isvalid ≠ 0 ∧
        (x : Int) ∈ (get_inode (s.disk.data (i + c)) k).direct ∧ is_valid_block s x = true) ∧
      (∀ p, p ∈ ind1 ↔ p ∈ ind ∨ ∃ c k : Nat, c < count ∧ k < 128 ∧
        (get_inode (s.disk.data (i + c)) k).isvalid ≠ 0 ∧
        p = (get_inode (s.disk.data (i + c)) k).indirect ∧ is_valid_datablock s p = true) ∧
      (∀ c : Nat, c < count → 0 ≤ i + c ∧ i + c < s.disk.nblocks) := by
  induction count with
  | zero =>
    intro i s s1 ind ind1 h
    simp only [mount_scan_blocks] at h
    cases h
    exact ⟨marked_busy_congr _ _ _ _ (marked_busy_refl s) (fun x => by simp), fun p => by simp,
      fun c hc => absurd hc (by omega)⟩
  | succ n ih =>
    intro i s s1 ind ind1 h
    simp only [mount_scan_blocks] at h
    have shift : ∀ c : Nat, i + 1 + (c : Int) = i + ((c + 1 : Nat) : Int) := by
      intro c
      push_cast
      omega
    cases hr : s.disk.read i with
    | none => simp [hr] at h
    | some blk =>
      obtain ⟨r0, r1, rfl⟩ := disk_read_eq_some _ _ _ hr
      simp only [hr] at h
      cases hs : mount_scan_slots (s.disk.data i) INODES_PER_BLOCK.toNat 0 s ind with
      | none => simp [hs] at h
      | some r =>
        obtain ⟨s2, ind2⟩ := r
        simp only [hs] at h
        rw [INODES_PER_BLOCK_toNat] at hs
        obtain ⟨m1, hi1⟩ := mount_scan_slots_some _ _ _ _ _ _ _ hs
        obtain ⟨m2, hi2, hrd⟩ := ih _ _ _ _ _ h
        have hsb := m1.2.1
        have hdk := m1.1
        simp only [zero_add] at m1 hi1
        refine ⟨?_, ?_, ?_⟩
        · refine marked_busy_congr _ _ _ _ (marked_busy_trans _ _ _ _ _ m1 m2) (fun x => ?_)
          simp only [is_valid_block_congr s s2 hsb, hdk]
          constructor
          · rintro (⟨k, hk, h1, h2, h3⟩ | ⟨c, k, hc, hk, h1, h2, h3⟩)
            · exact ⟨0, k, by omega, hk, by simpa using h1, by simpa using h2, h3⟩
            · rw [shift] at h1 h2
              exact ⟨c + 1, k, by omega, hk, h1, h2, h3⟩
          · rintro ⟨c, k, hc, hk, h1, h2, h3⟩
            cases c with
            | zero =>
              simp only [Nat.cast_zero, add_zero] at h1 h2
              exact Or.inl ⟨k, hk, h1, h2, h3⟩
            | succ c =>
              rw [← shift] at h1 h2
              exact Or.inr ⟨c, k, by omega, hk, h1, h2, h3⟩
        · intro p
          rw [hi2, hi1]
          simp only [is_valid_datablock_congr2 s s2 hsb, hdk]
          constructor
          · rintro ((hp | ⟨k, hk, h1, h2, h3⟩) | ⟨c, k, hc, hk, h1, h2, h3⟩)
            · exact Or.inl hp
            · exact Or.inr ⟨0, k, by omega, hk, by simpa using h1, by simpa using h2, h3⟩
            · rw [shift] at h1 h2
              exact Or.inr ⟨c + 1, k, by omega, hk, h1, h2, h3⟩
          · rintro (hp | ⟨c, k, hc, hk, h1, h2, h3⟩)
            · exact Or.inl (Or.inl hp)
            · cases c with
              | zero =>
                simp only [Nat.cast_zero, add_zero] at h1 h2
                exact Or.inl (Or.inr ⟨k, hk, h1, h2, h3⟩)
              | succ c =>
                rw [← shift] at h1 h2
                exact Or.inr ⟨c, k, by omega, hk, h1, h2, h3⟩
        · intro c hc
          cases c with
          | zero => simp only [Nat.cast_zero, add_zero]; exact ⟨r0, r1⟩
          | succ c =>
            have := hrd c (by omega)
            rw [hdk] at this
            push_cast
            omega

/-- The second loop of `fs_mount`: each recorded indirect block and each entry
of its pointer array is marked busy when it is a valid block number. -/
theorem mount_mark_indirect_some (l : List Int) : ∀ (s s1 : SimpleFs),
    mount_mark_indirect s l = some s1 →
    marked_busy s s1 (fun x => ∃ p ∈ l, is_valid_block s x = true ∧
      ((x : Int) = p ∨ ∃ k : Nat, k < POINTERS_PER_BLOCK ∧ get_int (s.disk.data p) k = x)) ∧
    ∀ p ∈ l, 0 ≤ p ∧ p < s.disk.nblocks := by
  induction l with
  | nil =>
    intro s s1 h
    simp only [mount_mark_indirect] at h
    cases h
    exact ⟨marked_busy_congr _ _ _ _ (marked_busy_refl s) (fun x => by simp), fun p hp => by cases hp⟩
  | cons p rest ih =>
    intro s s1 h
    simp only [mount_mark_indirect] at h
    cases hr : s.disk.read p with
    | none => simp [hr] at h
    | some blk =>
      obtain ⟨r0, r1, rfl⟩ := disk_read_eq_some _ _ _ hr
      simp only [hr] at h
      cases h1 : mark_block_busy s p with
      | none => simp [h1] at h
      | some s2 =>
        simp only [h1] at h
        cases h2 : mark_blocks_busy s2
            ((List.range POINTERS_PER_BLOCK).map (fun (j : Nat) => get_int (s.disk.data p) (j : Int))) with
        | none => simp [h2] at h
        | some s3 =>
          simp only [h2] at h
          have m1 := mark_block_busy_some _ _ _ h1
          have m2 := mark_blocks_busy_some _ _ _ h2
          obtain ⟨m3, hrd⟩ := ih _ _ h
          have m12 := marked_busy_trans _ _ _ _ _ m1 m2
          have hsb2 := m1.2.1
          have hsb3 := m12.2.1
          have hdk3 := m12.1
          constructor
          · refine marked_busy_congr _ _ _ _ (marked_busy_trans _ _ _ _ _ m12 m3) (fun x => ?_)
            simp only [is_valid_block_congr s s2 hsb2, is_valid_block_congr s s3 hsb3, hdk3,
              List.mem_map, List.mem_range, List.mem_cons]
            constructor
            · rintro ((⟨e, hv⟩ | ⟨⟨k, hk, e⟩, hv⟩) | ⟨q, hq, hv, hx⟩)
              · exact ⟨p, Or.inl rfl, by rw [e]; exact hv, Or.inl e⟩
              · exact ⟨p, Or.inl rfl, hv, Or.inr ⟨k, hk, e⟩⟩
              · exact ⟨q, Or.inr hq, hv, hx⟩
            · rintro ⟨q, hq | hq, hv, hx⟩
              · subst hq
                rcases hx with e | ⟨k, hk, e⟩
                · exact Or.inl (Or.inl ⟨e, by rw [← e]; exact hv⟩)
                · exact Or.inl (Or.inr ⟨⟨k, hk, e⟩, hv⟩)
              · exact Or.inr ⟨q, hq, hv, hx⟩
          · intro q hq
            rcases List.mem_cons.1 hq with e | hq
            · rw [e]; exact ⟨r0, r1⟩
            · have := hrd q hq
              rw [hdk3] at this
              exact this

end SimpleFs
namespace SimpleFs

theorem mark_block_free_some (s s1 : SimpleFs) (b : Int) (h : mark_block_free s b = some s1) :
    s1.disk = s.disk ∧ s1.superblock = s.superblock ∧ s1.is_disk_mounted = s.is_disk_mounted ∧
    s1.bitmap.length = s.bitmap.length ∧
    ∀ x : Nat, s1.bitmap.getD x false =
      if (x : Int) = b ∧ is_valid_block s b = true then false else s.bitmap.getD x false := by
  simp only [mark_block_free] at h
  split at h
  · rename_i hv
    obtain ⟨h0, h1, rfl⟩ := bitmap_assign_some _ _ _ _ h
    refine ⟨rfl, rfl, rfl, by simp, fun x => ?_⟩
    show (s.bitmap.set b.toNat false).getD x false = _
    rw [getD_set_iff _ _ _ _ (by omega)]
    have e : ((x : Int) = b) ↔ x = b.toNat := by omega
    simp only [hv, and_true, e]
  · rename_i hv
    cases h
    refine ⟨rfl, rfl, rfl, rfl, fun x => ?_⟩
    simp [hv]

theorem reset_bitmap_loop_some (count : Nat) : ∀ (i : Int) (s s1 : SimpleFs),
    reset_bitmap_loop s count i = some s1 → 1 ≤ i →
    s1.disk = s.disk ∧ s1.superblock = s.superblock ∧ s1.is_disk_mounted = s.is_disk_mounted ∧
    s1.bitmap.length = s.bitmap.length ∧
    ∀ x : Nat, s1.bitmap.getD x false =
      if i ≤ (x : Int) ∧ (x : Int) < i + count ∧ (x : Int) < s.superblock.nblocks then
        decide ((x : Int) ≤ s.superblock.ninodeblocks)
      else s.bitmap.getD x false := by
  induction count with
  | zero =>
    intro i s s1 h hi
    simp only [reset_bitmap_loop] at h
    cases h
    refine ⟨rfl, rfl, rfl, rfl, fun x => ?_⟩
    rw [if_neg]
    simp only [Nat.cast_zero, add_zero]
    omega
  | succ n ih =>
    intro i s s1 h hi
    simp only [reset_bitmap_loop] at h
    by_cases hle : i ≤ s.superblock.ninodeblocks
    · simp only [hle, if_true] at h
      cases h1 : mark_block_busy s i with
      | none => simp [h1] at h
      | some s2 =>
        simp only [h1] at h
        obtain ⟨a1, a2, a3, a4, a5⟩ := mark_block_busy_some _ _ _ h1
        obtain ⟨b1, b2, b3, b4, b5⟩ := ih _ _ _ h (by omega)
        refine ⟨b1.trans a1, b2.trans a2, b3.trans a3, b4.trans a4, fun x => ?_⟩
        rw [b5, a2]
        have hvb := is_valid_block_iff s i
        by_cases c1 : i + 1 ≤ (x : Int) ∧ (x : Int) < i + 1 + n ∧ (x : Int) < s.superblock.nblocks
        · rw [if_pos c1, if_pos]
          push_cast
          omega
        · rw [if_neg c1]
          by_cases c2 : (x : Int) = i ∧ (x : Int) < s.superblock.nblocks
          · rw [if_pos (by push_cast; omega)]
            have : s2.bitmap.getD x false = true := by
              rw [a5]
              right
              exact ⟨c2.1, hvb.2 (by omega)⟩
            rw [this]
            symm
            rw [decide_eq_true_iff]
            omega
          · rw [if_neg (by push_cast; omega)]
            have hiff := a5 x
            have hnot : ¬ ((x : Int) = i ∧ is_valid_block s i = true) := by
              rw [hvb]
              omega
            simp only [hnot, or_false] at hiff
            cases hb : s.bitmap.getD x false
            · cases hb2 : s2.bitmap.getD x false
              · rfl
              · rw [hiff.1 hb2] at hb
                cases hb
            · exact hiff.2 hb
    · simp only [hle, if_false] at h
      cases h1 : mark_block_free s i with
      | none => simp [h1] at h
      | some s2 =>
        simp only [h1] at h
        obtain ⟨a1, a2, a3, a4, a5⟩ := mark_block_free_some _ _ _ h1
        obtain ⟨b1, b2, b3, b4, b5⟩ := ih _ _ _ h (by omega)
        refine ⟨b1.trans a1, b2.trans a2, b3.trans a3, b4.trans a4, fun x => ?_⟩
        rw [b5, a2, a5]
        have hvb := is_valid_block_iff s i
        simp only [hvb]
        push_cast
        split_ifs <;>
          first
          | rfl
          | omega
          | (symm; rw [decide_eq_false_iff_not]; omega)

/-- The bitmap after `reset_bitmap`: entry 0 is busy; an entry `x` below
`nblocks` is busy exactly when `x ≤ ninodeblocks`; the other entries keep their
value. -/
theorem reset_bitmap_some (s s1 : SimpleFs) (h : reset_bitmap s = some s1) :
    s1.disk = s.disk ∧ s1.superblock = s.superblock ∧ s1.is_disk_mounted = s.is_disk_mounted ∧
    s1.bitmap.length = s.bitmap.length ∧ 0 < s.bitmap.length ∧
    ∀ x : Nat, s1.bitmap.getD x false =
      if x = 0 then true
      else if (x : Int) < s.superblock.nblocks then decide ((x : Int) ≤ s.superblock.ninodeblocks)
      else s.bitmap.getD x false := by
  simp only [reset_bitmap] at h
  cases h0 : bitmap_assign s 0 true with
  | none => simp [h0] at h
  | some s2 =>
    simp only [h0] at h
    obtain ⟨-, hlen, rfl⟩ := bitmap_assign_some _ _ _ _ h0
    obtain ⟨b1, b2, b3, b4, b5⟩ := reset_bitmap_loop_some _ _ _ _ h (le_refl 1)
    refine ⟨b1, b2, b3, by simpa using b4, by omega, fun x => ?_⟩
    rw [b5]
    show (if _ then _ else (s.bitmap.set (0 : Int).toNat true).getD x false) = _
    rw [getD_set_iff _ _ _ _ (by simpa using hlen)]
    show (if 1 ≤ (x : Int) ∧ (x : Int) < 1 + ((s.superblock.nblocks - 1).toNat : Nat) ∧
      (x : Int) < s.superblock.nblocks then _ else _) = _
    by_cases hx : x = 0
    · subst hx
      simp
    · rw [if_neg hx]
      by_cases hlt : (x : Int) < s.superblock.nblocks
      · rw [if_pos hlt, if_pos (by omega)]
      · rw [if_neg hlt, if_neg (by omega), if_neg]
        simpa using hx

end SimpleFs
namespace SimpleFs

/-- A successful `fs_mount` from the unmounted state: the superblock is the one
stored in block 0, the device is unchanged, and the bitmap entries below
`nblocks` are the reserved blocks together with the blocks marked by the two
scanning loops. -/
theorem fs_mount_some (s s1 : SimpleFs) (hum : s.is_disk_mounted = false)
    (h : fs_mount s = some (s1, 1)) :
    s1.disk = s.disk ∧ s1.superblock = get_super (s.disk.data 0) ∧ s1.superblock.magic = FS_MAGIC ∧
    s1.is_disk_mounted = true ∧ s1.bitmap.length = s.bitmap.length ∧ 0 < s.bitmap.length ∧
    (∀ c : Nat, c < s1.superblock.ninodeblocks.toNat → (1 : Int) + c < s.disk.nblocks) ∧
    ∀ x : Nat, (x : Int) < s1.superblock.nblocks →
      (s1.bitmap.getD x false = true ↔
        (x = 0 ∨ (x : Int) ≤ s1.superblock.ninodeblocks ∨
          (∃ c k : Nat, c < s1.superblock.ninodeblocks.toNat ∧ k < 128 ∧
            (get_inode (s.disk.data (1 + c)) k).isvalid ≠ 0 ∧
            (x : Int) ∈ (get_inode (s.disk.data (1 + c)) k).direct ∧ is_valid_block s1 x = true) ∨
          (∃ c k : Nat, c < s1.superblock.ninodeblocks.toNat ∧ k < 128 ∧
            (get_inode (s.disk.data (1 + c)) k).isvalid ≠ 0 ∧
            is_valid_datablock s1 (get_inode (s.disk.data (1 + c)) k).indirect = true ∧
            is_valid_block s1 x = true ∧
            ((x : Int) = (get_inode (s.disk.data (1 + c)) k).indirect ∨
              ∃ j : Nat, j < POINTERS_PER_BLOCK ∧
                get_int (s.disk.data (get_inode (s.disk.data (1 + c)) k).indirect) j = x)))) := by
  simp only [fs_mount, hum, Bool.false_eq_true, if_false, read_superblock] at h
  cases hr : s.disk.read 0 with
  | none =>
    rw [hr] at h
    simp at h
  | some blk =>
    rw [hr] at h
    obtain ⟨-, r1, rfl⟩ := disk_read_eq_some _ _ _ hr
    simp only at h
    by_cases hmagic : (get_super (s.disk.data 0)).magic = FS_MAGIC
    · simp only [hmagic, ne_eq, not_true_eq_false, if_false] at h
      cases h2 : reset_bitmap (⟨s.disk, false, s.bitmap, get_super (s.disk.data 0)⟩ : SimpleFs) with
      | none => simp [h2] at h
      | some s2 =>
        simp only [h2] at h
        obtain ⟨a1, a2, a3, a4, a5, a6⟩ := reset_bitmap_some _ _ h2
        cases h3 : mount_scan_blocks s2.superblock.ninodeblocks.toNat 1 s2 [] with
        | none => simp [h3] at h
        | some r =>
          obtain ⟨s3, ind⟩ := r
          simp only [h3] at h
          obtain ⟨m3, hi3, hrd3⟩ := mount_scan_blocks_some _ _ _ _ _ _ h3
          cases h4 : mount_mark_indirect s3 ind with
          | none => simp [h4] at h
          | some s4 =>
            simp only [h4, Option.some.injEq, Prod.mk.injEq, and_true] at h
            obtain ⟨m4, -⟩ := mount_mark_indirect_some _ _ _ h4
            have m34 := marked_busy_trans _ _ _ _ _ m3 m4
            obtain ⟨c1, c2, c3, c4, c5⟩ := m34
            have hd2 : s2.disk = s.disk := a1
            have hsb2 : s2.superblock = get_super (s.disk.data 0) := a2
            have hsb3 : s3.superblock = s2.superblock := m3.2.1
            have hd3 : s3.disk = s2.disk := m3.1
            subst h
            have hsb1 : s4.superblock = get_super (s.disk.data 0) := c2.trans hsb2
            refine ⟨c1.trans hd2, hsb1, by rw [hsb1]; exact hmagic, rfl,
              c4.trans a4, a5, ?_, ?_⟩
            · intro c hc
              have := hrd3 c (by
                show c < s2.superblock.ninodeblocks.toNat
                rw [hsb2, ← hsb1]; exact hc)
              rw [hd2] at this
              exact this.2
            · intro x hx
              show s4.bitmap.getD x false = true ↔ _
              rw [c5, a6]
              have e1 : ∀ b, is_valid_block s2 b = is_valid_block s4 b := fun b =>
                (is_valid_block_congr s2 s4 c2 b).symm
              have e2 : ∀ b, is_valid_block s3 b = is_valid_block s4 b := fun b =>
                (is_valid_block_congr s3 s4 (c2.trans hsb3.symm) b).symm
              have e3 : ∀ b, is_valid_datablock s2 b = is_valid_datablock s4 b := fun b =>
                (is_valid_datablock_congr2 s2 s4 c2 b).symm
              simp only [hi3, List.not_mem_nil, false_or, e1, e2, e3, hd2, hd3]
              have enib : s2.superblock.ninodeblocks = s4.superblock.ninodeblocks := by rw [c2]
              have enb : (get_super (s.disk.data 0)).nblocks = s4.superblock.nblocks := by rw [hsb1]
              have enib2 : (get_super (s.disk.data 0)).ninodeblocks = s4.superblock.ninodeblocks := by
                rw [hsb1]
              simp only [enib]
              show ((if x = 0 then true
                else if (x : Int) < (get_super (s.disk.data 0)).nblocks then
                  decide ((x : Int) ≤ (get_super (s.disk.data 0)).ninodeblocks)
                else s.bitmap.getD x false) = true ∨ _) ↔ _
              rw [enb, enib2]
              have hx1 : (if x = 0 then true
                else if (x : Int) < s4.superblock.nblocks then
                  decide ((x : Int) ≤ s4.superblock.ninodeblocks)
                else s.bitmap.getD x false) = true ↔ (x = 0 ∨ (x : Int) ≤ s4.superblock.ninodeblocks) := by
                by_cases hx0 : x = 0
                · simp [hx0]
                · simp [hx0, hx]
              rw [hx1]
              constructor
              · rintro ((h0 | h0) | (h0 | ⟨p, ⟨c, k, hc, hk, g1, g2, g3⟩, g4, g5⟩))
                · exact Or.inl h0
                · exact Or.inr (Or.inl h0)
                · exact Or.inr (Or.inr (Or.inl h0))
                · subst g2
                  exact Or.inr (Or.inr (Or.inr ⟨c, k, hc, hk, g1, g3, g4, g5⟩))
              · rintro (h0 | h0 | h0 | ⟨c, k, hc, hk, g1, g3, g4, g5⟩)
                · exact Or.inl (Or.inl h0)
                · exact Or.inl (Or.inr h0)
                · exact Or.inr (Or.inl h0)
                · exact Or.inr (Or.inr ⟨_, ⟨c, k, hc, hk, g1, rfl, g3⟩, g4, g5⟩)
    · simp only [hmagic, ne_eq, not_false_eq_true, if_true, Option.some.injEq, Prod.mk.injEq] at h
      exact absurd h.2 (by decide)

end SimpleFs
namespace SimpleFs

set_option maxRecDepth 100000 in
theorem disk8_mount :
    (fs_mount (new disk8 { magic := 0, nblocks := 0, ninodeblocks := 0, ninodes := 0 })).map
      (fun r => (r.2, r.1.is_disk_mounted, r.1.bitmap, r.1.superblock.nblocks,
        r.1.superblock.ninodeblocks, r.1.superblock.ninodes)) =
      some (1, true, [true, true, true, true, true, true, true, false], 8, 1, 128) := by
  decide

theorem inode_at_of_slot (s : SimpleFs) (c k : Nat) (hk : k < 128) :
    inode_at s ((c : Int) * 128 + k + 1) = get_inode (s.disk.data (1 + c)) k := by
  have e1 : ((c : Int) * 128 + k + 1 - 1) / INODES_PER_BLOCK + 1 = 1 + c := by
    simp only [INODES_PER_BLOCK]
    omega
  simp only [inode_at, e1]
  congr 1
  simp only [INODES_PER_BLOCK]
  omega

/-- C17. Bitmap reconstruction at mount.  After `fs_mount` has returned 1 from
the unmounted state, a block index `b` below `nblocks` is busy in the bitmap if
and only if `b = 0`, or `1 ≤ b ≤ ninodeblocks`, or some slot `n` of the inode
table with `isvalid ≠ 0` has `b ≠ 0` among its direct pointers, or has a valid
data block as its indirect pointer and `b ≠ 0` is that block or one of the
`POINTERS_PER_BLOCK` entries stored in it.  Slots with `isvalid = 0` mark
nothing. -/
theorem mount_rebuilds_bitmap (s s1 : SimpleFs) (hum : s.is_disk_mounted = false)
    (h : fs_mount s = some (s1, 1)) (b : Nat) (hb : (b : Int) < s1.superblock.nblocks) :
    (s1.bitmap.getD b false = true ↔
      b = 0 ∨ (1 ≤ b ∧ (b : Int) ≤ s1.superblock.ninodeblocks) ∨
      ∃ n : Int, 1 ≤ n ∧ n ≤ s1.superblock.ninodeblocks * INODES_PER_BLOCK ∧
        (inode_at s1 n).isvalid ≠ 0 ∧ 1 ≤ b ∧
        ((b : Int) ∈ (inode_at s1 n).direct ∨
          (is_valid_datablock s1 (inode_at s1 n).indirect = true ∧
            ((b : Int) = (inode_at s1 n).indirect ∨
              ∃ k : Nat, k < POINTERS_PER_BLOCK ∧
                get_int (s1.disk.data (inode_at s1 n).indirect) (k : Int) = (b : Int))))) := by
  obtain ⟨hd, -, -, -, -, -, -, hx⟩ := fs_mount_some s s1 hum h
  rw [hx b hb]
  have hvb := is_valid_block_iff s1 b
  have slot : ∀ c k : Nat, k < 128 →
      get_inode (s.disk.data (1 + c)) k = inode_at s1 ((c : Int) * 128 + k + 1) := by
    intro c k hk
    rw [inode_at_of_slot s1 c k hk, hd]
  have hrange : ∀ c k : Nat, c < s1.superblock.ninodeblocks.toNat → k < 128 →
      1 ≤ (c : Int) * 128 + k + 1 ∧
      (c : Int) * 128 + k + 1 ≤ s1.superblock.ninodeblocks * INODES_PER_BLOCK := by
    intro c k hc hk
    simp only [INODES_PER_BLOCK]
    omega
  have hsplit : ∀ n : Int, 1 ≤ n → n ≤ s1.superblock.ninodeblocks * INODES_PER_BLOCK →
      ∃ c k : Nat, c < s1.superblock.ninodeblocks.toNat ∧ k < 128 ∧ n = (c : Int) * 128 + k + 1 := by
    intro n h1 h2
    simp only [INODES_PER_BLOCK] at h2
    refine ⟨((n - 1) / 128).toNat, ((n - 1) % 128).toNat, ?_, ?_, ?_⟩ <;> omega
  constructor
  · rintro (h0 | h0 | ⟨c, k, hc, hk, g1, g2, g3⟩ | ⟨c, k, hc, hk, g1, g2, g3, g4⟩)
    · exact Or.inl h0
    · by_cases hz : b = 0
      · exact Or.inl hz
      · exact Or.inr (Or.inl ⟨by omega, h0⟩)
    · rw [slot c k hk] at g1 g2
      obtain ⟨r1, r2⟩ := hrange c k hc hk
      exact Or.inr (Or.inr ⟨_, r1, r2, g1, by have := hvb.1 g3; omega, Or.inl g2⟩)
    · rw [slot c k hk] at g1 g2 g4
      obtain ⟨r1, r2⟩ := hrange c k hc hk
      rw [← hd] at g4
      exact Or.inr (Or.inr ⟨_, r1, r2, g1, by have := hvb.1 g3; omega, Or.inr ⟨g2, g4⟩⟩)
  · rintro (h0 | ⟨-, h0⟩ | ⟨n, r1, r2, g1, g0, g2 | ⟨g2, g4⟩⟩)
    · exact Or.inl h0
    · exact Or.inr (Or.inl h0)
    · obtain ⟨c, k, hc, hk, rfl⟩ := hsplit n r1 r2
      rw [← slot c k hk] at g1 g2
      exact Or.inr (Or.inr (Or.inl ⟨c, k, hc, hk, g1, g2, hvb.2 ⟨by omega, hb⟩⟩))
    · obtain ⟨c, k, hc, hk, rfl⟩ := hsplit n r1 r2
      rw [hd] at g4
      rw [← slot c k hk] at g1 g2 g4
      exact Or.inr (Or.inr (Or.inr ⟨c, k, hc, hk, g1, g2, hvb.2 ⟨by omega, hb⟩, g4⟩))

theorem mount_rebuilds_bitmap_witness :
    (new disk8 { magic := 0, nblocks := 0, ninodeblocks := 0, ninodes := 0 }).is_disk_mounted = false ∧
    ∃ s1, fs_mount (new disk8 { magic := 0, nblocks := 0, ninodeblocks := 0, ninodes := 0 }) = some (s1, 1) ∧
      s1.bitmap = [true, true, true, true, true, true, true, false] ∧
      ((7 : Nat) : Int) < s1.superblock.nblocks ∧
      (s1.bitmap.getD 7 false = true ↔
        7 = 0 ∨ (1 ≤ 7 ∧ ((7 : Nat) : Int) ≤ s1.superblock.ninodeblocks) ∨
        ∃ n : Int, 1 ≤ n ∧ n ≤ s1.superblock.ninodeblocks * INODES_PER_BLOCK ∧
          (inode_at s1 n).isvalid ≠ 0 ∧ 1 ≤ 7 ∧
          (((7 : Nat) : Int) ∈ (inode_at s1 n).direct ∨
            (is_valid_datablock s1 (inode_at s1 n).indirect = true ∧
              (((7 : Nat) : Int) = (inode_at s1 n).indirect ∨
                ∃ k : Nat, k < POINTERS_PER_BLOCK ∧
                  get_int (s1.disk.data (inode_at s1 n).indirect) (k : Int) = ((7 : Nat) : Int))))) := by
  refine ⟨rfl, ?_⟩
  have hev := disk8_mount
  cases hm : fs_mount (new disk8 { magic := 0, nblocks := 0, ninodeblocks := 0, ninodes := 0 }) with
  | none =>
    rw [hm] at hev
    cases hev
  | some r =>
    obtain ⟨s1, v⟩ := r
    rw [hm] at hev
    simp only [Option.map_some', Option.some.injEq, Prod.mk.injEq] at hev
    obtain ⟨rfl, -, hbm, hnb, -, -⟩ := hev
    have hb : ((7 : Nat) : Int) < s1.superblock.nblocks := by rw [hnb]; decide
    exact ⟨s1, rfl, hbm, hb, mount_rebuilds_bitmap _ s1 rfl hm 7 hb⟩

end SimpleFs
namespace SimpleFs

theorem uint_of_bytes_byte_of_int (v : Int) :
    uint_of_bytes (byte_of_int v 0) (byte_of_int v 1) (byte_of_int v 2) (byte_of_int v 3) =
      v % 4294967296 := by
  have h0 := to_byte_val v
  have h1 := to_byte_val (v / 256)
  have h2 := to_byte_val (v / 65536)
  have h3 := to_byte_val (v / 16777216)
  have e0 : byte_of_int v 0 = to_byte v := by simp [byte_of_int]
  have e1 : byte_of_int v 1 = to_byte (v / 256) := by simp [byte_of_int]
  have e2 : byte_of_int v 2 = to_byte (v / 65536) := by simp [byte_of_int]
  have e3 : byte_of_int v 3 = to_byte (v / 16777216) := by simp [byte_of_int]
  rw [e0, e1, e2, e3]
  simp only [uint_of_bytes]
  rw [h0, h1, h2, h3]
  omega

/-- Reading back the superblock view of a block the four fields were stored in. -/
theorem get_super_set_super (blk : Block) (sb : fs_superblock) :
    get_super (set_super blk sb) =
      { magic := sb.magic % 4294967296
        nblocks := wrap32 sb.nblocks
        ninodeblocks := wrap32 sb.ninodeblocks
        ninodes := wrap32 sb.ninodes } := by
  have hm : ∀ p : Int, 0 ≤ p → p < 4 → set_super blk sb p = byte_of_int sb.magic p := by
    intro p h0 h1
    simp only [set_super, set_int]
    rw [if_neg (by omega), if_neg (by omega), if_neg (by omega), if_pos (by omega)]
    congr 1
    omega
  simp only [get_super]
  rw [hm 0 (by decide) (by decide), hm 1 (by decide) (by decide), hm 2 (by decide) (by decide),
    hm 3 (by decide) (by decide), uint_of_bytes_byte_of_int]
  simp only [set_super]
  rw [get_int_set_int_ne _ 3 1 _ (by decide), get_int_set_int_ne _ 2 1 _ (by decide),
    get_int_set_int_same, get_int_set_int_ne _ 3 2 _ (by decide), get_int_set_int_same,
    get_int_set_int_same]

theorem clear_block_data_some (s : SimpleFs) (b : Int) (h0 : 0 ≤ b) (h1 : b < s.disk.nblocks) :
    clear_block_data s b = some (with_block s b EMPTY_BLOCK) := by
  simp only [clear_block_data]
  rw [disk_write_some _ _ _ h0 h1]
  rfl

theorem format_clear_loop_spec (count : Nat) : ∀ (i : Int) (s : SimpleFs), 0 ≤ i →
    i + count ≤ s.disk.nblocks →
    ∃ s1, format_clear_loop s count i = some s1 ∧ s1.bitmap = s.bitmap ∧
      s1.superblock = s.superblock ∧ s1.is_disk_mounted = s.is_disk_mounted ∧
      s1.disk.nblocks = s.disk.nblocks ∧
      ∀ b, s1.disk.data b = if i ≤ b ∧ b < i + count then EMPTY_BLOCK else s.disk.data b := by
  induction count with
  | zero =>
    intro i s _ _
    refine ⟨s, rfl, rfl, rfl, rfl, rfl, fun b => ?_⟩
    rw [if_neg]
    simp only [Nat.cast_zero, add_zero]
    omega
  | succ n ih =>
    intro i s h0 h1
    push_cast at h1
    obtain ⟨s1, e, a1, a2, a3, a4, a5⟩ := ih (i + 1) (with_block s i EMPTY_BLOCK) (by omega) (by
      show i + 1 + (n : Int) ≤ s.disk.nblocks
      omega)
    refine ⟨s1, ?_, a1, a2, a3, a4, fun b => ?_⟩
    · simp only [format_clear_loop]
      rw [clear_block_data_some s i h0 (by omega)]
      exact e
    · rw [a5]
      show (if i + 1 ≤ b ∧ b < i + 1 + n then EMPTY_BLOCK
        else (if b = i then EMPTY_BLOCK else s.disk.data b)) = _
      push_cast
      split_ifs <;> first | rfl | omega

/-- The effect of `fs_format` on an unmounted session whose device has at least
one block. -/
theorem fs_format_spec (s : SimpleFs) (hum : s.is_disk_mounted = false) (hN : 1 ≤ s.disk.nblocks) :
    ∃ s1, fs_format s = some (s1, 1) ∧ s1.bitmap = s.bitmap ∧ s1.is_disk_mounted = false ∧
      s1.disk.nblocks = s.disk.nblocks ∧
      s1.disk.data 0 = set_super EMPTY_BLOCK
        { magic := FS_MAGIC
          nblocks := s.disk.nblocks
          ninodeblocks := format_inode_blocks s.disk.nblocks
          ninodes := format_inode_blocks s.disk.nblocks * INODES_PER_BLOCK } ∧
      ∀ b, 1 ≤ b → b < s.disk.nblocks → s1.disk.data b = EMPTY_BLOCK := by
  obtain ⟨s1, e, a1, a2, a3, a4, a5⟩ := format_clear_loop_spec (s.disk.nblocks - 1).toNat 1
    (with_block s 0 (set_super EMPTY_BLOCK
        { magic := FS_MAGIC
          nblocks := s.disk.nblocks
          ninodeblocks := format_inode_blocks s.disk.nblocks
          ninodes := format_inode_blocks s.disk.nblocks * INODES_PER_BLOCK })) (by decide) (by
      show 1 + ((s.disk.nblocks - 1).toNat : Int) ≤ s.disk.nblocks
      omega)
  refine ⟨s1, ?_, a1, by rw [a3]; exact hum, a4, ?_, ?_⟩
  · unfold fs_format
    have hne : ¬ (s.is_disk_mounted = true) := by rw [hum]; decide
    rw [if_neg hne]
    simp only [Disk.size]
    rw [disk_write_some _ _ _ (le_refl 0) (by omega)]
    simp only [with_block] at e
    simp only [e]
  · rw [a5, if_neg (by omega)]
    simp [with_block]
  · intro b h1 h2
    rw [a5, if_pos (by omega)]

end SimpleFs
namespace SimpleFs

theorem mark_block_busy_total (s : SimpleFs) (hlen : s.superblock.nblocks ≤ s.bitmap.length) (b : Int) :
    ∃ s1, mark_block_busy s b = some s1 := by
  simp only [mark_block_busy]
  split
  · rename_i hv
    have := (is_valid_block_iff s b).1 hv
    simp only [bitmap_assign]
    rw [if_pos (by omega)]
    exact ⟨_, rfl⟩
  · exact ⟨_, rfl⟩

theorem mark_block_free_total (s : SimpleFs) (hlen : s.superblock.nblocks ≤ s.bitmap.length) (b : Int) :
    ∃ s1, mark_block_free s b = some s1 := by
  simp only [mark_block_free]
  split
  · rename_i hv
    have := (is_valid_block_iff s b).1 hv
    simp only [bitmap_assign]
    rw [if_pos (by omega)]
    exact ⟨_, rfl⟩
  · exact ⟨_, rfl⟩

theorem mark_blocks_busy_total (l : List Int) : ∀ (s : SimpleFs),
    s.superblock.nblocks ≤ s.bitmap.length → ∃ s1, mark_blocks_busy s l = some s1 := by
  induction l with
  | nil => exact fun s _ => ⟨s, rfl⟩
  | cons b rest ih =>
    intro s hlen
    obtain ⟨s2, h1⟩ := mark_block_busy_total s hlen b
    obtain ⟨-, a2, -, a4, -⟩ := mark_block_busy_some _ _ _ h1
    obtain ⟨s3, h2⟩ := ih s2 (by rw [a2, a4]; exact hlen)
    exact ⟨s3, by simp only [mark_blocks_busy, h1, h2]⟩

theorem mount_scan_slots_total (blk : Block) (count : Nat) : ∀ (j : Int) (s : SimpleFs) (ind : List Int),
    s.superblock.nblocks ≤ s.bitmap.length → ∃ r, mount_scan_slots blk count j s ind = some r := by
  induction count with
  | zero => exact fun j s ind _ => ⟨_, rfl⟩
  | succ n ih =>
    intro j s ind hlen
    simp only [mount_scan_slots]
    split
    · exact ih _ _ _ hlen
    · obtain ⟨s2, h1⟩ := mark_blocks_busy_total (get_inode blk j).direct s hlen
      obtain ⟨-, a2, -, a4, -⟩ := mark_blocks_busy_some _ _ _ h1
      simp only [h1]
      exact ih _ _ _ (by rw [a2, a4]; exact hlen)

theorem mount_scan_blocks_total (count : Nat) : ∀ (i : Int) (s : SimpleFs) (ind : List Int),
    s.superblock.nblocks ≤ s.bitmap.length → 0 ≤ i → i + count ≤ s.disk.nblocks →
    ∃ r, mount_scan_blocks count i s ind = some r := by
  induction count with
  | zero => exact fun i s ind _ _ _ => ⟨_, rfl⟩
  | succ n ih =>
    intro i s ind hlen h0 h1
    push_cast at h1
    simp only [mount_scan_blocks]
    rw [disk_read_some _ _ h0 (by omega)]
    obtain ⟨r, hr⟩ := mount_scan_slots_total (s.disk.data i) INODES_PER_BLOCK.toNat 0 s ind hlen
    obtain ⟨s2, ind2⟩ := r
    obtain ⟨⟨a1, a2, -, a4, -⟩, -⟩ := mount_scan_slots_some _ _ _ _ _ _ _ hr
    simp only [hr]
    exact ih _ _ _ (by rw [a2, a4]; exact hlen) (by omega) (by rw [a1]; omega)

theorem mount_mark_indirect_total (l : List Int) : ∀ (s : SimpleFs),
    s.superblock.nblocks ≤ s.bitmap.length → (∀ p ∈ l, 0 ≤ p ∧ p < s.disk.nblocks) →
    ∃ s1, mount_mark_indirect s l = some s1 := by
  induction l with
  | nil => exact fun s _ _ => ⟨s, rfl⟩
  | cons p rest ih =>
    intro s hlen hr
    obtain ⟨r0, r1⟩ := hr p (List.mem_cons_self _ _)
    obtain ⟨s2, h1⟩ := mark_block_busy_total s hlen p
    obtain ⟨a1, a2, -, a4, -⟩ := mark_block_busy_some _ _ _ h1
    obtain ⟨s3, h2⟩ := mark_blocks_busy_total
      ((List.range POINTERS_PER_BLOCK).map (fun (j : Nat) => get_int (s.disk.data p) (j : Int))) s2
      (by rw [a2, a4]; exact hlen)
    obtain ⟨b1, b2, -, b4, -⟩ := mark_blocks_busy_some _ _ _ h2
    obtain ⟨s4, h3⟩ := ih s3 (by rw [b2, b4, a2, a4]; exact hlen) (by
      intro q hq
      rw [b1, a1]
      exact hr q (List.mem_cons_of_mem _ hq))
    refine ⟨s4, ?_⟩
    simp only [mount_mark_indirect]
    rw [disk_read_some _ _ r0 r1]
    simp only [h1, h2, h3]

theorem reset_bitmap_loop_total (count : Nat) : ∀ (i : Int) (s : SimpleFs),
    s.superblock.nblocks ≤ s.bitmap.length → ∃ s1, reset_bitmap_loop s count i = some s1 := by
  induction count with
  | zero => exact fun i s _ => ⟨s, rfl⟩
  | succ n ih =>
    intro i s hlen
    simp only [reset_bitmap_loop]
    by_cases hle : i ≤ s.superblock.ninodeblocks
    · obtain ⟨s2, h1⟩ := mark_block_busy_total s hlen i
      obtain ⟨-, a2, -, a4, -⟩ := mark_block_busy_some _ _ _ h1
      simp only [hle, if_true, h1]
      exact ih _ _ (by rw [a2, a4]; exact hlen)
    · obtain ⟨s2, h1⟩ := mark_block_free_total s hlen i
      obtain ⟨-, a2, -, a4, -⟩ := mark_block_free_some _ _ _ h1
      simp only [hle, if_false, h1]
      exact ih _ _ (by rw [a2, a4]; exact hlen)

theorem reset_bitmap_total (s : SimpleFs) (hlen : s.superblock.nblocks ≤ s.bitmap.length)
    (hpos : 0 < s.bitmap.length) : ∃ s1, reset_bitmap s = some s1 := by
  simp only [reset_bitmap, bitmap_assign]
  rw [if_pos ⟨le_refl 0, by omega⟩]
  exact reset_bitmap_loop_total _ _ _ (by simpa using hlen)

/-- `fs_mount` succeeds on an unmounted session whose device holds a superblock
with the magic number and a geometry that fits the device and the bitmap. -/
theorem fs_mount_total (s : SimpleFs) (hum : s.is_disk_mounted = false)
    (hmagic : (get_super (s.disk.data 0)).magic = FS_MAGIC)
    (hdev : (get_super (s.disk.data 0)).nblocks ≤ s.disk.nblocks)
    (hlen : (get_super (s.disk.data 0)).nblocks ≤ s.bitmap.length)
    (hpos : 0 < s.bitmap.length) (hd : 0 < s.disk.nblocks)
    (h0 : 0 ≤ (get_super (s.disk.data 0)).ninodeblocks)
    (h1 : (get_super (s.disk.data 0)).ninodeblocks < s.disk.nblocks) :
    ∃ s1, fs_mount s = some (s1, 1) := by
  obtain ⟨s2, e2⟩ := reset_bitmap_total
    (⟨s.disk, false, s.bitmap, get_super (s.disk.data 0)⟩ : SimpleFs) hlen hpos
  obtain ⟨a1, a2, -, a4, -, -⟩ := reset_bitmap_some _ _ e2
  have hd2 : s2.disk = s.disk := a1
  have hsb2 : s2.superblock = get_super (s.disk.data 0) := a2
  have hl2 : s2.bitmap.length = s.bitmap.length := a4
  have hlen2 : s2.superblock.nblocks ≤ s2.bitmap.length := by rw [hsb2, hl2]; exact hlen
  obtain ⟨r, e3⟩ := mount_scan_blocks_total s2.superblock.ninodeblocks.toNat 1 s2 [] hlen2
    (by decide) (by rw [hsb2, hd2]; omega)
  obtain ⟨s3, ind⟩ := r
  obtain ⟨⟨b1, b2, -, b4, -⟩, hi3, -⟩ := mount_scan_blocks_some _ _ _ _ _ _ e3
  obtain ⟨s4, e4⟩ := mount_mark_indirect_total ind s3 (by rw [b2, b4]; exact hlen2) (by
    intro p hp
    rw [hi3] at hp
    rcases hp with hp | ⟨c, k, -, -, -, -, hv⟩
    · cases hp
    · have := (is_valid_datablock_iff s2 p).1 hv
      rw [hsb2] at this
      rw [b1, hd2]
      omega)
  refine ⟨{ s4 with is_disk_mounted := true }, ?_⟩
  simp only [fs_mount, hum, Bool.false_eq_true, if_false, read_superblock]
  rw [disk_read_some _ _ (le_refl 0) hd]
  simp only [hmagic, ne_eq, not_true_eq_false, if_false, e2, e3, e4]

end SimpleFs
namespace SimpleFs

theorem getD_true_of_getD_false (bm : List Bool) (x : Nat) (h : bm.getD x false = true) :
    bm.getD x true = true := by
  simp only [List.getD_eq_getElem?_getD] at h ⊢
  cases hx : bm[x]? with
  | none => simp [hx] at h
  | some v => simpa [hx] using h

/-- A successful `fs_mount` of a device whose superblock describes it yields a
mounted volume in the sense of `mounted_volume`. -/
theorem mount_mounted_volume (s s1 : SimpleFs) (hum : s.is_disk_mounted = false)
    (h : fs_mount s = some (s1, 1)) (hdev : s1.superblock.nblocks = s.disk.nblocks)
    (hbm : (s.bitmap.length : Int) = s.disk.nblocks) (h0 : 0 ≤ s1.superblock.ninodeblocks)
    (h1 : s1.superblock.ninodeblocks < s1.superblock.nblocks)
    (hin : s1.superblock.ninodes = s1.superblock.ninodeblocks * INODES_PER_BLOCK)
    (hint : s1.superblock.nblocks < 2147483648) : mounted_volume s1 := by
  obtain ⟨a1, -, -, a4, a5, -, -, a8⟩ := fs_mount_some s s1 hum h
  exact
    { mounted := a4
      device := by rw [a1]; exact hdev
      bitmap_size := by rw [a5, a1]; exact hbm
      inode_blocks_nonneg := h0
      inode_blocks_lt := h1
      inodes := hin
      int_range := hint
      reserved := by
        intro b hb
        apply getD_true_of_getD_false
        rw [a8 b (by omega)]
        exact Or.inr (Or.inl hb) }

/-- C12 (amended). Format then mount: for an unmounted session on a device of
`N ≥ 2` blocks (`N` an `int`) with arbitrary prior content, for which
`inode_blocks * INODES_PER_BLOCK` fits in an `int`, `fs_format` returns 1 and
the following `fs_mount` returns 1 and leaves the session mounted; the cached
superblock has `nblocks = N` and `ninodes = ninodeblocks * INODES_PER_BLOCK`,
every inode slot is the all-zero (invalid) inode, every block other than block
0 is all zeros, and the bitmap marks exactly block 0 and the inode blocks
busy. -/
theorem format_then_mount (s : SimpleFs) (hum : s.is_disk_mounted = false)
    (hN : 2 ≤ s.disk.nblocks) (hint : s.disk.nblocks < 2147483648)
    (hbm : (s.bitmap.length : Int) = s.disk.nblocks)
    (hino : format_inode_blocks s.disk.nblocks * INODES_PER_BLOCK < 2147483648) :
    ∃ s1 s2, fs_format s = some (s1, 1) ∧ fs_mount s1 = some (s2, 1) ∧
      s2.is_disk_mounted = true ∧ s2.superblock.nblocks = s.disk.nblocks ∧
      s2.superblock.ninodes = s2.superblock.ninodeblocks * INODES_PER_BLOCK ∧
      s2.superblock.ninodeblocks = format_inode_blocks s.disk.nblocks ∧
      (∀ n, 1 ≤ n → n ≤ s2.superblock.ninodes → inode_at s2 n = fs_inode.zero) ∧
      (∀ b, 1 ≤ b → b < s.disk.nblocks → s2.disk.data b = EMPTY_BLOCK) ∧
      (∀ x : Nat, (x : Int) < s.disk.nblocks →
        (s2.bitmap.getD x false = true ↔ (x : Int) ≤ s2.superblock.ninodeblocks)) ∧
      mounted_volume s2 := by
  have hI : INODES_PER_BLOCK = 128 := rfl
  have hn0 := format_inode_blocks_nonneg s.disk.nblocks
  have hn1 := format_inode_blocks_lt s.disk.nblocks hN
  obtain ⟨s1, e1, f1, f2, f3, f4, f5⟩ := fs_format_spec s hum (by omega)
  have hsb : get_super (s1.disk.data 0) =
      { magic := FS_MAGIC
        nblocks := s.disk.nblocks
        ninodeblocks := format_inode_blocks s.disk.nblocks
        ninodes := format_inode_blocks s.disk.nblocks * INODES_PER_BLOCK } := by
    rw [f4, get_super_set_super]
    simp only
    rw [wrap32_of_range _ (by omega) hint, wrap32_of_range _ (by omega) (by omega),
      wrap32_of_range _ (by rw [hI]; omega) hino]
    rfl
  have hlen1 : (s1.bitmap.length : Int) = s.disk.nblocks := by rw [f1]; exact hbm
  have gm : (get_super (s1.disk.data 0)).magic = FS_MAGIC := by rw [hsb]
  have gnb : (get_super (s1.disk.data 0)).nblocks = s.disk.nblocks := by rw [hsb]
  have gnib : (get_super (s1.disk.data 0)).ninodeblocks = format_inode_blocks s.disk.nblocks := by
    rw [hsb]
  obtain ⟨s2, e2⟩ := fs_mount_total s1 f2 gm (by rw [gnb, f3]) (by rw [gnb]; omega)
    (by omega) (by omega) (by rw [gnib]; exact hn0) (by rw [gnib, f3]; exact hn1)
  obtain ⟨a1, a2, -, a4, a5, -, -, a8⟩ := fs_mount_some s1 s2 f2 e2
  rw [hsb] at a2
  have hnb : s2.superblock.nblocks = s.disk.nblocks := by rw [a2]
  have hnib : s2.superblock.ninodeblocks = format_inode_blocks s.disk.nblocks := by rw [a2]
  have hnin : s2.superblock.ninodes = s2.superblock.ninodeblocks * INODES_PER_BLOCK := by rw [a2]
  have hempty : ∀ b, 1 ≤ b → b < s.disk.nblocks → s2.disk.data b = EMPTY_BLOCK := by
    intro b h1 h2
    rw [a1]
    exact f5 b h1 h2
  have hslots : ∀ c k : Nat, c < s2.superblock.ninodeblocks.toNat →
      (get_inode (s1.disk.data (1 + c)) k).isvalid = 0 := by
    intro c k hc
    rw [f5 _ (by omega) (by omega), get_inode_EMPTY_BLOCK]
    rfl
  refine ⟨s1, s2, e1, e2, a4, hnb, hnin, hnib, ?_, hempty, ?_, ?_⟩
  · intro n h1 h2
    rw [hnin, hI] at h2
    simp only [inode_at]
    rw [hempty _ (by rw [hI]; omega) (by rw [hI]; omega), get_inode_EMPTY_BLOCK]
  · intro x hx
    rw [a8 x (by rw [hnb]; exact hx)]
    constructor
    · rintro (h0 | h0 | ⟨c, k, hc, -, g1, -⟩ | ⟨c, k, hc, -, g1, -⟩)
      · omega
      · exact h0
      · exact absurd (hslots c k hc) g1
      · exact absurd (hslots c k hc) g1
    · intro h0
      exact Or.inr (Or.inl h0)
  · exact mount_mounted_volume s1 s2 f2 e2 (by rw [hnb, f3]) (by rw [f3]; exact hlen1)
      (by omega) (by omega) hnin (by omega)

theorem format_then_mount_witness :
    (blank 20).is_disk_mounted = false ∧ (blank 20).disk.nblocks = 20 ∧
    (((blank 20).bitmap.length : Nat) : Int) = (blank 20).disk.nblocks ∧
    ∃ s1 s2, fs_format (blank 20) = some (s1, 1) ∧ fs_mount s1 = some (s2, 1) ∧
      s2.is_disk_mounted = true ∧ s2.superblock.nblocks = (blank 20).disk.nblocks ∧
      s2.superblock.ninodes = s2.superblock.ninodeblocks * INODES_PER_BLOCK ∧
      s2.superblock.ninodeblocks = format_inode_blocks (blank 20).disk.nblocks ∧
      (∀ n, 1 ≤ n → n ≤ s2.superblock.ninodes → inode_at s2 n = fs_inode.zero) ∧
      (∀ b, 1 ≤ b → b < (blank 20).disk.nblocks → s2.disk.data b = EMPTY_BLOCK) ∧
      (∀ x : Nat, (x : Int) < (blank 20).disk.nblocks →
        (s2.bitmap.getD x false = true ↔ (x : Int) ≤ s2.superblock.ninodeblocks)) ∧
      mounted_volume s2 :=
  ⟨rfl, rfl, by decide,
    format_then_mount (blank 20) rfl (by decide) (by decide) (by decide) (by decide)⟩

/-- C12 (counterexample). On a device of one block, `fs_format` returns 1 and
writes a superblock with one inode block; the following `fs_mount` reads inode
block 1, which is outside the device, so it has no defined result. -/
theorem format_mount_counterexample :
    (blank 1).is_disk_mounted = false ∧ (blank 1).disk.size = 1 ∧
    (((blank 1).bitmap.length : Nat) : Int) = (blank 1).disk.size ∧
    (fs_format (blank 1)).map Prod.snd = some 1 ∧
    (fs_format (blank 1)).bind (fun r => fs_mount r.1) = none :=
  ⟨rfl, rfl, by decide, blank1_format, blank1_mount⟩

end SimpleFs

namespace SimpleFs

theorem inode_save_frame (s s1 : SimpleFs) (n : Int) (ino : fs_inode) (ok : Bool)
    (h : inode_save s n ino = some (s1, ok)) :
    s1.superblock = s.superblock ∧ s1.bitmap = s.bitmap ∧ s1.is_disk_mounted = s.is_disk_mounted := by
  simp only [inode_save] at h
  split at h
  · cases h; exact ⟨rfl, rfl, rfl⟩
  · split at h
    · cases h
    · split at h
      · cases h
      · cases h; exact ⟨rfl, rfl, rfl⟩

theorem fs_create_loop_frame (count : Nat) : ∀ (i : Int) (s s1 : SimpleFs) (r : Int),
    fs_create_loop s count i = some (s1, r) →
    s1.superblock = s.superblock ∧ s1.bitmap = s.bitmap ∧ s1.is_disk_mounted = s.is_disk_mounted := by
  induction count with
  | zero =>
    intro i s s1 r h
    simp only [fs_create_loop] at h
    cases h
    exact ⟨rfl, rfl, rfl⟩
  | succ c ih =>
    intro i s s1 r h
    simp only [fs_create_loop] at h
    split at h
    · cases h
    · split at h
      · split at h
        · cases h
        · rename_i s2 ok hs
          cases h
          exact inode_save_frame _ _ _ _ _ hs
      · exact ih _ _ _ _ h

theorem fs_create_frame (s s1 : SimpleFs) (r : Int) (h : fs_create s = some (s1, r)) :
    s1.superblock = s.superblock ∧ s1.bitmap = s.bitmap ∧ s1.is_disk_mounted = s.is_disk_mounted := by
  simp only [fs_create] at h
  split at h
  · cases h; exact ⟨rfl, rfl, rfl⟩
  · exact fs_create_loop_frame _ _ _ _ _ h

theorem fill_datablocks_some_valid (s : SimpleFs) (n : Int) (vec : fs_datablock_vec)
    (h : fill_datablocks s n = some vec) :
    (∀ b ∈ vec.blocks, is_valid_datablock s b = true) ∧
    (vec.indirect = 0 ∨ is_valid_datablock s vec.indirect = true) := by
  simp only [fill_datablocks] at h
  split at h
  · cases h
  · cases h
    exact ⟨fun b hb => (by cases hb), Or.inl rfl⟩
  · rename_i inode hl
    split at h
    · rename_i hv
      split at h
      · cases h
      · cases h
        refine ⟨fun b hb => ?_, Or.inr hv⟩
        rcases List.mem_append.1 hb with hb | hb
        · exact (List.mem_filter.1 hb).2
        · exact takeWhile_all _ _ b hb
    · cases h
      exact ⟨fun b hb => (List.mem_filter.1 hb).2, Or.inl rfl⟩

theorem free_and_clear_frame (s s1 : SimpleFs) (b : Int) (h : free_and_clear s b = some s1) :
    s1.superblock = s.superblock ∧ s1.bitmap.length = s.bitmap.length ∧
    s1.is_disk_mounted = s.is_disk_mounted ∧
    ∀ x : Nat, ((x : Int) ≠ b ∨ x = 0) → s1.bitmap.getD x false = s.bitmap.getD x false := by
  simp only [free_and_clear] at h
  cases h1 : mark_block_free s b with
  | none => simp [h1] at h
  | some s2 =>
    simp only [h1, clear_block_data] at h
    obtain ⟨-, a2, a3, a4, a5⟩ := mark_block_free_some _ _ _ h1
    split at h
    · cases h
    · cases h
      refine ⟨a2, a4, a3, fun x hx => ?_⟩
      show s2.bitmap.getD x false = _
      rw [a5, if_neg]
      rintro ⟨hc1, hc2⟩
      rcases hx with hx | hx
      · exact hx hc1
      · have := (is_valid_block_iff s b).1 hc2
        omega

theorem free_datablocks_frame (l : List Int) : ∀ (s s1 : SimpleFs), free_datablocks s l = some s1 →
    s1.superblock = s.superblock ∧ s1.bitmap.length = s.bitmap.length ∧
    s1.is_disk_mounted = s.is_disk_mounted ∧
    ∀ x : Nat, ((x : Int) ∉ l ∨ x = 0) → s1.bitmap.getD x false = s.bitmap.getD x false := by
  induction l with
  | nil =>
    intro s s1 h
    simp only [free_datablocks] at h
    cases h
    exact ⟨rfl, rfl, rfl, fun _ _ => rfl⟩
  | cons b rest ih =>
    intro s s1 h
    simp only [free_datablocks] at h
    cases h1 : free_and_clear s b with
    | none => simp [h1] at h
    | some s2 =>
      simp only [h1] at h
      obtain ⟨a1, a2, a3, a4⟩ := free_and_clear_frame _ _ _ h1
      obtain ⟨b1, b2, b3, b4⟩ := ih _ _ h
      refine ⟨b1.trans a1, b2.trans a2, b3.trans a3, fun x hx => ?_⟩
      have hx1 : (x : Int) ∉ rest ∨ x = 0 := by
        rcases hx with hx | hx
        · exact Or.inl (fun hc => hx (List.mem_cons_of_mem _ hc))
        · exact Or.inr hx
      have hx2 : (x : Int) ≠ b ∨ x = 0 := by
        rcases hx with hx | hx
        · exact Or.inl (fun hc => hx (by rw [hc]; simp))
        · exact Or.inr hx
      rw [b4 x hx1, a4 x hx2]

/-- `fs_delete` changes no bitmap entry but those of valid data blocks. -/
theorem fs_delete_frame (s s1 : SimpleFs) (n r : Int) (h : fs_delete s n = some (s1, r)) :
    s1.superblock = s.superblock ∧ s1.bitmap.length = s.bitmap.length ∧
    s1.is_disk_mounted = s.is_disk_mounted ∧
    ∀ x : Nat, (is_valid_datablock s x = false ∨ x = 0) →
      s1.bitmap.getD x false = s.bitmap.getD x false := by
  simp only [fs_delete] at h
  split at h
  · cases h; exact ⟨rfl, rfl, rfl, fun _ _ => rfl⟩
  · split at h
    · cases h
    · cases h; exact ⟨rfl, rfl, rfl, fun _ _ => rfl⟩
    · cases hv : fill_datablocks s n with
      | none => simp [hv] at h
      | some vec =>
        simp only [hv] at h
        obtain ⟨hb, -⟩ := fill_datablocks_some_valid _ _ _ hv
        cases h1 : (if is_valid_datablock s vec.indirect = true then free_and_clear s vec.indirect
            else some s) with
        | none => simp [h1] at h
        | some s2 =>
          simp only [h1] at h
          have f1 : s2.superblock = s.superblock ∧ s2.bitmap.length = s.bitmap.length ∧
              s2.is_disk_mounted = s.is_disk_mounted ∧
              ∀ x : Nat, (is_valid_datablock s x = false ∨ x = 0) →
                s2.bitmap.getD x false = s.bitmap.getD x false := by
            split at h1
            · rename_i hvi
              obtain ⟨a1, a2, a3, a4⟩ := free_and_clear_frame _ _ _ h1
              refine ⟨a1, a2, a3, fun x hx => a4 x ?_⟩
              rcases hx with hx | hx
              · left
                intro hc
                rw [hc, hvi] at hx
                cases hx
              · exact Or.inr hx
            · cases h1
              exact ⟨rfl, rfl, rfl, fun _ _ => rfl⟩
          obtain ⟨a1, a2, a3, a4⟩ := f1
          cases h2 : free_datablocks s2 vec.blocks with
          | none => simp [h2] at h
          | some s3 =>
            simp only [h2] at h
            obtain ⟨b1, b2, b3, b4⟩ := free_datablocks_frame _ _ _ h2
            split at h
            · cases h
            · rename_i s4 ok hs
              cases h
              obtain ⟨c1, c2, c3⟩ := inode_save_frame _ _ _ _ _ hs
              refine ⟨c1.trans (b1.trans a1), by rw [c2, b2, a2], c3.trans (b3.trans a3),
                fun x hx => ?_⟩
              rw [c2, b4 x ?_, a4 x hx]
              rcases hx with hx | hx
              · left
                intro hc
                rw [hb _ hc] at hx
                cases hx
              · exact Or.inr hx

end SimpleFs
namespace SimpleFs

theorem alloc_datablock_mono (s : SimpleFs) :
    (alloc_datablock s).1.superblock = s.superblock ∧
    (alloc_datablock s).1.bitmap.length = s.bitmap.length ∧
    (alloc_datablock s).1.is_disk_mounted = s.is_disk_mounted ∧
    ∀ x : Nat, s.bitmap.getD x false = true → (alloc_datablock s).1.bitmap.getD x false = true := by
  simp only [alloc_datablock]
  split
  · exact ⟨rfl, by simp, rfl, fun x hx => getD_set_true_of_busy _ _ _ hx⟩
  · exact ⟨rfl, rfl, rfl, fun x hx => hx⟩

theorem alloc_indirect_mono (s : SimpleFs) (vec : fs_datablock_vec) :
    (alloc_indirect s vec).1.superblock = s.superblock ∧
    (alloc_indirect s vec).1.bitmap.length = s.bitmap.length ∧
    (alloc_indirect s vec).1.is_disk_mounted = s.is_disk_mounted ∧
    ∀ x : Nat, s.bitmap.getD x false = true → (alloc_indirect s vec).1.bitmap.getD x false = true := by
  simp only [alloc_indirect]
  split
  · exact alloc_datablock_mono s
  · exact ⟨rfl, rfl, rfl, fun x hx => hx⟩

theorem write_datablock_bitmap (s s1 : SimpleFs) (b : Int) (src : Buf) (start end_ n : Int)
    (h : write_datablock s b src start end_ = some (s1, n)) : s1.bitmap = s.bitmap := by
  simp only [write_datablock] at h
  split at h
  · cases h; rfl
  · split at h
    · cases h
    · split at h
      · cases h
      · split at h
        · cases h
        · cases h; rfl

theorem save_pointers_bitmap (s s1 : SimpleFs) (vec : fs_datablock_vec)
    (h : save_pointers s vec = some s1) : s1.bitmap = s.bitmap := by
  simp only [save_pointers] at h
  split at h
  · split at h
    · cases h
    · split at h
      · cases h
      · split at h
        · cases h
        · cases h; rfl
  · cases h; rfl

theorem fs_write_loop_mono (data : Buf) (length block_offset byte_offset : Int) (fuel : Nat) :
    ∀ (s : SimpleFs) (vec : fs_datablock_vec) (i bytes : Int) (r : SimpleFs × fs_datablock_vec × Int),
      fs_write_loop data length block_offset byte_offset fuel s vec i bytes = some r →
      r.1.bitmap.length = s.bitmap.length ∧
      ∀ x : Nat, s.bitmap.getD x false = true → r.1.bitmap.getD x false = true := by
  induction fuel with
  | zero =>
    intro s vec i bytes r h
    rw [fs_write_loop] at h
    split at h
    · cases h
    · cases h; exact ⟨rfl, fun x hx => hx⟩
  | succ f ih =>
    intro s vec i bytes r h
    rw [fs_write_loop] at h
    obtain ⟨-, a2, -, a4⟩ := alloc_indirect_mono s vec
    obtain ⟨-, b2, -, b4⟩ := alloc_datablock_mono (alloc_indirect s vec).1
    split at h
    · simp only [] at h
      split at h
      · cases h
        exact ⟨a2, a4⟩
      · split at h
        · cases h
        · split at h
          · cases h
          · rename_i s3 n hw
            have hbm := write_datablock_bitmap _ _ _ _ _ _ _ hw
            split at h
            · cases h
              refine ⟨by rw [hbm, b2, a2], fun x hx => ?_⟩
              rw [hbm]
              exact b4 x (a4 x hx)
            · obtain ⟨c1, c2⟩ := ih _ _ _ _ _ h
              refine ⟨by rw [c1, hbm, b2, a2], fun x hx => c2 x ?_⟩
              rw [hbm]
              exact b4 x (a4 x hx)
    · cases h; exact ⟨rfl, fun x hx => hx⟩

/-- `fs_write` never frees a block: a busy bitmap entry stays busy. -/
theorem fs_write_mono (s s1 : SimpleFs) (n : Int) (buf : Buf) (length offset r : Int)
    (h : fs_write s n buf length offset = some (s1, r)) :
    s1.superblock = s.superblock ∧ s1.bitmap.length = s.bitmap.length ∧
    s1.is_disk_mounted = s.is_disk_mounted ∧
    ∀ x : Nat, s.bitmap.getD x false = true → s1.bitmap.getD x false = true := by
  simp only [fs_write] at h
  split at h
  · cases h; exact ⟨rfl, rfl, rfl, fun x hx => hx⟩
  · split at h
    · cases h; exact ⟨rfl, rfl, rfl, fun x hx => hx⟩
    · split at h
      · cases h; exact ⟨rfl, rfl, rfl, fun x hx => hx⟩
      · split at h
        · cases h
        · cases h; exact ⟨rfl, rfl, rfl, fun x hx => hx⟩
        · split at h
          · cases h
          · split at h
            · cases h
            · rename_i sL vecL bytes hloop
              obtain ⟨l1, l2, -⟩ := fs_write_loop_frame _ _ _ _ _ _ _ _ _ _ hloop
              obtain ⟨m1, m2⟩ := fs_write_loop_mono _ _ _ _ _ _ _ _ _ _ hloop
              split at h
              · cases h
              · rename_i s2 hsp
                obtain ⟨p1, p2, -⟩ := save_pointers_frame _ _ _ hsp
                have pb := save_pointers_bitmap _ _ _ hsp
                split at h
                · cases h
                · rename_i s3 ok hs
                  cases h
                  obtain ⟨c1, c2, c3⟩ := inode_save_frame _ _ _ _ _ hs
                  refine ⟨c1.trans (p1.trans l1), by rw [c2, pb]; exact m1,
                    c3.trans (p2.trans l2), fun x hx => ?_⟩
                  rw [c2, pb]
                  exact m2 x hx

end SimpleFs
namespace SimpleFs

theorem marked_busy_mono (s s1 : SimpleFs) (P : Nat → Prop) (h : marked_busy s s1 P) (x : Nat)
    (hx : s.bitmap.getD x false = true) : s1.bitmap.getD x false = true :=
  (h.2.2.2.2 x).2 (Or.inl hx)

/-- Block 0 is busy after a successful `fs_mount`, whatever the superblock says. -/
theorem fs_mount_block_zero (s s1 : SimpleFs) (hum : s.is_disk_mounted = false)
    (h : fs_mount s = some (s1, 1)) : s1.bitmap.getD 0 false = true := by
  simp only [fs_mount, hum, Bool.false_eq_true, if_false, read_superblock] at h
  cases hr : s.disk.read 0 with
  | none =>
    rw [hr] at h
    simp at h
  | some blk =>
    rw [hr] at h
    simp only at h
    split at h
    · simp only [Option.some.injEq, Prod.mk.injEq] at h
      exact absurd h.2 (by decide)
    · cases h2 : reset_bitmap (⟨s.disk, false, s.bitmap, get_super blk⟩ : SimpleFs) with
      | none => simp [h2] at h
      | some s2 =>
        simp only [h2] at h
        obtain ⟨-, -, -, -, -, a6⟩ := reset_bitmap_some _ _ h2
        cases h3 : mount_scan_blocks s2.superblock.ninodeblocks.toNat 1 s2 [] with
        | none => simp [h3] at h
        | some r =>
          obtain ⟨s3, ind⟩ := r
          simp only [h3] at h
          obtain ⟨m3, -, -⟩ := mount_scan_blocks_some _ _ _ _ _ _ h3
          cases h4 : mount_mark_indirect s3 ind with
          | none => simp [h4] at h
          | some s4 =>
            simp only [h4, Option.some.injEq, Prod.mk.injEq, and_true] at h
            obtain ⟨m4, -⟩ := mount_mark_indirect_some _ _ _ h4
            subst h
            show s4.bitmap.getD 0 false = true
            apply marked_busy_mono _ _ _ m4
            apply marked_busy_mono _ _ _ m3
            rw [a6]
            simp

theorem fs_mount_reserved (s s1 : SimpleFs) (hum : s.is_disk_mounted = false)
    (h : fs_mount s = some (s1, 1)) : reserved_busy s1 := by
  refine ⟨fs_mount_block_zero s s1 hum h, fun b _ hb1 hb2 => ?_⟩
  obtain ⟨-, -, -, -, -, -, -, a8⟩ := fs_mount_some s s1 hum h
  rw [a8 b hb2]
  exact Or.inr (Or.inl hb1)

theorem apply_op_reserved (s s1 : SimpleFs) (op : fs_op) (hr : reserved_busy s)
    (h : apply_op s op = some s1) :
    reserved_busy s1 ∧ s1.superblock = s.superblock ∧ s1.bitmap.length = s.bitmap.length := by
  cases op with
  | create =>
    simp only [apply_op, Option.map_eq_some'] at h
    obtain ⟨⟨s2, r⟩, h1, rfl⟩ := h
    obtain ⟨a1, a2, -⟩ := fs_create_frame _ _ _ h1
    refine ⟨⟨?_, ?_⟩, a1, by rw [a2]⟩
    · show s2.bitmap.getD 0 false = true
      rw [a2]; exact hr.1
    · intro b h0 hb1 hb2
      show s2.bitmap.getD b false = true
      rw [a2]
      exact hr.2 b h0 (by rw [← a1]; exact hb1) (by rw [← a1]; exact hb2)
  | delete n =>
    simp only [apply_op, Option.map_eq_some'] at h
    obtain ⟨⟨s2, r⟩, h1, rfl⟩ := h
    obtain ⟨a1, a2, -, a4⟩ := fs_delete_frame _ _ _ _ h1
    refine ⟨⟨?_, ?_⟩, a1, a2⟩
    · show s2.bitmap.getD 0 false = true
      rw [a4 0 (Or.inr rfl)]; exact hr.1
    · intro b h0 hb1 hb2
      show s2.bitmap.getD b false = true
      have hb1s : (b : Int) ≤ s.superblock.ninodeblocks := by rw [← a1]; exact hb1
      rw [a4 b (Or.inl (by
        simp only [is_valid_datablock, Bool.and_eq_false_iff, decide_eq_false_iff_not]
        left
        omega))]
      exact hr.2 b h0 hb1s (by rw [← a1]; exact hb2)
  | getsize n =>
    simp only [apply_op, Option.map_eq_some'] at h
    obtain ⟨_, -, rfl⟩ := h
    exact ⟨hr, rfl, rfl⟩
  | read n data length offset =>
    simp only [apply_op, Option.map_eq_some'] at h
    obtain ⟨_, -, rfl⟩ := h
    exact ⟨hr, rfl, rfl⟩
  | write n data length offset =>
    simp only [apply_op, Option.map_eq_some'] at h
    obtain ⟨⟨s2, r⟩, h1, rfl⟩ := h
    obtain ⟨a1, a2, -, a4⟩ := fs_write_mono _ _ _ _ _ _ _ h1
    refine ⟨⟨a4 0 hr.1, ?_⟩, a1, a2⟩
    intro b h0 hb1 hb2
    exact a4 b (hr.2 b h0 (by rw [← a1]; exact hb1) (by rw [← a1]; exact hb2))

theorem run_ops_reserved (ops : List fs_op) : ∀ (s s1 : SimpleFs), reserved_busy s →
    run_ops s ops = some s1 →
    reserved_busy s1 ∧ s1.superblock = s.superblock ∧ s1.bitmap.length = s.bitmap.length := by
  induction ops with
  | nil =>
    intro s s1 hr h
    simp only [run_ops] at h
    cases h
    exact ⟨hr, rfl, rfl⟩
  | cons op rest ih =>
    intro s s1 hr h
    simp only [run_ops] at h
    cases h1 : apply_op s op with
    | none => simp [h1] at h
    | some s2 =>
      simp only [h1] at h
      obtain ⟨a1, a2, a3⟩ := apply_op_reserved _ _ _ hr h1
      obtain ⟨b1, b2, b3⟩ := ih _ _ a1 h
      exact ⟨b1, b2.trans a2, b3.trans a3⟩

/-- C18 (amended). Reserved blocks stay busy.  After `fs_mount` has returned 1
from the unmounted state and after any sequence of `fs_create`, `fs_delete`,
`fs_getsize`, `fs_read` and `fs_write` calls with any arguments (each with a
defined result), block 0 and every block `b` with `1 ≤ b ≤ ninodeblocks` and
`b < nblocks` is busy in the bitmap.  When in addition the device has exactly
`nblocks` blocks, so that the bitmap has one entry per block of the volume,
every block number that `alloc_datablock` returns is a valid data block. -/
theorem reserved_blocks_stay_busy (s0 s s1 : SimpleFs) (ops : List fs_op)
    (hum : s0.is_disk_mounted = false) (hm : fs_mount s0 = some (s, 1))
    (hrun : run_ops s ops = some s1) :
    reserved_busy s1 ∧
    ((s0.bitmap.length : Int) = s.superblock.nblocks →
      ∀ b : Int, (alloc_datablock s1).2 = b → b ≠ -1 → is_valid_datablock s1 b = true) := by
  have hr0 := fs_mount_reserved s0 s hum hm
  obtain ⟨hr1, hsb, hlen⟩ := run_ops_reserved ops s s1 hr0 hrun
  obtain ⟨-, -, -, -, hlen0, -⟩ := fs_mount_some s0 s hum hm
  refine ⟨hr1, fun hsize b hb hne => ?_⟩
  cases hf : first_free s1.bitmap with
  | none =>
    simp only [alloc_datablock, hf] at hb
    exact absurd hb.symm hne
  | some i =>
    simp only [alloc_datablock, hf] at hb
    obtain ⟨g1, g2, -⟩ := first_free_some _ _ hf
    have g3 := getD_false_of_getD_true _ _ g2
    rw [is_valid_datablock_iff, ← hb, hsb]
    have hilt : (i : Int) < s.superblock.nblocks := by omega
    refine ⟨?_, hilt⟩
    by_contra hle
    have hi0 : i ≠ 0 := by
      intro h0
      rw [h0, hr1.1] at g3
      cases g3
    have := hr1.2 i (by omega) (by rw [hsb]; omega) (by rw [hsb]; exact hilt)
    rw [this] at g3
    cases g3

end SimpleFs
namespace SimpleFs

theorem disk8_mount_eq :
    fs_mount (new disk8 { magic := 0, nblocks := 0, ninodeblocks := 0, ninodes := 0 }) =
      some (disk8_mounted, 1) := by
  have hev := disk8_mount
  cases hm : fs_mount (new disk8 { magic := 0, nblocks := 0, ninodeblocks := 0, ninodes := 0 }) with
  | none =>
    rw [hm] at hev
    cases hev
  | some r =>
    obtain ⟨s1, v⟩ := r
    rw [hm] at hev
    simp only [Option.map_some', Option.some.injEq, Prod.mk.injEq] at hev
    obtain ⟨rfl, e1, e2, e3, e4, e5⟩ := hev
    obtain ⟨a1, -, a3, -⟩ := fs_mount_some _ s1 rfl hm
    have a1' : s1.disk = disk8 := a1
    obtain ⟨d, m, b, sb⟩ := s1
    obtain ⟨g, nb, nib, nin⟩ := sb
    simp only at e1 e2 e3 e4 e5 a1' a3
    subst e1 e2 e3 e4 e5 a1' a3
    rfl

set_option maxRecDepth 100000 in
theorem disk8_run :
    (run_ops disk8_mounted [fs_op.create, fs_op.write 2 letters 8 0, fs_op.delete 1]).map
      (fun r => r.bitmap) = some [true, true, false, false, false, false, false, true] := by
  decide

theorem reserved_blocks_stay_busy_witness :
    (new disk8 { magic := 0, nblocks := 0, ninodeblocks := 0, ninodes := 0 }).is_disk_mounted = false ∧
    fs_mount (new disk8 { magic := 0, nblocks := 0, ninodeblocks := 0, ninodes := 0 }) =
      some (disk8_mounted, 1) ∧
    ∃ s1, run_ops disk8_mounted [fs_op.create, fs_op.write 2 letters 8 0, fs_op.delete 1] = some s1 ∧
      s1.bitmap = [true, true, false, false, false, false, false, true] ∧
      reserved_busy s1 ∧
      ((((new disk8 { magic := 0, nblocks := 0, ninodeblocks := 0, ninodes := 0 }).bitmap.length : Nat) : Int) =
          disk8_mounted.superblock.nblocks →
        ∀ b : Int, (alloc_datablock s1).2 = b → b ≠ -1 → is_valid_datablock s1 b = true) := by
  refine ⟨rfl, disk8_mount_eq, ?_⟩
  have hev := disk8_run
  cases hrun : run_ops disk8_mounted [fs_op.create, fs_op.write 2 letters 8 0, fs_op.delete 1] with
  | none =>
    rw [hrun] at hev
    cases hev
  | some s1 =>
    rw [hrun] at hev
    simp only [Option.map_some', Option.some.injEq] at hev
    obtain ⟨w1, w2⟩ := reserved_blocks_stay_busy _ disk8_mounted s1
      [fs_op.create, fs_op.write 2 letters 8 0, fs_op.delete 1] rfl disk8_mount_eq hrun
    exact ⟨s1, rfl, hev, w1, w2⟩

end SimpleFs
namespace SimpleFs

theorem write_progress_refl (s : SimpleFs) (vec : fs_datablock_vec) (hwf : mounted_volume s) :
    write_progress s vec s vec [] :=
  { wf := hwf
    superblock := rfl
    blocks := by simp
    new_valid := fun b hb => by cases hb
    new_free := fun b hb => by cases hb
    new_nodup := List.nodup_nil
    indirect := Or.inl rfl
    bitmap := fun x => by simp
    count := by simp
    disk := fun _ _ => rfl }

theorem getD_false_of_not_true (bm : List Bool) (x : Nat) (h : ¬ bm.getD x false = true) :
    bm.getD x false = false := by
  cases hb : bm.getD x false
  · rfl
  · exact absurd hb h

theorem write_progress_free (s s1 : SimpleFs) (vec vec1 : fs_datablock_vec) (new : List Int)
    (h : write_progress s vec s1 vec1 new) (x : Nat) (hx : s1.bitmap.getD x false = false) :
    s.bitmap.getD x false = false := by
  apply getD_false_of_not_true
  intro hb
  rw [(h.bitmap x).2 (Or.inl hb)] at hx
  cases hx

theorem write_progress_new_busy (s s1 : SimpleFs) (vec vec1 : fs_datablock_vec) (new : List Int)
    (hwf : mounted_volume s) (h : write_progress s vec s1 vec1 new) (b : Int) (hb : b ∈ new) :
    s1.bitmap.getD b.toNat false = true := by
  have hp := valid_datablock_pos s hwf b (h.new_valid b hb)
  apply (h.bitmap b.toNat).2
  right; left
  rw [Int.toNat_of_nonneg (by omega)]
  exact hb

theorem write_progress_indirect_changed (s s1 : SimpleFs) (vec vec1 : fs_datablock_vec)
    (new : List Int) (hwf : mounted_volume s) (h : write_progress s vec s1 vec1 new)
    (hne : vec1.indirect ≠ vec.indirect) :
    vec.indirect = 0 ∧ vec1.indirect ≠ 0 ∧ (vec1.indirect = -1 ∨
      (is_valid_datablock s vec1.indirect = true ∧
        s.bitmap.getD vec1.indirect.toNat false = false ∧ vec1.indirect ∉ new ∧
        s1.bitmap.getD vec1.indirect.toNat false = true)) := by
  rcases h.indirect with h0 | ⟨h0, h1⟩
  · exact absurd h0 hne
  · refine ⟨h0, ?_, ?_⟩
    · rcases h1 with h1 | ⟨h1, -, -⟩
      · rw [h1]; decide
      · have := valid_datablock_pos s hwf _ h1
        omega
    · rcases h1 with h1 | ⟨h1, h2, h3⟩
      · exact Or.inl h1
      · refine Or.inr ⟨h1, h2, h3, ?_⟩
        have hp := valid_datablock_pos s hwf _ h1
        apply (h.bitmap _).2
        right; right
        rw [Int.toNat_of_nonneg (by omega)]
        exact ⟨rfl, hne⟩

theorem write_progress_trans (s s1 s2 : SimpleFs) (vec vec1 vec2 : fs_datablock_vec)
    (n1 n2 : List Int) (hwf : mounted_volume s) (h1 : write_progress s vec s1 vec1 n1)
    (h2 : write_progress s1 vec1 s2 vec2 n2) : write_progress s vec s2 vec2 (n1 ++ n2) := by
  have hval : ∀ b, is_valid_datablock s1 b = is_valid_datablock s b :=
    fun b => is_valid_datablock_congr s s1 h1.superblock b
  have hfree := write_progress_free s s1 vec vec1 n1 h1
  have hbusy1 := write_progress_new_busy s s1 vec vec1 n1 hwf h1
  have hch1 := write_progress_indirect_changed s s1 vec vec1 n1 hwf h1
  have hch2 := write_progress_indirect_changed s1 s2 vec1 vec2 n2 h1.wf h2
  have hexcl : ¬ (vec1.indirect ≠ vec.indirect ∧ vec2.indirect ≠ vec1.indirect) := by
    rintro ⟨e1, e2⟩
    exact (hch1 e1).2.1 (hch2 e2).1
  refine
    { wf := h2.wf
      superblock := h2.superblock.trans h1.superblock
      blocks := by rw [h2.blocks, h1.blocks, List.append_assoc]
      new_valid := ?_
      new_free := ?_
      new_nodup := ?_
      indirect := ?_
      bitmap := ?_
      count := ?_
      disk := ?_ }
  · intro b hb
    rcases List.mem_append.1 hb with hb | hb
    · exact h1.new_valid b hb
    · rw [← hval]; exact h2.new_valid b hb
  · intro b hb
    rcases List.mem_append.1 hb with hb | hb
    · exact h1.new_free b hb
    · exact hfree _ (h2.new_free b hb)
  · apply List.Nodup.append h1.new_nodup h2.new_nodup
    intro b hb1 hb2
    have := hbusy1 b hb1
    rw [h2.new_free b hb2] at this
    cases this
  · by_cases e1 : vec1.indirect = vec.indirect
    · by_cases e2 : vec2.indirect = vec1.indirect
      · exact Or.inl (e2.trans e1)
      · obtain ⟨c1, -, c3⟩ := hch2 e2
        right
        refine ⟨by rw [← e1]; exact c1, ?_⟩
        rcases c3 with c3 | ⟨d1, d2, d3, -⟩
        · exact Or.inl c3
        · refine Or.inr ⟨by rw [← hval]; exact d1, hfree _ d2, ?_⟩
          intro hm
          rcases List.mem_append.1 hm with hm | hm
          · have := hbusy1 _ hm
            rw [d2] at this
            cases this
          · exact d3 hm
    · have e2 : vec2.indirect = vec1.indirect := by
        by_contra e2
        exact hexcl ⟨e1, e2⟩
      obtain ⟨c1, -, c3⟩ := hch1 e1
      right
      refine ⟨c1, ?_⟩
      rw [e2]
      rcases c3 with c3 | ⟨d1, d2, d3, d4⟩
      · exact Or.inl c3
      · refine Or.inr ⟨d1, d2, ?_⟩
        intro hm
        rcases List.mem_append.1 hm with hm | hm
        · exact d3 hm
        · rw [h2.new_free _ hm] at d4
          cases d4
  · intro x
    rw [h2.bitmap, h1.bitmap, List.mem_append]
    by_cases e1 : vec1.indirect = vec.indirect
    · rw [e1]
      simp only [ne_eq, not_true_eq_false, and_false, or_false]
      rw [or_assoc, or_assoc]
    · have e2 : vec2.indirect = vec1.indirect := by
        by_contra e2
        exact hexcl ⟨e1, e2⟩
      rw [e2]
      simp only [ne_eq, not_true_eq_false, and_false, or_false]
      constructor
      · rintro ((h | h | h) | h)
        · exact Or.inl h
        · exact Or.inr (Or.inl (Or.inl h))
        · exact Or.inr (Or.inr h)
        · exact Or.inr (Or.inl (Or.inr h))
      · rintro (h | (h | h) | h)
        · exact Or.inl (Or.inl h)
        · exact Or.inl (Or.inr (Or.inl h))
        · exact Or.inr h
        · exact Or.inl (Or.inr (Or.inr h))
  · have c1 := h1.count
    have c2 := h2.count
    rw [List.length_append]
    by_cases e1 : vec1.indirect = vec.indirect
    · rw [e1] at c1 c2
      rw [if_neg (by simp)] at c1
      omega
    · have e2 : vec2.indirect = vec1.indirect := by
        by_contra e2
        exact hexcl ⟨e1, e2⟩
      rw [e2] at c2 ⊢
      rw [if_neg (by simp)] at c2
      omega
  · intro x hx
    have hx1 : x ∉ vec1.blocks := by
      intro hm
      apply hx
      rw [h2.blocks]
      exact List.mem_append_left _ hm
    rw [h2.disk x hx, h1.disk x hx1]

end SimpleFs
namespace SimpleFs

/-- Taking the first free block `b` of a mounted volume. -/
theorem take_block_progress (s : SimpleFs) (hwf : mounted_volume s) (b : Nat)
    (hlt : b < s.bitmap.length) (hfree : s.bitmap.getD b true = false) :
    mounted_volume { s with bitmap := s.bitmap.set b true } ∧
    s.bitmap.getD b false = false ∧
    (∀ x : Nat, (s.bitmap.set b true).getD x false = true ↔
      (s.bitmap.getD x false = true ∨ x = b)) := by
  refine ⟨set_true_mounted_volume s hwf b, getD_false_of_getD_true _ _ hfree, fun x => ?_⟩
  rw [getD_set_iff _ _ _ _ hlt]
  by_cases hx : x = b
  · simp [hx]
  · simp [hx]

theorem alloc_indirect_progress (s : SimpleFs) (vec : fs_datablock_vec) (hwf : mounted_volume s) :
    write_progress s vec (alloc_indirect s vec).1 (alloc_indirect s vec).2 [] ∧
    ((alloc_indirect s vec).2.indirect = vec.indirect ∨
      POINTERS_PER_INODE ≤ vec.blocks.length) ∧
    (vec.indirect = 0 → POINTERS_PER_INODE ≤ vec.blocks.length →
      (alloc_indirect s vec).2.indirect ≠ 0) ∧
    ((alloc_indirect s vec).2.indirect = -1 →
      vec.indirect = -1 ∨ is_disk_full (alloc_indirect s vec).1 = true) := by
  by_cases hc : vec.indirect = 0 ∧ vec.blocks.length ≥ POINTERS_PER_INODE
  · by_cases h0 : 0 < s.bitmap.count false
    · obtain ⟨b, a1, a2, a3, a4, a5, -⟩ := alloc_datablock_spec s hwf h0
      obtain ⟨t1, t2, t3⟩ := take_block_progress s hwf b a2 a3
      have hpos := valid_datablock_pos s hwf _ a4
      have e : alloc_indirect s vec =
          ({ s with bitmap := s.bitmap.set b true }, { vec with indirect := (b : Int) }) := by
        simp only [alloc_indirect, hc, ge_iff_le, and_self, if_true, a1]
      rw [e]
      refine ⟨?_, Or.inr hc.2, fun _ _ => by show (b : Int) ≠ 0; omega,
        fun h => absurd h (by show (b : Int) ≠ -1; omega)⟩
      exact
        { wf := t1
          superblock := rfl
          blocks := by simp
          new_valid := fun x hx => by cases hx
          new_free := fun x hx => by cases hx
          new_nodup := List.nodup_nil
          indirect := Or.inr ⟨hc.1, Or.inr ⟨a4, by simpa using t2, by simp⟩⟩
          bitmap := by
            intro x
            show (s.bitmap.set b true).getD x false = true ↔ _
            rw [t3 x, hc.1]
            simp only [List.not_mem_nil, false_or]
            constructor
            · rintro (h | h)
              · exact Or.inl h
              · exact Or.inr ⟨by rw [h], by omega⟩
            · rintro (h | ⟨h, -⟩)
              · exact Or.inl h
              · exact Or.inr (by exact_mod_cast h)
          count := by
            show (s.bitmap.set b true).count false + 0 + (if (b : Int) ≠ vec.indirect ∧ (b : Int) ≠ -1
              then 1 else 0) = _
            rw [if_pos ⟨by rw [hc.1]; omega, by omega⟩]
            omega
          disk := fun _ _ => rfl }
    · have hz : s.bitmap.count false = 0 := by omega
      have e : alloc_indirect s vec = (s, { vec with indirect := -1 }) := by
        simp only [alloc_indirect, hc, ge_iff_le, and_self, if_true, alloc_datablock_full s hz]
      rw [e]
      refine ⟨?_, Or.inr hc.2, fun _ _ => by show (-1 : Int) ≠ 0; decide,
        fun _ => Or.inr ((is_disk_full_iff s).2 hz)⟩
      exact
        { wf := hwf
          superblock := rfl
          blocks := by simp
          new_valid := fun x hx => by cases hx
          new_free := fun x hx => by cases hx
          new_nodup := List.nodup_nil
          indirect := Or.inr ⟨hc.1, Or.inl rfl⟩
          bitmap := by
            intro x
            simp only [List.not_mem_nil, false_or]
            constructor
            · exact fun h => Or.inl h
            · rintro (h | ⟨h, -⟩)
              · exact h
              · omega
          count := by
            show s.bitmap.count false + 0 + (if (-1 : Int) ≠ vec.indirect ∧ (-1 : Int) ≠ -1 then 1 else 0) = _
            rw [if_neg (by simp)]
            rfl
          disk := fun _ _ => rfl }
  · have e : alloc_indirect s vec = (s, vec) := by
      simp only [alloc_indirect, hc, if_false]
    rw [e]
    refine ⟨write_progress_refl s vec hwf, Or.inl rfl, fun h1 h2 => absurd ⟨h1, h2⟩ hc,
      fun h => Or.inl h⟩

theorem write_datablock_loop_total (src : Buf) (end_ : Int) (fuel : Nat) :
    ∀ (i start : Int) (dest : Block) (bytes : Int), 0 ≤ i → 0 ≤ start →
      DISK_BLOCK_SIZE - i ≤ fuel →
      ∃ r, write_datablock_loop src end_ fuel i start dest bytes = some r ∧ bytes ≤ r.2 := by
  induction fuel with
  | zero =>
    intro i start dest bytes hi hs hf
    rw [write_datablock_loop, if_neg]
    · exact ⟨_, rfl, le_refl _⟩
    · simp only [Nat.cast_zero] at hf
      omega
  | succ f ih =>
    intro i start dest bytes hi hs hf
    rw [write_datablock_loop]
    by_cases hc : i < DISK_BLOCK_SIZE ∧ start < end_
    · rw [if_pos hc, if_neg (by omega)]
      by_cases hz : src start = 0
      · rw [if_pos hz]
        exact ⟨_, rfl, le_refl _⟩
      · rw [if_neg hz, if_neg (by omega)]
        obtain ⟨r, hr, hb⟩ := ih (i + 1) (start + 1) (Function.update dest i (src start)) (bytes + 1)
          (by omega) (by omega) (by push_cast at hf; omega)
        exact ⟨r, hr, by omega⟩
    · rw [if_neg hc]
      exact ⟨_, rfl, le_refl _⟩

/-- `write_datablock` on a valid data block always has a result: the block is
rewritten and nothing else changes. -/
theorem write_datablock_total (s : SimpleFs) (hwf : mounted_volume s) (b : Int) (src : Buf)
    (start end_ : Int) (hb : is_valid_datablock s b = true) (hs : 0 ≤ start) :
    ∃ blk n, write_datablock s b src start end_ = some (with_block s b blk, n) ∧ 0 ≤ n := by
  have hr := (is_valid_datablock_iff s b).1 hb
  have h0 := hwf.inode_blocks_nonneg
  have hd := hwf.device
  have htm : Int.tmod start DISK_BLOCK_SIZE = start % DISK_BLOCK_SIZE :=
    Int.tmod_eq_emod hs (by decide)
  obtain ⟨r, hr1, hr2⟩ := write_datablock_loop_total src end_ DISK_BLOCK_SIZE.toNat
    (start % DISK_BLOCK_SIZE) start (s.disk.data b) 0
    (by simp only [DISK_BLOCK_SIZE]; omega) hs (by rw [DISK_BLOCK_SIZE_toNat]; simp only [DISK_BLOCK_SIZE]; omega)
  obtain ⟨blk, n⟩ := r
  refine ⟨blk, n, ?_, hr2⟩
  simp only [write_datablock]
  rw [if_neg (by omega), disk_read_some _ _ (by omega) (by omega)]
  simp only [htm, hr1]
  rw [disk_write_some _ _ _ (by omega) (by omega)]
  rfl

/-- Taking the first free block `b` as a data block, appending it to the list
and rewriting one block `t` of the list. -/
theorem alloc_data_progress (s : SimpleFs) (vec : fs_datablock_vec) (hwf : mounted_volume s)
    (b : Nat) (hlt : b < s.bitmap.length) (hfree : s.bitmap.getD b true = false)
    (hv : is_valid_datablock s b = true)
    (hcount : (s.bitmap.set b true).count false + 1 = s.bitmap.count false)
    (t : Int) (blk : Block) (ht : t ∈ vec.blocks ++ [(b : Int)]) :
    write_progress s vec (with_block { s with bitmap := s.bitmap.set b true } t blk)
      { indirect := vec.indirect, blocks := vec.blocks ++ [(b : Int)] } [(b : Int)] := by
  obtain ⟨t1, t2, t3⟩ := take_block_progress s hwf b hlt hfree
  exact
    { wf := with_block_mounted_volume _ t1 _ _
      superblock := rfl
      blocks := rfl
      new_valid := fun x hx => by
        simp only [List.mem_singleton] at hx
        rw [hx]; exact hv
      new_free := fun x hx => by
        simp only [List.mem_singleton] at hx
        rw [hx]; simpa using t2
      new_nodup := List.nodup_singleton _
      indirect := Or.inl rfl
      bitmap := by
        intro x
        show (s.bitmap.set b true).getD x false = true ↔ _
        rw [t3 x]
        simp only [List.mem_singleton, ne_eq, not_true_eq_false, and_false, or_false]
        constructor
        · rintro (h | h)
          · exact Or.inl h
          · exact Or.inr (by rw [h])
        · rintro (h | h)
          · exact Or.inl h
          · exact Or.inr (by exact_mod_cast h)
      count := by
        show (s.bitmap.set b true).count false + 1 + (if vec.indirect ≠ vec.indirect ∧ _ then 1 else 0) = _
        rw [if_neg (by simp)]
        omega
      disk := by
        intro x hx
        show (if x = t then blk else s.disk.data x) = _
        rw [if_neg]
        intro hxt
        exact hx (by rw [hxt]; exact ht) }

/-- The allocation loop of `fs_write` at offset 0, for any source buffer: when
it ends, it has made `write_progress`. -/
theorem fs_write_loop_progress (data : Buf) (L : Int) (fuel : Nat) :
    ∀ (s : SimpleFs) (vec : fs_datablock_vec) (i bytes : Int), mounted_volume s →
      (∀ b ∈ vec.blocks, is_valid_datablock s b = true) → 0 ≤ i → i ≤ vec.blocks.length →
      0 ≤ bytes → (vec.indirect = 0 → vec.blocks.length ≤ POINTERS_PER_INODE) →
      vec.indirect ≠ -1 →
      ∀ r, fs_write_loop data L 0 0 fuel s vec i bytes = some r →
        ∃ new, write_progress s vec r.1 r.2.1 new ∧ 0 ≤ r.2.2 ∧
          (r.2.1.indirect = 0 ∨ r.2.1.indirect = -1 → r.2.1.blocks.length ≤ POINTERS_PER_INODE) := by
  induction fuel with
  | zero =>
    intro s vec i bytes hwf hvalid hi0 hil hb0 hshort hm1 r h
    rw [fs_write_loop] at h
    split at h
    · cases h
    · cases h
      exact ⟨[], write_progress_refl s vec hwf, hb0, fun hc => by
        rcases hc with hc | hc
        · exact hshort hc
        · exact absurd hc hm1⟩
  | succ f ih =>
    intro s vec i bytes hwf hvalid hi0 hil hb0 hshort hm1 r h
    rw [fs_write_loop] at h
    by_cases hlt : bytes < L
    · rw [if_pos hlt] at h
      simp only [] at h
      obtain ⟨pA, hA1, hA2, hA3⟩ := alloc_indirect_progress s vec hwf
      have hblA : (alloc_indirect s vec).2.blocks = vec.blocks := by
        rw [pA.blocks, List.append_nil]
      have hv0 : (alloc_indirect s vec).2.indirect = 0 → vec.blocks.length < POINTERS_PER_INODE := by
        intro h0
        have hsame : vec.indirect = 0 := by
          by_contra hne
          rcases pA.indirect with e | ⟨e, -⟩
          · rw [e] at h0; exact hne h0
          · exact hne e
        by_contra hge
        exact hA2 hsame (by omega) h0
      by_cases hfull : is_disk_full (alloc_indirect s vec).1 = true
      · rw [if_pos hfull] at h
        cases h
        refine ⟨[], pA, hb0, fun hc => ?_⟩
        show (alloc_indirect s vec).2.blocks.length ≤ _
        rw [hblA]
        rcases hc with hc | hc
        · have := hv0 hc; omega
        · rcases pA.indirect with e | ⟨e, -⟩
          · rw [e] at hc; exact absurd hc hm1
          · exact hshort e
      · rw [if_neg hfull] at h
        have hposA : 0 < (alloc_indirect s vec).1.bitmap.count false := by
          rw [is_disk_full_iff] at hfull
          omega
        obtain ⟨bD, a1, a2, a3, a4, a5, -⟩ := alloc_datablock_spec _ pA.wf hposA
        have hvalA : ∀ b ∈ (alloc_indirect s vec).2.blocks,
            is_valid_datablock (alloc_indirect s vec).1 b = true := by
          intro b hb
          rw [hblA] at hb
          rw [is_valid_datablock_congr s _ pA.superblock]
          exact hvalid b hb
        rw [a1] at h
        simp only [zero_add, add_zero] at h
        have hidx : ¬ (i < 0 ∨ ((((alloc_indirect s vec).2.blocks ++ [(bD : Int)]).length : Nat) : Int) ≤ i) := by
          rw [hblA]
          simp only [List.length_append, List.length_singleton]
          push_cast
          omega
        rw [if_neg hidx] at h
        have htv : is_valid_datablock (alloc_indirect s vec).1
            (((alloc_indirect s vec).2.blocks ++ [(bD : Int)]).getD i.toNat 0) = true :=
          getD_append_singleton_valid _ _ _ _ hvalA a4 (by rw [hblA]; omega)
        have htm : ((alloc_indirect s vec).2.blocks ++ [(bD : Int)]).getD i.toNat 0 ∈
            (alloc_indirect s vec).2.blocks ++ [(bD : Int)] := by
          rw [List.getD_eq_getElem _ _ (by
            rw [hblA]; simp only [List.length_append, List.length_singleton]; omega)]
          exact List.getElem_mem _
        obtain ⟨blk, n, hw, hn0⟩ := write_datablock_total
          { (alloc_indirect s vec).1 with bitmap := (alloc_indirect s vec).1.bitmap.set bD true }
          (set_true_mounted_volume _ pA.wf bD)
          (((alloc_indirect s vec).2.blocks ++ [(bD : Int)]).getD i.toNat 0) data bytes L htv hb0
        rw [hw] at h
        simp only [] at h
        have pD := alloc_data_progress (alloc_indirect s vec).1 (alloc_indirect s vec).2 pA.wf bD
          a2 a3 a4 a5 _ blk htm
        have pAD := write_progress_trans _ _ _ _ _ _ _ _ hwf pA pD
        simp only [List.nil_append] at pAD
        have hnm1 : (alloc_indirect s vec).2.indirect ≠ -1 := by
          intro hc
          rcases hA3 hc with e | e
          · exact hm1 e
          · exact hfull e
        have hshort2 : (alloc_indirect s vec).2.indirect = 0 →
            ((alloc_indirect s vec).2.blocks ++ [(bD : Int)]).length ≤ POINTERS_PER_INODE := by
          intro h0
          have := hv0 h0
          rw [hblA]
          simp only [List.length_append, List.length_singleton]
          omega
        by_cases hn : n = 0
        · rw [if_pos hn] at h
          cases h
          refine ⟨[(bD : Int)], pAD, hb0, fun hc => ?_⟩
          rcases hc with hc | hc
          · exact hshort2 hc
          · exact absurd hc hnm1
        · rw [if_neg hn] at h
          obtain ⟨new, p2, hr0, hsh⟩ := ih _
            { indirect := (alloc_indirect s vec).2.indirect
              blocks := (alloc_indirect s vec).2.blocks ++ [(bD : Int)] } (i + 1) (bytes + n) pD.wf (by
              intro b hb
              show is_valid_datablock (alloc_indirect s vec).1 b = true
              rcases List.mem_append.1 hb with hb | hb
              · exact hvalA b hb
              · simp only [List.mem_singleton] at hb
                rw [hb]; exact a4)
            (by omega) (by
              show i + 1 ≤ ((((alloc_indirect s vec).2.blocks ++ [(bD : Int)]).length : Nat) : Int)
              rw [hblA]
              simp only [List.length_append, List.length_singleton]
              push_cast
              omega)
            (by omega) hshort2 hnm1 r h
          exact ⟨[(bD : Int)] ++ new, write_progress_trans _ _ _ _ _ _ _ _ hwf pAD p2, hr0, hsh⟩
    · rw [if_neg hlt] at h
      cases h
      exact ⟨[], write_progress_refl s vec hwf, hb0, fun hc => by
        rcases hc with hc | hc
        · exact hshort hc
        · exact absurd hc hm1⟩

end SimpleFs
namespace SimpleFs

theorem filter_padded (p : Int → Bool) (D : List Int) : ∀ B : List Int,
    (∀ k : Nat, k < D.length → k < B.length → D.getD k 0 = B.getD k 0) →
    (∀ k : Nat, k < D.length → B.length ≤ k → p (D.getD k 0) = false) →
    (∀ b ∈ B, p b = true) → D.filter p = B.take D.length := by
  induction D with
  | nil => intro B _ _ _; simp
  | cons d rest ih =>
    intro B h1 h2 h3
    cases B with
    | nil =>
      have hd : p d = false := by simpa using h2 0 (by simp) (by simp)
      have := ih [] (fun k _ hk => absurd hk (by simp))
        (fun k hk _ => by simpa using h2 (k + 1) (by simp; omega) (by simp)) (fun b hb => by cases hb)
      simp only [List.take_nil] at this
      simp [List.filter_cons, hd, this]
    | cons b B1 =>
      have hdb : d = b := by simpa using h1 0 (by simp) (by simp)
      have hb : p b = true := h3 b (List.mem_cons_self _ _)
      have := ih B1
        (fun k hk1 hk2 => by simpa using h1 (k + 1) (by simp; omega) (by simp; omega))
        (fun k hk1 hk2 => by simpa using h2 (k + 1) (by simp; omega) (by simp; omega))
        (fun x hx => h3 x (List.mem_cons_of_mem _ hx))
      simp [List.filter_cons, hdb, hb, this]

theorem takeWhile_padded (p : Int → Bool) (E : List Int) : ∀ B : List Int,
    (∀ k : Nat, k < E.length → k < B.length → E.getD k 0 = B.getD k 0) →
    (∀ k : Nat, k < E.length → B.length ≤ k → p (E.getD k 0) = false) →
    (∀ b ∈ B, p b = true) → B.length ≤ E.length → E.takeWhile p = B := by
  induction E with
  | nil =>
    intro B _ _ _ hlen
    cases B with
    | nil => rfl
    | cons b B1 => simp at hlen
  | cons e rest ih =>
    intro B h1 h2 h3 hlen
    cases B with
    | nil =>
      have he : p e = false := by simpa using h2 0 (by simp) (by simp)
      simp [List.takeWhile_cons, he]
    | cons b B1 =>
      have heb : e = b := by simpa using h1 0 (by simp) (by simp)
      have hb : p b = true := h3 b (List.mem_cons_self _ _)
      have := ih B1
        (fun k hk1 hk2 => by simpa using h1 (k + 1) (by simp; omega) (by simp; omega))
        (fun k hk1 hk2 => by simpa using h2 (k + 1) (by simp; omega) (by simp; omega))
        (fun x hx => h3 x (List.mem_cons_of_mem _ hx)) (by simpa using hlen)
      simp [List.takeWhile_cons, heb, hb, this]

/-- Resolution of a slot whose stored pointers are the list `B` padded with
entries that are not valid data blocks: `fill_datablocks` returns exactly `B`. -/
theorem resolve_exact (s : SimpleFs) (hwf : mounted_volume s) (n : Int) (h1 : 1 ≤ n)
    (h2 : n ≤ s.superblock.ninodes) (B : List Int)
    (hB : ∀ b ∈ B, is_valid_datablock s b = true)
    (hshort : is_valid_datablock s (inode_at s n).indirect = false → B.length ≤ POINTERS_PER_INODE)
    (hcap : B.length ≤ POINTERS_PER_INODE + POINTERS_PER_BLOCK)
    (hd1 : ∀ k : Nat, k < POINTERS_PER_INODE → k < B.length →
      (inode_at s n).direct.getD k 0 = B.getD k 0)
    (hd2 : ∀ k : Nat, k < POINTERS_PER_INODE → B.length ≤ k →
      is_valid_datablock s ((inode_at s n).direct.getD k 0) = false)
    (he1 : is_valid_datablock s (inode_at s n).indirect = true → ∀ k : Nat,
      k + POINTERS_PER_INODE < B.length →
      get_int (s.disk.data (inode_at s n).indirect) (k : Int) = B.getD (k + POINTERS_PER_INODE) 0)
    (he2 : is_valid_datablock s (inode_at s n).indirect = true → ∀ k : Nat, k < POINTERS_PER_BLOCK →
      B.length ≤ k + POINTERS_PER_INODE →
      is_valid_datablock s (get_int (s.disk.data (inode_at s n).indirect) (k : Int)) = false) :
    fill_datablocks s n = some
      { indirect := if is_valid_datablock s (inode_at s n).indirect then (inode_at s n).indirect else 0
        blocks := B } := by
  obtain ⟨vec, hv, -, -, hi, hbl⟩ := fill_datablocks_valid s hwf n h1 h2
  have h5 : (inode_at s n).direct.length = POINTERS_PER_INODE := rfl
  have hfilter := filter_padded (is_valid_datablock s) (inode_at s n).direct B
    (fun k hk1 hk2 => hd1 k (by rw [← h5]; exact hk1) hk2)
    (fun k hk1 hk2 => hd2 k (by rw [← h5]; exact hk1) hk2) hB
  rw [h5] at hfilter
  rw [hv]
  by_cases hval : is_valid_datablock s (inode_at s n).indirect = true
  · have htw := takeWhile_padded (is_valid_datablock s)
      ((List.range POINTERS_PER_BLOCK).map
        (fun (k : Nat) => get_int (s.disk.data (inode_at s n).indirect) (k : Int)))
      (B.drop POINTERS_PER_INODE)
      (by
        intro k hk1 hk2
        simp only [List.length_map, List.length_range] at hk1
        simp only [List.length_drop] at hk2
        rw [getD_map_range _ _ _ hk1, he1 hval k (by omega)]
        rw [List.getD_eq_getElem?_getD, List.getD_eq_getElem?_getD, List.getElem?_drop]
        congr 2
        omega)
      (by
        intro k hk1 hk2
        simp only [List.length_map, List.length_range] at hk1
        simp only [List.length_drop] at hk2
        rw [getD_map_range _ _ _ hk1]
        exact he2 hval k hk1 (by omega))
      (fun b hb => hB b (List.mem_of_mem_drop hb))
      (by
        simp only [List.length_map, List.length_range, List.length_drop]
        omega)
    rw [if_pos hval] at hi hbl
    rw [hfilter, htw, List.take_append_drop] at hbl
    cases vec
    simp only at hi hbl
    simp only [hval, if_true, hi, hbl]
  · have hval2 : is_valid_datablock s (inode_at s n).indirect = false := by simpa using hval
    rw [if_neg hval, List.append_nil] at hbl
    rw [if_neg hval] at hi
    rw [hfilter, List.take_of_length_le (hshort hval2)] at hbl
    cases vec
    simp only at hi hbl
    simp only [hval2, Bool.false_eq_true, if_false, hi, hbl]

end SimpleFs
namespace SimpleFs

theorem is_valid_datablock_fun (s s1 : SimpleFs) (h : s1.superblock = s.superblock) :
    is_valid_datablock s1 = is_valid_datablock s :=
  funext (fun b => is_valid_datablock_congr s s1 h b)

theorem resolved_indirect (s : SimpleFs) (hwf : mounted_volume s) (n : Int) (h1 : 1 ≤ n)
    (h2 : n ≤ s.superblock.ninodes) (vec : fs_datablock_vec) (hv : fill_datablocks s n = some vec) :
    vec.indirect =
      (if is_valid_datablock s (inode_at s n).indirect then (inode_at s n).indirect else 0) ∧
    (∀ b ∈ vec.blocks, is_valid_datablock s b = true) ∧
    (vec.indirect = 0 ∨ is_valid_datablock s vec.indirect = true) ∧
    (is_valid_datablock s vec.indirect = false → vec.blocks.length ≤ POINTERS_PER_INODE) := by
  obtain ⟨vec0, hv0, a1, a2, a3, a4⟩ := fill_datablocks_valid s hwf n h1 h2
  rw [hv] at hv0
  cases hv0
  refine ⟨a3, a1, a2, fun hinv => ?_⟩
  by_cases hval : is_valid_datablock s (inode_at s n).indirect = true
  · rw [if_pos hval] at a3
    rw [a3, hval] at hinv
    cases hinv
  · rw [if_neg hval, List.append_nil] at a4
    rw [a4]
    exact List.length_filter_le _ _

/-- Resolving a slot gives the same list in two states that agree on the
superblock, on the slot and on the content of its indirect block. -/
theorem fill_datablocks_frame (s s1 : SimpleFs) (hwf : mounted_volume s) (hwf1 : mounted_volume s1)
    (hsb : s1.superblock = s.superblock) (n : Int) (h1 : 1 ≤ n) (h2 : n ≤ s.superblock.ninodes)
    (hino : inode_at s1 n = inode_at s n)
    (hdata : is_valid_datablock s (inode_at s n).indirect = true →
      s1.disk.data (inode_at s n).indirect = s.disk.data (inode_at s n).indirect) :
    fill_datablocks s1 n = fill_datablocks s n := by
  obtain ⟨vec, hv, -, -, a3, a4⟩ := fill_datablocks_valid s hwf n h1 h2
  obtain ⟨vec1, hv1, -, -, b3, b4⟩ := fill_datablocks_valid s1 hwf1 n h1 (by rw [hsb]; exact h2)
  rw [hv, hv1]
  rw [is_valid_datablock_fun s s1 hsb, hino] at b4
  rw [is_valid_datablock_congr s s1 hsb, hino] at b3
  have e : vec1.blocks = vec.blocks := by
    rw [a4, b4]
    by_cases hval : is_valid_datablock s (inode_at s n).indirect = true
    · rw [if_pos hval, if_pos hval, hdata hval]
    · rw [if_neg hval, if_neg hval]
  cases vec
  cases vec1
  simp only at a3 b3 e
  rw [a3, b3, e]

theorem slot_ok_frame (s s1 : SimpleFs) (hwf : mounted_volume s) (hwf1 : mounted_volume s1)
    (hsb : s1.superblock = s.superblock) (n : Int) (h1 : 1 ≤ n) (h2 : n ≤ s.superblock.ninodes)
    (vec : fs_datablock_vec) (hok : slot_ok s n vec) (hino : inode_at s1 n = inode_at s n)
    (hdata : is_valid_datablock s vec.indirect = true →
      s1.disk.data vec.indirect = s.disk.data vec.indirect)
    (hbusy : ∀ b ∈ vec.indirect :: vec.blocks, s.bitmap.getD b.toNat false = true →
      s1.bitmap.getD b.toNat false = true) : slot_ok s1 n vec := by
  obtain ⟨r1, -, -, -⟩ := resolved_indirect s hwf n h1 h2 vec hok.resolved
  have hdata2 : is_valid_datablock s (inode_at s n).indirect = true →
      s1.disk.data (inode_at s n).indirect = s.disk.data (inode_at s n).indirect := by
    intro hval
    rw [if_pos hval] at r1
    rw [← r1]
    exact hdata (by rw [r1]; exact hval)
  have hvf := is_valid_datablock_fun s s1 hsb
  exact
    { resolved := by
        rw [fill_datablocks_frame s s1 hwf hwf1 hsb n h1 h2 hino hdata2]
        exact hok.resolved
      consistent :=
        { valid := fun b hb => by rw [hvf]; exact hok.consistent.valid b hb
          busy := fun b hb => hbusy b (List.mem_cons_of_mem _ hb) (hok.consistent.busy b hb)
          nodup := hok.consistent.nodup
          indirect := by
            rcases hok.consistent.indirect with h | ⟨c1, c2, c3⟩
            · exact Or.inl h
            · exact Or.inr ⟨by rw [hvf]; exact c1, hbusy _ (List.mem_cons_self _ _) c2, c3⟩
          indirect_present := hok.consistent.indirect_present }
      direct := by
        intro k hk1 hk2
        rw [hvf, hino]
        exact hok.direct k hk1 hk2
      entries := by
        intro hval k hk1 hk2
        rw [hvf] at hval ⊢
        rw [hdata hval]
        exact hok.entries hval k hk1 hk2 }

end SimpleFs
namespace SimpleFs

theorem inode_at_data_congr (s s1 : SimpleFs) (n : Int)
    (h : s1.disk.data ((n - 1) / INODES_PER_BLOCK + 1) = s.disk.data ((n - 1) / INODES_PER_BLOCK + 1)) :
    inode_at s1 n = inode_at s n := by
  simp only [inode_at, h]

theorem with_inode_data_other (s : SimpleFs) (hwf : mounted_volume s) (n : Int) (h1 : 1 ≤ n)
    (h2 : n ≤ s.superblock.ninodes) (ino : fs_inode) (b : Int)
    (hb : is_valid_datablock s b = true) : (with_inode s n ino).disk.data b = s.disk.data b := by
  have hr := (is_valid_datablock_iff s b).1 hb
  have hblk := inode_block_range s hwf n h1 h2
  show (if b = (n - 1) / INODES_PER_BLOCK + 1 then _ else s.disk.data b) = s.disk.data b
  rw [if_neg (by omega)]

theorem inode_at_with_inode_getD (s : SimpleFs) (n : Int) (ino : fs_inode) (k : Nat)
    (hk : k < POINTERS_PER_INODE) :
    (inode_at (with_inode s n ino) n).direct.getD k 0 = wrap32 (ino.direct.getD k 0) := by
  rw [inode_at_with_inode_same]
  simp only [POINTERS_PER_INODE] at hk
  have h : k = 0 ∨ k = 1 ∨ k = 2 ∨ k = 3 ∨ k = 4 := by omega
  rcases h with h | h | h | h | h <;> subst h <;> rfl

theorem inode_at_with_inode_indirect (s : SimpleFs) (n : Int) (ino : fs_inode) :
    (inode_at (with_inode s n ino) n).indirect = wrap32 ino.indirect := by
  rw [inode_at_with_inode_same]

/-- A slot whose stored pointers are all zero resolves to the empty list. -/
theorem slot_ok_cleared (s : SimpleFs) (hwf : mounted_volume s) (n : Int) (h1 : 1 ≤ n)
    (h2 : n ≤ s.superblock.ninodes) (hd : (inode_at s n).direct = [0, 0, 0, 0, 0])
    (hi : (inode_at s n).indirect = 0) : slot_ok s n { indirect := 0, blocks := [] } := by
  have hz := is_valid_datablock_zero s hwf
  have hres := resolve_exact s hwf n h1 h2 [] (fun b hb => by cases hb)
    (fun _ => by simp) (by simp)
    (fun k _ hk => absurd hk (by simp))
    (fun k hk _ => by
      rw [hd]
      simp only [POINTERS_PER_INODE] at hk
      have h : k = 0 ∨ k = 1 ∨ k = 2 ∨ k = 3 ∨ k = 4 := by omega
      rcases h with h | h | h | h | h <;> subst h <;> exact hz)
    (fun hv => by rw [hi, hz] at hv; cases hv)
    (fun hv => by rw [hi, hz] at hv; cases hv)
  rw [hi, hz] at hres
  simp only [Bool.false_eq_true, if_false] at hres
  exact
    { resolved := hres
      consistent :=
        { valid := fun b hb => by cases hb
          busy := fun b hb => by cases hb
          nodup := List.nodup_nil
          indirect := Or.inl rfl
          indirect_present := fun h => by simp at h }
      direct := by
        intro k hk _
        rw [hd]
        simp only [POINTERS_PER_INODE] at hk
        have h : k = 0 ∨ k = 1 ∨ k = 2 ∨ k = 3 ∨ k = 4 := by omega
        rcases h with h | h | h | h | h <;> subst h <;> exact hz
      entries := fun hv => by
        rw [hz] at hv
        cases hv }

/-- The invariant is kept when a set `F` of blocks that belong to no slot other
than `n` is freed and zeroed and slot `n` is overwritten with an inode whose
pointers are all zero. -/
theorem volume_ok_reset_slot (s s2 : SimpleFs) (hok : volume_ok s) (hwf2 : mounted_volume s2)
    (hsb : s2.superblock = s.superblock) (n : Int) (h1 : 1 ≤ n) (h2 : n ≤ s.superblock.ninodes)
    (F : List Int)
    (hFown : ∀ (m : Int) (vm : fs_datablock_vec), 1 ≤ m → m ≤ s.superblock.ninodes → m ≠ n →
      fill_datablocks s m = some vm → ∀ b ∈ vm.indirect :: vm.blocks, b ≠ 0 → b ∉ F)
    (hFvalid : ∀ b ∈ F, is_valid_datablock s b = true)
    (hbm : ∀ x : Nat, (x : Int) ∉ F → s2.bitmap.getD x false = s.bitmap.getD x false)
    (hdF : ∀ b ∈ F, s2.disk.data b = EMPTY_BLOCK)
    (hdN : ∀ b, b ∉ F → s2.disk.data b = s.disk.data b)
    (ino : fs_inode) (hd : ino.direct = [0, 0, 0, 0, 0]) (hi : ino.indirect = 0) :
    volume_ok (with_inode s2 n ino) := by
  have hwf := hok.wf
  have hwfF := with_inode_mounted_volume s2 hwf2 n ino
  have hsbF : (with_inode s2 n ino).superblock = s.superblock := hsb
  have hn2 : n ≤ s2.superblock.ninodes := by rw [hsb]; exact h2
  have hvf := is_valid_datablock_fun s _ hsbF
  have hdataF : ∀ b, is_valid_datablock s b = true → b ∉ F →
      (with_inode s2 n ino).disk.data b = s.disk.data b := by
    intro b hb hnF
    rw [with_inode_data_other s2 hwf2 n h1 hn2 ino b
      (by rw [is_valid_datablock_congr s s2 hsb]; exact hb)]
    exact hdN b hnF
  have hinoF : ∀ m, 1 ≤ m → m ≤ s.superblock.ninodes → m ≠ n →
      inode_at (with_inode s2 n ino) m = inode_at s m := by
    intro m hm1 hm2 hne
    rw [inode_at_with_inode_ne _ _ _ _ hne]
    apply inode_at_data_congr
    apply hdN
    intro hF
    have hr := (is_valid_datablock_iff s _).1 (hFvalid _ hF)
    have hblk := inode_block_range s hwf m hm1 hm2
    omega
  have hslotN : slot_ok (with_inode s2 n ino) n { indirect := 0, blocks := [] } := by
    apply slot_ok_cleared _ hwfF n h1 (by rw [hsbF]; exact h2)
    · rw [inode_at_with_inode_same, hd]
      rfl
    · rw [inode_at_with_inode_indirect, hi]
      rfl
  have hslotM : ∀ m vm, 1 ≤ m → m ≤ s.superblock.ninodes → m ≠ n → slot_ok s m vm →
      slot_ok (with_inode s2 n ino) m vm := by
    intro m vm hm1 hm2 hne hsl
    have hown := hFown m vm hm1 hm2 hne hsl.resolved
    apply slot_ok_frame s _ hwf hwfF hsbF m hm1 hm2 vm hsl (hinoF m hm1 hm2 hne)
    · intro hv
      exact hdataF _ hv (hown _ (List.mem_cons_self _ _)
        (ne_of_gt (valid_datablock_pos s hwf _ hv)))
    · intro b hb hbusy
      have hnF : b ∉ F := by
        by_cases h0 : b = 0
        · intro hF
          have := hFvalid b hF
          rw [h0, is_valid_datablock_zero s hwf] at this
          cases this
        · exact hown b hb h0
      show s2.bitmap.getD b.toNat false = true
      have hbpos : 0 ≤ b := by
        rcases List.mem_cons.1 hb with e | e
        · rcases hsl.consistent.indirect with c | ⟨c, -, -⟩
          · rw [e, c]
          · rw [e]; exact le_of_lt (valid_datablock_pos s hwf _ c)
        · exact le_of_lt (valid_datablock_pos s hwf _ (hsl.consistent.valid b e))
      rw [hbm b.toNat (by rw [Int.toNat_of_nonneg hbpos]; exact hnF)]
      exact hbusy
  exact
    { wf := hwfF
      free_zero := by
        intro b hv hfree
        rw [hvf] at hv
        by_cases hF : b ∈ F
        · rw [with_inode_data_other s2 hwf2 n h1 hn2 ino b
            (by rw [is_valid_datablock_congr s s2 hsb]; exact hv)]
          exact hdF b hF
        · rw [hdataF b hv hF]
          apply hok.free_zero b hv
          have hbpos := valid_datablock_pos s hwf b hv
          rw [← hbm b.toNat (by rw [Int.toNat_of_nonneg (le_of_lt hbpos)]; exact hF)]
          exact hfree
      slots := by
        intro m hm1 hm2
        rw [hsbF] at hm2
        by_cases hne : m = n
        · rw [hne]
          exact ⟨_, hslotN⟩
        · obtain ⟨vm, hsl⟩ := hok.slots m hm1 hm2
          exact ⟨vm, hslotM m vm hm1 hm2 hne hsl⟩
      disjoint := by
        intro a m va vm ha1 ha2 hm1 hm2 hne hva hvm b hb0 hba
        rw [hsbF] at ha2 hm2
        by_cases han : a = n
        · rw [han, hslotN.resolved] at hva
          cases hva
          simp only [List.mem_cons, List.not_mem_nil, or_false] at hba
          exact absurd hba hb0
        · obtain ⟨va', hsla⟩ := hok.slots a ha1 ha2
          have e := (hslotM a va' ha1 ha2 han hsla).resolved
          rw [hva] at e
          cases e
          by_cases hmn : m = n
          · rw [hmn, hslotN.resolved] at hvm
            cases hvm
            simp only [List.mem_cons, List.not_mem_nil, or_false]
            exact hb0
          · obtain ⟨vm', hslm⟩ := hok.slots m hm1 hm2
            have e := (hslotM m vm' hm1 hm2 hmn hslm).resolved
            rw [hvm] at e
            cases e
            exact hok.disjoint a m va vm ha1 ha2 hm1 hm2 hne hsla.resolved hslm.resolved b hb0 hba }

end SimpleFs
namespace SimpleFs

theorem inode_save_result (s s1 : SimpleFs) (hwf : mounted_volume s) (n : Int) (ino : fs_inode)
    (ok : Bool) (h : inode_save s n ino = some (s1, ok)) :
    s1 = s ∨ (1 ≤ n ∧ n ≤ s.superblock.ninodes ∧ s1 = with_inode s n ino) := by
  by_cases hr : 1 ≤ n ∧ n ≤ s.superblock.ninodes
  · rw [inode_save_valid s hwf n ino hr.1 hr.2] at h
    cases h
    exact Or.inr ⟨hr.1, hr.2, rfl⟩
  · rw [inode_save_invalid s n ino (by omega)] at h
    cases h
    exact Or.inl rfl

theorem fs_create_loop_result (s : SimpleFs) (hwf : mounted_volume s) (count : Nat) :
    ∀ (i : Int) (s1 : SimpleFs) (r : Int), fs_create_loop s count i = some (s1, r) →
      s1 = s ∨ ∃ m, 1 ≤ m ∧ m ≤ s.superblock.ninodes ∧
        s1 = with_inode s m { fs_inode.zero with isvalid := 1 } := by
  induction count with
  | zero =>
    intro i s1 r h
    simp only [fs_create_loop] at h
    cases h
    exact Or.inl rfl
  | succ c ih =>
    intro i s1 r h
    simp only [fs_create_loop] at h
    split at h
    · cases h
    · split at h
      · split at h
        · cases h
        · rename_i s2 ok hs
          cases h
          rcases inode_save_result _ _ hwf _ _ _ hs with e | ⟨e1, e2, e3⟩
          · exact Or.inl e
          · exact Or.inr ⟨_, e1, e2, e3⟩
      · exact ih _ _ _ h

theorem fs_create_result (s s1 : SimpleFs) (hwf : mounted_volume s) (r : Int)
    (h : fs_create s = some (s1, r)) :
    s1 = s ∨ ∃ m, 1 ≤ m ∧ m ≤ s.superblock.ninodes ∧
      s1 = with_inode s m { fs_inode.zero with isvalid := 1 } := by
  simp only [fs_create] at h
  split at h
  · cases h; exact Or.inl rfl
  · exact fs_create_loop_result s hwf _ _ _ _ h

/-- The invariant `volume_ok` is preserved by `fs_create`. -/
theorem volume_ok_create (s s1 : SimpleFs) (r : Int) (hok : volume_ok s)
    (h : fs_create s = some (s1, r)) : volume_ok s1 := by
  rcases fs_create_result s s1 hok.wf r h with e | ⟨m, h1, h2, e⟩
  · rw [e]; exact hok
  · rw [e]
    exact volume_ok_reset_slot s s hok hok.wf rfl m h1 h2 [] (fun _ _ _ _ _ _ _ _ _ => List.not_mem_nil _)
      (fun b hb => by cases hb) (fun _ _ => rfl) (fun b hb => by cases hb) (fun _ _ => rfl)
      _ rfl rfl

/-- The invariant `volume_ok` is preserved by `fs_delete`. -/
theorem volume_ok_delete (s s1 : SimpleFs) (n r : Int) (hok : volume_ok s)
    (h : fs_delete s n = some (s1, r)) : volume_ok s1 := by
  have hwf := hok.wf
  by_cases hr : 1 ≤ n ∧ n ≤ s.superblock.ninodes
  · obtain ⟨vec, hsl⟩ := hok.slots n hr.1 hr.2
    obtain ⟨s2, -, hwf2, hsb, -, hbm, hdata, hdel⟩ :=
      fs_delete_eq s hwf n hr.1 hr.2 vec hsl.resolved hsl.consistent.valid
    rw [hdel] at h
    cases h
    have hFv := freed_blocks_valid s vec hsl.consistent.valid
    have hsub : ∀ b ∈ freed_blocks s vec, b ∈ vec.indirect :: vec.blocks := by
      intro b hb
      simp only [freed_blocks] at hb
      split at hb
      · exact hb
      · exact List.mem_cons_of_mem _ hb
    apply volume_ok_reset_slot s s2 hok hwf2 hsb n hr.1 hr.2 (freed_blocks s vec)
    · intro m vm hm1 hm2 hne hvm b hb hb0 hF
      exact hok.disjoint m n vm vec hm1 hm2 hr.1 hr.2 hne hvm hsl.resolved b hb0 hb (hsub b hF)
    · exact hFv
    · intro x hx
      rw [hbm]
      simp only [List.getD_eq_getElem?_getD]
      rw [clear_bits_getElem? _ _ _ (by
        intro b hb
        have hv := (is_valid_datablock_iff s b).1 (hFv b hb)
        have h1 := hwf.bitmap_size
        have h2 := hwf.device
        have h3 := hwf.inode_blocks_nonneg
        omega), if_neg hx]
    · intro b hb
      rw [hdata, if_pos hb]
    · intro b hb
      rw [hdata, if_neg hb]
    · rfl
    · rfl
  · simp only [fs_delete, hwf.mounted, Bool.true_eq_false, if_false,
      inode_load_invalid s n _ (show n < 1 ∨ n > s.superblock.ninodes by omega)] at h
    cases h
    exact hok

end SimpleFs
namespace SimpleFs

theorem set_pointers_outside (l : List Int) : ∀ (blk blk1 : Block) (k : Int),
    set_pointers blk l k = some blk1 →
    ∀ m, m < k ∨ k + l.length ≤ m → get_int blk1 m = get_int blk m := by
  induction l with
  | nil =>
    intro blk blk1 k h m _
    simp only [set_pointers] at h
    cases h
    rfl
  | cons v rest ih =>
    intro blk blk1 k h m hm
    rw [set_pointers] at h
    split at h
    · simp only [List.length_cons] at hm
      push_cast at hm
      rw [ih _ _ _ h m (by omega), get_int_set_int_ne _ _ _ _ (by omega)]
    · cases h

/-- What a defined `save_pointers` leaves: nothing changes but the indirect
block, which holds the blocks of the list from index `POINTERS_PER_INODE` on
and keeps its other entries. -/
theorem save_pointers_result (s s1 : SimpleFs) (vec : fs_datablock_vec) (hwf : mounted_volume s)
    (h : save_pointers s vec = some s1) :
    mounted_volume s1 ∧ s1.superblock = s.superblock ∧ s1.bitmap = s.bitmap ∧
      (∀ x, x ≠ vec.indirect → s1.disk.data x = s.disk.data x) ∧
      (is_valid_datablock s vec.indirect = false → s1 = s) ∧
      (is_valid_datablock s vec.indirect = true →
        vec.blocks.length ≤ POINTERS_PER_INODE + POINTERS_PER_BLOCK ∧
        (∀ j : Nat, j + POINTERS_PER_INODE < vec.blocks.length →
          get_int (s1.disk.data vec.indirect) j = wrap32 (vec.blocks.getD (j + POINTERS_PER_INODE) 0)) ∧
        (∀ j : Nat, vec.blocks.length ≤ j + POINTERS_PER_INODE →
          get_int (s1.disk.data vec.indirect) j = get_int (s.disk.data vec.indirect) j)) := by
  by_cases hv : is_valid_datablock s vec.indirect = true
  · have hr := (is_valid_datablock_iff s _).1 hv
    have h0 := hwf.inode_blocks_nonneg
    have hd := hwf.device
    by_cases hcap : vec.blocks.length ≤ POINTERS_PER_INODE + POINTERS_PER_BLOCK
    · obtain ⟨blk1, e1, e2, -⟩ := set_pointers_spec (vec.blocks.drop POINTERS_PER_INODE)
        (s.disk.data vec.indirect) 0 (le_refl 0) (by
          simp only [List.length_drop, POINTERS_PER_INODE, POINTERS_PER_BLOCK] at hcap ⊢
          omega)
      have e3 := set_pointers_outside _ _ _ _ e1
      have hs1 : s1 = with_block s vec.indirect blk1 := by
        simp only [save_pointers, hv, if_true] at h
        rw [disk_read_some _ _ (by omega) (by omega)] at h
        simp only [e1] at h
        rw [disk_write_some _ _ _ (by omega) (by omega)] at h
        cases h
        rfl
      subst hs1
      refine ⟨with_block_mounted_volume s hwf _ _, rfl, rfl, ?_, fun hf => ?_, fun _ => ⟨hcap, ?_, ?_⟩⟩
      · intro x hx
        simp only [with_block, hx, if_false]
      · rw [hv] at hf
        cases hf
      · intro j hj
        simp only [with_block, if_true]
        have hdl : j < (List.drop POINTERS_PER_INODE vec.blocks).length := by
          simp only [List.length_drop]; omega
        have := e2 j hdl
        rw [zero_add] at this
        rw [this]
        rw [List.getD_eq_getElem _ _ hdl, List.getD_eq_getElem _ _ hj, List.getElem_drop]
        congr 2
        omega
      · intro j hj
        simp only [with_block, if_true]
        apply e3
        right
        simp only [List.length_drop]
        omega
    · rw [save_pointers_overflow s vec hwf hv (by omega)] at h
      cases h
  · simp only [save_pointers, hv, Bool.false_eq_true, if_false] at h
    cases h
    refine ⟨hwf, rfl, rfl, fun _ _ => rfl, fun _ => rfl, fun hf => absurd hf hv⟩

theorem update_direct_getD (old B : List Int) (k : Nat) (hk : k < POINTERS_PER_INODE) :
    (update_direct old B).getD k 0 = if k < B.length then B.getD k 0 else old.getD k 0 := by
  simp only [POINTERS_PER_INODE] at hk
  have h : k = 0 ∨ k = 1 ∨ k = 2 ∨ k = 3 ∨ k = 4 := by omega
  rcases h with h | h | h | h | h <;> subst h <;> rfl

theorem inode_direct_range (s : SimpleFs) (n : Int) (k : Nat) :
    wrap32 ((inode_at s n).direct.getD k 0) = (inode_at s n).direct.getD k 0 := by
  have hr : ∀ b ∈ (inode_at s n).direct, -2147483648 ≤ b ∧ b < 2147483648 := by
    intro b hb
    simp only [inode_at, get_inode, List.mem_cons, List.mem_singleton, List.not_mem_nil, or_false] at hb
    rcases hb with e | e | e | e | e <;> rw [e] <;> exact get_int_range _ _
  by_cases hk : k < (inode_at s n).direct.length
  · rw [List.getD_eq_getElem _ _ hk]
    have := hr _ (List.getElem_mem hk)
    exact wrap32_of_range _ this.1 this.2
  · rw [List.getD_eq_default _ _ (by omega)]
    rfl

/-- The nonzero blocks a consistent slot names are valid data blocks marked busy. -/
theorem slot_members_busy (s : SimpleFs) (vec : fs_datablock_vec) (hc : blocks_consistent s vec)
    (b : Int) (hb : b ∈ vec.indirect :: vec.blocks) (hb0 : b ≠ 0) :
    is_valid_datablock s b = true ∧ s.bitmap.getD b.toNat false = true := by
  rcases List.mem_cons.1 hb with e | e
  · rcases hc.indirect with c | ⟨c1, c2, -⟩
    · rw [e, c] at hb0
      exact absurd rfl hb0
    · rw [e]
      exact ⟨c1, c2⟩
  · exact ⟨hc.valid b e, hc.busy b e⟩

end SimpleFs
namespace SimpleFs

theorem is_valid_datablock_neg_one (s : SimpleFs) (hwf : mounted_volume s) :
    is_valid_datablock s (-1) = false := by
  have h := hwf.inode_blocks_nonneg
  cases hv : is_valid_datablock s (-1)
  · rfl
  · have := (is_valid_datablock_iff s _).1 hv
    omega

theorem busy_ne_free (bm : List Bool) (a b : Int) (ha : bm.getD a.toNat false = true)
    (hb : bm.getD b.toNat false = false) : a ≠ b := by
  intro h
  rw [h, hb] at ha
  cases ha

/-- What the loop of `fs_write` leaves of a consistent block list: the list is
still made of distinct valid data blocks marked busy, the indirect pointer is
0, -1 or a valid busy block outside the list, and every block that was not in
the list before was free before. -/
theorem write_progress_facts (s sL : SimpleFs) (vec vec1 : fs_datablock_vec) (new : List Int)
    (hwf : mounted_volume s) (hc : blocks_consistent s vec) (hp : write_progress s vec sL vec1 new) :
    (∀ b ∈ vec1.blocks, is_valid_datablock s b = true) ∧
    (∀ b ∈ vec1.blocks, sL.bitmap.getD b.toNat false = true) ∧
    vec1.blocks.Nodup ∧
    (vec1.indirect = 0 ∨ vec1.indirect = -1 ∨ is_valid_datablock s vec1.indirect = true) ∧
    (is_valid_datablock s vec1.indirect = true →
      sL.bitmap.getD vec1.indirect.toNat false = true ∧ vec1.indirect ∉ vec1.blocks) ∧
    (∀ b ∈ vec1.indirect :: vec1.blocks, is_valid_datablock s b = true →
      b ∈ vec.indirect :: vec.blocks ∨ s.bitmap.getD b.toNat false = false) := by
  have hmono : ∀ b : Int, s.bitmap.getD b.toNat false = true → sL.bitmap.getD b.toNat false = true :=
    fun b hb => (hp.bitmap b.toNat).2 (Or.inl hb)
  have hz := is_valid_datablock_zero s hwf
  have hm1 := is_valid_datablock_neg_one s hwf
  refine ⟨?_, ?_, ?_, ?_, ?_, ?_⟩
  · intro b hb
    rw [hp.blocks] at hb
    rcases List.mem_append.1 hb with e | e
    · exact hc.valid b e
    · exact hp.new_valid b e
  · intro b hb
    rw [hp.blocks] at hb
    rcases List.mem_append.1 hb with e | e
    · exact hmono b (hc.busy b e)
    · exact write_progress_new_busy s sL vec vec1 new hwf hp b e
  · rw [hp.blocks]
    refine List.nodup_append.2 ⟨hc.nodup, hp.new_nodup, ?_⟩
    intro b hb1 hb2
    exact busy_ne_free _ b b (hc.busy b hb1) (hp.new_free b hb2) rfl
  · rcases hp.indirect with e | ⟨-, e1 | ⟨e1, -, -⟩⟩
    · rw [e]
      rcases hc.indirect with c | ⟨c, -, -⟩
      · exact Or.inl c
      · exact Or.inr (Or.inr c)
    · exact Or.inr (Or.inl e1)
    · exact Or.inr (Or.inr e1)
  · intro hv
    rcases hp.indirect with e | ⟨e0, e1 | ⟨e1, e2, e3⟩⟩
    · rcases hc.indirect with c | ⟨c1, c2, c3⟩
      · rw [e, c, hz] at hv
        cases hv
      · rw [e]
        refine ⟨hmono _ c2, ?_⟩
        rw [hp.blocks]
        intro hmem
        rcases List.mem_append.1 hmem with m | m
        · exact c3 m
        · exact busy_ne_free _ _ _ c2 (hp.new_free _ m) rfl
    · rw [e1, hm1] at hv
      cases hv
    · have hne : vec1.indirect ≠ vec.indirect := by
        rw [e0]
        intro h0
        rw [h0, hz] at e1
        cases e1
      have hpos := valid_datablock_pos s hwf _ e1
      refine ⟨(hp.bitmap vec1.indirect.toNat).2 (Or.inr (Or.inr ⟨?_, hne⟩)), ?_⟩
      · rw [Int.toNat_of_nonneg (le_of_lt hpos)]
      · rw [hp.blocks]
        intro hmem
        rcases List.mem_append.1 hmem with m | m
        · exact busy_ne_free _ _ _ (hc.busy _ m) e2 rfl
        · exact e3 m
  · intro b hb hv
    rcases List.mem_cons.1 hb with e | e
    · rcases hp.indirect with c | ⟨c0, c1 | ⟨c1, c2, c3⟩⟩
      · left
        rw [e, c]
        exact List.mem_cons_self _ _
      · rw [e, c1, hm1] at hv
        cases hv
      · right
        rw [e]
        exact c2
    · rw [hp.blocks] at e
      rcases List.mem_append.1 e with m | m
      · exact Or.inl (List.mem_cons_of_mem _ m)
      · exact Or.inr (hp.new_free b m)

end SimpleFs
namespace SimpleFs

/-- The slot written by `fs_write` resolves to the block list the loop left. -/
theorem slot_ok_store (s sL s2 : SimpleFs) (hok : volume_ok s) (n : Int) (h1 : 1 ≤ n)
    (h2 : n ≤ s.superblock.ninodes) (vec vec1 : fs_datablock_vec) (new : List Int)
    (hsl : slot_ok s n vec) (hp : write_progress s vec sL vec1 new)
    (hlen : vec1.indirect = 0 ∨ vec1.indirect = -1 → vec1.blocks.length ≤ POINTERS_PER_INODE)
    (hsave : save_pointers sL vec1 = some s2) (ino : fs_inode)
    (hd : ino.direct = update_direct (inode_at s n).direct vec1.blocks)
    (hi : ino.indirect = vec1.indirect) :
    slot_ok (with_inode s2 n ino) n
      { indirect := if is_valid_datablock s vec1.indirect then vec1.indirect else 0
        blocks := vec1.blocks } := by
  have hwf := hok.wf
  have hwfL := hp.wf
  have hsbL := hp.superblock
  obtain ⟨hwf2, hsb2, hbm2, hdx, -, hval⟩ := save_pointers_result sL s2 vec1 hwfL hsave
  have hwfS := with_inode_mounted_volume s2 hwf2 n ino
  have hsb2s : s2.superblock = s.superblock := hsb2.trans hsbL
  have hsbS : (with_inode s2 n ino).superblock = s.superblock := hsb2s
  have hn2 : n ≤ s2.superblock.ninodes := by rw [hsb2s]; exact h2
  have hvS := is_valid_datablock_fun s _ hsbS
  have hvL := is_valid_datablock_fun s _ hsbL
  have hv2 := is_valid_datablock_fun s _ hsb2s
  have hz := is_valid_datablock_zero s hwf
  have hm1 := is_valid_datablock_neg_one s hwf
  obtain ⟨fvalid, fbusy, fnodup, ftri, find, -⟩ := write_progress_facts s sL vec vec1 new hwf hsl.consistent hp
  have hlenle : vec.blocks.length ≤ vec1.blocks.length := by
    rw [hp.blocks, List.length_append]; omega
  have hindw : wrap32 vec1.indirect = vec1.indirect := by
    rcases ftri with e | e | e
    · rw [e]; rfl
    · rw [e]; rfl
    · exact wrap32_valid s hwf _ e
  have hsind : (inode_at (with_inode s2 n ino) n).indirect = vec1.indirect := by
    rw [inode_at_with_inode_indirect, hi, hindw]
  have hsdir : ∀ k : Nat, k < POINTERS_PER_INODE →
      (inode_at (with_inode s2 n ino) n).direct.getD k 0 =
        if k < vec1.blocks.length then vec1.blocks.getD k 0 else (inode_at s n).direct.getD k 0 := by
    intro k hk
    rw [inode_at_with_inode_getD _ _ _ _ hk, hd, update_direct_getD _ _ _ hk]
    split
    · rename_i hkl
      rw [List.getD_eq_getElem _ _ hkl]
      exact wrap32_valid s hwf _ (fvalid _ (List.getElem_mem hkl))
    · exact inode_direct_range s n k
  have hshort : is_valid_datablock s vec1.indirect = false → vec1.blocks.length ≤ POINTERS_PER_INODE := by
    intro hf
    rcases ftri with e | e | e
    · exact hlen (Or.inl e)
    · exact hlen (Or.inr e)
    · rw [e] at hf; cases hf
  have hdirinv : ∀ k : Nat, k < POINTERS_PER_INODE → vec1.blocks.length ≤ k →
      is_valid_datablock s ((inode_at (with_inode s2 n ino) n).direct.getD k 0) = false := by
    intro k hk hkl
    rw [hsdir k hk, if_neg (by omega)]
    exact hsl.direct k hk (by omega)
  have hSdata : is_valid_datablock s vec1.indirect = true →
      (with_inode s2 n ino).disk.data vec1.indirect = s2.disk.data vec1.indirect := by
    intro hv
    exact with_inode_data_other s2 hwf2 n h1 hn2 ino _ (by rw [hv2]; exact hv)
  have hentinv : is_valid_datablock s vec1.indirect = true → ∀ k : Nat, k < POINTERS_PER_BLOCK →
      vec1.blocks.length ≤ k + POINTERS_PER_INODE →
      is_valid_datablock s (get_int ((with_inode s2 n ino).disk.data vec1.indirect) (k : Int)) = false := by
    intro hv k hk hkl
    have hvL1 : is_valid_datablock sL vec1.indirect = true := by rw [hvL]; exact hv
    rw [hSdata hv, (hval hvL1).2.2 k hkl, hp.disk _ (find hv).2]
    rcases hp.indirect with e | ⟨e0, e1 | ⟨e1, e2, e3⟩⟩
    · rw [e]
      exact hsl.entries (by rw [← e]; exact hv) k hk (by omega)
    · rw [e1, hm1] at hv
      cases hv
    · rw [hok.free_zero _ e1 e2, get_int_EMPTY_BLOCK]
      exact hz
  have hres := resolve_exact (with_inode s2 n ino) hwfS n h1 (by rw [hsbS]; exact h2) vec1.blocks
    (by rw [hvS]; exact fvalid)
    (by rw [hvS, hsind]; exact hshort)
    (by
      by_cases hv : is_valid_datablock s vec1.indirect = true
      · exact (hval (by rw [hvL]; exact hv)).1
      · have := hshort (by simpa using hv)
        omega)
    (by
      intro k hk hkl
      rw [hsdir k hk, if_pos hkl])
    (by rw [hvS]; exact hdirinv)
    (by
      rw [hvS, hsind]
      intro hv k hk
      have hvL1 : is_valid_datablock sL vec1.indirect = true := by rw [hvL]; exact hv
      rw [hSdata hv, (hval hvL1).2.1 k hk, List.getD_eq_getElem _ _ hk]
      exact wrap32_valid s hwf _ (fvalid _ (List.getElem_mem hk)))
    (by rw [hvS, hsind]; exact hentinv)
  rw [hvS, hsind] at hres
  exact
    { resolved := hres
      consistent :=
        { valid := by rw [hvS]; exact fvalid
          busy := fun b hb => by
            show s2.bitmap.getD b.toNat false = true
            rw [hbm2]
            exact fbusy b hb
          nodup := fnodup
          indirect := by
            by_cases hv : is_valid_datablock s vec1.indirect = true
            · right
              simp only [hv, if_true]
              rw [hvS]
              refine ⟨hv, ?_, (find hv).2⟩
              show s2.bitmap.getD vec1.indirect.toNat false = true
              rw [hbm2]
              exact (find hv).1
            · left
              simp only [hv, if_false, Bool.false_eq_true]
          indirect_present := by
            intro hl
            by_cases hv : is_valid_datablock s vec1.indirect = true
            · simp only [hv, if_true]
              exact ne_of_gt (valid_datablock_pos s hwf _ hv)
            · have := hshort (by simpa using hv)
              simp only [] at hl
              omega }
      direct := by rw [hvS]; exact hdirinv
      entries := by
        rw [hvS]
        intro hv k hk hkl
        by_cases hv1 : is_valid_datablock s vec1.indirect = true
        · simp only [hv1, if_true] at hv ⊢
          exact hentinv hv1 k hk hkl
        · simp only [hv1, if_false, Bool.false_eq_true, hz] at hv }

end SimpleFs
namespace SimpleFs

/-- The invariant `volume_ok` is kept by the tail of `fs_write`: after the loop
has extended the block list of slot `n`, the indirect block and the inode are
stored. -/
theorem volume_ok_store (s sL s2 : SimpleFs) (hok : volume_ok s) (n : Int) (h1 : 1 ≤ n)
    (h2 : n ≤ s.superblock.ninodes) (vec vec1 : fs_datablock_vec) (new : List Int)
    (hsl : slot_ok s n vec) (hp : write_progress s vec sL vec1 new)
    (hlen : vec1.indirect = 0 ∨ vec1.indirect = -1 → vec1.blocks.length ≤ POINTERS_PER_INODE)
    (hsave : save_pointers sL vec1 = some s2) (ino : fs_inode)
    (hd : ino.direct = update_direct (inode_at s n).direct vec1.blocks)
    (hi : ino.indirect = vec1.indirect) :
    volume_ok (with_inode s2 n ino) := by
  have hslotN := slot_ok_store s sL s2 hok n h1 h2 vec vec1 new hsl hp hlen hsave ino hd hi
  have hwf := hok.wf
  have hwfL := hp.wf
  have hsbL := hp.superblock
  obtain ⟨hwf2, hsb2, hbm2, hdx, -, -⟩ := save_pointers_result sL s2 vec1 hwfL hsave
  have hwfS := with_inode_mounted_volume s2 hwf2 n ino
  have hsb2s : s2.superblock = s.superblock := hsb2.trans hsbL
  have hsbS : (with_inode s2 n ino).superblock = s.superblock := hsb2s
  have hn2 : n ≤ s2.superblock.ninodes := by rw [hsb2s]; exact h2
  have hvS := is_valid_datablock_fun s _ hsbS
  have hv2 := is_valid_datablock_fun s _ hsb2s
  have hz := is_valid_datablock_zero s hwf
  obtain ⟨fvalid, fbusy, fnodup, ftri, find, ffresh⟩ :=
    write_progress_facts s sL vec vec1 new hwf hsl.consistent hp
  have hmono : ∀ b : Int, s.bitmap.getD b.toNat false = true → sL.bitmap.getD b.toNat false = true :=
    fun b hb => (hp.bitmap b.toNat).2 (Or.inl hb)
  have hbmS : (with_inode s2 n ino).bitmap = sL.bitmap := hbm2
  -- a block that is neither the indirect block nor in the list keeps its content
  have hkeep : ∀ b, b ≠ vec1.indirect → b ∉ vec1.blocks → s2.disk.data b = s.disk.data b := by
    intro b hb1 hb2
    rw [hdx b hb1, hp.disk b hb2]
  have hkeepS : ∀ b, is_valid_datablock s b = true → b ≠ vec1.indirect → b ∉ vec1.blocks →
      (with_inode s2 n ino).disk.data b = s.disk.data b := by
    intro b hv hb1 hb2
    rw [with_inode_data_other s2 hwf2 n h1 hn2 ino b (by rw [hv2]; exact hv)]
    exact hkeep b hb1 hb2
  -- a block that was busy and is named by another slot is not touched
  have hother : ∀ (m : Int) (vm : fs_datablock_vec), 1 ≤ m → m ≤ s.superblock.ninodes → m ≠ n →
      slot_ok s m vm → ∀ b ∈ vm.indirect :: vm.blocks, b ≠ 0 →
        b ∉ (if is_valid_datablock s vec1.indirect then vec1.indirect else 0) :: vec1.blocks := by
    intro m vm hm1 hm2 hne hslm b hb hb0 hmem
    obtain ⟨bv, bb⟩ := slot_members_busy s vm hslm.consistent b hb hb0
    have hmem1 : b ∈ vec1.indirect :: vec1.blocks := by
      rcases List.mem_cons.1 hmem with e | e
      · by_cases hv : is_valid_datablock s vec1.indirect = true
        · simp only [hv, if_true] at e
          rw [e]
          exact List.mem_cons_self _ _
        · simp only [hv, if_false, Bool.false_eq_true] at e
          exact absurd e hb0
      · exact List.mem_cons_of_mem _ e
    rcases ffresh b hmem1 bv with e | e
    · exact hok.disjoint m n vm vec hm1 hm2 h1 h2 hne hslm.resolved hsl.resolved b hb0 hb e
    · rw [e] at bb
      cases bb
  have hinoS : ∀ m, 1 ≤ m → m ≤ s.superblock.ninodes → m ≠ n →
      inode_at (with_inode s2 n ino) m = inode_at s m := by
    intro m hm1 hm2 hne
    rw [inode_at_with_inode_ne _ _ _ _ hne]
    apply inode_at_data_congr
    have hblk := inode_block_range s hwf m hm1 hm2
    have hnv : ∀ b, is_valid_datablock s b = true → b ≠ (m - 1) / INODES_PER_BLOCK + 1 := by
      intro b hb
      have hr := (is_valid_datablock_iff s b).1 hb
      omega
    apply hkeep
    · rcases ftri with e | e | e
      · rw [e]; omega
      · rw [e]; omega
      · exact (hnv _ e).symm
    · intro hmem
      exact hnv _ (fvalid _ hmem) rfl
  have hslotM : ∀ m vm, 1 ≤ m → m ≤ s.superblock.ninodes → m ≠ n → slot_ok s m vm →
      slot_ok (with_inode s2 n ino) m vm := by
    intro m vm hm1 hm2 hne hslm
    have hoth := hother m vm hm1 hm2 hne hslm
    apply slot_ok_frame s _ hwf hwfS hsbS m hm1 hm2 vm hslm (hinoS m hm1 hm2 hne)
    · intro hv
      have h0 : vm.indirect ≠ 0 := ne_of_gt (valid_datablock_pos s hwf _ hv)
      have hnot := hoth _ (List.mem_cons_self _ _) h0
      apply hkeepS _ hv
      · intro e
        apply hnot
        rw [← e, hv]
        exact List.mem_cons_self _ _
      · intro e
        exact hnot (List.mem_cons_of_mem _ e)
    · intro b _ hbusy
      show s2.bitmap.getD b.toNat false = true
      rw [hbm2]
      exact hmono b hbusy
  exact
    { wf := hwfS
      free_zero := by
        intro b hv hfree
        rw [hvS] at hv
        rw [hbmS] at hfree
        have hfree0 := write_progress_free s sL vec vec1 new hp _ hfree
        have hne : b ≠ vec1.indirect := by
          intro e
          have := (find (by rw [← e]; exact hv)).1
          rw [← e, hfree] at this
          cases this
        have hnin : b ∉ vec1.blocks := by
          intro e
          have := fbusy b e
          rw [hfree] at this
          cases this
        rw [hkeepS b hv hne hnin]
        exact hok.free_zero b hv hfree0
      slots := by
        intro m hm1 hm2
        rw [hsbS] at hm2
        by_cases hne : m = n
        · rw [hne]
          exact ⟨_, hslotN⟩
        · obtain ⟨vm, hslm⟩ := hok.slots m hm1 hm2
          exact ⟨vm, hslotM m vm hm1 hm2 hne hslm⟩
      disjoint := by
        intro a m va vm ha1 ha2 hm1 hm2 hne hva hvm b hb0 hba
        rw [hsbS] at ha2 hm2
        by_cases han : a = n
        · have hmn : m ≠ n := fun e => hne (han.trans e.symm)
          rw [han, hslotN.resolved] at hva
          cases hva
          obtain ⟨vm', hslm⟩ := hok.slots m hm1 hm2
          have e := (hslotM m vm' hm1 hm2 hmn hslm).resolved
          rw [hvm] at e
          cases e
          intro hbm
          exact hother m vm hm1 hm2 hmn hslm b hbm hb0 hba
        · obtain ⟨va', hsla⟩ := hok.slots a ha1 ha2
          have e := (hslotM a va' ha1 ha2 han hsla).resolved
          rw [hva] at e
          cases e
          by_cases hmn : m = n
          · rw [hmn, hslotN.resolved] at hvm
            cases hvm
            exact hother a va ha1 ha2 han hsla b hba hb0
          · obtain ⟨vm', hslm⟩ := hok.slots m hm1 hm2
            have e := (hslotM m vm' hm1 hm2 hmn hslm).resolved
            rw [hvm] at e
            cases e
            exact hok.disjoint a m va vm ha1 ha2 hm1 hm2 hne hsla.resolved hslm.resolved b hb0 hba }

end SimpleFs
namespace SimpleFs

/-- The shape of a defined `fs_write` at offset 0 on an in-range inumber: either
nothing is done, or the loop runs from the resolved list, the indirect block
is stored and the inode is saved. -/
theorem fs_write_decompose (s s1 : SimpleFs) (hwf : mounted_volume s) (n : Int) (h1 : 1 ≤ n)
    (h2 : n ≤ s.superblock.ninodes) (vec : fs_datablock_vec) (hv : fill_datablocks s n = some vec)
    (data : Buf) (L r : Int) (h : fs_write s n data L 0 = some (s1, r)) :
    (s1 = s ∧ r = 0) ∨ ∃ sL vec1 s2, 0 < L ∧ is_disk_full s = false ∧
      fs_write_loop data L 0 0 L.toNat s vec 0 0 = some (sL, vec1, r) ∧
      save_pointers sL vec1 = some s2 ∧
      ∃ ok, inode_save s2 n
        { isvalid := (inode_at s n).isvalid
          size := (inode_at s n).size + r
          direct := update_direct (inode_at s n).direct vec1.blocks
          indirect := vec1.indirect } = some (s1, ok) := by
  simp only [fs_write, hwf.mounted, Bool.true_eq_false, if_false, inode_load_valid s hwf n _ h1 h2, hv] at h
  split at h
  · cases h; exact Or.inl ⟨rfl, rfl⟩
  · rename_i hL
    split at h
    · cases h; exact Or.inl ⟨rfl, rfl⟩
    · rename_i hfull
      have e1 : Int.tdiv 0 DISK_BLOCK_SIZE = 0 := by decide
      have e2 : Int.tmod 0 DISK_BLOCK_SIZE = 0 := by decide
      rw [e1, e2] at h
      split at h
      · cases h
      · rename_i sL vec1 bytes hloop
        split at h
        · cases h
        · rename_i s2 hsave
          split at h
          · cases h
          · rename_i s3 ok hsv
            cases h
            refine Or.inr ⟨sL, vec1, s2, by omega, by simpa using hfull, hloop, hsave, ok, hsv⟩

/-- The invariant `volume_ok` is preserved by `fs_write` at offset 0. -/
theorem volume_ok_write (s s1 : SimpleFs) (n r : Int) (data : Buf) (L : Int) (hok : volume_ok s)
    (h : fs_write s n data L 0 = some (s1, r)) : volume_ok s1 := by
  have hwf := hok.wf
  by_cases hr : 1 ≤ n ∧ n ≤ s.superblock.ninodes
  · obtain ⟨vec, hsl⟩ := hok.slots n hr.1 hr.2
    rcases fs_write_decompose s s1 hwf n hr.1 hr.2 vec hsl.resolved data L r h with
      ⟨e, -⟩ | ⟨sL, vec1, s2, hL, -, hloop, hsave, ok, hsv⟩
    · rw [e]; exact hok
    · obtain ⟨-, -, ri, rs⟩ := resolved_indirect s hwf n hr.1 hr.2 vec hsl.resolved
      obtain ⟨new, hp, -, hlen⟩ := fs_write_loop_progress data L L.toNat s vec 0 0 hwf
        hsl.consistent.valid (le_refl 0) (by omega) (le_refl 0)
        (fun e => rs (by rw [e]; exact is_valid_datablock_zero s hwf))
        (by
          rcases ri with e | e
          · rw [e]; decide
          · intro e1
            rw [e1, is_valid_datablock_neg_one s hwf] at e
            cases e) _ hloop
      obtain ⟨hwf2, hsb2, -, -, -, -⟩ := save_pointers_result sL s2 vec1 hp.wf hsave
      rw [inode_save_valid s2 hwf2 n _ hr.1 (by rw [hsb2, hp.superblock]; exact hr.2)] at hsv
      cases hsv
      exact volume_ok_store s sL s2 hok n hr.1 hr.2 vec vec1 new hsl hp hlen hsave _ rfl rfl
  · simp only [fs_write, hwf.mounted, Bool.true_eq_false, if_false,
      inode_load_invalid s n _ (show n < 1 ∨ n > s.superblock.ninodes by omega)] at h
    split at h
    · cases h; exact hok
    · split at h
      · cases h; exact hok
      · cases h; exact hok

end SimpleFs
namespace SimpleFs

/-- The state after `fs_format` and `fs_mount` have both returned 1, from an
unmounted session on a device of at least 2 blocks. -/
theorem fresh_volume (s0 sf s : SimpleFs) (hum : s0.is_disk_mounted = false)
    (hN : 2 ≤ s0.disk.nblocks) (hint : s0.disk.nblocks < 2147483648)
    (hbm : (s0.bitmap.length : Int) = s0.disk.nblocks)
    (hino : format_inode_blocks s0.disk.nblocks * INODES_PER_BLOCK < 2147483648)
    (hf : fs_format s0 = some (sf, 1)) (hm : fs_mount sf = some (s, 1)) :
    mounted_volume s ∧ s.superblock.nblocks = s0.disk.nblocks ∧
      s.superblock.ninodeblocks = format_inode_blocks s0.disk.nblocks ∧
      (∀ n, 1 ≤ n → n ≤ s.superblock.ninodes → inode_at s n = fs_inode.zero) ∧
      (∀ b, 1 ≤ b → b < s0.disk.nblocks → s.disk.data b = EMPTY_BLOCK) ∧
      (∀ x : Nat, (x : Int) < s0.disk.nblocks →
        (s.bitmap.getD x false = true ↔ (x : Int) ≤ s.superblock.ninodeblocks)) := by
  have hI : INODES_PER_BLOCK = 128 := rfl
  have hn0 := format_inode_blocks_nonneg s0.disk.nblocks
  have hn1 := format_inode_blocks_lt s0.disk.nblocks hN
  obtain ⟨s1, e1, f1, f2, f3, f4, f5⟩ := fs_format_spec s0 hum (by omega)
  rw [hf] at e1
  cases e1
  have hsb : get_super (sf.disk.data 0) =
      { magic := FS_MAGIC
        nblocks := s0.disk.nblocks
        ninodeblocks := format_inode_blocks s0.disk.nblocks
        ninodes := format_inode_blocks s0.disk.nblocks * INODES_PER_BLOCK } := by
    rw [f4, get_super_set_super]
    simp only
    rw [wrap32_of_range _ (by omega) hint, wrap32_of_range _ (by omega) (by omega),
      wrap32_of_range _ (by rw [hI]; omega) hino]
    rfl
  have hlen1 : (sf.bitmap.length : Int) = s0.disk.nblocks := by rw [f1]; exact hbm
  obtain ⟨a1, a2, -, a4, a5, -, -, a8⟩ := fs_mount_some sf s f2 hm
  rw [hsb] at a2
  have hnb : s.superblock.nblocks = s0.disk.nblocks := by rw [a2]
  have hnib : s.superblock.ninodeblocks = format_inode_blocks s0.disk.nblocks := by rw [a2]
  have hnin : s.superblock.ninodes = s.superblock.ninodeblocks * INODES_PER_BLOCK := by rw [a2]
  have hempty : ∀ b, 1 ≤ b → b < s0.disk.nblocks → s.disk.data b = EMPTY_BLOCK := by
    intro b h1 h2
    rw [a1]
    exact f5 b h1 h2
  have hslots : ∀ c k : Nat, c < s.superblock.ninodeblocks.toNat →
      (get_inode (sf.disk.data (1 + c)) k).isvalid = 0 := by
    intro c k hc
    rw [f5 _ (by omega) (by omega), get_inode_EMPTY_BLOCK]
    rfl
  refine ⟨?_, hnb, hnib, ?_, hempty, ?_⟩
  · exact mount_mounted_volume sf s f2 hm (by rw [hnb, f3]) (by rw [f3]; exact hlen1)
      (by omega) (by omega) hnin (by omega)
  · intro n h1 h2
    rw [hnin, hI] at h2
    simp only [inode_at]
    rw [hempty _ (by rw [hI]; omega) (by rw [hI]; omega), get_inode_EMPTY_BLOCK]
  · intro x hx
    rw [a8 x (by rw [hnb]; exact hx)]
    constructor
    · rintro (h0 | h0 | ⟨c, k, hc, -, g1, -⟩ | ⟨c, k, hc, -, g1, -⟩)
      · omega
      · exact h0
      · exact absurd (hslots c k hc) g1
      · exact absurd (hslots c k hc) g1
    · intro h0
      exact Or.inr (Or.inl h0)

/-- A freshly formatted and mounted volume satisfies the invariant `volume_ok`:
every slot resolves to the empty list and every data block is zero. -/
theorem fresh_volume_ok (s0 sf s : SimpleFs) (hum : s0.is_disk_mounted = false)
    (hN : 2 ≤ s0.disk.nblocks) (hint : s0.disk.nblocks < 2147483648)
    (hbm : (s0.bitmap.length : Int) = s0.disk.nblocks)
    (hino : format_inode_blocks s0.disk.nblocks * INODES_PER_BLOCK < 2147483648)
    (hf : fs_format s0 = some (sf, 1)) (hm : fs_mount sf = some (s, 1)) : volume_ok s := by
  obtain ⟨hwf, hnb, -, hz, hempty, -⟩ := fresh_volume s0 sf s hum hN hint hbm hino hf hm
  have hslot : ∀ n, 1 ≤ n → n ≤ s.superblock.ninodes → slot_ok s n { indirect := 0, blocks := [] } := by
    intro n h1 h2
    apply slot_ok_cleared s hwf n h1 h2
    · rw [hz n h1 h2]; rfl
    · rw [hz n h1 h2]; rfl
  exact
    { wf := hwf
      free_zero := by
        intro b hv _
        have hr := (is_valid_datablock_iff s b).1 hv
        have h0 := hwf.inode_blocks_nonneg
        exact hempty b (by omega) (by rw [← hnb]; exact hr.2)
      slots := fun n h1 h2 => ⟨_, hslot n h1 h2⟩
      disjoint := by
        intro n m vn vm h1 h2 _ _ _ hvn _ b hb0 hb
        rw [(hslot n h1 h2).resolved] at hvn
        cases hvn
        simp only [List.mem_cons, List.not_mem_nil, or_false] at hb
        exact absurd hb hb0 }

/-- Every call of the restricted set keeps the invariant. -/
theorem run_ops_volume_ok (ops : List fs_op) : ∀ (s s1 : SimpleFs), volume_ok s →
    (∀ op ∈ ops, writes_from_start op) → run_ops s ops = some s1 → volume_ok s1 := by
  induction ops with
  | nil =>
    intro s s1 hok _ h
    simp only [run_ops] at h
    cases h
    exact hok
  | cons op rest ih =>
    intro s s1 hok hops h
    simp only [run_ops] at h
    split at h
    · cases h
    · rename_i s2 hop
      apply ih s2 s1 _ (fun o ho => hops o (List.mem_cons_of_mem _ ho)) h
      have hw := hops op (List.mem_cons_self _ _)
      cases op with
      | create =>
        simp only [apply_op] at hop
        cases hc : fs_create s with
        | none => rw [hc] at hop; cases hop
        | some r =>
          rw [hc] at hop
          cases hop
          exact volume_ok_create s r.1 r.2 hok hc
      | delete n =>
        simp only [apply_op] at hop
        cases hc : fs_delete s n with
        | none => rw [hc] at hop; cases hop
        | some r =>
          rw [hc] at hop
          cases hop
          exact volume_ok_delete s r.1 n r.2 hok hc
      | getsize n =>
        simp only [apply_op] at hop
        cases hc : fs_getsize s n with
        | none => rw [hc] at hop; cases hop
        | some r =>
          rw [hc] at hop
          cases hop
          exact hok
      | read n data L off =>
        simp only [apply_op] at hop
        cases hc : fs_read s n data L off with
        | none => rw [hc] at hop; cases hop
        | some r =>
          rw [hc] at hop
          cases hop
          exact hok
      | write n data L off =>
        simp only [writes_from_start] at hw
        subst hw
        simp only [apply_op] at hop
        cases hc : fs_write s n data L 0 with
        | none => rw [hc] at hop; cases hop
        | some r =>
          rw [hc] at hop
          cases hop
          exact volume_ok_write s r.1 n r.2 data L hok hc

end SimpleFs
namespace SimpleFs

theorem inode_save_total (s : SimpleFs) (hwf : mounted_volume s) (n : Int) (ino : fs_inode) :
    ∃ r, inode_save s n ino = some r := by
  by_cases hr : 1 ≤ n ∧ n ≤ s.superblock.ninodes
  · exact ⟨_, inode_save_valid s hwf n ino hr.1 hr.2⟩
  · exact ⟨_, inode_save_invalid s n ino (by omega)⟩

theorem fs_create_loop_total (s : SimpleFs) (hwf : mounted_volume s) (count : Nat) :
    ∀ i : Int, 1 ≤ i → i + count ≤ s.disk.nblocks → ∃ r, fs_create_loop s count i = some r := by
  induction count with
  | zero =>
    intro i _ _
    exact ⟨_, rfl⟩
  | succ c ih =>
    intro i hi hc
    push_cast at hc
    simp only [fs_create_loop]
    rw [disk_read_some _ _ (by omega) (by omega)]
    simp only
    cases hscan : scan_inode_block (s.disk.data i) with
    | none => exact ih (i + 1) (by omega) (by omega)
    | some j =>
      simp only
      obtain ⟨r, hr⟩ := inode_save_total s hwf (1 + (j + (i - 1) * INODES_PER_BLOCK))
        { fs_inode.zero with isvalid := 1 }
      rw [hr]
      exact ⟨_, rfl⟩

/-- On a mounted volume `fs_create` has a defined result. -/
theorem fs_create_total (s : SimpleFs) (hwf : mounted_volume s) : ∃ r, fs_create s = some r := by
  simp only [fs_create, hwf.mounted, Bool.true_eq_false, if_false]
  have h0 := hwf.inode_blocks_nonneg
  have h1 := hwf.inode_blocks_lt
  have h2 := hwf.device
  exact fs_create_loop_total s hwf _ 1 (le_refl 1) (by omega)

/-- On a volume that satisfies `volume_ok`, `fs_delete` has a defined result. -/
theorem fs_delete_total (s : SimpleFs) (hok : volume_ok s) (n : Int) :
    ∃ r, fs_delete s n = some r := by
  have hwf := hok.wf
  by_cases hr : 1 ≤ n ∧ n ≤ s.superblock.ninodes
  · obtain ⟨vec, hsl⟩ := hok.slots n hr.1 hr.2
    obtain ⟨s2, -, -, -, -, -, -, hdel⟩ :=
      fs_delete_eq s hwf n hr.1 hr.2 vec hsl.resolved hsl.consistent.valid
    exact ⟨_, hdel⟩
  · refine ⟨(s, 0), ?_⟩
    simp only [fs_delete, hwf.mounted, Bool.true_eq_false, if_false,
      inode_load_invalid s n _ (show n < 1 ∨ n > s.superblock.ninodes by omega)]

/-- Format and mount succeed on an unmounted session over a device of at least
2 blocks. -/
theorem fresh_exists (s0 : SimpleFs) (hum : s0.is_disk_mounted = false)
    (hN : 2 ≤ s0.disk.nblocks) (hint : s0.disk.nblocks < 2147483648)
    (hbm : (s0.bitmap.length : Int) = s0.disk.nblocks)
    (hino : format_inode_blocks s0.disk.nblocks * INODES_PER_BLOCK < 2147483648) :
    ∃ sf s, fs_format s0 = some (sf, 1) ∧ fs_mount sf = some (s, 1) := by
  have hI : INODES_PER_BLOCK = 128 := rfl
  have hn0 := format_inode_blocks_nonneg s0.disk.nblocks
  have hn1 := format_inode_blocks_lt s0.disk.nblocks hN
  obtain ⟨s1, e1, f1, f2, f3, f4, f5⟩ := fs_format_spec s0 hum (by omega)
  have hsb : get_super (s1.disk.data 0) =
      { magic := FS_MAGIC
        nblocks := s0.disk.nblocks
        ninodeblocks := format_inode_blocks s0.disk.nblocks
        ninodes := format_inode_blocks s0.disk.nblocks * INODES_PER_BLOCK } := by
    rw [f4, get_super_set_super]
    simp only
    rw [wrap32_of_range _ (by omega) hint, wrap32_of_range _ (by omega) (by omega),
      wrap32_of_range _ (by rw [hI]; omega) hino]
    rfl
  have hlen1 : (s1.bitmap.length : Int) = s0.disk.nblocks := by rw [f1]; exact hbm
  have gm : (get_super (s1.disk.data 0)).magic = FS_MAGIC := by rw [hsb]
  have gnb : (get_super (s1.disk.data 0)).nblocks = s0.disk.nblocks := by rw [hsb]
  have gnib : (get_super (s1.disk.data 0)).ninodeblocks = format_inode_blocks s0.disk.nblocks := by
    rw [hsb]
  obtain ⟨s2, e2⟩ := fs_mount_total s1 f2 gm (by rw [gnb, f3]) (by rw [gnb]; omega)
    (by omega) (by omega) (by rw [gnib]; exact hn0) (by rw [gnib, f3]; exact hn1)
  exact ⟨s1, s2, e1, e2⟩

/-- The first call of `fs_create` on a volume whose slot 1 is not valid fills
slot 1; on a volume without inode block it returns 0. -/
theorem fs_create_first (s : SimpleFs) (hwf : mounted_volume s) (hz : (inode_at s 1).isvalid = 0)
    (sc : SimpleFs) (n : Int) (hc : fs_create s = some (sc, n)) (hn : n ≠ 0) :
    sc = with_inode s 1 { fs_inode.zero with isvalid := 1 } ∧ n = 1 ∧ 1 ≤ s.superblock.ninodes := by
  have h0 := hwf.inode_blocks_nonneg
  have hin := hwf.inodes
  simp only [fs_create, hwf.mounted, Bool.true_eq_false, if_false] at hc
  by_cases h1 : 1 ≤ s.superblock.ninodeblocks
  · have h2 : 1 ≤ s.superblock.ninodes := by
      rw [hin]
      simp only [INODES_PER_BLOCK]
      omega
    rw [fs_create_loop_some s hwf _ 1 1 (le_refl 1) (by omega) (by decide) h2 hz
      (fun k hk1 hk2 => by simp only [INODES_PER_BLOCK] at hk1; omega)] at hc
    cases hc
    exact ⟨rfl, rfl, h2⟩
  · have e : s.superblock.ninodeblocks.toNat = 0 := by omega
    rw [e] at hc
    simp only [fs_create_loop] at hc
    cases hc
    exact absurd rfl hn

theorem count_false_of_marks (bm : List Bool) (k : Nat) (hk : k < bm.length)
    (h : ∀ x : Nat, x < bm.length → (bm.getD x false = true ↔ x ≤ k)) :
    bm.count false + (k + 1) = bm.length := by
  have e : bm = List.replicate (k + 1) true ++ List.replicate (bm.length - (k + 1)) false := by
    apply List.ext_getElem
    · simp only [List.length_append, List.length_replicate]
      omega
    · intro x h1 h2
      have hx := h x h1
      rw [List.getD_eq_getElem _ _ h1] at hx
      by_cases hxk : x ≤ k
      · rw [List.getElem_append_left (by simp only [List.length_replicate]; omega)]
        simp only [List.getElem_replicate]
        exact hx.2 hxk
      · rw [List.getElem_append_right (by simp only [List.length_replicate]; omega)]
        simp only [List.getElem_replicate]
        cases hb : bm[x]
        · rfl
        · exact absurd (hx.1 hb) hxk
  have hc : bm.count false = bm.length - (k + 1) := by
    conv_lhs => rw [e]
    simp [List.count_append, List.count_replicate]
  omega

end SimpleFs
namespace SimpleFs

/-- C19. No shared data blocks.  Start from a freshly formatted and mounted
volume (`fs_format` and `fs_mount` both returned 1 on an unmounted session over
a device of at least 2 blocks) and make any finite sequence of `fs_create`,
`fs_delete` and `fs_write` calls at offset 0 with a defined result (a write
that would grow a list beyond `5 + 1024` blocks has none); `fs_getsize` and
`fs_read` calls may be interleaved.  Then for every inode slot `n` in range,
valid or not: the resolved block list has no repeated block and does not
contain the indirect block; every block the slot names (its indirect block
when there is one, written 0 when there is none, and the blocks of its list) is
a valid data block marked busy in the bitmap; and none of these blocks is
named by another slot `m`. -/
theorem no_shared_data_blocks (s0 sf s s1 : SimpleFs) (ops : List fs_op)
    (hum : s0.is_disk_mounted = false) (hN : 2 ≤ s0.disk.nblocks)
    (hint : s0.disk.nblocks < 2147483648) (hbm : (s0.bitmap.length : Int) = s0.disk.nblocks)
    (hino : format_inode_blocks s0.disk.nblocks * INODES_PER_BLOCK < 2147483648)
    (hf : fs_format s0 = some (sf, 1)) (hm : fs_mount sf = some (s, 1))
    (hops : ∀ op ∈ ops, writes_from_start op) (hrun : run_ops s ops = some s1) :
    ∀ n, 1 ≤ n → n ≤ s1.superblock.ninodes →
      ∃ vn, fill_datablocks s1 n = some vn ∧ vn.blocks.Nodup ∧
        (vn.indirect ≠ 0 → vn.indirect ∉ vn.blocks) ∧
        (∀ b ∈ vn.indirect :: vn.blocks, b ≠ 0 →
          is_valid_datablock s1 b = true ∧ s1.bitmap.getD b.toNat false = true) ∧
        ∀ (m : Int) (vm : fs_datablock_vec), 1 ≤ m → m ≤ s1.superblock.ninodes → m ≠ n →
          fill_datablocks s1 m = some vm →
          ∀ b ∈ vn.indirect :: vn.blocks, b ≠ 0 → b ∉ vm.indirect :: vm.blocks := by
  have hok := run_ops_volume_ok ops s s1
    (fresh_volume_ok s0 sf s hum hN hint hbm hino hf hm) hops hrun
  intro n h1 h2
  obtain ⟨vn, hsl⟩ := hok.slots n h1 h2
  refine ⟨vn, hsl.resolved, hsl.consistent.nodup, ?_, ?_, ?_⟩
  · intro h0
    rcases hsl.consistent.indirect with c | ⟨-, -, c⟩
    · exact absurd c h0
    · exact c
  · intro b hb hb0
    exact slot_members_busy s1 vn hsl.consistent b hb hb0
  · intro m vm hm1 hm2 hne hvm b hb hb0
    exact hok.disjoint n m vn vm h1 h2 hm1 hm2 (Ne.symm hne) hsl.resolved hvm b hb0 hb

theorem no_shared_data_blocks_witness :
    (blank 8).is_disk_mounted = false ∧ (blank 8).disk.nblocks = 8 ∧
    (((blank 8).bitmap.length : Nat) : Int) = (blank 8).disk.nblocks ∧
    ∃ sf s s1, fs_format (blank 8) = some (sf, 1) ∧ fs_mount sf = some (s, 1) ∧
      run_ops s [fs_op.create, fs_op.write 1 letters 8 0, fs_op.create, fs_op.delete 1,
        fs_op.create] = some s1 ∧
      ∀ n, 1 ≤ n → n ≤ s1.superblock.ninodes →
        ∃ vn, fill_datablocks s1 n = some vn ∧ vn.blocks.Nodup ∧
          (vn.indirect ≠ 0 → vn.indirect ∉ vn.blocks) ∧
          (∀ b ∈ vn.indirect :: vn.blocks, b ≠ 0 →
            is_valid_datablock s1 b = true ∧ s1.bitmap.getD b.toNat false = true) ∧
          ∀ (m : Int) (vm : fs_datablock_vec), 1 ≤ m → m ≤ s1.superblock.ninodes → m ≠ n →
            fill_datablocks s1 m = some vm →
            ∀ b ∈ vn.indirect :: vn.blocks, b ≠ 0 → b ∉ vm.indirect :: vm.blocks := by
  have hum : (blank 8).is_disk_mounted = false := rfl
  have hN : 2 ≤ (blank 8).disk.nblocks := by decide
  have hint : (blank 8).disk.nblocks < 2147483648 := by decide
  have hbm : (((blank 8).bitmap.length : Nat) : Int) = (blank 8).disk.nblocks := by decide
  have hino : format_inode_blocks (blank 8).disk.nblocks * INODES_PER_BLOCK < 2147483648 := by decide
  obtain ⟨sf, s, hf, hm⟩ := fresh_exists (blank 8) hum hN hint hbm hino
  obtain ⟨hwf, hnb, hnib, hz, -, hmarks⟩ := fresh_volume (blank 8) sf s hum hN hint hbm hino hf hm
  have hok := fresh_volume_ok (blank 8) sf s hum hN hint hbm hino hf hm
  have hnib1 : s.superblock.ninodeblocks = 1 := by rw [hnib]; decide
  have hnin : s.superblock.ninodes = 128 := by rw [hwf.inodes, hnib1]; rfl
  have hnb8 : s.superblock.nblocks = 8 := hnb
  -- the first fs_create fills slot 1
  obtain ⟨⟨sa, ra⟩, hca⟩ := fs_create_total s hwf
  have hra : ra = 1 := by
    have hc1 : fs_create s = some (with_inode s 1 { fs_inode.zero with isvalid := 1 }, 1) := by
      simp only [fs_create, hwf.mounted, Bool.true_eq_false, if_false]
      exact fs_create_loop_some s hwf _ 1 1 (le_refl 1) (by rw [hnib1]; rfl) (by decide)
        (by rw [hnin]; decide) (by rw [hz 1 (le_refl 1) (by rw [hnin]; decide)]; rfl)
        (fun k hk1 hk2 => by simp only [INODES_PER_BLOCK] at hk1; omega)
    rw [hca] at hc1
    cases hc1
    rfl
  subst hra
  obtain ⟨hsa, -, -⟩ := fs_create_first s hwf
    (by rw [hz 1 (le_refl 1) (by rw [hnin]; decide)]; rfl) sa 1 hca (by decide)
  have hoka := volume_ok_create s sa 1 hok hca
  have hsba : sa.superblock = s.superblock := by rw [hsa]; rfl
  have hbma : sa.bitmap = s.bitmap := by rw [hsa]; rfl
  have hslota : slot_ok sa 1 { indirect := 0, blocks := [] } := by
    apply slot_ok_cleared sa hoka.wf 1 (le_refl 1) (by rw [hsba, hnin]; decide)
    · rw [hsa, inode_at_with_inode_same]; rfl
    · rw [hsa, inode_at_with_inode_same]; rfl
  -- the write of 8 letters to inode 1
  have hlen8 : s.bitmap.length = 8 := by
    have h1 := hwf.bitmap_size
    have h2 := hwf.device
    omega
  have hfree7 : s.bitmap.getD 7 true = false := by
    have hm7 := hmarks 7 (by decide)
    rw [hnib1] at hm7
    rw [List.getD_eq_getElem _ _ (by omega)]
    rw [List.getD_eq_getElem _ _ (by omega)] at hm7
    cases hb : s.bitmap[7]
    · rfl
    · have := hm7.1 hb
      omega
  have hcount : 0 < sa.bitmap.count false := by
    rw [hbma]
    exact count_false_pos_of_free s.bitmap 7 (by omega) hfree7
  obtain ⟨sb, -, hwb, -, -⟩ := fs_write_read_at_zero sa 1 letters zeros 8 { indirect := 0, blocks := [] }
    hoka.wf (le_refl 1) (by rw [hsba, hnin]; decide) (by decide) letters_ne_zero hslota.resolved
    (by simp) (by intro b hb hne; simp at hb; exact absurd hb hne)
    (by
      have e : ((8 : Int) + 4095) / 4096 +
          (if (0 : Int) = 0 ∧ (5 : Int) < (([] : List Int).length : Int) + (8 + 4095) / 4096
            then 1 else 0) = 1 := by decide
      show ((8 : Int) + 4095) / 4096 +
          (if (0 : Int) = 0 ∧ (5 : Int) < (([] : List Int).length : Int) + (8 + 4095) / 4096
            then 1 else 0) ≤ _
      rw [e]
      omega)
    (by decide)
  have hokb := volume_ok_write sa sb 1 8 letters 8 hoka hwb
  -- the second fs_create, fs_delete 1, the third fs_create
  obtain ⟨⟨sc, rc⟩, hcc⟩ := fs_create_total sb hokb.wf
  have hokc := volume_ok_create sb sc rc hokb hcc
  obtain ⟨⟨sd, rd⟩, hcd⟩ := fs_delete_total sc hokc 1
  have hokd := volume_ok_delete sc sd 1 rd hokc hcd
  obtain ⟨⟨se, re⟩, hce⟩ := fs_create_total sd hokd.wf
  have hrun : run_ops s [fs_op.create, fs_op.write 1 letters 8 0, fs_op.create, fs_op.delete 1,
      fs_op.create] = some se := by
    simp only [run_ops, apply_op, hca, hwb, hcc, hcd, hce, Option.map_some']
  refine ⟨hum, rfl, hbm, sf, s, se, hf, hm, hrun, ?_⟩
  exact no_shared_data_blocks (blank 8) sf s se _ hum hN hint hbm hino hf hm
    (by
      intro op hop
      simp only [List.mem_cons, List.mem_singleton, List.not_mem_nil, or_false] at hop
      rcases hop with e | e | e | e | e <;> rw [e] <;> simp [writes_from_start])
    hrun

end SimpleFs
namespace SimpleFs

/-- What the tail of `fs_write` stores for slot `n`: the indirect number, the
first blocks of the list as direct pointers, and the later blocks as the
leading entries of the indirect block. -/
theorem stored_pointers (s sL s2 : SimpleFs) (hwf : mounted_volume s) (n : Int) (h1 : 1 ≤ n)
    (h2 : n ≤ s.superblock.ninodes) (vec vec1 : fs_datablock_vec) (new : List Int)
    (hc : blocks_consistent s vec) (hp : write_progress s vec sL vec1 new)
    (hsave : save_pointers sL vec1 = some s2) (ino : fs_inode)
    (hd : ino.direct = update_direct (inode_at s n).direct vec1.blocks)
    (hi : ino.indirect = vec1.indirect) :
    (inode_at (with_inode s2 n ino) n).indirect = vec1.indirect ∧
    (∀ k : Nat, k < POINTERS_PER_INODE → k < vec1.blocks.length →
      (inode_at (with_inode s2 n ino) n).direct.getD k 0 = vec1.blocks.getD k 0) ∧
    (is_valid_datablock s vec1.indirect = true → ∀ k : Nat,
      k + POINTERS_PER_INODE < vec1.blocks.length →
      get_int ((with_inode s2 n ino).disk.data vec1.indirect) (k : Int) =
        vec1.blocks.getD (k + POINTERS_PER_INODE) 0) ∧
    (with_inode s2 n ino).bitmap = sL.bitmap ∧
    (with_inode s2 n ino).superblock = s.superblock := by
  have hwfL := hp.wf
  have hsbL := hp.superblock
  obtain ⟨hwf2, hsb2, hbm2, -, -, hval⟩ := save_pointers_result sL s2 vec1 hwfL hsave
  have hsb2s : s2.superblock = s.superblock := hsb2.trans hsbL
  have hn2 : n ≤ s2.superblock.ninodes := by rw [hsb2s]; exact h2
  have hvL := is_valid_datablock_fun s _ hsbL
  have hv2 := is_valid_datablock_fun s _ hsb2s
  obtain ⟨fvalid, -, -, ftri, -, -⟩ := write_progress_facts s sL vec vec1 new hwf hc hp
  have hindw : wrap32 vec1.indirect = vec1.indirect := by
    rcases ftri with e | e | e
    · rw [e]; rfl
    · rw [e]; rfl
    · exact wrap32_valid s hwf _ e
  refine ⟨?_, ?_, ?_, hbm2, hsb2s⟩
  · rw [inode_at_with_inode_indirect, hi, hindw]
  · intro k hk hkl
    rw [inode_at_with_inode_getD _ _ _ _ hk, hd, update_direct_getD _ _ _ hk, if_pos hkl,
      List.getD_eq_getElem _ _ hkl]
    exact wrap32_valid s hwf _ (fvalid _ (List.getElem_mem hkl))
  · intro hv k hk
    have hvL1 : is_valid_datablock sL vec1.indirect = true := by rw [hvL]; exact hv
    rw [with_inode_data_other s2 hwf2 n h1 hn2 ino _ (by rw [hv2]; exact hv),
      (hval hvL1).2.1 k hk, List.getD_eq_getElem _ _ hk]
    exact wrap32_valid s hwf _ (fvalid _ (List.getElem_mem hk))

/-- A write of `L` non-zero bytes at offset 0 to a slot without blocks, with
`L` beyond the direct pointers: the call returns `L` and allocates
`ceil(L/4096)` data blocks and one indirect block. -/
theorem fs_write_beyond_direct (s : SimpleFs) (hok : volume_ok s) (n : Int) (h1 : 1 ≤ n)
    (h2 : n ≤ s.superblock.ninodes) (hsl : slot_ok s n { indirect := 0, blocks := [] })
    (buf : Buf) (L : Int) (hnz : ∀ q, 0 ≤ q → q < L → buf q ≠ 0)
    (hL1 : POINTERS_PER_INODE * DISK_BLOCK_SIZE < L)
    (hL2 : L ≤ (POINTERS_PER_INODE + POINTERS_PER_BLOCK) * DISK_BLOCK_SIZE)
    (hfree : (L + 4095) / 4096 + 1 ≤ s.bitmap.count false) :
    ∃ s1 B, fs_write s n buf L 0 = some (s1, L) ∧
      fill_datablocks s1 n = some { indirect := (inode_at s1 n).indirect, blocks := B } ∧
      is_valid_datablock s1 (inode_at s1 n).indirect = true ∧
      s.bitmap.getD (inode_at s1 n).indirect.toNat false = false ∧
      s1.bitmap.getD (inode_at s1 n).indirect.toNat false = true ∧
      (inode_at s1 n).indirect ∉ B ∧
      (B.length : Int) = (L + 4095) / 4096 ∧ B.Nodup ∧
      (∀ b ∈ B, is_valid_datablock s1 b = true ∧ s.bitmap.getD b.toNat false = false ∧
        s1.bitmap.getD b.toNat false = true) ∧
      (∀ x : Nat, s1.bitmap.getD x false = true ↔
        (s.bitmap.getD x false = true ∨ (x : Int) ∈ B ∨ (x : Int) = (inode_at s1 n).indirect)) ∧
      ((s1.bitmap.count false : Int) + ((L + 4095) / 4096 + 1) = s.bitmap.count false) ∧
      (∀ k : Nat, k < POINTERS_PER_INODE → (inode_at s1 n).direct.getD k 0 = B.getD k 0) ∧
      (∀ k : Nat, k + POINTERS_PER_INODE < B.length →
        get_int (s1.disk.data (inode_at s1 n).indirect) (k : Int) = B.getD (k + POINTERS_PER_INODE) 0) := by
  have hwf := hok.wf
  have hP : POINTERS_PER_INODE = 5 := rfl
  have hQ : POINTERS_PER_BLOCK = 1024 := rfl
  have hD : DISK_BLOCK_SIZE = 4096 := rfl
  rw [hP, hD] at hL1
  rw [hP, hQ, hD] at hL2
  push_cast at hL1 hL2
  have hceil : 6 ≤ (L + 4095) / 4096 := by omega
  have hz : DISK_BLOCK_SIZE * 0 = 0 := by decide
  -- the call returns L
  obtain ⟨s1, -, hw, -, -⟩ := fs_write_read_at_zero s n buf zeros L { indirect := 0, blocks := [] }
    hwf h1 h2 (by omega) hnz hsl.resolved (by simp)
    (by intro b hb hne; simp at hb; exact absurd hb hne)
    (by
      show (L + 4095) / 4096 + (if (0 : Int) = 0 ∧ (5 : Int) < ((0 : Nat) : Int) + (L + 4095) / 4096
        then 1 else 0) ≤ _
      rw [if_pos ⟨rfl, by omega⟩]
      exact hfree)
    (by
      show (((0 : Nat) : Int)) + (L + 4095) / 4096 ≤ 5 + 1024
      omega)
  -- its parts
  rcases fs_write_decompose s s1 hwf n h1 h2 _ hsl.resolved buf L L hw with
    ⟨-, e⟩ | ⟨sL, vec1, s2, -, -, hloop, hsave, ok, hsv⟩
  · omega
  obtain ⟨sL', vec1', e1, -, -, hc1, ⟨new', hn1, hn2⟩, -, -⟩ :=
    fs_write_loop_fill buf L hnz L.toNat s { indirect := 0, blocks := [] } 0 hwf hsl.consistent
      (le_refl 0) (by rw [hz]; omega) (by simp) (by rw [hz]; omega)
      (by
        rw [hz, sub_zero]
        show (L + 4095) / 4096 + (if (0 : Int) = 0 ∧ (5 : Int) < ((0 : Nat) : Int) + (L + 4095) / 4096
          then 1 else 0) ≤ _
        rw [if_pos ⟨rfl, by omega⟩]
        exact hfree)
  rw [hz, hloop] at e1
  cases e1
  rw [hz, sub_zero] at hn2
  obtain ⟨new, hp0, -, hlen0⟩ := fs_write_loop_progress buf L L.toNat s { indirect := 0, blocks := [] } 0 0
    hwf hsl.consistent.valid (le_refl 0) (by simp) (le_refl 0) (fun _ => by simp) (by decide) _ hloop
  have hp : write_progress s { indirect := 0, blocks := [] } sL vec1 new := hp0
  have hlen : vec1.indirect = 0 ∨ vec1.indirect = -1 → vec1.blocks.length ≤ POINTERS_PER_INODE := hlen0
  clear hp0 hlen0
  have hnew : new = vec1.blocks := by
    have := hp.blocks
    simp only [List.nil_append] at this
    exact this.symm
  subst hnew
  have hlen1 : (vec1.blocks.length : Int) = (L + 4095) / 4096 := by
    rw [hn1]
    simp only [List.nil_append]
    exact hn2
  have hind0 : vec1.indirect ≠ 0 := hc1.indirect_present (by rw [hP]; omega)
  have hvalL : is_valid_datablock sL vec1.indirect = true := by
    rcases hc1.indirect with c | ⟨c, -, -⟩
    · exact absurd c hind0
    · exact c
  have hval : is_valid_datablock s vec1.indirect = true := by
    rw [← is_valid_datablock_congr s sL hp.superblock]; exact hvalL
  have hm1 : vec1.indirect ≠ -1 := by
    intro e
    rw [e, is_valid_datablock_neg_one s hwf] at hval
    cases hval
  obtain ⟨-, -, hc⟩ := write_progress_indirect_changed s sL _ vec1 _ hwf hp hind0
  rcases hc with hc | ⟨-, hfreeI, hnotin, hbusyI⟩
  · exact absurd hc hm1
  obtain ⟨hwf2, hsb2, -, -, -, -⟩ := save_pointers_result sL s2 vec1 hp.wf hsave
  rw [inode_save_valid s2 hwf2 n _ h1 (by rw [hsb2, hp.superblock]; exact h2)] at hsv
  cases hsv
  have hstore := slot_ok_store s sL s2 hok n h1 h2 _ vec1 _ hsl hp hlen hsave
    { isvalid := (inode_at s n).isvalid
      size := (inode_at s n).size + L
      direct := update_direct (inode_at s n).direct vec1.blocks
      indirect := vec1.indirect } rfl rfl
  obtain ⟨g1, g2, g3, g4, g5⟩ := stored_pointers s sL s2 hwf n h1 h2 _ vec1 _ hsl.consistent hp hsave
    { isvalid := (inode_at s n).isvalid
      size := (inode_at s n).size + L
      direct := update_direct (inode_at s n).direct vec1.blocks
      indirect := vec1.indirect } rfl rfl
  have hvS := is_valid_datablock_fun s _ g5
  have hres := hstore.resolved
  rw [if_pos hval] at hres
  refine ⟨_, vec1.blocks, hw, ?_, ?_, ?_, ?_, ?_, hlen1, hstore.consistent.nodup, ?_, ?_, ?_, ?_, ?_⟩
  · rw [g1]; exact hres
  · rw [g1, hvS]; exact hval
  · rw [g1]; exact hfreeI
  · rw [g1, g4]; exact hbusyI
  · rw [g1]; exact hnotin
  · intro b hb
    refine ⟨?_, hp.new_free b hb, ?_⟩
    · rw [hvS]; exact hp.new_valid b hb
    · rw [g4]; exact write_progress_new_busy s sL _ vec1 _ hwf hp b hb
  · intro x
    rw [g4, g1, hp.bitmap x]
    constructor
    · rintro (h | h | ⟨h, -⟩)
      · exact Or.inl h
      · exact Or.inr (Or.inl h)
      · exact Or.inr (Or.inr h)
    · rintro (h | h | h)
      · exact Or.inl h
      · exact Or.inr (Or.inl h)
      · exact Or.inr (Or.inr ⟨h, hind0⟩)
  · have hcnt : sL.bitmap.count false + vec1.blocks.length +
        (if vec1.indirect ≠ 0 ∧ vec1.indirect ≠ -1 then 1 else 0) = s.bitmap.count false := hp.count
    rw [if_pos ⟨hind0, hm1⟩] at hcnt
    rw [g4, ← hlen1]
    omega
  · intro k hk
    exact g2 k hk (by rw [hP] at hk; omega)
  · intro k hk
    rw [g1]
    exact g3 hval k hk

end SimpleFs
namespace SimpleFs

/-- C14. Indirect block allocation.  On a freshly formatted and mounted volume
(`fs_format` and `fs_mount` both returned 1), let `fs_create` return the
inumber `n ≠ 0`, and let `buf` hold `L` non-zero bytes with
`5 * 4096 < L ≤ (5 + 1024) * 4096`, with at least `ceil(L/4096) + 1` free
bitmap entries.  Then `fs_write n buf L 0` returns `L`, and afterwards: the
indirect pointer `I` of inode `n` is a valid data block that was free before
the call and is busy after it; inode `n` resolves to `I` and a list `B` of
`ceil(L/4096)` pairwise distinct valid data blocks, each free before and busy
after, none of them `I`; the busy entries of the bitmap are those busy before,
the blocks of `B` and `I`, so the number of free entries dropped by exactly
`ceil(L/4096) + 1`; the direct pointers are the first 5 blocks of `B`, and
entry `k` of block `I` is block `5 + k` of `B`. -/
theorem write_allocates_indirect (s0 sf s sc : SimpleFs) (n : Int) (buf : Buf) (L : Int)
    (hum : s0.is_disk_mounted = false) (hN : 2 ≤ s0.disk.nblocks)
    (hint : s0.disk.nblocks < 2147483648) (hbm : (s0.bitmap.length : Int) = s0.disk.nblocks)
    (hino : format_inode_blocks s0.disk.nblocks * INODES_PER_BLOCK < 2147483648)
    (hf : fs_format s0 = some (sf, 1)) (hm : fs_mount sf = some (s, 1))
    (hc : fs_create s = some (sc, n)) (hn : n ≠ 0)
    (hnz : ∀ q, 0 ≤ q → q < L → buf q ≠ 0)
    (hL1 : POINTERS_PER_INODE * DISK_BLOCK_SIZE < L)
    (hL2 : L ≤ (POINTERS_PER_INODE + POINTERS_PER_BLOCK) * DISK_BLOCK_SIZE)
    (hfree : (L + 4095) / 4096 + 1 ≤ sc.bitmap.count false) :
    ∃ s1 B, fs_write sc n buf L 0 = some (s1, L) ∧
      fill_datablocks s1 n = some { indirect := (inode_at s1 n).indirect, blocks := B } ∧
      is_valid_datablock s1 (inode_at s1 n).indirect = true ∧
      sc.bitmap.getD (inode_at s1 n).indirect.toNat false = false ∧
      s1.bitmap.getD (inode_at s1 n).indirect.toNat false = true ∧
      (inode_at s1 n).indirect ∉ B ∧
      (B.length : Int) = (L + 4095) / 4096 ∧ B.Nodup ∧
      (∀ b ∈ B, is_valid_datablock s1 b = true ∧ sc.bitmap.getD b.toNat false = false ∧
        s1.bitmap.getD b.toNat false = true) ∧
      (∀ x : Nat, s1.bitmap.getD x false = true ↔
        (sc.bitmap.getD x false = true ∨ (x : Int) ∈ B ∨ (x : Int) = (inode_at s1 n).indirect)) ∧
      ((s1.bitmap.count false : Int) + ((L + 4095) / 4096 + 1) = sc.bitmap.count false) ∧
      (∀ k : Nat, k < POINTERS_PER_INODE → (inode_at s1 n).direct.getD k 0 = B.getD k 0) ∧
      (∀ k : Nat, k + POINTERS_PER_INODE < B.length →
        get_int (s1.disk.data (inode_at s1 n).indirect) (k : Int) = B.getD (k + POINTERS_PER_INODE) 0) := by
  obtain ⟨hwf, -, -, -, hempty, -⟩ := fresh_volume s0 sf s hum hN hint hbm hino hf hm
  have hok := fresh_volume_ok s0 sf s hum hN hint hbm hino hf hm
  have hz : (inode_at s 1).isvalid = 0 := by
    have e : inode_at s 1 = get_inode (s.disk.data 1) 0 := rfl
    rw [e, hempty 1 (le_refl 1) (by omega), get_inode_EMPTY_BLOCK]
    rfl
  obtain ⟨hsc, hn1, hnin⟩ := fs_create_first s hwf hz sc n hc hn
  have hokc := volume_ok_create s sc n hok hc
  subst hn1
  have hsbc : sc.superblock = s.superblock := by rw [hsc]; rfl
  have hslot : slot_ok sc 1 { indirect := 0, blocks := [] } := by
    apply slot_ok_cleared sc hokc.wf 1 (le_refl 1) (by rw [hsbc]; exact hnin)
    · rw [hsc, inode_at_with_inode_same]; rfl
    · rw [hsc, inode_at_with_inode_same]; rfl
  exact fs_write_beyond_direct sc hokc 1 (le_refl 1) (by rw [hsbc]; exact hnin) hslot buf L hnz
    hL1 hL2 hfree

theorem write_allocates_indirect_witness :
    (blank 10).is_disk_mounted = false ∧ (blank 10).disk.nblocks = 10 ∧
    (((blank 10).bitmap.length : Nat) : Int) = (blank 10).disk.nblocks ∧
    (∀ q, 0 ≤ q → q < 20481 → ones_then_two q ≠ 0) ∧
    ∃ sf s sc, fs_format (blank 10) = some (sf, 1) ∧ fs_mount sf = some (s, 1) ∧
      fs_create s = some (sc, 1) ∧ sc.bitmap.count false = 7 ∧
      ∃ s1 B, fs_write sc 1 ones_then_two 20481 0 = some (s1, 20481) ∧
        fill_datablocks s1 1 = some { indirect := (inode_at s1 1).indirect, blocks := B } ∧
        is_valid_datablock s1 (inode_at s1 1).indirect = true ∧
        sc.bitmap.getD (inode_at s1 1).indirect.toNat false = false ∧
        s1.bitmap.getD (inode_at s1 1).indirect.toNat false = true ∧
        (inode_at s1 1).indirect ∉ B ∧
        (B.length : Int) = (20481 + 4095) / 4096 ∧ B.Nodup ∧
        (∀ b ∈ B, is_valid_datablock s1 b = true ∧ sc.bitmap.getD b.toNat false = false ∧
          s1.bitmap.getD b.toNat false = true) ∧
        (∀ x : Nat, s1.bitmap.getD x false = true ↔
          (sc.bitmap.getD x false = true ∨ (x : Int) ∈ B ∨ (x : Int) = (inode_at s1 1).indirect)) ∧
        ((s1.bitmap.count false : Int) + ((20481 + 4095) / 4096 + 1) = sc.bitmap.count false) ∧
        (∀ k : Nat, k < POINTERS_PER_INODE → (inode_at s1 1).direct.getD k 0 = B.getD k 0) ∧
        (∀ k : Nat, k + POINTERS_PER_INODE < B.length →
          get_int (s1.disk.data (inode_at s1 1).indirect) (k : Int) =
            B.getD (k + POINTERS_PER_INODE) 0) := by
  have hum : (blank 10).is_disk_mounted = false := rfl
  have hN : 2 ≤ (blank 10).disk.nblocks := by decide
  have hint : (blank 10).disk.nblocks < 2147483648 := by decide
  have hbm : (((blank 10).bitmap.length : Nat) : Int) = (blank 10).disk.nblocks := by decide
  have hino : format_inode_blocks (blank 10).disk.nblocks * INODES_PER_BLOCK < 2147483648 := by decide
  obtain ⟨sf, s, hf, hm⟩ := fresh_exists (blank 10) hum hN hint hbm hino
  obtain ⟨hwf, hnb, hnib, hz, -, hmarks⟩ := fresh_volume (blank 10) sf s hum hN hint hbm hino hf hm
  have hnib2 : s.superblock.ninodeblocks = 2 := by rw [hnib]; decide
  have hnin : s.superblock.ninodes = 256 := by rw [hwf.inodes, hnib2]; rfl
  have hc : fs_create s = some (with_inode s 1 { fs_inode.zero with isvalid := 1 }, 1) := by
    simp only [fs_create, hwf.mounted, Bool.true_eq_false, if_false]
    exact fs_create_loop_some s hwf _ 1 1 (le_refl 1) (by rw [hnib2]; rfl) (by decide)
      (by rw [hnin]; decide) (by rw [hz 1 (le_refl 1) (by rw [hnin]; decide)]; rfl)
      (fun k hk1 hk2 => by simp only [INODES_PER_BLOCK] at hk1; omega)
  have hlen10 : s.bitmap.length = 10 := by
    have h1 := hwf.bitmap_size
    have h2 := hwf.device
    have h3 : s.superblock.nblocks = 10 := hnb
    omega
  have hcount : (with_inode s 1 { fs_inode.zero with isvalid := 1 }).bitmap.count false = 7 := by
    show s.bitmap.count false = 7
    have := count_false_of_marks s.bitmap 2 (by omega) (by
      intro x hx
      have hmx := hmarks x (by
        show (x : Int) < 10
        omega)
      rw [hnib2] at hmx
      rw [hmx]
      omega)
    omega
  refine ⟨hum, rfl, hbm, fun q _ _ => ones_then_two_ne_zero q, sf, s, _, hf, hm, hc, hcount, ?_⟩
  exact write_allocates_indirect (blank 10) sf s _ 1 ones_then_two 20481 hum hN hint hbm hino hf hm hc
    (by decide) (fun q _ _ => ones_then_two_ne_zero q) (by decide) (by decide)
    (by rw [hcount]; decide)

end SimpleFs

namespace SimpleFs

set_option maxRecDepth 100000 in
theorem disk9_mount :
    (fs_mount (new disk9 { magic := 0, nblocks := 0, ninodeblocks := 0, ninodes := 0 })).map
      (fun r => ((r.2, r.1.is_disk_mounted, r.1.bitmap), (r.1.superblock.nblocks,
        r.1.superblock.ninodeblocks, (alloc_datablock r.1).2,
        is_valid_datablock r.1 (alloc_datablock r.1).2))) =
      some ((1, true, [true, true, true, true, true, true, true, true, false]), (8, 1, 8, false)) := by
  decide

/-- C18 (counterexample). The device `disk9` has 9 blocks and holds a full
8-block volume.  `fs_mount` returns 1; the bitmap has one entry per block of
the device, `reset_bitmap` and the scan stop at `nblocks = 8`, so entry 8 stays
free while the reserved blocks 0 and 1 are busy; `alloc_datablock` then
returns 8, which is not a valid data block. -/
theorem alloc_outside_volume_counterexample :
    (new disk9 { magic := 0, nblocks := 0, ninodeblocks := 0, ninodes := 0 }).is_disk_mounted = false ∧
    disk9.size = 9 ∧
    (fs_mount (new disk9 { magic := 0, nblocks := 0, ninodeblocks := 0, ninodes := 0 })).map
      (fun r => ((r.2, r.1.is_disk_mounted, r.1.bitmap), (r.1.superblock.nblocks,
        r.1.superblock.ninodeblocks, (alloc_datablock r.1).2,
        is_valid_datablock r.1 (alloc_datablock r.1).2))) =
      some ((1, true, [true, true, true, true, true, true, true, true, false]), (8, 1, 8, false)) :=
  ⟨rfl, rfl, disk9_mount⟩

end SimpleFs
